import Mathlib

/-!
The runtime core of xlua (Lua 5.2): a shallow embedding of `ltable.c`, `lmem.c`, `lzio.c`
and `lobject.c`.

The hybrid array/hash table of `src/ltable.c`, translated function by function, followed
by the memory manager of `src/lmem.c`, the buffered streams of `src/lzio.c`, and the value
tags of `src/lobject.h` with the conversions of `src/lobject.c` (floating-point bytes,
hexadecimal numerals, chunk names).

* Pointers into the node vector are node indices, `NULL` is `none`.
* A pointer to a value slot (`TValue *` returned by `luaH_get`, `luaH_set`, ...) is a
  `Cell`: the shared `luaO_nilobject`, a slot of the array part or the value of a node.
* Pointers to heap objects (strings, tables, functions, ...) are addresses (`Nat`).
* C `int`/`unsigned int` values are `Int`/`Nat`; conversions are written out with
  `cast_int` and `cast_unsigned` (reduction modulo `2^32`) where the source relies on them.
* `luaconf.h`, `lua.h`, `lvm.h`, `lctype.h` and `lstring.c` are not part of the sources at
  hand. The number type `lua_Number` and the macros on it are parameters (`LuaConf`); the
  type tags of `lua.h` and the character classes of `lctype.h` have their standard values.
* Strings of C are blocks of bytes that end with a NUL; a pointer into a string is the rest
  of the block from that address on.
* Errors raised through `luaG_runerror`, loops that do not terminate and undefined
  behaviour of the C program are results of type `Err`.
* In the table model memory allocation is assumed to succeed and the collector does not
  run. The memory manager has a model of its own, over an allocator and a collector that
  are parameters; so has the stream, over a reader that is a parameter.
-/

namespace XLua

/-! ## Limits and casts (`llimits.h`) -/

/-- Source `INT_MAX` for a 32-bit `int`. -/
def INT_MAX : Int := 2147483647

/-- Source `MAX_INT` of `llimits.h`: `INT_MAX-2`. -/
def MAX_INT : Int := INT_MAX - 2

/-- Source `cast_int`: conversion to a 32-bit two's complement `int`. -/
def cast_int (x : Int) : Int := (x + 2147483648) % 4294967296 - 2147483648

/-- Source `cast(unsigned int, x)`: reduction modulo `2^32`. -/
def cast_unsigned (x : Int) : Nat := (x % 4294967296).toNat

/-- Source `IntPoint(p)`: the low 32 bits of an address. -/
def IntPoint (p : Nat) : Nat := p % 4294967296

/-- Source `MAXBITS` of `ltable.c` (for `LUAI_BITSINT >= 32`). -/
def MAXBITS : Nat := 30

/-- Source `MAXASIZE = 1 << MAXBITS`. -/
def MAXASIZE : Nat := 2 ^ MAXBITS

/-- Source `twoto(x) = 1 << x`. -/
def twoto (x : Nat) : Nat := 2 ^ x

/-! ## Values (`lobject.h`) -/

/-- Type tags of the collectable values a `TValue` can hold (`gch.tt` of the object). -/
inductive GCTag where
  | shrstr
  | lngstr
  | table
  | lcl
  | ccl
  | userdata
  | thread
  deriving DecidableEq, Repr

/-- Source `TValue`: a tag together with the payload that the tag selects in `union Value`.
`gc tt o` is a collectable value whose object lives at address `o`; `deadkey o` is a key
slot that the collector marked dead (`setdeadvalue` keeps the `gc` field). -/
inductive TValue (N : Type) where
  | nil
  | boolean (b : Int)
  | lightuserdata (p : Nat)
  | number (n : N)
  | lcf (f : Nat)
  | gc (tt : GCTag) (o : Nat)
  | deadkey (o : Nat)
  deriving DecidableEq, Repr

/-- The numeric tag of a collectable type: `LUA_TSHRSTR`, `LUA_TLNGSTR`, `LUA_TTABLE`,
`LUA_TLCL`, `LUA_TCCL`, `LUA_TUSERDATA`, `LUA_TTHREAD`. -/
def GCTag.tt : GCTag → Nat
  | .shrstr => 4
  | .lngstr => 20
  | .table => 5
  | .lcl => 6
  | .ccl => 38
  | .userdata => 7
  | .thread => 8

/-- Source `rttype(o)`: the raw tag `tt_` (collectable tags carry `BIT_ISCOLLECTABLE = 64`). -/
def rttype {N : Type} : TValue N → Nat
  | .nil => 0
  | .boolean _ => 1
  | .lightuserdata _ => 2
  | .number _ => 3
  | .lcf _ => 22
  | .gc tt _ => tt.tt ||| 64
  | .deadkey _ => 11

/-- Source `ttisnil(o)`. -/
def ttisnil {N : Type} : TValue N → Bool
  | .nil => true
  | _ => false

/-- Source `ttisnumber(o)`. -/
def ttisnumber {N : Type} : TValue N → Bool
  | .number _ => true
  | _ => false

/-- Source `ttisdeadkey(o)`. -/
def ttisdeadkey {N : Type} : TValue N → Bool
  | .deadkey _ => true
  | _ => false

/-- Source `iscollectable(o)`: bit 6 of the tag. -/
def iscollectable {N : Type} : TValue N → Bool
  | .gc _ _ => true
  | _ => false

/-! ## Configuration (`luaconf.h`, `lstring.c`) -/

/-- The parts of the configuration that the table code uses: the number type `N` with
`cast_num`, `lua_number2int`, `luai_numeq`, `luai_numisnan` and `luai_hashnum`, the hash
field of a string object (`strhash s` is `s->tsv.hash`; for a long string it is the value
that `mainposition` computes with `luaS_hash` and caches on first use) and the content
comparison `luaS_eqlngstr` of two long strings. -/
structure LuaConf (N : Type) where
  cast_num : Int → N
  lua_number2int : N → Int
  luai_numeq : N → N → Bool
  luai_numisnan : N → Bool
  luai_hashnum : N → Int
  strhash : Nat → Nat
  luaS_eqlngstr : Nat → Nat → Bool

/-- What the table code relies on from the configuration: `luai_numeq` is IEEE equality
(symmetric, transitive, reflexive exactly off NaN), numbers that compare equal hash alike
and convert to the same `int`, the conversion of an `int` is exact, and long strings with
equal contents have equal hashes. -/
structure LuaConf.Lawful {N : Type} (ops : LuaConf N) : Prop where
  numeq_self : ∀ a, ops.luai_numeq a a = !ops.luai_numisnan a
  numeq_symm : ∀ a b, ops.luai_numeq a b = true → ops.luai_numeq b a = true
  numeq_trans : ∀ a b c, ops.luai_numeq a b = true → ops.luai_numeq b c = true →
    ops.luai_numeq a c = true
  hashnum_congr : ∀ a b, ops.luai_numeq a b = true →
    cast_int (ops.luai_hashnum a) = cast_int (ops.luai_hashnum b)
  cast_num_notnan : ∀ i : Int, ops.luai_numisnan (ops.cast_num i) = false
  number2int_cast : ∀ (i : Int) (n : N), cast_int i = i →
    ops.luai_numeq (ops.cast_num i) n = true → cast_int (ops.lua_number2int n) = i
  eqlngstr_refl : ∀ a, ops.luaS_eqlngstr a a = true
  eqlngstr_symm : ∀ a b, ops.luaS_eqlngstr a b = true → ops.luaS_eqlngstr b a = true
  eqlngstr_trans : ∀ a b c, ops.luaS_eqlngstr a b = true → ops.luaS_eqlngstr b c = true →
    ops.luaS_eqlngstr a c = true
  strhash_congr : ∀ a b, ops.luaS_eqlngstr a b = true → ops.strhash a = ops.strhash b

/-- Modelled from the spec: `luaV_rawequalobj` of `lvm.h`/`lvm.c`, which are not among the
sources. Raw equality compares the tags and then numbers by value, booleans by payload,
short strings by address, long strings by content and everything else by address. -/
def luaV_rawequalobj {N : Type} (ops : LuaConf N) : TValue N → TValue N → Bool
  | .nil, .nil => true
  | .boolean a, .boolean b => a == b
  | .lightuserdata a, .lightuserdata b => a == b
  | .number a, .number b => ops.luai_numeq a b
  | .lcf a, .lcf b => a == b
  | .gc .lngstr a, .gc .lngstr b => ops.luaS_eqlngstr a b
  | .gc s a, .gc t b => s == t && a == b
  | .deadkey a, .deadkey b => a == b
  | _, _ => false

/-! ## Tables (`lobject.h`) -/

/-- Source `Node`: value, key and the chain link stored in the key (`i_key.nk.next`). -/
structure Node (N : Type) where
  i_val : TValue N
  i_key : TValue N
  next : Option Nat
  deriving DecidableEq, Repr

/-- Source `Table`. `node` is the node vector (the one-element vector holding `dummynode_` when
`isdummy`), `lastfree` is the index `t->lastfree - t->node`, `array` is the allocated
block of the array part. -/
structure Table (N : Type) where
  flags : Nat
  lsizenode : Nat
  metatable : Option Nat
  array : List (TValue N)
  node : List (Node N)
  isdummy : Bool
  lastfree : Nat
  sizearray : Nat
  deriving DecidableEq, Repr

/-- A pointer to a value slot. -/
inductive Cell where
  | nilobject
  | arr (i : Nat)
  | val (i : Nat)
  deriving DecidableEq, Repr

/-- Messages of `luaG_runerror` raised by the table code: "table index is nil",
"table index is NaN", "table overflow" and "invalid key to next". -/
inductive Msg where
  | index_is_nil
  | index_is_NaN
  | table_overflow
  | invalid_key_to_next
  deriving DecidableEq, Repr

/-- Abnormal outcomes: a runtime error, a loop of the source that never ends, undefined
behaviour (a null or dangling pointer, an index out of bounds), and a nesting of rehashes
deeper than the depth given to the model. -/
inductive Err where
  | runerror (m : Msg)
  | diverge
  | undefined
  | depth
  deriving DecidableEq, Repr

/-- Equality of results is decidable. -/
instance instDecidableEqExcept {ε α : Type} [DecidableEq ε] [DecidableEq α] :
    DecidableEq (Except ε α)
  | .ok a, .ok b =>
    if h : a = b then isTrue (by rw [h]) else isFalse (fun h1 => h (Except.ok.inj h1))
  | .error a, .error b =>
    if h : a = b then isTrue (by rw [h]) else isFalse (fun h1 => h (Except.error.inj h1))
  | .ok _, .error _ => isFalse (fun h => Except.noConfusion h)
  | .error _, .ok _ => isFalse (fun h => Except.noConfusion h)

/-- Source `dummynode_`. -/
def dummynode_ {N : Type} : Node N := { i_val := .nil, i_key := .nil, next := none }

/-- Source `sizenode(t) = twoto(t->lsizenode)`. -/
def sizenode {N : Type} (t : Table N) : Nat := twoto t.lsizenode

/-- Source `gnode(t,i)`: the node at index `i`. -/
def gnode {N : Type} (t : Table N) (i : Nat) : Node N := t.node.getD i dummynode_

/-- Source `*c`: the value in a slot. -/
def Table.read {N : Type} (t : Table N) : Cell → TValue N
  | .nilobject => .nil
  | .arr i => t.array.getD i .nil
  | .val i => (gnode t i).i_val

/-- Source `setobj2t(L, c, v)`: store a value into a slot. `luaO_nilobject` is constant and no
caller writes through it. -/
def Table.write {N : Type} (t : Table N) (c : Cell) (v : TValue N) : Table N :=
  match c with
  | .nilobject => t
  | .arr i => { t with array := t.array.set i v }
  | .val i => { t with node := t.node.set i { gnode t i with i_val := v } }

/-! ## Main positions -/

/-- Source `lmod(s,size) = s & (size-1)`, on the unsigned value of `s`. -/
def lmod (s : Nat) (size : Nat) : Nat := s &&& (size - 1)

/-- Source `hashpow2(t,n)`: node index `lmod(n, sizenode(t))`. -/
def hashpow2 {N : Type} (t : Table N) (n : Nat) : Nat := lmod n (sizenode t)

/-- Source `hashmod(t,n)`: node index `n % ((sizenode(t)-1)|1)`. -/
def hashmod {N : Type} (t : Table N) (n : Nat) : Nat := n % ((sizenode t - 1) ||| 1)

/-- Source `hashstr(t,str)`. -/
def hashstr {N : Type} (ops : LuaConf N) (t : Table N) (str : Nat) : Nat :=
  hashpow2 t (ops.strhash str)

/-- Source `hashboolean(t,p)`. -/
def hashboolean {N : Type} (t : Table N) (p : Int) : Nat := hashpow2 t (cast_unsigned p)

/-- Source `hashpointer(t,p)`. -/
def hashpointer {N : Type} (t : Table N) (p : Nat) : Nat := hashmod t (IntPoint p)

/-- The non-negative `int` that `hashnum` hashes: `luai_hashnum` stored in an `int`, with
`INT_MIN` sent to `0` and every other negative value negated. -/
def hashnum_int {N : Type} (ops : LuaConf N) (n : N) : Int :=
  let i := cast_int (ops.luai_hashnum n)
  if i < 0 then -(if cast_unsigned i = cast_unsigned (0 - i) then 0 else i) else i

/-- Source `hashnum(t,n)`. -/
def hashnum {N : Type} (ops : LuaConf N) (t : Table N) (n : N) : Nat :=
  hashmod t (hashnum_int ops n).toNat

/-- Source `mainposition(t,key)`: the index of the main position of `key`. For a long string the
source first fills in the cached hash; `strhash` is the hash after that. The default
branch reads the `gc` field, taken to be null for tags without one. -/
def mainposition {N : Type} (ops : LuaConf N) (t : Table N) : TValue N → Nat
  | .number n => hashnum ops t n
  | .gc .lngstr s => hashstr ops t s
  | .gc .shrstr s => hashstr ops t s
  | .boolean b => hashboolean t b
  | .lightuserdata p => hashpointer t p
  | .lcf f => hashpointer t f
  | .gc _ o => hashpointer t o
  | .deadkey o => hashpointer t o
  | .nil => hashpointer t 0

/-- Source `arrayindex(key)`: the `int` value of a number key that is an exact `int`, else `-1`. -/
def arrayindex {N : Type} (ops : LuaConf N) : TValue N → Int
  | .number n =>
    let k := cast_int (ops.lua_number2int n)
    if ops.luai_numeq (ops.cast_num k) n then k else -1
  | _ => -1

/-! ## Lookup -/

/-- The chain walk of `luaH_getint`: at most `fuel` nodes from node `n`, looking for a
number key equal to `nk`. No fuel left means that the walk is still going after
`fuel` nodes. -/
def getint_loop {N : Type} (ops : LuaConf N) (t : Table N) (nk : N) :
    Nat → Nat → Except Err Cell
  | 0, _ => .error .diverge
  | fuel + 1, n =>
    match (gnode t n).i_key with
    | .number m =>
      if ops.luai_numeq m nk then .ok (.val n)
      else match (gnode t n).next with
        | none => .ok .nilobject
        | some n1 => getint_loop ops t nk fuel n1
    | _ =>
      match (gnode t n).next with
      | none => .ok .nilobject
      | some n1 => getint_loop ops t nk fuel n1

/-- Source `luaH_getint(t,key)`. A chain that is still not exhausted after `sizenode(t)`
nodes has a cycle, on which the source loops for ever. -/
def luaH_getint {N : Type} (ops : LuaConf N) (t : Table N) (key : Int) : Except Err Cell :=
  if cast_unsigned (key - 1) < cast_unsigned t.sizearray then .ok (.arr (key - 1).toNat)
  else getint_loop ops t (ops.cast_num key) (sizenode t) (hashnum ops t (ops.cast_num key))

/-- The chain walk of `luaH_getstr`: short string keys are compared by address
(`eqshrstr`). -/
def getstr_loop {N : Type} (t : Table N) (key : Nat) : Nat → Nat → Except Err Cell
  | 0, _ => .error .diverge
  | fuel + 1, n =>
    match (gnode t n).i_key with
    | .gc .shrstr s =>
      if s = key then .ok (.val n)
      else match (gnode t n).next with
        | none => .ok .nilobject
        | some n1 => getstr_loop t key fuel n1
    | _ =>
      match (gnode t n).next with
      | none => .ok .nilobject
      | some n1 => getstr_loop t key fuel n1

/-- Source `luaH_getstr(t,key)`. -/
def luaH_getstr {N : Type} (ops : LuaConf N) (t : Table N) (key : Nat) : Except Err Cell :=
  getstr_loop t key (sizenode t) (hashstr ops t key)

/-- The chain walk of the default case of `luaH_get`. -/
def get_loop {N : Type} (ops : LuaConf N) (t : Table N) (key : TValue N) :
    Nat → Nat → Except Err Cell
  | 0, _ => .error .diverge
  | fuel + 1, n =>
    if luaV_rawequalobj ops (gnode t n).i_key key then .ok (.val n)
    else match (gnode t n).next with
      | none => .ok .nilobject
      | some n1 => get_loop ops t key fuel n1

/-- Source `luaH_get(t,key)`: the main search function. -/
def luaH_get {N : Type} (ops : LuaConf N) (t : Table N) (key : TValue N) : Except Err Cell :=
  match key with
  | .gc .shrstr s => luaH_getstr ops t s
  | .nil => .ok .nilobject
  | .number n =>
    let k := cast_int (ops.lua_number2int n)
    if ops.luai_numeq (ops.cast_num k) n then luaH_getint ops t k
    else get_loop ops t key (sizenode t) (mainposition ops t key)
  | _ => get_loop ops t key (sizenode t) (mainposition ops t key)

/-! ## `lobject.c`: `luaO_ceillog2` -/

/-- The table `log_2` of `luaO_ceillog2`. -/
def log_2 : List Nat :=
  [0,1,2,2,3,3,3,3,4,4,4,4,4,4,4,4,5,5,5,5,5,5,5,5,5,5,5,5,5,5,5,5,
   6,6,6,6,6,6,6,6,6,6,6,6,6,6,6,6,6,6,6,6,6,6,6,6,6,6,6,6,6,6,6,6,
   7,7,7,7,7,7,7,7,7,7,7,7,7,7,7,7,7,7,7,7,7,7,7,7,7,7,7,7,7,7,7,7,
   7,7,7,7,7,7,7,7,7,7,7,7,7,7,7,7,7,7,7,7,7,7,7,7,7,7,7,7,7,7,7,7,
   8,8,8,8,8,8,8,8,8,8,8,8,8,8,8,8,8,8,8,8,8,8,8,8,8,8,8,8,8,8,8,8,
   8,8,8,8,8,8,8,8,8,8,8,8,8,8,8,8,8,8,8,8,8,8,8,8,8,8,8,8,8,8,8,8,
   8,8,8,8,8,8,8,8,8,8,8,8,8,8,8,8,8,8,8,8,8,8,8,8,8,8,8,8,8,8,8,8,
   8,8,8,8,8,8,8,8,8,8,8,8,8,8,8,8,8,8,8,8,8,8,8,8,8,8,8,8,8,8,8,8]

/-- The loop `while (x >= 256) { l += 8; x >>= 8; }` followed by `l + log_2[x]`; a
32-bit `x` leaves the loop after at most three rounds. -/
def ceillog2_loop : Nat → Nat → Nat → Nat
  | 0, l, x => l + log_2.getD x 0
  | fuel + 1, l, x =>
    if x ≥ 256 then ceillog2_loop fuel (l + 8) (x >>> 8) else l + log_2.getD x 0

/-- Source `luaO_ceillog2(x)` for an `unsigned int x` (`x--` wraps around at `0`). -/
def luaO_ceillog2 (x : Nat) : Nat :=
  ceillog2_loop 4 0 ((x % 4294967296 + 4294967295) % 4294967296)

/-! ## Insertion: free positions and new keys -/

/-- The loop of `getfreepos` from the cursor `lastfree` downwards: the new cursor and the
free node found, if any. -/
def getfreepos_loop {N : Type} (t : Table N) : Nat → Nat × Option Nat
  | 0 => (0, none)
  | lf + 1 => if ttisnil (gnode t lf).i_key then (lf, some lf) else getfreepos_loop t lf

/-- Source `getfreepos(t)`: the table with the moved cursor and the free node, `none`
for `NULL`. -/
def getfreepos {N : Type} (t : Table N) : Table N × Option Nat :=
  ({ t with lastfree := (getfreepos_loop t t.lastfree).1 }, (getfreepos_loop t t.lastfree).2)

/-- Store a node at index `i` of the node vector. -/
def setnode {N : Type} (t : Table N) (i : Nat) (nd : Node N) : Table N :=
  { t with node := t.node.set i nd }

/-- The loop `while (gnext(othern) != mp) othern = gnext(othern);` of `luaH_newkey`:
the node before `mp` on the chain through `othern`. Running off the chain dereferences
`NULL`. -/
def findprev {N : Type} (t : Table N) (mp : Nat) : Nat → Nat → Except Err Nat
  | 0, _ => .error .diverge
  | fuel + 1, othern =>
    match (gnode t othern).next with
    | none => .error .undefined
    | some nx => if nx = mp then .ok othern else findprev t mp fuel nx

/-- Source `luaH_set(L,t,key)`, over the `luaH_newkey` it calls. -/
def luaH_set_with {N : Type} (ops : LuaConf N)
    (newkey : Table N → TValue N → Except Err (Table N × Cell))
    (t : Table N) (key : TValue N) : Except Err (Table N × Cell) :=
  match luaH_get ops t key with
  | .error e => .error e
  | .ok p => if p ≠ .nilobject then .ok (t, p) else newkey t key

/-- Source `luaH_setint(L,t,key,value)`, over the `luaH_newkey` it calls. -/
def luaH_setint_with {N : Type} (ops : LuaConf N)
    (newkey : Table N → TValue N → Except Err (Table N × Cell))
    (t : Table N) (key : Int) (value : TValue N) : Except Err (Table N) :=
  match luaH_getint ops t key with
  | .error e => .error e
  | .ok p =>
    if p ≠ .nilobject then .ok (t.write p value)
    else match newkey t (.number (ops.cast_num key)) with
      | .error e => .error e
      | .ok (t1, cell) => .ok (t1.write cell value)

/-! ## Rehash -/

/-- Source `computesizes`, the loop: `i`, `twotoi`, `a`, `na`, `n` are the variables of
the source, `narray` is `*narray` on entry. The result is `(na, n)`. Reading `nums[i]`
past the end of `nums` is undefined. -/
def computesizes_loop (nums : List Nat) (narray : Nat) :
    Nat → Nat → Nat → Nat → Nat → Nat → Except Err (Nat × Nat)
  | 0, _, _, _, _, _ => .error .undefined
  | fuel + 1, i, twotoi, a, na, n =>
    if twotoi / 2 < narray then
      match nums.get? i with
      | none => .error .undefined
      | some c =>
        let a1 := if c > 0 then a + c else a
        let n1 := if c > 0 ∧ a1 > twotoi / 2 then twotoi else n
        let na1 := if c > 0 ∧ a1 > twotoi / 2 then a1 else na
        if a1 = narray then .ok (na1, n1)
        else computesizes_loop nums narray fuel (i + 1) (twotoi * 2) a1 na1 n1
    else .ok (na, n)

/-- Source `computesizes(nums, narray)`: returns `na` and the new `*narray`. -/
def computesizes (nums : List Nat) (narray : Nat) : Except Err (Nat × Nat) :=
  computesizes_loop nums narray (nums.length + 1) 0 1 0 0 0

/-- Source `countint(key, nums)`: the result and the updated `nums`. -/
def countint {N : Type} (ops : LuaConf N) (key : TValue N) (nums : List Nat) :
    Nat × List Nat :=
  let k := arrayindex ops key
  if 0 < k ∧ k ≤ (MAXASIZE : Int) then
    (1, nums.set (luaO_ceillog2 (cast_unsigned k))
          (nums.getD (luaO_ceillog2 (cast_unsigned k)) 0 + 1))
  else (0, nums)

/-- The number of non-nil slots `array[i-1]` for `i` from `i` to `lim`: the inner loop of
`numusearray`. -/
def countslice {N : Type} (t : Table N) (i lim : Nat) : Nat :=
  (List.range' i (lim + 1 - i)).countP (fun j => !ttisnil (t.array.getD (j - 1) .nil))

/-- The outer loop of `numusearray`, `fuel` slices to go: `lg`, `ttlg`, `i`, `ause` and
`nums` are the variables of the source. -/
def numusearray_loop {N : Type} (t : Table N) :
    Nat → Nat → Nat → Nat → Nat → List Nat → Nat × List Nat
  | 0, _, _, _, ause, nums => (ause, nums)
  | fuel + 1, lg, ttlg, i, ause, nums =>
    let lim := if ttlg > t.sizearray then t.sizearray else ttlg
    if ttlg > t.sizearray ∧ i > lim then (ause, nums)
    else
      let lc := countslice t i lim
      numusearray_loop t fuel (lg + 1) (ttlg * 2) (if i ≤ lim then lim + 1 else i)
        (ause + lc) (nums.set lg (nums.getD lg 0 + lc))

/-- Source `numusearray(t, nums)`: the number of keys in the array part and the updated
`nums`. -/
def numusearray {N : Type} (t : Table N) (nums : List Nat) : Nat × List Nat :=
  numusearray_loop t (MAXBITS + 1) 0 1 1 0 nums

/-- One round of the loop of `numusehash` at node `i`, on `(totaluse, ause, nums)`. -/
def numusehash_step {N : Type} (ops : LuaConf N) (t : Table N)
    (acc : Nat × Nat × List Nat) (i : Nat) : Nat × Nat × List Nat :=
  if !ttisnil (gnode t i).i_val then
    (acc.1 + 1, acc.2.1 + (countint ops (gnode t i).i_key acc.2.2).1,
      (countint ops (gnode t i).i_key acc.2.2).2)
  else acc

/-- Source `numusehash(t, nums, pnasize)`: `totaluse`, the updated `nums` and the updated
`*pnasize`. The nodes are visited from the last one down. -/
def numusehash {N : Type} (ops : LuaConf N) (t : Table N) (nums : List Nat)
    (pnasize : Nat) : Nat × List Nat × Nat :=
  let r := (List.range (sizenode t)).reverse.foldl (numusehash_step ops t) (0, 0, nums)
  (r.1, r.2.2, pnasize + r.2.1)

/-- Source `setarrayvector(L,t,size)`: the block is reallocated to `size` slots, those
from `t->sizearray` on are set to nil. -/
def setarrayvector {N : Type} (t : Table N) (size : Nat) : Table N :=
  { t with array := t.array.take t.sizearray ++ List.replicate (size - t.sizearray) .nil,
           sizearray := size }

/-- Source `setnodevector(L,t,size)`. -/
def setnodevector {N : Type} (t : Table N) (size : Nat) : Except Err (Table N) :=
  if size = 0 then
    .ok { t with node := [dummynode_], isdummy := true, lsizenode := 0, lastfree := 0 }
  else
    let lsize := luaO_ceillog2 size
    if lsize > MAXBITS then .error (.runerror .table_overflow)
    else .ok { t with node := List.replicate (twoto lsize) dummynode_, isdummy := false,
                      lsizenode := lsize, lastfree := twoto lsize }

/-- One round of the loop of `luaH_resize` that re-inserts the vanishing slice of the
array part. The source hands `&t->array[i]` to `luaH_setint` and goes on reading
`t->array`: if the call changes the array part, these are dangling pointers. -/
def resize_evict {N : Type} [DecidableEq N] (ops : LuaConf N)
    (newkey : Table N → TValue N → Except Err (Table N × Cell))
    (t : Table N) (i : Nat) : Except Err (Table N) :=
  match t.array.get? i with
  | none => .error .undefined
  | some v =>
    if !ttisnil v then
      match luaH_setint_with ops newkey t (i + 1) v with
      | .error e => .error e
      | .ok t1 =>
        if t1.array = t.array ∧ t1.sizearray = t.sizearray then .ok t1
        else .error .undefined
    else .ok t

/-- One round of the loop of `luaH_resize` that re-inserts the old hash part. -/
def resize_reinsert {N : Type} (ops : LuaConf N)
    (newkey : Table N → TValue N → Except Err (Table N × Cell))
    (nold : List (Node N)) (t : Table N) (i : Nat) : Except Err (Table N) :=
  if !ttisnil (nold.getD i dummynode_).i_val then
    match luaH_set_with ops newkey t (nold.getD i dummynode_).i_key with
    | .error e => .error e
    | .ok (t1, cell) => .ok (t1.write cell (nold.getD i dummynode_).i_val)
  else .ok t

/-- Source `luaH_resize(L,t,nasize,nhsize)`, over the `luaH_newkey` that `luaH_set` and
`luaH_setint` call. -/
def luaH_resize_with {N : Type} [DecidableEq N] (ops : LuaConf N)
    (newkey : Table N → TValue N → Except Err (Table N × Cell))
    (t : Table N) (nasize nhsize : Nat) : Except Err (Table N) :=
  let oldasize := t.sizearray
  let oldhsize := t.lsizenode
  let nold := t.node
  let t1 := if nasize > oldasize then setarrayvector t nasize else t
  match setnodevector t1 nhsize with
  | .error e => .error e
  | .ok t2 =>
    let r3 : Except Err (Table N) :=
      if nasize < oldasize then
        match (List.range' nasize (oldasize - nasize)).foldlM (resize_evict ops newkey)
            { t2 with sizearray := nasize } with
        | .error e => .error e
        | .ok t3 => .ok { t3 with array := t3.array.take nasize }
      else .ok t2
    match r3 with
    | .error e => .error e
    | .ok t3 =>
      (List.range (twoto oldhsize)).reverse.foldlM (resize_reinsert ops newkey nold) t3

/-- Source `rehash(L,t,ek)`, over the `luaH_newkey` of the re-insertions. -/
def rehash_with {N : Type} [DecidableEq N] (ops : LuaConf N)
    (newkey : Table N → TValue N → Except Err (Table N × Cell))
    (t : Table N) (ek : TValue N) : Except Err (Table N) :=
  let nums0 := List.replicate (MAXBITS + 1) 0
  let r1 := numusearray t nums0
  let r2 := numusehash ops t r1.2 r1.1
  let r3 := countint ops ek r2.2.1
  let nasize := r2.2.2 + r3.1
  let totaluse := r1.1 + r2.1 + 1
  match computesizes r3.2 nasize with
  | .error e => .error e
  | .ok (na, nasize1) => luaH_resize_with ops newkey t nasize1 (totaluse - na)

/-- The branch of `luaH_newkey` that moves the colliding node out of the main position
`mp` into the free node `n`: `gnext(othern) = n; *n = *mp; gnext(mp) = NULL;
setnilvalue(gval(mp));` with `othern` the node before `mp`, then the key goes to `mp`. -/
def newkey_move {N : Type} (t0 : Table N) (mp n prev : Nat) (key : TValue N) : Table N :=
  let t1 := setnode t0 prev { gnode t0 prev with next := some n }
  let t2 := setnode t1 n (gnode t1 mp)
  let t3 := setnode t2 mp { gnode t2 mp with next := none, i_val := .nil }
  setnode t3 mp { gnode t3 mp with i_key := key }

/-- The branch of `luaH_newkey` that chains the free node `n` after the main position
`mp`: `gnext(n) = gnext(mp); gnext(mp) = n; mp = n;`, then the key goes to `n`. -/
def newkey_chain {N : Type} (t0 : Table N) (mp n : Nat) (key : TValue N) : Table N :=
  let t1 := setnode t0 n { gnode t0 n with next := (gnode t0 mp).next }
  let t2 := setnode t1 mp { gnode t1 mp with next := some n }
  setnode t2 n { gnode t2 n with i_key := key }

/-- Source `luaH_newkey(L,t,key)`. The first argument bounds the nesting of rehashes:
`rehash` and the retry run with one level less. -/
def luaH_newkey {N : Type} [DecidableEq N] (ops : LuaConf N) :
    Nat → Table N → TValue N → Except Err (Table N × Cell)
  | depth, t, key =>
    if ttisnil key then .error (.runerror .index_is_nil)
    else if (match key with | .number n => ops.luai_numisnan n | _ => false) then
      .error (.runerror .index_is_NaN)
    else
      let mp := mainposition ops t key
      if !ttisnil (gnode t mp).i_val || (t.isdummy && mp == 0) then
        match getfreepos t with
        | (t0, none) =>
          match depth with
          | 0 => .error .depth
          | d + 1 =>
            match rehash_with ops (luaH_newkey ops d) t0 key with
            | .error e => .error e
            | .ok t1 => luaH_set_with ops (luaH_newkey ops d) t1 key
        | (t0, some n) =>
          let othern := mainposition ops t0 (gnode t0 mp).i_key
          if othern ≠ mp then
            match findprev t0 mp (sizenode t0) othern with
            | .error e => .error e
            | .ok prev => .ok (newkey_move t0 mp n prev key, .val mp)
          else .ok (newkey_chain t0 mp n key, .val n)
      else .ok (setnode t mp { gnode t mp with i_key := key }, .val mp)

/-- Source `luaH_set(L,t,key)`. -/
def luaH_set {N : Type} [DecidableEq N] (ops : LuaConf N) (depth : Nat)
    (t : Table N) (key : TValue N) : Except Err (Table N × Cell) :=
  luaH_set_with ops (luaH_newkey ops depth) t key

/-- Source `luaH_setint(L,t,key,value)`. -/
def luaH_setint {N : Type} [DecidableEq N] (ops : LuaConf N) (depth : Nat)
    (t : Table N) (key : Int) (value : TValue N) : Except Err (Table N) :=
  luaH_setint_with ops (luaH_newkey ops depth) t key value

/-- Source `luaH_resize(L,t,nasize,nhsize)`. -/
def luaH_resize {N : Type} [DecidableEq N] (ops : LuaConf N) (depth : Nat)
    (t : Table N) (nasize nhsize : Nat) : Except Err (Table N) :=
  luaH_resize_with ops (luaH_newkey ops depth) t nasize nhsize

/-- Source `rehash(L,t,ek)`. -/
def rehash {N : Type} [DecidableEq N] (ops : LuaConf N) (depth : Nat)
    (t : Table N) (ek : TValue N) : Except Err (Table N) :=
  rehash_with ops (luaH_newkey ops depth) t ek

/-- Source `luaH_new(L)`: `flags = cast_byte(~0)`, no metatable, an empty array part and
`setnodevector(L, t, 0)`. -/
def luaH_new {N : Type} : Table N :=
  { flags := 255, lsizenode := 0, metatable := none, array := [], node := [dummynode_],
    isdummy := true, lastfree := 0, sizearray := 0 }

/-- The assignment `*luaH_set(L,t,key) = value`. -/
def set {N : Type} [DecidableEq N] (ops : LuaConf N) (depth : Nat)
    (t : Table N) (key value : TValue N) : Except Err (Table N) :=
  match luaH_set ops depth t key with
  | .error e => .error e
  | .ok (t1, cell) => .ok (t1.write cell value)

/-! ## Traversal -/

/-- The test `ttisdeadkey(gkey(n)) && iscollectable(key) && deadvalue(gkey(n)) ==
gcvalue(key)` of `findindex`. -/
def deadmatch {N : Type} : TValue N → TValue N → Bool
  | .deadkey o, .gc _ p => o == p
  | _, _ => false

/-- The chain walk of `findindex`: the traversal index of the node that holds `key`. -/
def findindex_loop {N : Type} (ops : LuaConf N) (t : Table N) (key : TValue N) :
    Nat → Nat → Except Err Int
  | 0, _ => .error .diverge
  | fuel + 1, n =>
    if luaV_rawequalobj ops (gnode t n).i_key key || deadmatch (gnode t n).i_key key then
      .ok ((n : Int) + t.sizearray)
    else match (gnode t n).next with
      | none => .error (.runerror .invalid_key_to_next)
      | some n1 => findindex_loop ops t key fuel n1

/-- Source `findindex(L,t,key)`. -/
def findindex {N : Type} (ops : LuaConf N) (t : Table N) (key : TValue N) :
    Except Err Int :=
  if ttisnil key then .ok (-1)
  else
    let i := arrayindex ops key
    if 0 < i ∧ i ≤ (t.sizearray : Int) then .ok (i - 1)
    else findindex_loop ops t key (sizenode t) (mainposition ops t key)

/-- The first loop of `luaH_next`: the first index from `i` on, below `sizearray`, whose
array slot is not nil. -/
def next_array {N : Type} (t : Table N) : Nat → Nat → Option Nat
  | 0, _ => none
  | fuel + 1, i =>
    if i < t.sizearray then
      if !ttisnil (t.array.getD i .nil) then some i else next_array t fuel (i + 1)
    else none

/-- The second loop of `luaH_next`: the first node index from `i` on whose value is not
nil. -/
def next_hash {N : Type} (t : Table N) : Nat → Nat → Option Nat
  | 0, _ => none
  | fuel + 1, i =>
    if i < sizenode t then
      if !ttisnil (gnode t i).i_val then some i else next_hash t fuel (i + 1)
    else none

/-- Source `luaH_next(L,t,key)`: `some (k, v)` when it returns 1 with the next key in
`key` and its value in `key+1`, `none` when it returns 0. -/
def luaH_next {N : Type} (ops : LuaConf N) (t : Table N) (key : TValue N) :
    Except Err (Option (TValue N × TValue N)) :=
  match findindex ops t key with
  | .error e => .error e
  | .ok i0 =>
    let i := (i0 + 1).toNat
    match next_array t (t.sizearray - i) i with
    | some j => .ok (some (.number (ops.cast_num ((j : Int) + 1)), t.array.getD j .nil))
    | none =>
      let h := (if i < t.sizearray then t.sizearray else i) - t.sizearray
      match next_hash t (sizenode t - h) h with
      | some j => .ok (some ((gnode t j).i_key, (gnode t j).i_val))
      | none => .ok none

/-! ## Length -/

/-- The binary search of `luaH_getn` in the array part, on `unsigned int i, j`. -/
def getn_binsearch {N : Type} (t : Table N) : Nat → Nat → Nat → Except Err Int
  | 0, _, _ => .error .diverge
  | fuel + 1, i, j =>
    if (j + 4294967296 - i) % 4294967296 > 1 then
      let m := ((i + j) % 4294967296) / 2
      if ttisnil (t.array.getD (m - 1) .nil) then getn_binsearch t fuel i m
      else getn_binsearch t fuel m j
    else .ok (cast_int i)

/-- The linear search of `unbound_search`: `while (!ttisnil(luaH_getint(t, i))) i++;
return i - 1;` on an `unsigned int i`. -/
def unbound_linear {N : Type} (ops : LuaConf N) (t : Table N) : Nat → Nat → Except Err Int
  | 0, _ => .error .diverge
  | fuel + 1, i =>
    match luaH_getint ops t (cast_int i) with
    | .error e => .error e
    | .ok c =>
      if !ttisnil (t.read c) then unbound_linear ops t fuel ((i + 1) % 4294967296)
      else .ok (cast_int ((i + 4294967295) % 4294967296))

/-- The binary search of `unbound_search` between a present `i` and an absent `j`. -/
def unbound_binsearch {N : Type} (ops : LuaConf N) (t : Table N) :
    Nat → Nat → Nat → Except Err Int
  | 0, _, _ => .error .diverge
  | fuel + 1, i, j =>
    if (j + 4294967296 - i) % 4294967296 > 1 then
      let m := ((i + j) % 4294967296) / 2
      match luaH_getint ops t (cast_int m) with
      | .error e => .error e
      | .ok c =>
        if ttisnil (t.read c) then unbound_binsearch ops t fuel i m
        else unbound_binsearch ops t fuel m j
    else .ok (cast_int i)

/-- The first loop of `unbound_search`: doubling `j` while `t[j]` is present, with the
linear search once `j` passes `MAX_INT`, then the binary search. -/
def unbound_double {N : Type} (ops : LuaConf N) (t : Table N) :
    Nat → Nat → Nat → Except Err Int
  | 0, _, _ => .error .diverge
  | fuel + 1, i, j =>
    match luaH_getint ops t (cast_int j) with
    | .error e => .error e
    | .ok c =>
      if !ttisnil (t.read c) then
        if ((j * 2) % 4294967296 : Int) > MAX_INT then unbound_linear ops t 4294967296 1
        else unbound_double ops t fuel j ((j * 2) % 4294967296)
      else unbound_binsearch ops t 32 i j

/-- Source `unbound_search(t,j)`. -/
def unbound_search {N : Type} (ops : LuaConf N) (t : Table N) (j : Nat) : Except Err Int :=
  unbound_double ops t 33 j ((j + 1) % 4294967296)

/-- Source `luaH_getn(t)`. -/
def luaH_getn {N : Type} (ops : LuaConf N) (t : Table N) : Except Err Int :=
  let j := cast_unsigned t.sizearray
  if j > 0 ∧ ttisnil (t.array.getD (j - 1) .nil) = true then getn_binsearch t 32 0 j
  else if t.isdummy then .ok (cast_int j)
  else unbound_search ops t j

/-! ## A concrete configuration

Numbers are the integers together with one NaN; an integer hashes to itself. -/

/-- A configuration over `Option Int`: `none` is NaN, `some i` is the number `i`. -/
def intConf : LuaConf (Option Int) where
  cast_num := fun i => some i
  lua_number2int := fun n => n.getD 0
  luai_numeq := fun a b => match a, b with
    | some x, some y => x == y
    | _, _ => false
  luai_numisnan := fun n => n.isNone
  luai_hashnum := fun n => n.getD 0
  strhash := fun s => s
  luaS_eqlngstr := fun a b => a == b

/-! ## Notions used in the statements -/

/-- A key that `luaH_newkey` accepts: not nil, not a NaN number (and not the dead-key
mark, which is no Lua value). -/
def validkey {N : Type} (ops : LuaConf N) : TValue N → Bool
  | .nil => false
  | .deadkey _ => false
  | .number n => !ops.luai_numisnan n
  | _ => true

/-- Node `b` is on the chain that starts at node `a`: it is reached from `a` by following
`next` links. -/
def Reach {N : Type} (t : Table N) : Nat → Nat → Prop :=
  Relation.ReflTransGen (fun a b => (gnode t a).next = some b)

/-- The common shape of the chain walks of the source: the first node from `n` on that
satisfies `P`, `none` when the chain ends before. -/
def walk {N : Type} (t : Table N) (P : Node N → Bool) : Nat → Nat → Except Err (Option Nat)
  | 0, _ => .error .diverge
  | fuel + 1, n =>
    if P (gnode t n) then .ok (some n)
    else match (gnode t n).next with
      | none => .ok none
      | some n1 => walk t P fuel n1

/-- The chains stay inside the node vector and have no cycle: some rank decreases along
every link. -/
structure ChainOk {N : Type} (t : Table N) : Prop where
  next_lt : ∀ i j, i < sizenode t → (gnode t i).next = some j → j < sizenode t
  rank : ∃ r : Nat → Nat, ∀ i j, i < sizenode t → (gnode t i).next = some j → r j < r i

/-- The invariant of the tables built by `luaH_new`, `luaH_set`, `luaH_setint` and
`luaH_resize`. The node vector has `2^lsizenode` nodes; the chains are inside it, acyclic
and do not merge at a node; a node with a nil key is untouched (nil value, no link to or
from it); nodes from `lastfree` on are in use; every stored key is valid, lies on the chain
of its main position and that main position is held by a key that owns it (Brent); no two
nodes hold raw-equal keys and no node holds an integer key of the array range. -/
structure Inv {N : Type} (ops : LuaConf N) (t : Table N) : Prop where
  size_eq : t.node.length = sizenode t
  lsize_le : t.lsizenode ≤ MAXBITS
  arr_le : t.sizearray ≤ t.array.length
  asize_le : t.sizearray ≤ MAXASIZE
  dummy : t.isdummy = true →
    t.lsizenode = 0 ∧ (gnode t 0).i_key = .nil ∧ t.lastfree = 0
  lastfree_le : t.lastfree ≤ sizenode t
  lastfree_used : t.isdummy = false → ∀ i, t.lastfree ≤ i → i < sizenode t →
    (gnode t i).i_key ≠ .nil
  chain : ChainOk t
  next_inj : ∀ i i1 j, i < sizenode t → i1 < sizenode t →
    (gnode t i).next = some j → (gnode t i1).next = some j → i = i1
  free : ∀ i, i < sizenode t → (gnode t i).i_key = .nil →
    (gnode t i).i_val = .nil ∧ (gnode t i).next = none ∧
    ∀ j, j < sizenode t → (gnode t j).next ≠ some i
  keys_valid : ∀ i, i < sizenode t → (gnode t i).i_key ≠ .nil →
    validkey ops (gnode t i).i_key = true
  reach : ∀ i, i < sizenode t → (gnode t i).i_key ≠ .nil →
    Reach t (mainposition ops t (gnode t i).i_key) i
  brent : ∀ i, i < sizenode t → (gnode t i).i_key ≠ .nil →
    (gnode t (mainposition ops t (gnode t i).i_key)).i_key ≠ .nil ∧
    mainposition ops t (gnode t (mainposition ops t (gnode t i).i_key)).i_key =
      mainposition ops t (gnode t i).i_key
  nodup : ∀ i j, i < sizenode t → j < sizenode t → (gnode t i).i_key ≠ .nil →
    luaV_rawequalobj ops (gnode t i).i_key (gnode t j).i_key = true → i = j
  array_disjoint : ∀ i, i < sizenode t → (gnode t i).i_key ≠ .nil →
    ¬ (0 < arrayindex ops (gnode t i).i_key ∧
       arrayindex ops (gnode t i).i_key ≤ (t.sizearray : Int))

/-- The value that a lookup of `key` reads: `*luaH_get(t,key)`. -/
def getval {N : Type} (ops : LuaConf N) (t : Table N) (key : TValue N) : TValue N :=
  match luaH_get ops t key with
  | .ok c => t.read c
  | .error _ => .nil

/-- The contract of `luaH_newkey` on a table that satisfies the invariant, for a valid key
that the table does not hold: the new table satisfies the invariant, looks the key up in
the returned slot, reads the same value as before under every key and keeps the array
block as long as `sizearray`; an error is not one of the two key errors. -/
def NewkeySpec {N : Type} (ops : LuaConf N)
    (nk : Table N → TValue N → Except Err (Table N × Cell)) : Prop :=
  ∀ t k, Inv ops t → validkey ops k = true → luaH_get ops t k = .ok .nilobject →
    match nk t k with
    | .ok (t1, c) =>
      Inv ops t1 ∧ luaH_get ops t1 k = .ok c ∧ c ≠ .nilobject ∧
      (∀ k1, getval ops t1 k1 = getval ops t k1) ∧
      (t.array.length = t.sizearray → t1.array.length = t1.sizearray)
    | .error e => e ≠ .runerror .index_is_nil ∧ e ≠ .runerror .index_is_NaN

/-- The branch of `luaH_newkey` taken when no free node is left: `rehash`, then the
retry through `luaH_set`, both one level down. -/
def newkey_rehash {N : Type} [DecidableEq N] (ops : LuaConf N) (depth : Nat)
    (t0 : Table N) (key : TValue N) : Except Err (Table N × Cell) :=
  match depth with
  | 0 => .error .depth
  | d + 1 =>
    match rehash_with ops (luaH_newkey ops d) t0 key with
    | .error e => .error e
    | .ok t1 => luaH_set_with ops (luaH_newkey ops d) t1 key

/-- The state of the second loop of `luaH_resize`: `tc` reads the value of the old table
`t` under every key of the old array range and under the keys of the old nodes in `D`,
and nil under every other key. -/
def Reinserted {N : Type} (ops : LuaConf N) (t : Table N) (D : Nat → Prop)
    (tc : Table N) : Prop :=
  ∀ k1, (((0 < arrayindex ops k1 ∧ arrayindex ops k1 ≤ (t.sizearray : Int)) ∨
        ∃ j, D j ∧ luaV_rawequalobj ops (gnode t j).i_key k1 = true) →
      getval ops tc k1 = getval ops t k1) ∧
    (¬ (0 < arrayindex ops k1 ∧ arrayindex ops k1 ≤ (t.sizearray : Int)) →
      (∀ j, D j → luaV_rawequalobj ops (gnode t j).i_key k1 = false) →
      getval ops tc k1 = .nil)

/-- The tables reachable from `luaH_new`: by an assignment `*luaH_set(L,t,k) = v` (the key
is a Lua value, not the dead-key mark that only the collector writes), by `luaH_setint`
with an `int` key, and by `luaH_resize` to an array size within `MAXASIZE`; each at any
depth of nested rehashes, whenever the call returns. -/
inductive Reachable {N : Type} [DecidableEq N] (ops : LuaConf N) : Table N → Prop where
  | new : Reachable ops luaH_new
  | set (d : Nat) (t t1 : Table N) (k v : TValue N) (c : Cell) :
      Reachable ops t → ttisdeadkey k = false → luaH_set ops d t k = .ok (t1, c) →
      Reachable ops (t1.write c v)
  | setint (d : Nat) (t t1 : Table N) (key : Int) (v : TValue N) :
      Reachable ops t → cast_int key = key → luaH_setint ops d t key v = .ok t1 →
      Reachable ops t1
  | resize (d : Nat) (t t1 : Table N) (nasize nhsize : Nat) :
      Reachable ops t → nasize ≤ MAXASIZE → luaH_resize ops d t nasize nhsize = .ok t1 →
      Reachable ops t1

/-- The test `ttisnumber(key) && luai_numisnan(L, nvalue(key))` of `luaH_newkey`. -/
def isnankey {N : Type} (ops : LuaConf N) : TValue N → Bool
  | .number n => ops.luai_numisnan n
  | _ => false

/-- The value `t[j]` that the length operator looks at: `*luaH_getint(t, j)` for the
`int` that `j` converts to (nil if the lookup does not return). -/
def tget {N : Type} (ops : LuaConf N) (t : Table N) (j : Int) : TValue N :=
  match luaH_getint ops t (cast_int j) with
  | .ok c => t.read c
  | .error _ => .nil

/-- The traversal `k = nil; while (luaH_next(L, t, k)) ...`: the list of the pairs that
`luaH_next` yields when each returned key is fed back, at most `fuel` of them. -/
def traversal {N : Type} (ops : LuaConf N) (t : Table N) :
    Nat → TValue N → Except Err (List (TValue N × TValue N))
  | 0, _ => .error .diverge
  | fuel + 1, k =>
    match luaH_next ops t k with
    | .error e => .error e
    | .ok none => .ok []
    | .ok (some (k1, v)) =>
      match traversal ops t fuel k1 with
      | .error e => .error e
      | .ok l => .ok ((k1, v) :: l)

/-- The entries of the array part with a non-nil value, by increasing index, as pairs of
the number key `i+1` and the value. -/
def array_entries {N : Type} (ops : LuaConf N) (t : Table N) : List (TValue N × TValue N) :=
  ((List.range t.sizearray).filter (fun i => !ttisnil (t.array.getD i .nil))).map
    (fun (i : Nat) => (TValue.number (ops.cast_num ((i : Int) + 1)), t.array.getD i .nil))

/-- The entries of the nodes with a non-nil value, by increasing node index. -/
def node_entries {N : Type} (t : Table N) : List (TValue N × TValue N) :=
  ((List.range (sizenode t)).filter (fun i => !ttisnil (gnode t i).i_val)).map
    (fun i => ((gnode t i).i_key, (gnode t i).i_val))

/-! ## Example tables -/

/-- The number key `i` of the example configuration. -/
def exnum (i : Int) : TValue (Option Int) := .number (some i)

/-- The result of `luaH_set(luaH_new(), 3)`: the key goes to a one-node hash part. -/
def exset3 : Table (Option Int) × Cell :=
  ({ flags := 255, lsizenode := 0, metatable := none, array := [],
     node := [{ i_val := .nil, i_key := exnum 3, next := none }],
     isdummy := false, lastfree := 1, sizearray := 0 }, .val 0)

/-- The table `{[1] = 5}`: one array slot, the dummy hash part. -/
def extab1 : Table (Option Int) :=
  { flags := 255, lsizenode := 0, metatable := none, array := [exnum 5],
    node := [dummynode_], isdummy := true, lastfree := 0, sizearray := 1 }

/-- The table `{[3] = 7}`: no array part, one node. -/
def extab3 : Table (Option Int) :=
  { flags := 255, lsizenode := 0, metatable := none, array := [],
    node := [{ i_val := exnum 7, i_key := exnum 3, next := none }],
    isdummy := false, lastfree := 1, sizearray := 0 }

/-- The result of `luaH_set` on `extab3` with the key 1: `rehash` gives the table an array
part of one slot, and the slot is returned. -/
def exset13 : Table (Option Int) × Cell :=
  ({ flags := 255, lsizenode := 0, metatable := none, array := [.nil],
     node := [{ i_val := exnum 7, i_key := exnum 3, next := none }],
     isdummy := false, lastfree := 1, sizearray := 1 }, .arr 0)

/-- The table `{[1] = 5, [3] = 7}`: one array slot and one node. -/
def extab13 : Table (Option Int) :=
  { flags := 255, lsizenode := 0, metatable := none, array := [exnum 5],
    node := [{ i_val := exnum 7, i_key := exnum 3, next := none }],
    isdummy := false, lastfree := 1, sizearray := 1 }

/-- The traversal index of a slot, as `findindex` numbers them: array slot `i` has index
`i`, node `j` has index `sizearray + j`. -/
def cellindex {N : Type} (t : Table N) : Cell → Int
  | .nilobject => -1
  | .arr i => (i : Int)
  | .val j => (j : Int) + t.sizearray

/-- The pair that a traversal yields at the traversal index `p`: none when the value of the
slot is nil. -/
def pos_entry {N : Type} (ops : LuaConf N) (t : Table N) (p : Nat) :
    Option (TValue N × TValue N) :=
  if p < t.sizearray then
    if ttisnil (t.array.getD p .nil) then none
    else some (.number (ops.cast_num ((p : Int) + 1)), t.array.getD p .nil)
  else
    if ttisnil (gnode t (p - t.sizearray)).i_val then none
    else some ((gnode t (p - t.sizearray)).i_key, (gnode t (p - t.sizearray)).i_val)

/-- The pairs at the `n` traversal indices from `p` on. -/
def entries_from {N : Type} (ops : LuaConf N) (t : Table N) (p n : Nat) :
    List (TValue N × TValue N) :=
  (List.range' p n).filterMap (pos_entry ops t)

/-- The table `extab13` after `t[3] = nil`: the key 3 stays in its node with a nil
value. -/
def extab13d : Table (Option Int) :=
  { flags := 255, lsizenode := 0, metatable := none, array := [exnum 5],
    node := [{ i_val := .nil, i_key := exnum 3, next := none }],
    isdummy := false, lastfree := 1, sizearray := 1 }

/-- The boundary test of the length operator: `i` is 0 and `t[1]` is nil, or `t[i]` is not
nil and `t[i+1]` is nil, the values being read through `luaH_getint`. -/
def isboundary {N : Type} (ops : LuaConf N) (t : Table N) (i : Int) : Bool :=
  (i == 0 && ttisnil (tget ops t 1)) ||
  (!ttisnil (tget ops t i) && ttisnil (tget ops t (i + 1)))

/-- The table `extab13` after `t[1] = nil`: the array slot is nil, the node is kept. -/
def extab13n : Table (Option Int) :=
  { flags := 255, lsizenode := 0, metatable := none, array := [.nil],
    node := [{ i_val := exnum 7, i_key := exnum 3, next := none }],
    isdummy := false, lastfree := 1, sizearray := 1 }

/-- The number of nodes in use: those whose key is not nil. -/
def usednodes {N : Type} (t : Table N) : Nat :=
  (List.range (sizenode t)).countP (fun i => !ttisnil (gnode t i).i_key)

/-- The number of free nodes that an insertion can take: none in the dummy node. -/
def room {N : Type} (t : Table N) : Nat :=
  if t.isdummy then 0 else sizenode t - usednodes t

/-- The number of non-nil slots of the array part with an index from `a` up to, not
including, `b`. -/
def arraycount {N : Type} (t : Table N) (a b : Nat) : Nat :=
  (List.range' a (b - a)).countP (fun i => !ttisnil (t.array.getD i .nil))

/-- The key is an integer key of the range `1..n`: it would live in an array part of size
`n`. -/
def intkey_le {N : Type} (ops : LuaConf N) (k : TValue N) (n : Nat) : Bool :=
  decide (0 < arrayindex ops k) && decide (arrayindex ops k ≤ (n : Int))

/-- The number of nodes, among those of the list `l`, with a non-nil value and a key that
satisfies `P`. -/
def nodecount {N : Type} (t : Table N) (P : TValue N → Bool) (l : List Nat) : Nat :=
  l.countP (fun j => !ttisnil (gnode t j).i_val && P (gnode t j).i_key)

/-- The number of entries of a table: the array slots and the nodes with a non-nil
value. -/
def numentries {N : Type} (t : Table N) : Nat :=
  arraycount t 0 t.sizearray + nodecount t (fun _ => true) (List.range (sizenode t))

/-! ## The memory manager (`lmem.c`, `lmem.h`)

Sizes are `size_t` values: naturals below `2 ^ w`.  `GCdebt` is an `l_mem`, a signed
integer of the same width.  The allocator `frealloc` and the collector entry
`luaC_fullgc` are supplied from outside (`lua_newstate`, `lgc.c`), so they are parameters
of the model.  A trace records the calls that `luaM_realloc_` makes. -/

/-- A block address; `none` is `NULL`. -/
abbrev Block := Option Nat

/-- The largest `size_t` that the core uses: `MAX_SIZET` of `llimits.h`,
`(size_t)(~(size_t)0) - 2`. -/
def MAX_SIZET (w : Nat) : Nat := 2 ^ w - 1 - 2

/-- Conversion of an `int` to `size_t`: reduction modulo `2 ^ w`. -/
def cast_sizet (w : Nat) (i : Int) : Nat := (i % (2 : Int) ^ w).toNat

/-- Conversion to `l_mem`: the two's complement value of the low `w` bits. -/
def cast_lmem (w : Nat) (x : Int) : Int :=
  (x + (2 : Int) ^ (w - 1)) % (2 : Int) ^ w - (2 : Int) ^ (w - 1)

/-- `MINSIZEARRAY` of `lmem.c`. -/
def MINSIZEARRAY : Int := 4

/-- Messages of the `luaG_runerror` calls of `lmem.c`. -/
inductive MemMsg where
  | too_many (what : String) (limit : Int)
  | block_too_big
  deriving DecidableEq, Repr

/-- Abnormal outcomes of the memory manager: `luaD_throw(L, LUA_ERRMEM)`, a runtime
error, and undefined behaviour (overflow of an `int` expression). -/
inductive MemErr where
  | errmem
  | runerror (m : MemMsg)
  | undefined
  deriving DecidableEq, Repr

/-- What `luaM_realloc_` does to the outside world, in order. -/
inductive MemEvent where
  | frealloc (block : Block) (osize nsize : Nat) (ret : Block)
  | fullgc
  deriving DecidableEq, Repr

/-- The fields of `global_State` that the memory manager uses; `heap` is the state behind
the allocator's `ud`. -/
structure global_State (H : Type) where
  heap : H
  GCdebt : Int
  gcrunning : Nat
  deriving DecidableEq

/-- The global state together with the trace of allocator and collector calls. -/
structure MemState (H : Type) where
  g : global_State H
  trace : List MemEvent
  deriving DecidableEq

/-- The environment of the memory manager: the width of `size_t` and `l_mem`, `INT_MAX`,
the allocator `g->frealloc`, and `luaC_fullgc(L, 1)` of `lgc.c`. -/
structure MemEnv (H : Type) where
  w : Nat
  int_max : Int
  frealloc : H → Block → Nat → Nat → Block × H
  luaC_fullgc : global_State H → global_State H

/-- A call `(*g->frealloc)(g->ud, block, osize, nsize)`: the block it returns and the state
after it, with the call appended to the trace. -/
def call_frealloc {H : Type} (env : MemEnv H) (L : MemState H) (block : Block)
    (osize nsize : Nat) : Block × MemState H :=
  let r := env.frealloc L.g.heap block osize nsize
  (r.1, { g := { L.g with heap := r.2 },
          trace := L.trace ++ [MemEvent.frealloc block osize nsize r.1] })

/-- A call `luaC_fullgc(L, 1)`. -/
def call_fullgc {H : Type} (env : MemEnv H) (L : MemState H) : MemState H :=
  { g := env.luaC_fullgc L.g, trace := L.trace ++ [MemEvent.fullgc] }

/-- The function `luaM_realloc_` of `lmem.c` (generic allocation routine), without the
`HARDMEMTESTS` branch and the `api_check` assertion, which are compiled out.  The result
pairs the outcome with the state in which the call ends. -/
def luaM_realloc_ {H : Type} (env : MemEnv H) (L : MemState H) (block : Block)
    (osize nsize : Nat) : Except MemErr Block × MemState H :=
  let realosize : Nat := if block.isSome then osize else 0
  let r1 := call_frealloc env L block osize nsize
  let r2 : Block × MemState H :=
    if r1.1 = none ∧ nsize > 0 then
      if r1.2.g.gcrunning ≠ 0 then
        call_frealloc env (call_fullgc env r1.2) block osize nsize
      else r1
    else r1
  if r1.1 = none ∧ nsize > 0 ∧ r2.1 = none then
    (.error .errmem, r2.2)
  else
    (.ok r2.1,
      { r2.2 with g := { r2.2.g with
          GCdebt := cast_lmem env.w ((r2.2.g.GCdebt + (nsize : Int)) - (realosize : Int)) } })

/-- The function `luaM_toobig` of `lmem.c`. -/
def luaM_toobig {α H : Type} (L : MemState H) : Except MemErr α × MemState H :=
  (.error (.runerror .block_too_big), L)

/-- The macro `luaM_reallocv` of `lmem.h` on `size_t` operands: `oldn` and `n` count
elements of `e` bytes each; all the arithmetic is modulo `2 ^ w`. -/
def luaM_reallocv {H : Type} (env : MemEnv H) (L : MemState H) (b : Block)
    (oldn n e : Nat) : Except MemErr Block × MemState H :=
  if (n + 1) % 2 ^ env.w > MAX_SIZET env.w / e then luaM_toobig L
  else luaM_realloc_ env L b ((oldn * e) % 2 ^ env.w) ((n * e) % 2 ^ env.w)

/-- The macro `luaM_reallocv` of `lmem.h` on `int` counts, as `luaM_growaux_` uses it:
`(n)+1` is an `int` addition (undefined when it overflows) whose result is converted to
`size_t`, and the products are formed in `size_t`. -/
def luaM_reallocv_int {H : Type} (env : MemEnv H) (L : MemState H) (b : Block)
    (oldn n : Int) (e : Nat) : Except MemErr Block × MemState H :=
  if n + 1 > env.int_max then (.error .undefined, L)
  else if cast_sizet env.w (n + 1) > MAX_SIZET env.w / e then luaM_toobig L
  else luaM_realloc_ env L b ((cast_sizet env.w oldn * e) % 2 ^ env.w)
    ((cast_sizet env.w n * e) % 2 ^ env.w)

/-- The function `luaM_growaux_` of `lmem.c`.  The second component of the result is the
value that `*size` holds when the call ends, normally or by an error. -/
def luaM_growaux_ {H : Type} (env : MemEnv H) (L : MemState H) (block : Block)
    (size : Int) (size_elems : Nat) (limit : Int) (what : String) :
    Except MemErr Block × Int × MemState H :=
  if size ≥ Int.tdiv limit 2 then  -- cannot double it?
    if size ≥ limit then  -- cannot grow even a little?
      (.error (.runerror (.too_many what limit)), size, L)
    else
      let newsize := limit  -- still have at least one free place
      match luaM_reallocv_int env L block size newsize size_elems with
      | (.ok newblock, L1) => (.ok newblock, newsize, L1)  -- update only when everything else is OK
      | (.error e, L1) => (.error e, size, L1)
  else
    let newsize0 := size * 2
    let newsize := if newsize0 < MINSIZEARRAY then MINSIZEARRAY else newsize0  -- minimum size
    match luaM_reallocv_int env L block size newsize size_elems with
    | (.ok newblock, L1) => (.ok newblock, newsize, L1)
    | (.error e, L1) => (.error e, size, L1)

/-- An allocator with an unbounded heap: it hands out a fresh address for every request
of a positive size and frees on size 0.  The heap state is the next fresh address. -/
def exalloc (h : Nat) (_block : Block) (_osize nsize : Nat) : Block × Nat :=
  if nsize = 0 then (none, h) else (some h, h + 1)

/-- An allocator that fails until the collector has run: the heap state counts the
collections. -/
def exgcalloc (h : Nat) (_block : Block) (_osize nsize : Nat) : Block × Nat :=
  if nsize = 0 ∨ h = 0 then (none, h) else (some h, h)

/-- A collector stand-in that frees 100 bytes through the manager. -/
def exfullgc (g : global_State Nat) : global_State Nat :=
  { g with heap := g.heap + 1, GCdebt := g.GCdebt - 100 }

/-- A 64-bit environment with 32-bit `int` and the unbounded allocator. -/
def exenv : MemEnv Nat :=
  { w := 64, int_max := 2147483647, frealloc := exalloc, luaC_fullgc := fun g => g }

/-- A 64-bit environment whose allocator succeeds once the collector has run. -/
def exenv_gc : MemEnv Nat :=
  { w := 64, int_max := 2147483647, frealloc := exgcalloc, luaC_fullgc := exfullgc }

/-- A state with the collector running. -/
def exmem : MemState Nat := { g := { heap := 0, GCdebt := 0, gcrunning := 1 }, trace := [] }

/-- A state with the collector stopped, as during `lua_newstate`. -/
def exmem_stopped : MemState Nat :=
  { g := { heap := 0, GCdebt := 0, gcrunning := 0 }, trace := [] }

/-! ## Buffered streams (`lzio.c`, `lzio.h`)

A `char` is an integer; a buffer is the list of the `char`s that can be read from the
address the reader returned.  The reader is a function on the state behind `z->data`. -/

/-- The end-of-stream mark `EOZ` of `lzio.h`. -/
def EOZ : Int := -1

/-- The macro `cast_uchar` of `llimits.h`: conversion to `unsigned char`. -/
def cast_uchar (i : Int) : Int := i % 256

/-- What a call of a `lua_Reader` answers: the address it returns (`none` is `NULL`),
given as the buffer found there, and the number it stores through `size`. -/
structure Answer where
  buff : Option (List Int)
  size : Nat
  deriving DecidableEq, Repr

/-- A `const char *` that is not `NULL`: a buffer and a position in it. -/
structure CharPtr where
  buf : List Int
  off : Nat
  deriving DecidableEq, Repr

/-- The structure `Zio` of `lzio.h`, without the `lua_State` that `luaZ_fill` only hands
to the reader: `n` bytes still unread, `p` the current position in the buffer, the reader
function and its `data`. -/
structure Zio (R : Type) where
  n : Nat
  p : Option CharPtr
  reader : R → Answer × R
  data : R

/-- Reading `*p`; `none` when the pointer is `NULL` or outside its buffer. -/
def deref (p : Option CharPtr) : Option Int :=
  match p with
  | none => none
  | some q => q.buf[q.off]?

/-- The pointer `p + m`. -/
def ptr_add (p : Option CharPtr) (m : Nat) : Option CharPtr :=
  match p with
  | none => none
  | some q => some { q with off := q.off + m }

/-- The pointer `p - 1`; `none` when there is no such position. -/
def ptr_dec (p : Option CharPtr) : Option CharPtr :=
  match p with
  | none => none
  | some q => if q.off = 0 then none else some { q with off := q.off - 1 }

/-- The `m` bytes that `memcpy(b, p, m)` copies; `none` when they are not all inside the
buffer of `p`. -/
def memread (p : Option CharPtr) (m : Nat) : Option (List Int) :=
  match p with
  | none => if m = 0 then some [] else none
  | some q => if q.off + m ≤ q.buf.length then some ((q.buf.drop q.off).take m) else none

/-- The function `luaZ_fill` of `lzio.c`: the `int` it returns and the stream after it. -/
def luaZ_fill {R : Type} (z : Zio R) : Except Err (Int × Zio R) :=
  let r := z.reader z.data
  let buff := r.1.buff
  let size := r.1.size
  let z1 : Zio R := { z with data := r.2 }
  if buff = none ∨ size = 0 then .ok (EOZ, z1)
  else
    let z2 : Zio R := { z1 with n := size - 1, p := buff.map (fun b => { buf := b, off := 0 }) }
    match deref z2.p with  -- discount char being returned
    | none => .error .undefined
    | some c => .ok (cast_uchar c, { z2 with p := ptr_add z2.p 1 })

/-- The function `luaZ_init` of `lzio.c`. -/
def luaZ_init {R : Type} (reader : R → Answer × R) (data : R) : Zio R :=
  { reader := reader, data := data, n := 0, p := none }

/-- The macro `zgetc` of `lzio.h`; `z->n--` is a `size_t` decrement, modulo `2 ^ w`. -/
def zgetc {R : Type} (w : Nat) (z : Zio R) : Except Err (Int × Zio R) :=
  let z1 : Zio R := { z with n := (z.n + (2 ^ w - 1)) % 2 ^ w }
  if z.n > 0 then
    match deref z1.p with
    | none => .error .undefined
    | some c => .ok (cast_uchar c, { z1 with p := ptr_add z1.p 1 })
  else luaZ_fill z1

/-- The first statement of the loop body of `luaZ_read`: `if (z->n == 0) ...`.  The
flag tells that the function returns there (no more input). -/
def luaZ_read_refill {R : Type} (w : Nat) (z : Zio R) : Except Err (Bool × Zio R) :=
  if z.n = 0 then  -- no bytes in buffer?
    match luaZ_fill z with  -- try to read more
    | .error e => .error e
    | .ok (c, z1) =>
      if c = EOZ then .ok (true, z1)
      else  -- luaZ_fill consumed first byte; put it back
        match ptr_dec z1.p with
        | none => .error .undefined
        | some q => .ok (false, { z1 with n := (z1.n + 1) % 2 ^ w, p := some q })
  else .ok (false, z)

/-- The loop of `luaZ_read`: `b` holds the bytes copied so far, `n` the number still to
read.  Every round copies at least one byte, so `n` rounds are enough; the first argument
bounds the number of rounds. -/
def luaZ_read_loop {R : Type} (w : Nat) :
    Nat → Zio R → List Int → Nat → Except Err (Nat × List Int × Zio R)
  | 0, z, b, n => if n = 0 then .ok (0, b, z) else .error .diverge
  | fuel + 1, z, b, n =>
    if n = 0 then .ok (0, b, z)
    else
      match luaZ_read_refill w z with
      | .error e => .error e
      | .ok (true, z1) => .ok (n, b, z1)  -- return number of missing bytes
      | .ok (false, z2) =>
        let m := if n ≤ z2.n then n else z2.n  -- min. between n and z->n
        match memread z2.p m with
        | none => .error .undefined
        | some bytes =>
          luaZ_read_loop w fuel { z2 with n := z2.n - m, p := ptr_add z2.p m } (b ++ bytes)
            (n - m)

/-- The function `luaZ_read` of `lzio.c`: the number of missing bytes, the bytes copied
to `b`, and the stream after the call. -/
def luaZ_read {R : Type} (w : Nat) (z : Zio R) (n : Nat) :
    Except Err (Nat × List Int × Zio R) :=
  luaZ_read_loop w n z [] n

/-- The reader whose `data` is the list of the answers it still has to give; after the
last one it answers `(NULL, 0)` for ever. -/
def answers_reader : List Answer → Answer × List Answer
  | [] => ({ buff := none, size := 0 }, [])
  | a :: rest => (a, rest)

/-- The answer that hands out the chunk `c`. -/
def chunk (c : List Int) : Answer := { buff := some c, size := c.length }

/-- The bytes that a list of answers delivers up to its first end-of-input answer
(`NULL`, or a size of 0). -/
def answers_input : List Answer → List Int
  | [] => []
  | a :: rest =>
    match a.buff with
    | none => []
    | some b => if a.size = 0 then [] else b.take a.size ++ answers_input rest

/-- The bytes left in the current buffer of a stream. -/
def buffered {R : Type} (z : Zio R) : List Int :=
  match z.p with
  | none => []
  | some q => (q.buf.drop q.off).take z.n

/-- The remaining input of a stream over `answers_reader`: the bytes left in the buffer,
then the reader's chunks up to its first end-of-input answer. -/
def remaining (z : Zio (List Answer)) : List Int :=
  buffered z ++ answers_input z.data

/-- An answer is well formed: the size is a `size_t` and the buffer holds that many
bytes. -/
def answer_ok (w : Nat) (a : Answer) : Bool :=
  decide (a.size < 2 ^ w) &&
    (match a.buff with
     | none => true
     | some b => decide (a.size ≤ b.length))

/-- A stream is well formed: `z->n` is a `size_t` and counts bytes that are in the
current buffer from `z->p` on, and the reader's answers are well formed. -/
def zio_ok (w : Nat) (z : Zio (List Answer)) : Bool :=
  decide (z.n < 2 ^ w) &&
    (decide (z.n = 0) ||
      (match z.p with
       | none => false
       | some q => decide (q.off + z.n ≤ q.buf.length))) &&
    z.data.all (answer_ok w)

/-- The results of `k` successive evaluations of `zgetc`, and the stream after them. -/
def zgetc_seq {R : Type} (w : Nat) : Nat → Zio R → Except Err (List Int × Zio R)
  | 0, z => .ok ([], z)
  | k + 1, z =>
    match zgetc w z with
    | .error e => .error e
    | .ok (c, z1) =>
      match zgetc_seq w k z1 with
      | .error e => .error e
      | .ok (cs, z2) => .ok (c :: cs, z2)

/-- The stream of scenario S7: the chunks "abc" and "de". -/
def exzio : Zio (List Answer) :=
  luaZ_init answers_reader [chunk [97, 98, 99], chunk [100, 101]]

/-- The answers that are left to the reader once it has given its first end-of-input
answer. -/
def answers_rest : List Answer → List Answer
  | [] => []
  | a :: rest => if a.buff = none ∨ a.size = 0 then rest else answers_rest rest

/-! ## Scenarios: a sequence and a sparse key -/

/-- The table that holds the values `vs` under the keys `1, 2, ...` in an array part of
`size` slots, with the dummy node as its hash part. -/
def seqtab {N : Type} (vs : List (TValue N)) (size : Nat) : Table N :=
  { flags := 255, lsizenode := 0, metatable := none,
    array := vs ++ List.replicate (size - vs.length) .nil,
    node := [dummynode_], isdummy := true, lastfree := 0, sizearray := size }

/-- The assignments `t[k] = v1; t[k+1] = v2; ...` through `luaH_setint`, in this order. -/
def seqfill_from {N : Type} [DecidableEq N] (ops : LuaConf N) (depth : Nat) :
    List (TValue N) → Int → Table N → Except Err (Table N)
  | [], _, t => .ok t
  | v :: vs, k, t =>
    match luaH_setint ops depth t k v with
    | .error e => .error e
    | .ok t1 => seqfill_from ops depth vs (k + 1) t1

/-- The table that `luaH_new` and the assignments `t[1] = v1, ..., t[n] = vn` build. -/
def seqfill {N : Type} [DecidableEq N] (ops : LuaConf N) (depth : Nat)
    (vs : List (TValue N)) : Except Err (Table N) :=
  seqfill_from ops depth vs 1 luaH_new

/-- The pairs `(1, v1), ..., (n, vn)`. -/
def seqpairs {N : Type} (ops : LuaConf N) (vs : List (TValue N)) :
    List (TValue N × TValue N) :=
  (List.range vs.length).map
    (fun (i : Nat) => (TValue.number (ops.cast_num ((i : Int) + 1)), vs.getD i .nil))

/-- The table with no array part and one node, which holds `k` and `v`. -/
def sparsetab {N : Type} (k v : TValue N) : Table N :=
  { flags := 255, lsizenode := 0, metatable := none, array := [],
    node := [{ i_val := v, i_key := k, next := none }],
    isdummy := false, lastfree := 1, sizearray := 0 }

/-- The array size of a sequence of `n` values: `size` is 0 for no value, else the least
power of two that is at least `n`. -/
def seqsize (n size : Nat) : Prop :=
  (n = 0 ∧ size = 0) ∨
  ∃ j, j ≤ 30 ∧ size = 2 ^ j ∧ 1 ≤ n ∧ n ≤ 2 ^ j ∧ (j = 0 ∨ 2 ^ (j - 1) < n)

/-- The table that holds the values `vs` in an array part of `size` slots and has a hash
part of one node, `nd`. -/
def mixtab {N : Type} (vs : List (TValue N)) (size : Nat) (nd : Node N) : Table N :=
  { flags := 255, lsizenode := 0, metatable := none,
    array := vs ++ List.replicate (size - vs.length) .nil,
    node := [nd], isdummy := false, lastfree := 1, sizearray := size }

/-! ## Properties of rehash and of the collision rule -/

/-- The collision rule of the header comment of `ltable.c` (a variation of Brent's
scheme), read on a table: every node that holds a key is on the chain that starts at the
main position of its key, and when the node is not that main position itself, the key
stored at the main position has that node as its own main position. -/
def BrentOk {N : Type} (ops : LuaConf N) (t : Table N) : Prop :=
  ∀ i, i < sizenode t → (gnode t i).i_key ≠ .nil →
    Reach t (mainposition ops t (gnode t i).i_key) i ∧
    (i ≠ mainposition ops t (gnode t i).i_key →
      (gnode t (mainposition ops t (gnode t i).i_key)).i_key ≠ .nil ∧
      mainposition ops t (gnode t (mainposition ops t (gnode t i).i_key)).i_key =
        mainposition ops t (gnode t i).i_key)

/-- A node of the example tables: the number key `k` with the number value `v`. -/
def exnode (k v : Int) (next : Option Nat) : Node (Option Int) :=
  { i_val := exnum v, i_key := exnum k, next := next }

/-- An example table without array part, with the four nodes `nodes`. -/
def exhash4 (nodes : List (Node (Option Int))) (lastfree : Nat) : Table (Option Int) :=
  { flags := 255, lsizenode := 2, metatable := none, array := [], node := nodes,
    isdummy := false, lastfree := lastfree, sizearray := 0 }

/-- The empty table after `luaH_resize(L, t, 0, 4)`: four free nodes. -/
def exfree4 : Table (Option Int) :=
  exhash4 [dummynode_, dummynode_, dummynode_, dummynode_] 4

/-- The table `exfree4` after `t[3] = 7`: the key 3 is in its main position, node 0. -/
def ex3 : Table (Option Int) :=
  exhash4 [exnode 3 7 none, dummynode_, dummynode_, dummynode_] 4

/-- The table `ex3` after `t[6] = 8`: the key 6 collides with 3 and is chained in node 3. -/
def ex36 : Table (Option Int) :=
  exhash4 [exnode 3 7 (some 3), dummynode_, dummynode_, exnode 6 8 none] 3

/-- The table `ex36` after `t[9] = 5`: the key 9 collides with 3 and is chained in
node 2, which is the main position of the key 2. -/
def ex369 : Table (Option Int) :=
  exhash4 [exnode 3 7 (some 2), dummynode_, exnode 9 5 (some 3), exnode 6 8 none] 2

/-- The number of integer keys of `1..n` under which a lookup in the table reads a non-nil
value. -/
def intcount {N : Type} (ops : LuaConf N) (t : Table N) (n : Nat) : Nat :=
  (List.range' 1 n).countP
    (fun (m : Nat) => !ttisnil (getval ops t (.number (ops.cast_num (m : Int)))))

/-- The total capacity of a table: the slots of the array part and the nodes of the hash
part, none for the shared dummy node. -/
def capacity {N : Type} (t : Table N) : Nat :=
  t.sizearray + (if t.isdummy then 0 else sizenode t)

/-- The table `{[1] = 5, [2] = 6}`: two array slots, the dummy hash part. -/
def extab12 : Table (Option Int) :=
  { flags := 255, lsizenode := 0, metatable := none, array := [exnum 5, exnum 6],
    node := [dummynode_], isdummy := true, lastfree := 0, sizearray := 2 }

/-- The table `extab1` after `rehash` for the key 2: the array part has two slots, the
second one still nil. -/
def extab1r : Table (Option Int) :=
  { flags := 255, lsizenode := 0, metatable := none, array := [exnum 5, .nil],
    node := [dummynode_], isdummy := true, lastfree := 0, sizearray := 2 }

/-- The table `extab12` after `t[1] = nil; t[2] = nil`: two array slots, both nil. -/
def exdel : Table (Option Int) :=
  { flags := 255, lsizenode := 0, metatable := none, array := [.nil, .nil],
    node := [dummynode_], isdummy := true, lastfree := 0, sizearray := 2 }

/-- The table `exdel` after `rehash` for the key 7: no array part, one free node. -/
def exdelr : Table (Option Int) :=
  { flags := 255, lsizenode := 0, metatable := none, array := [],
    node := [dummynode_], isdummy := false, lastfree := 1, sizearray := 0 }

/-- The counter `nums[i]` of a set of integer keys, given as a list `K` without
repetition: the number of keys `k` with `2^(i-1) < k <= 2^i`. -/
def keyslice (K : List Nat) (i : Nat) : Nat :=
  K.countP (fun k => decide (2 ^ i < 2 * k) && decide (k ≤ 2 ^ i))

/-- The histogram `nums[0..MAXBITS]` of the keys `K`, as `rehash` hands it to
`computesizes`. -/
def histogram (K : List Nat) : List Nat :=
  (List.range (MAXBITS + 1)).map (keyslice K)

/-- The number of keys of `K` that are at most `m`. -/
def keysupto (K : List Nat) (m : Nat) : Nat :=
  K.countP (fun k => decide (k ≤ m))

/-! ## Type tags and the setters of values (`lua.h`, `lobject.h`)

The setters are read on a raw tagged value: the payload `value_` and the tag `tt_`. -/

/-- The basic type tags of `lua.h`. -/
def LUA_TNIL : Nat := 0

/-- Tag `LUA_TBOOLEAN` of `lua.h`. -/
def LUA_TBOOLEAN : Nat := 1

/-- Tag `LUA_TLIGHTUSERDATA` of `lua.h`. -/
def LUA_TLIGHTUSERDATA : Nat := 2

/-- Tag `LUA_TNUMBER` of `lua.h`. -/
def LUA_TNUMBER : Nat := 3

/-- Tag `LUA_TSTRING` of `lua.h`. -/
def LUA_TSTRING : Nat := 4

/-- Tag `LUA_TTABLE` of `lua.h`. -/
def LUA_TTABLE : Nat := 5

/-- Tag `LUA_TFUNCTION` of `lua.h`. -/
def LUA_TFUNCTION : Nat := 6

/-- Tag `LUA_TUSERDATA` of `lua.h`. -/
def LUA_TUSERDATA : Nat := 7

/-- Tag `LUA_TTHREAD` of `lua.h`. -/
def LUA_TTHREAD : Nat := 8

/-- The number of basic tags, `LUA_NUMTAGS` of `lua.h`. -/
def LUA_NUMTAGS : Nat := 9

/-- Source `LUA_TPROTO`. -/
def LUA_TPROTO : Nat := LUA_NUMTAGS

/-- Source `LUA_TUPVAL`. -/
def LUA_TUPVAL : Nat := LUA_NUMTAGS + 1

/-- Source `LUA_TDEADKEY`. -/
def LUA_TDEADKEY : Nat := LUA_NUMTAGS + 2

/-- Source `LUA_TLCL`: Lua closure. -/
def LUA_TLCL : Nat := LUA_TFUNCTION ||| (0 <<< 4)

/-- Source `LUA_TLCF`: light C function. -/
def LUA_TLCF : Nat := LUA_TFUNCTION ||| (1 <<< 4)

/-- Source `LUA_TCCL`: C closure. -/
def LUA_TCCL : Nat := LUA_TFUNCTION ||| (2 <<< 4)

/-- Source `LUA_TSHRSTR`: short string. -/
def LUA_TSHRSTR : Nat := LUA_TSTRING ||| (0 <<< 4)

/-- Source `LUA_TLNGSTR`: long string. -/
def LUA_TLNGSTR : Nat := LUA_TSTRING ||| (1 <<< 4)

/-- Source `BIT_ISCOLLECTABLE`. -/
def BIT_ISCOLLECTABLE : Nat := 1 <<< 6

/-- Source `ctb(t)`: mark a tag as collectable. -/
def ctb (t : Nat) : Nat := t ||| BIT_ISCOLLECTABLE

/-- Source `novariant(x)`: the tag without its variant bits. -/
def novariant (x : Nat) : Nat := x &&& 0x0F

/-- A collectable object as the setters see it: its address and the tag `tt` of its
common header (`gch(o)->tt`, `x_->tsv.tt`). -/
structure GCObject where
  addr : Nat
  tt : Nat
  deriving DecidableEq, Repr

/-- Source `union Value`. -/
inductive Value (N : Type) where
  | gc (o : GCObject)
  | p (p : Nat)
  | b (b : Int)
  | f (f : Nat)
  | n (n : N)
  deriving DecidableEq, Repr

/-- Source `TValue` as the pair of its fields `value_` and `tt_`. -/
structure RawTValue (N : Type) where
  value_ : Value N
  tt_ : Nat
  deriving DecidableEq, Repr

/-- Source `rttype(o)`: the raw tag. -/
def Raw.rttype {N : Type} (o : RawTValue N) : Nat := o.tt_

/-- Source `ttype(o)`: the tag with its variant bits. -/
def Raw.ttype {N : Type} (o : RawTValue N) : Nat := Raw.rttype o &&& 0x3F

/-- Source `ttypenv(o)`: the basic type. -/
def Raw.ttypenv {N : Type} (o : RawTValue N) : Nat := novariant (Raw.rttype o)

/-- Source `iscollectable(o)`, a C truth value: not 0 for true. -/
def Raw.iscollectable {N : Type} (o : RawTValue N) : Nat := Raw.rttype o &&& BIT_ISCOLLECTABLE

/-- Source `settt_(o,t)`. -/
def settt_ {N : Type} (o : RawTValue N) (t : Nat) : RawTValue N := { o with tt_ := t }

/-- Source `setnvalue(obj,x)`. -/
def setnvalue {N : Type} (obj : RawTValue N) (x : N) : RawTValue N :=
  settt_ { obj with value_ := .n x } LUA_TNUMBER

/-- Source `setnilvalue(obj)`. -/
def setnilvalue {N : Type} (obj : RawTValue N) : RawTValue N := settt_ obj LUA_TNIL

/-- Source `setfvalue(obj,x)`. -/
def setfvalue {N : Type} (obj : RawTValue N) (x : Nat) : RawTValue N :=
  settt_ { obj with value_ := .f x } LUA_TLCF

/-- Source `setpvalue(obj,x)`. -/
def setpvalue {N : Type} (obj : RawTValue N) (x : Nat) : RawTValue N :=
  settt_ { obj with value_ := .p x } LUA_TLIGHTUSERDATA

/-- Source `setbvalue(obj,x)`. -/
def setbvalue {N : Type} (obj : RawTValue N) (x : Int) : RawTValue N :=
  settt_ { obj with value_ := .b x } LUA_TBOOLEAN

/-- Source `setgcovalue(L,obj,x)`. -/
def setgcovalue {N : Type} (obj : RawTValue N) (x : GCObject) : RawTValue N :=
  settt_ { obj with value_ := .gc x } (ctb x.tt)

/-- Source `setsvalue(L,obj,x)`. -/
def setsvalue {N : Type} (obj : RawTValue N) (x : GCObject) : RawTValue N :=
  settt_ { obj with value_ := .gc x } (ctb x.tt)

/-- Source `setuvalue(L,obj,x)`. -/
def setuvalue {N : Type} (obj : RawTValue N) (x : GCObject) : RawTValue N :=
  settt_ { obj with value_ := .gc x } (ctb LUA_TUSERDATA)

/-- Source `setthvalue(L,obj,x)`. -/
def setthvalue {N : Type} (obj : RawTValue N) (x : GCObject) : RawTValue N :=
  settt_ { obj with value_ := .gc x } (ctb LUA_TTHREAD)

/-- Source `setclLvalue(L,obj,x)`. -/
def setclLvalue {N : Type} (obj : RawTValue N) (x : GCObject) : RawTValue N :=
  settt_ { obj with value_ := .gc x } (ctb LUA_TLCL)

/-- Source `setclCvalue(L,obj,x)`. -/
def setclCvalue {N : Type} (obj : RawTValue N) (x : GCObject) : RawTValue N :=
  settt_ { obj with value_ := .gc x } (ctb LUA_TCCL)

/-- Source `sethvalue(L,obj,x)`. -/
def sethvalue {N : Type} (obj : RawTValue N) (x : GCObject) : RawTValue N :=
  settt_ { obj with value_ := .gc x } (ctb LUA_TTABLE)

/-- The header tag of a string object: short or long string. -/
def isstringtag (tt : Nat) : Bool := tt == LUA_TSHRSTR || tt == LUA_TLNGSTR

/-- The header tag of an object that is a Lua value: a string, a table, a closure, a
userdata or a thread. The other two kinds of objects, prototypes and upvalues, are not
values. -/
def isvaluetag (tt : Nat) : Bool :=
  isstringtag tt || tt == LUA_TTABLE || tt == LUA_TLCL || tt == LUA_TCCL ||
    tt == LUA_TUSERDATA || tt == LUA_TTHREAD

/-- The header tag of a collectable object, string, table, closure, userdata, thread,
prototype or upvalue: the kinds of the union `GCObject`. -/
def isobjecttag (tt : Nat) : Bool :=
  isvaluetag tt || tt == LUA_TPROTO || tt == LUA_TUPVAL

/-- The values that the setters produce: the result of one of the twelve setters on any
`TValue`, with a string object for `setsvalue`, whose argument is a `TString *`, and any
collectable object for `setgcovalue`. -/
inductive Produced {N : Type} : RawTValue N → Prop where
  | nilvalue (obj : RawTValue N) : Produced (setnilvalue obj)
  | bvalue (obj : RawTValue N) (x : Int) : Produced (setbvalue obj x)
  | nvalue (obj : RawTValue N) (x : N) : Produced (setnvalue obj x)
  | pvalue (obj : RawTValue N) (x : Nat) : Produced (setpvalue obj x)
  | fvalue (obj : RawTValue N) (x : Nat) : Produced (setfvalue obj x)
  | svalue (obj : RawTValue N) (x : GCObject) : isstringtag x.tt = true →
      Produced (setsvalue obj x)
  | hvalue (obj : RawTValue N) (x : GCObject) : Produced (sethvalue obj x)
  | uvalue (obj : RawTValue N) (x : GCObject) : Produced (setuvalue obj x)
  | thvalue (obj : RawTValue N) (x : GCObject) : Produced (setthvalue obj x)
  | clLvalue (obj : RawTValue N) (x : GCObject) : Produced (setclLvalue obj x)
  | clCvalue (obj : RawTValue N) (x : GCObject) : Produced (setclCvalue obj x)
  | gcovalue (obj : RawTValue N) (x : GCObject) : isobjecttag x.tt = true →
      Produced (setgcovalue obj x)

/-- The basic types of the collectable values: string, table, userdata, thread and
function. -/
def collectabletypes : List Nat :=
  [LUA_TSTRING, LUA_TTABLE, LUA_TUSERDATA, LUA_TTHREAD, LUA_TFUNCTION]

/-! ## Floating-point bytes (`lobject.c`) -/

/-- The loop `while (x >= 0x10) { x = (x+1) >> 1; e++; }` of `luaO_int2fb` on the
`unsigned int` `x` (the sum wraps at `2^32`): the final `x` and `e`. No fuel left means
that the loop is still going after `fuel` rounds. -/
def int2fb_loop : Nat → Nat → Int → Except Err (Nat × Int)
  | 0, _, _ => .error .diverge
  | fuel + 1, x, e =>
    if x ≥ 0x10 then int2fb_loop fuel (((x + 1) % 4294967296) >>> 1) (e + 1)
    else .ok (x, e)

/-- Source `luaO_int2fb(x)`, for an `unsigned int` `x`. The `|` of the two `int` operands
is taken on their 32-bit patterns. -/
def luaO_int2fb (x : Nat) : Except Err Int :=
  if x < 8 then .ok (cast_int x)
  else
    match int2fb_loop 33 x 0 with
    | .error e => .error e
    | .ok (x1, e) =>
      .ok (cast_int ((cast_unsigned ((e + 1) * 8) ||| cast_unsigned (cast_int x1 - 8) : Nat)))

/-- Source `luaO_fb2int(x)`, for an `int` `x`: `x >> 3` is the arithmetic shift, the
masks are remainders, and a left shift whose result does not fit an `int` is undefined. -/
def luaO_fb2int (x : Int) : Except Err Int :=
  let e := (x / 8) % 32
  if e = 0 then .ok x
  else if (x % 8 + 8) * 2 ^ (e - 1).toNat ≤ INT_MAX then .ok ((x % 8 + 8) * 2 ^ (e - 1).toNat)
  else .error .undefined

/-! ## Chunk names (`lobject.c`)

Characters are byte values; a C string is a block of bytes that holds a NUL. -/

/-- The block of a C string: its characters and the terminating NUL. -/
def cstr (s : List Nat) : List Nat := s ++ [0]

/-- The function `strlen(s)`: the index of the first NUL of the block; `none` for a block
without NUL, on which the call is undefined. -/
def strlen (s : List Nat) : Option Nat :=
  if s.indexOf 0 < s.length then some (s.indexOf 0) else none

/-- The function `strchr(s, c)` for a character `c` other than NUL and a string of length
`l`: the offset of the first `c`, `none` for `NULL`. -/
def strchr (s : List Nat) (l c : Nat) : Option Nat :=
  if (s.take l).indexOf c < l then some ((s.take l).indexOf c) else none

/-- The `n` bytes that `memcpy(out, b + off, n)` reads from the block `b`. Reading outside
the block is undefined. -/
def memcpy_src (b : List Nat) (off : Int) (n : Nat) : Except Err (List Nat) :=
  if 0 ≤ off ∧ off + n ≤ b.length then .ok ((b.drop off.toNat).take n)
  else .error .undefined

/-- The literal `RETS`, three dots. -/
def RETS : List Nat := [46, 46, 46]

/-- The literal `PRE`: an opening bracket, the word string, a blank and a double quote. -/
def PRE : List Nat := [91, 115, 116, 114, 105, 110, 103, 32, 34]

/-- The literal `POS`: a double quote and a closing bracket. -/
def POS : List Nat := [34, 93]

/-- The macro `LL(x)`: the number of characters of a literal without its NUL. -/
def LL (x : List Nat) : Nat := (cstr x).length - 1

/-- Subtraction of `size_t` values of `w` bits. -/
def sub_sizet (w a b : Nat) : Nat := (a + 2 ^ w - b % 2 ^ w) % 2 ^ w

/-- Source `luaO_chunkid(out, source, bufflen)`: the bytes that it writes to `out`, from
`out[0]` on (every write of the function starts where the one before ended). `source` is
the block of the source string, `bufflen` a `size_t` of `w` bits. -/
def luaO_chunkid (w : Nat) (source : List Nat) (bufflen : Nat) : Except Err (List Nat) :=
  match strlen source with
  | none => .error .undefined
  | some l =>
    if source.getD 0 0 = 61 then
      if l ≤ bufflen then memcpy_src source 1 l
      else
        match memcpy_src source 1 (sub_sizet w bufflen 1) with
        | .error e => .error e
        | .ok o => .ok (o ++ [0])
    else if source.getD 0 0 = 64 then
      if l ≤ bufflen then memcpy_src source 1 l
      else
        match memcpy_src source (1 + (l : Int) - (sub_sizet w bufflen (LL RETS) : Nat))
            (sub_sizet w bufflen (LL RETS)) with
        | .error e => .error e
        | .ok o => .ok (RETS ++ o)
    else
      let nl := strchr source l 10
      let bufflen1 := sub_sizet w bufflen (LL (PRE ++ RETS ++ POS) + 1)
      let body : Except Err (List Nat) :=
        if l < bufflen1 ∧ nl = none then memcpy_src source 0 l
        else
          let l1 := match nl with
            | some i => i
            | none => l
          let l2 := if l1 > bufflen1 then bufflen1 else l1
          match memcpy_src source 0 l2 with
          | .error e => .error e
          | .ok o => .ok (o ++ RETS)
      match body with
      | .error e => .error e
      | .ok o => .ok (PRE ++ o ++ cstr POS)

/-! ## String to number (`lobject.c`)

A pointer into the string `s` is the rest of its block from that address on: `*p` is the
head of the rest, `p + 1` its tail, and two pointers into one block are equal when their
rests have the same length. The `lua_Number` that `lua_strx2number` computes (the value
`r`, the exponents `e` and `exp1` handed to `ldexp`) takes part in no test and is left
out; the counters of digits are kept, as `int` values that wrap. -/

/-- The macro `lisspace` of `lctype.h`, for the characters of ASCII: blank, `\t`, `\n`,
`\v`, `\f`, `\r`. -/
def lisspace (c : Nat) : Bool := c == 32 || (9 ≤ c && c ≤ 13)

/-- The macro `lisdigit` of `lctype.h`: `0` to `9`. -/
def lisdigit (c : Nat) : Bool := 48 ≤ c && c ≤ 57

/-- The macro `lisxdigit` of `lctype.h`: a decimal digit, `A` to `F` or `a` to `f`. -/
def lisxdigit (c : Nat) : Bool :=
  lisdigit c || (65 ≤ c && c ≤ 70) || (97 ≤ c && c ≤ 102)

/-- The loops `while (lisspace(cast_uchar(*s))) s++;` of `lua_strx2number` and
`luaO_str2d`. Reading past the block is undefined. -/
def skipspace : List Nat → Except Err (List Nat)
  | [] => .error .undefined
  | c :: r => if lisspace c then skipspace r else .ok (c :: r)

/-- Source `isneg(&s)`: the result and the new `s`. -/
def isneg : List Nat → Except Err (Int × List Nat)
  | [] => .error .undefined
  | c :: r => if c = 45 then .ok (1, r) else if c = 43 then .ok (0, r) else .ok (0, c :: r)

/-- Source `readhexa(&s, r, &count)`: the new `s` and the new `*count`. -/
def readhexa : List Nat → Int → Except Err (List Nat × Int)
  | [], _ => .error .undefined
  | c :: r, count =>
    if lisxdigit c then readhexa r (cast_int (count + 1)) else .ok (c :: r, count)

/-- The loop `while (lisdigit(cast_uchar(*s))) exp1 = exp1 * 10 + *(s++) - '0';` of
`lua_strx2number`: the new `s`. -/
def readexp : List Nat → Except Err (List Nat)
  | [] => .error .undefined
  | c :: r => if lisdigit c then readexp r else .ok (c :: r)

/-- The part of `lua_strx2number` after the test of the digit counters: the exponent. The
result is `*endptr`. -/
def strx2number_exp (s : List Nat) : Except Err (List Nat) :=
  match s with
  | [] => .error .undefined
  | c :: r =>
    if c = 112 ∨ c = 80 then
      match isneg r with
      | .error e => .error e
      | .ok (_, s1) =>
        match s1 with
        | [] => .error .undefined
        | d :: _ => if !lisdigit d then .ok s else readexp s1
    else .ok s

/-- Source `lua_strx2number(s, &endptr)`: the pointer that it stores in `*endptr`. -/
def lua_strx2number (s : List Nat) : Except Err (List Nat) :=
  match skipspace s with
  | .error e => .error e
  | .ok s1 =>
    match isneg s1 with
    | .error e => .error e
    | .ok (_, s2) =>
      match s2 with
      | [] => .error .undefined
      | [c] => if c = 48 then .error .undefined else .ok s
      | c :: x :: s3 =>
        if ¬ (c = 48 ∧ (x = 120 ∨ x = 88)) then .ok s
        else
          match readhexa s3 0 with
          | .error e => .error e
          | .ok (s4, i) =>
            let frac : Except Err (List Nat × Int) :=
              match s4 with
              | [] => .error .undefined
              | d :: s5 => if d = 46 then readhexa s5 0 else .ok (s4, 0)
            match frac with
            | .error e => .error e
            | .ok (s6, e) => if i = 0 ∧ e = 0 then .ok s else strx2number_exp s6

/-- Source `luaO_str2d(s, len, result)`: the `int` that it returns. `s` is the block of
the string, `str2number` is the macro `lua_str2number` of `luaconf.h` (the function
`strtod`), as the pointer that it stores in `*endptr`. -/
def luaO_str2d (str2number : List Nat → Except Err (List Nat)) (s : List Nat) (len : Nat) :
    Except Err Int :=
  match strlen s with
  | none => .error .undefined
  | some l =>
    if 110 ∈ s.take l ∨ 78 ∈ s.take l then .ok 0
    else
      match (if 120 ∈ s.take l ∨ 88 ∈ s.take l then lua_strx2number s
        else str2number s) with
      | .error e => .error e
      | .ok endptr =>
        if endptr.length = s.length then .ok 0
        else
          match skipspace endptr with
          | .error e => .error e
          | .ok endptr1 => .ok (if s.length - endptr1.length = len then 1 else 0)

/-- An optional sign: nothing, `+` or `-`. -/
def issign (sg : List Nat) : Prop := sg = [] ∨ sg = [43] ∨ sg = [45]

/-- The form of a hexadecimal numeral: blanks, an optional sign, `0x` or `0X`, hexadecimal
digits `h1`, optionally a dot and hexadecimal digits `h2`, optionally an exponent (`p` or
`P`, an optional sign and one decimal digit or more), and blanks; with one hexadecimal
digit at least in `h1` and `h2` together. -/
def hexform (s : List Nat) : Prop :=
  ∃ (ws1 sign : List Nat) (x : Nat) (h1 fr ex ws2 : List Nat),
    s = ws1 ++ sign ++ 48 :: x :: h1 ++ fr ++ ex ++ ws2 ∧
    (∀ c ∈ ws1, lisspace c = true) ∧ issign sign ∧ (x = 120 ∨ x = 88) ∧
    (∀ c ∈ h1, lisxdigit c = true) ∧
    (fr = [] ∨ ∃ h2, fr = 46 :: h2 ∧ ∀ c ∈ h2, lisxdigit c = true) ∧
    (ex = [] ∨ ∃ p sg ds, ex = p :: (sg ++ ds) ∧ (p = 112 ∨ p = 80) ∧ issign sg ∧
      ds ≠ [] ∧ ∀ c ∈ ds, lisdigit c = true) ∧
    (∀ c ∈ ws2, lisspace c = true) ∧
    (h1 ≠ [] ∨ ∃ h2, fr = 46 :: h2 ∧ h2 ≠ [])

/-! ## The last insertions: example tables, `luaH_resizearray`, a stream, `computesizes`
with `int` checks -/

/-- The table of `luaH_new` after `luaH_newkey` for the key 7: no array part, one node,
which holds the key with a nil value. -/
def exkey7 : Table (Option Int) :=
  { flags := 255, lsizenode := 0, metatable := none, array := [],
    node := [{ i_val := .nil, i_key := exnum 7, next := none }], isdummy := false,
    lastfree := 1, sizearray := 0 }

/-- Source `luaH_resizearray(L,t,nasize)`: `luaH_resize` with the present node count, 0
when the hash part is the dummy node. -/
def luaH_resizearray {N : Type} [DecidableEq N] (ops : LuaConf N) (depth : Nat)
    (t : Table N) (nasize : Nat) : Except Err (Table N) :=
  luaH_resize ops depth t nasize (if t.isdummy then 0 else sizenode t)

/-- The tables built from `luaH_new` by the five writing functions of `ltable.c`:
`Reachable` with, in addition, a store through the slot that `luaH_newkey` returns for a
key that the table does not hold, and `luaH_resizearray` to an array size within
`MAXASIZE`. -/
inductive Built {N : Type} [DecidableEq N] (ops : LuaConf N) : Table N → Prop where
  | new : Built ops luaH_new
  | set (d : Nat) (t t1 : Table N) (k v : TValue N) (c : Cell) :
      Built ops t → ttisdeadkey k = false → luaH_set ops d t k = .ok (t1, c) →
      Built ops (t1.write c v)
  | setint (d : Nat) (t t1 : Table N) (key : Int) (v : TValue N) :
      Built ops t → cast_int key = key → luaH_setint ops d t key v = .ok t1 →
      Built ops t1
  | newkey (d : Nat) (t t1 : Table N) (k v : TValue N) (c : Cell) :
      Built ops t → ttisdeadkey k = false → luaH_get ops t k = .ok .nilobject →
      luaH_newkey ops d t k = .ok (t1, c) → Built ops (t1.write c v)
  | resize (d : Nat) (t t1 : Table N) (nasize nhsize : Nat) :
      Built ops t → nasize ≤ MAXASIZE → luaH_resize ops d t nasize nhsize = .ok t1 →
      Built ops t1
  | resizearray (d : Nat) (t t1 : Table N) (nasize : Nat) :
      Built ops t → nasize ≤ MAXASIZE → luaH_resizearray ops d t nasize = .ok t1 →
      Built ops t1

/-- The table `extab12` after `luaH_newkey` for the key 7: the array part keeps its two
slots and the hash part is one fresh node, which holds the key. -/
def extab127 : Table (Option Int) :=
  { flags := 255, lsizenode := 0, metatable := none, array := [exnum 5, exnum 6],
    node := [{ i_val := .nil, i_key := exnum 7, next := none }], isdummy := false,
    lastfree := 1, sizearray := 2 }

/-- The stream over a reader that hands out the one-byte chunk "a", found in the buffer of
the C string "a" (the byte and its terminator), and then answers end-of-input for ever. -/
def exzio_a : Zio (List Answer) :=
  luaZ_init answers_reader [{ buff := some [97, 0], size := 1 }]

/-- Source `computesizes`, the loop, with the two `int` hazards made explicit: reading
`nums[i]` past the `MAXBITS + 1` counters and a step `twotoi *= 2` whose product does not
fit an `int` are undefined. The variables are those of `computesizes_loop`. -/
def computesizes_int_loop (nums : List Nat) (narray : Nat) :
    Nat → Nat → Nat → Nat → Nat → Nat → Except Err (Nat × Nat)
  | 0, _, _, _, _, _ => .error .diverge
  | fuel + 1, i, twotoi, a, na, n =>
    if twotoi / 2 < narray then
      if i > MAXBITS then .error .undefined
      else match nums.get? i with
      | none => .error .undefined
      | some c =>
        let a1 := if c > 0 then a + c else a
        let n1 := if c > 0 ∧ a1 > twotoi / 2 then twotoi else n
        let na1 := if c > 0 ∧ a1 > twotoi / 2 then a1 else na
        if a1 = narray then .ok (na1, n1)
        else if (twotoi * 2 : Int) > INT_MAX then .error .undefined
        else computesizes_int_loop nums narray fuel (i + 1) (twotoi * 2) a1 na1 n1
    else .ok (na, n)

/-- Source `computesizes(nums, narray)` with the `int` hazards checked: returns `na` and the
new `*narray`. -/
def computesizes_int (nums : List Nat) (narray : Nat) : Except Err (Nat × Nat) :=
  computesizes_int_loop nums narray (MAXBITS + 3) 0 1 0 0 0

/-! # Theorems -/

/-! ## Casts and main positions -/


theorem cast_int_idem (x : Int) : cast_int (cast_int x) = cast_int x := by
  unfold cast_int; omega

theorem cast_int_range (x : Int) : -2147483648 ≤ cast_int x ∧ cast_int x ≤ 2147483647 := by
  unfold cast_int; omega

theorem cast_int_of_range (x : Int) (h : -2147483648 ≤ x ∧ x ≤ 2147483647) :
    cast_int x = x := by
  unfold cast_int; omega

theorem getint_test_iff (key : Int) (sz : Nat)
    (hk : -2147483648 ≤ key ∧ key ≤ 2147483647) (hs : sz ≤ 2 ^ 30) :
    cast_unsigned (key - 1) < cast_unsigned sz ↔ 1 ≤ key ∧ key ≤ sz := by
  have h30 : (2:Nat) ^ 30 = 1073741824 := by norm_num
  unfold cast_unsigned
  omega

theorem lor_one_of_pos (k : Nat) (hk : k ≤ 30) (h0 : 0 < k) : (2 ^ k - 1) ||| 1 = 2 ^ k - 1 := by
  interval_cases k <;> decide

theorem hashmod_lt {N : Type} (t : Table N) (n : Nat) (h : t.lsizenode ≤ MAXBITS) :
    hashmod t n < sizenode t := by
  unfold hashmod sizenode twoto
  rcases Nat.eq_zero_or_pos t.lsizenode with h0 | h0
  · rw [h0]; simp [Nat.mod_one]
  · rw [lor_one_of_pos _ h h0]
    have h1 : 2 ^ t.lsizenode ≥ 2 := by
      calc 2 ^ t.lsizenode ≥ 2 ^ 1 := Nat.pow_le_pow_right (by norm_num) h0
        _ = 2 := by norm_num
    have : n % (2 ^ t.lsizenode - 1) < 2 ^ t.lsizenode - 1 := Nat.mod_lt _ (by omega)
    omega

theorem hashpow2_lt {N : Type} (t : Table N) (n : Nat) : hashpow2 t n < sizenode t := by
  unfold hashpow2 lmod sizenode twoto
  rw [Nat.and_pow_two_sub_one_eq_mod]
  exact Nat.mod_lt _ (Nat.pos_pow_of_pos _ (by norm_num))

theorem mainposition_lt {N : Type} (ops : LuaConf N) (t : Table N) (k : TValue N)
    (h : t.lsizenode ≤ MAXBITS) : mainposition ops t k < sizenode t := by
  unfold mainposition
  split <;> first
    | exact hashmod_lt t _ h
    | exact hashpow2_lt t _

/-! ## Raw equality -/


theorem numeq_notnan_left {N : Type} {ops : LuaConf N} (hL : ops.Lawful) {a b : N}
    (h : ops.luai_numeq a b = true) : ops.luai_numisnan a = false := by
  have h1 := hL.numeq_trans a b a h (hL.numeq_symm a b h)
  rw [hL.numeq_self] at h1
  simpa using h1

theorem numeq_notnan_right {N : Type} {ops : LuaConf N} (hL : ops.Lawful) {a b : N}
    (h : ops.luai_numeq a b = true) : ops.luai_numisnan b = false :=
  numeq_notnan_left hL (hL.numeq_symm a b h)

theorem rawequal_refl {N : Type} {ops : LuaConf N} (hL : ops.Lawful) (k : TValue N)
    (hk : validkey ops k = true) : luaV_rawequalobj ops k k = true := by
  cases k with
  | nil => simp [validkey] at hk
  | deadkey o => simp [validkey] at hk
  | number n =>
    simp only [validkey, Bool.not_eq_true'] at hk
    simp [luaV_rawequalobj, hL.numeq_self, hk]
  | gc tt o => cases tt <;> simp [luaV_rawequalobj, hL.eqlngstr_refl]
  | boolean b => simp [luaV_rawequalobj]
  | lightuserdata p => simp [luaV_rawequalobj]
  | lcf f => simp [luaV_rawequalobj]

theorem rawequal_symm {N : Type} {ops : LuaConf N} (hL : ops.Lawful) (a b : TValue N)
    (h : luaV_rawequalobj ops a b = true) : luaV_rawequalobj ops b a = true := by
  cases a <;> cases b <;> simp [luaV_rawequalobj] at h ⊢
  · exact h.symm
  · exact h.symm
  · exact hL.numeq_symm _ _ h
  · exact h.symm
  · rename_i s a t b
    cases s <;> cases t <;> simp_all [luaV_rawequalobj]
    exact hL.eqlngstr_symm _ _ h
  · exact h.symm

theorem rawequal_trans {N : Type} {ops : LuaConf N} (hL : ops.Lawful) (a b c : TValue N)
    (h1 : luaV_rawequalobj ops a b = true) (h2 : luaV_rawequalobj ops b c = true) :
    luaV_rawequalobj ops a c = true := by
  cases a <;> cases b <;> simp [luaV_rawequalobj] at h1 <;>
    cases c <;> simp [luaV_rawequalobj] at h2 ⊢
  · exact h1.trans h2
  · exact h1.trans h2
  · exact hL.numeq_trans _ _ _ h1 h2
  · exact h1.trans h2
  · rename_i s a t b u c
    cases s <;> cases t <;> simp_all [luaV_rawequalobj] <;> cases u <;> simp_all [luaV_rawequalobj]
    exact hL.eqlngstr_trans _ _ _ h1 h2
  · exact h1.trans h2

theorem rawequal_validkey {N : Type} {ops : LuaConf N} (hL : ops.Lawful) (a b : TValue N)
    (h : luaV_rawequalobj ops a b = true) : validkey ops a = validkey ops b := by
  cases a <;> cases b <;> simp [luaV_rawequalobj] at h <;> simp [validkey]
  rw [numeq_notnan_left hL h, numeq_notnan_right hL h]

theorem rawequal_nil_iff {N : Type} (ops : LuaConf N) (a : TValue N) :
    luaV_rawequalobj ops a .nil = true ↔ a = .nil := by
  cases a <;> simp [luaV_rawequalobj]

theorem mainposition_congr {N : Type} {ops : LuaConf N} (hL : ops.Lawful) (t : Table N)
    (a b : TValue N) (h : luaV_rawequalobj ops a b = true) :
    mainposition ops t a = mainposition ops t b := by
  cases a <;> cases b <;> simp [luaV_rawequalobj] at h
  · rfl
  · rw [h]
  · rw [h]
  · simp only [mainposition, hashnum, hashnum_int]
    rw [hL.hashnum_congr _ _ h]
  · rw [h]
  · rename_i s a t b
    cases s <;> cases t <;> simp_all [luaV_rawequalobj, mainposition, hashstr]
    rw [hL.strhash_congr _ _ h]
  · rw [h]

theorem arrayindex_congr {N : Type} {ops : LuaConf N} (hL : ops.Lawful)
    (a b : TValue N) (h : luaV_rawequalobj ops a b = true) :
    arrayindex ops a = arrayindex ops b := by
  cases a <;> cases b <;> simp [luaV_rawequalobj] at h <;> try rfl
  rename_i x y
  have key : ∀ u v : N, ops.luai_numeq u v = true →
      ops.luai_numeq (ops.cast_num (cast_int (ops.lua_number2int u))) u = true →
      cast_int (ops.lua_number2int v) = cast_int (ops.lua_number2int u) ∧
      ops.luai_numeq (ops.cast_num (cast_int (ops.lua_number2int u))) v = true := by
    intro u v huv hu
    have h1 := hL.numeq_trans _ _ _ hu huv
    exact ⟨hL.number2int_cast _ v (cast_int_idem _) h1, h1⟩
  simp only [arrayindex]
  by_cases hx : ops.luai_numeq (ops.cast_num (cast_int (ops.lua_number2int x))) x = true
  · obtain ⟨e1, e2⟩ := key x y h hx
    rw [if_pos hx, e1, if_pos e2]
  · by_cases hy : ops.luai_numeq (ops.cast_num (cast_int (ops.lua_number2int y))) y = true
    · obtain ⟨e1, e2⟩ := key y x (hL.numeq_symm _ _ h) hy
      rw [e1] at hx; exact absurd e2 hx
    · rw [if_neg hx, if_neg hy]

theorem reach_of_next_none {N : Type} (t : Table N) (n i : Nat)
    (h : (gnode t n).next = none) (hr : Reach t n i) : i = n := by
  unfold Reach at hr
  rcases Relation.ReflTransGen.cases_head hr with h1 | ⟨c, h1, _⟩
  · exact h1.symm
  · rw [h] at h1; cases h1

theorem reach_of_next_some {N : Type} (t : Table N) (n n1 i : Nat)
    (h : (gnode t n).next = some n1) (hr : Reach t n i) : i = n ∨ Reach t n1 i := by
  unfold Reach at hr
  rcases Relation.ReflTransGen.cases_head hr with h1 | ⟨c, h1, h2⟩
  · exact Or.inl h1.symm
  · rw [h] at h1; cases h1; exact Or.inr h2

theorem reach_lt {N : Type} (t : Table N) (hc : ChainOk t) (a b : Nat) (ha : a < sizenode t)
    (hr : Reach t a b) : b < sizenode t := by
  unfold Reach at hr
  induction hr with
  | refl => exact ha
  | tail _ h2 ih => exact hc.next_lt _ _ ih h2

theorem walk_aux {N : Type} (t : Table N) (P : Node N → Bool) (r : Nat → Nat)
    (hlt : ∀ i j, i < sizenode t → (gnode t i).next = some j → j < sizenode t)
    (hr : ∀ i j, i < sizenode t → (gnode t i).next = some j → r j < r i) :
    ∀ (f n : Nat), n < sizenode t →
      ((Finset.range (sizenode t)).filter (fun i => r i ≤ r n)).card ≤ f →
      (∃ i, walk t P f n = .ok (some i) ∧ i < sizenode t ∧ Reach t n i ∧
        P (gnode t i) = true) ∨
      (walk t P f n = .ok none ∧ ∀ i, Reach t n i → P (gnode t i) = false) := by
  intro f
  induction f with
  | zero =>
    intro n hn hc
    exfalso
    have hmem : n ∈ (Finset.range (sizenode t)).filter (fun i => r i ≤ r n) := by
      simp [hn]
    have := Finset.card_pos.mpr ⟨n, hmem⟩
    omega
  | succ f ih =>
    intro n hn hc
    by_cases hP : P (gnode t n) = true
    · left
      exact ⟨n, by simp [walk, hP], hn, Relation.ReflTransGen.refl, hP⟩
    · cases hnx : (gnode t n).next with
      | none =>
        right
        refine ⟨by simp [walk, hP, hnx], ?_⟩
        intro i hi
        rw [reach_of_next_none t n i hnx hi]
        simpa using hP
      | some n1 =>
        have hn1 : n1 < sizenode t := hlt n n1 hn hnx
        have hr1 : r n1 < r n := hr n n1 hn hnx
        have hcard : ((Finset.range (sizenode t)).filter (fun i => r i ≤ r n1)).card ≤ f := by
          have hss : (Finset.range (sizenode t)).filter (fun i => r i ≤ r n1) ⊂
              (Finset.range (sizenode t)).filter (fun i => r i ≤ r n) := by
            rw [Finset.ssubset_iff_of_subset]
            · exact ⟨n, by simp [hn], by simp; intro _; omega⟩
            · intro x hx
              simp only [Finset.mem_filter, Finset.mem_range] at hx ⊢
              exact ⟨hx.1, by omega⟩
          have := Finset.card_lt_card hss
          omega
        have hw : walk t P (f + 1) n = walk t P f n1 := by
          simp [walk, hP, hnx]
        rcases ih n1 hn1 hcard with ⟨i, h1, h2, h3, h4⟩ | ⟨h1, h2⟩
        · left
          exact ⟨i, by rw [hw, h1], h2, Relation.ReflTransGen.head hnx h3, h4⟩
        · right
          refine ⟨by rw [hw, h1], ?_⟩
          intro i hi
          rcases reach_of_next_some t n n1 i hnx hi with h5 | h5
          · rw [h5]; simpa using hP
          · exact h2 i h5

theorem walk_spec {N : Type} (t : Table N) (hc : ChainOk t) (P : Node N → Bool) (n : Nat)
    (hn : n < sizenode t) :
    (∃ i, walk t P (sizenode t) n = .ok (some i) ∧ i < sizenode t ∧ Reach t n i ∧
        P (gnode t i) = true) ∨
    (walk t P (sizenode t) n = .ok none ∧ ∀ i, Reach t n i → P (gnode t i) = false) := by
  obtain ⟨r, hr⟩ := hc.rank
  apply walk_aux t P r hc.next_lt hr (sizenode t) n hn
  calc ((Finset.range (sizenode t)).filter (fun i => r i ≤ r n)).card
      ≤ (Finset.range (sizenode t)).card := Finset.card_filter_le _ _
    _ = sizenode t := Finset.card_range _

theorem get_loop_eq_walk {N : Type} (ops : LuaConf N) (t : Table N) (key : TValue N) :
    ∀ (f n : Nat), get_loop ops t key f n =
      match walk t (fun nd => luaV_rawequalobj ops nd.i_key key) f n with
      | .ok (some i) => .ok (.val i)
      | .ok none => .ok .nilobject
      | .error e => .error e := by
  intro f
  induction f with
  | zero => intro n; simp [get_loop, walk]
  | succ f ih =>
    intro n
    simp only [get_loop, walk]
    by_cases h : luaV_rawequalobj ops (gnode t n).i_key key = true
    · simp [h]
    · simp only [h, if_false]
      cases hnx : (gnode t n).next with
      | none => simp
      | some n1 => simp only []; exact ih n1

theorem rawequal_nil_left {N : Type} (ops : LuaConf N) (b : TValue N) :
    luaV_rawequalobj ops .nil b = true ↔ b = .nil := by
  cases b <;> simp [luaV_rawequalobj]

theorem rawequal_number_left {N : Type} (ops : LuaConf N) (a : TValue N) (n : N) :
    luaV_rawequalobj ops a (.number n) =
      match a with
      | .number m => ops.luai_numeq m n
      | _ => false := by
  cases a <;> simp [luaV_rawequalobj]

theorem rawequal_shrstr_left {N : Type} (ops : LuaConf N) (a : TValue N) (s : Nat) :
    luaV_rawequalobj ops a (.gc .shrstr s) =
      match a with
      | .gc .shrstr s1 => s1 == s
      | _ => false := by
  cases a <;> simp [luaV_rawequalobj]
  rename_i tt o
  cases tt <;> simp [luaV_rawequalobj]

theorem getint_loop_eq {N : Type} {ops : LuaConf N} (hL : ops.Lawful) (t : Table N)
    (nk n1 : N) (h : ops.luai_numeq nk n1 = true) :
    ∀ (f n : Nat), getint_loop ops t nk f n = get_loop ops t (.number n1) f n := by
  intro f
  induction f with
  | zero => intro n; rfl
  | succ f ih =>
    intro n
    simp only [getint_loop, get_loop, rawequal_number_left]
    cases hk : (gnode t n).i_key <;> try simp only [Bool.false_eq_true, if_false]
    all_goals first
      | (cases (gnode t n).next with
          | none => rfl
          | some n2 => exact ih n2)
      | skip
    rename_i m
    have e : ops.luai_numeq m nk = ops.luai_numeq m n1 := by
      cases h1 : ops.luai_numeq m nk with
      | true => exact (hL.numeq_trans _ _ _ h1 h).symm
      | false =>
        cases h2 : ops.luai_numeq m n1 with
        | false => rfl
        | true =>
          have := hL.numeq_trans _ _ _ h2 (hL.numeq_symm _ _ h)
          rw [h1] at this; cases this
    rw [e]
    by_cases hq : ops.luai_numeq m n1 = true
    · rw [if_pos hq, if_pos hq]
    · rw [if_neg hq, if_neg hq]
      cases (gnode t n).next with
      | none => rfl
      | some n2 => exact ih n2

theorem getstr_loop_eq {N : Type} (ops : LuaConf N) (t : Table N) (s : Nat) :
    ∀ (f n : Nat), getstr_loop t s f n = get_loop ops t (.gc .shrstr s) f n := by
  intro f
  induction f with
  | zero => intro n; rfl
  | succ f ih =>
    intro n
    simp only [getstr_loop, get_loop, rawequal_shrstr_left]
    cases hk : (gnode t n).i_key <;> try simp only [Bool.false_eq_true, if_false]
    all_goals first
      | (cases (gnode t n).next with
          | none => rfl
          | some n2 => exact ih n2)
      | skip
    rename_i tt o
    cases tt <;> try simp only [Bool.false_eq_true, if_false, beq_iff_eq]
    all_goals first
      | (cases (gnode t n).next with
          | none => rfl
          | some n2 => exact ih n2)
      | skip
    by_cases e : o = s
    · rw [if_pos e, if_pos e]
    · rw [if_neg e, if_neg e]
      cases (gnode t n).next with
      | none => rfl
      | some n2 => exact ih n2

/-- The array-range test on a key. -/
theorem luaH_getint_eq {N : Type} {ops : LuaConf N} (hL : ops.Lawful) (t : Table N)
    (hs : t.sizearray ≤ MAXASIZE) (k : Int) (hk : cast_int k = k) :
    luaH_getint ops t k =
      if 0 < k ∧ k ≤ (t.sizearray : Int) then .ok (.arr (k - 1).toNat)
      else get_loop ops t (.number (ops.cast_num k)) (sizenode t)
        (mainposition ops t (.number (ops.cast_num k))) := by
  have hr := cast_int_range k
  rw [hk] at hr
  have hs1 : t.sizearray ≤ 2 ^ 30 := hs
  have hiff := getint_test_iff k t.sizearray hr hs1
  unfold luaH_getint
  by_cases h : cast_unsigned (k - 1) < cast_unsigned t.sizearray
  · have h2 := hiff.mp h
    rw [if_pos h, if_pos ⟨by omega, h2.2⟩]
  · have h2 : ¬ (0 < k ∧ k ≤ (t.sizearray : Int)) := fun h3 => h (hiff.mpr ⟨by omega, h3.2⟩)
    rw [if_neg h, if_neg h2]
    have hself : ops.luai_numeq (ops.cast_num k) (ops.cast_num k) = true := by
      rw [hL.numeq_self, hL.cast_num_notnan]; rfl
    exact getint_loop_eq hL t _ _ hself _ _

theorem luaH_get_eq {N : Type} {ops : LuaConf N} (hL : ops.Lawful) (t : Table N)
    (hs : t.sizearray ≤ MAXASIZE) (k : TValue N) :
    luaH_get ops t k =
      if ttisnil k = true then .ok .nilobject
      else if 0 < arrayindex ops k ∧ arrayindex ops k ≤ (t.sizearray : Int) then
        .ok (.arr (arrayindex ops k - 1).toNat)
      else get_loop ops t k (sizenode t) (mainposition ops t k) := by
  cases k with
  | nil => simp [luaH_get, ttisnil]
  | number n =>
    simp only [luaH_get, arrayindex, ttisnil, Bool.false_eq_true, if_false]
    by_cases h : ops.luai_numeq (ops.cast_num (cast_int (ops.lua_number2int n))) n = true
    · simp only [h, if_true]
      rw [luaH_getint_eq hL t hs _ (cast_int_idem _)]
      split
      · rfl
      · have hself : ops.luai_numeq (ops.cast_num (cast_int (ops.lua_number2int n)))
            (ops.cast_num (cast_int (ops.lua_number2int n))) = true := by
          rw [hL.numeq_self, hL.cast_num_notnan]; rfl
        rw [← getint_loop_eq hL t _ _ h, ← getint_loop_eq hL t _ _ hself]
        have hm : mainposition ops t (.number (ops.cast_num (cast_int (ops.lua_number2int n))))
            = mainposition ops t (.number n) :=
          mainposition_congr hL t _ _ (by simpa [luaV_rawequalobj] using h)
        rw [hm]
    · simp only [h, if_false]
      simp
  | gc tt o =>
    cases tt <;> simp [luaH_get, arrayindex, luaH_getstr, mainposition, ttisnil]
    exact getstr_loop_eq ops t o _ _
  | boolean b => simp [luaH_get, arrayindex, ttisnil]
  | lightuserdata b => simp [luaH_get, arrayindex, ttisnil]
  | lcf b => simp [luaH_get, arrayindex, ttisnil]
  | deadkey b => simp [luaH_get, arrayindex, ttisnil]

theorem get_loop_spec {N : Type} {ops : LuaConf N} (hL : ops.Lawful) (t : Table N)
    (hI : Inv ops t) (k : TValue N) (hk : k ≠ .nil) :
    (∃ i, i < sizenode t ∧ luaV_rawequalobj ops (gnode t i).i_key k = true ∧
      get_loop ops t k (sizenode t) (mainposition ops t k) = .ok (.val i)) ∨
    ((∀ i, i < sizenode t → luaV_rawequalobj ops (gnode t i).i_key k = false) ∧
      get_loop ops t k (sizenode t) (mainposition ops t k) = .ok .nilobject) := by
  have hmp := mainposition_lt ops t k hI.lsize_le
  rw [get_loop_eq_walk]
  rcases walk_spec t hI.chain (fun nd => luaV_rawequalobj ops nd.i_key k) _ hmp with
    ⟨i, h1, h2, _, h4⟩ | ⟨h1, h2⟩
  · left
    exact ⟨i, h2, h4, by rw [h1]⟩
  · right
    refine ⟨?_, by rw [h1]⟩
    intro i hi
    cases hre : luaV_rawequalobj ops (gnode t i).i_key k with
    | false => rfl
    | true =>
      have hne : (gnode t i).i_key ≠ .nil := by
        intro e; rw [e] at hre
        exact hk ((rawequal_nil_left ops k).mp hre)
      have hr := hI.reach i hi hne
      rw [mainposition_congr hL t _ _ hre] at hr
      have := h2 i hr
      simp only [hre] at this
      cases this

theorem haskey_unique {N : Type} {ops : LuaConf N} (hL : ops.Lawful) (t : Table N)
    (hI : Inv ops t) (k : TValue N) (hk : k ≠ .nil) (i j : Nat)
    (hi : i < sizenode t) (hj : j < sizenode t)
    (h1 : luaV_rawequalobj ops (gnode t i).i_key k = true)
    (h2 : luaV_rawequalobj ops (gnode t j).i_key k = true) : i = j := by
  have hne : (gnode t i).i_key ≠ .nil := by
    intro e; rw [e] at h1
    exact hk ((rawequal_nil_left ops k).mp h1)
  exact hI.nodup i j hi hj hne (rawequal_trans hL _ _ _ h1 (rawequal_symm hL _ _ h2))

theorem sizenode_eq_of_lsizenode {N : Type} {t t1 : Table N}
    (h : t1.lsizenode = t.lsizenode) : sizenode t1 = sizenode t := by
  unfold sizenode; rw [h]

theorem mainposition_eq_of_lsizenode {N : Type} (ops : LuaConf N) {t t1 : Table N}
    (h : t1.lsizenode = t.lsizenode) (k : TValue N) :
    mainposition ops t1 k = mainposition ops t k := by
  cases k <;>
    simp only [mainposition, hashnum, hashmod, hashpow2, sizenode, hashstr, hashboolean,
      hashpointer, h]

theorem reach_congr {N : Type} {t t1 : Table N}
    (h : ∀ i, (gnode t1 i).next = (gnode t i).next) (a b : Nat) :
    Reach t1 a b ↔ Reach t a b := by
  unfold Reach
  have : (fun a b => (gnode t1 a).next = some b) = (fun a b => (gnode t a).next = some b) := by
    funext a b; rw [h]
  rw [this]

theorem gnode_setnode {N : Type} (t : Table N) (i : Nat) (nd : Node N) (j : Nat)
    (hi : i < t.node.length) :
    gnode (setnode t i nd) j = if j = i then nd else gnode t j := by
  unfold gnode setnode
  simp only [List.getD_eq_getElem?_getD, List.getElem?_set]
  by_cases h : j = i
  · subst h; simp [hi]
  · have h1 : ¬ i = j := fun e => h e.symm
    simp [h, h1]

theorem gnode_write_val {N : Type} (t : Table N) (i : Nat) (v : TValue N) (j : Nat)
    (hi : i < t.node.length) :
    gnode (t.write (.val i) v) j = if j = i then { gnode t i with i_val := v } else gnode t j := by
  have := gnode_setnode t i { gnode t i with i_val := v } j hi
  exact this

theorem key_ne_nil_of_rawequal {N : Type} (ops : LuaConf N) (a k : TValue N)
    (hk : ttisnil k = false) (h : luaV_rawequalobj ops a k = true) : a ≠ .nil := by
  intro e; rw [e] at h
  have := (rawequal_nil_left ops k).mp h
  rw [this] at hk; simp [ttisnil] at hk

theorem validkey_ne_nil {N : Type} (ops : LuaConf N) (k : TValue N)
    (h : validkey ops k = true) : k ≠ .nil := by
  intro e; rw [e] at h; simp [validkey] at h

theorem validkey_ttisnil {N : Type} (ops : LuaConf N) (k : TValue N)
    (h : validkey ops k = true) : ttisnil k = false := by
  cases k <;> simp [validkey, ttisnil] at h ⊢

theorem ttisnil_false_iff {N : Type} (k : TValue N) : ttisnil k = false ↔ k ≠ .nil := by
  cases k <;> simp [ttisnil]

theorem ttisnil_true_iff {N : Type} (k : TValue N) : ttisnil k = true ↔ k = .nil := by
  cases k <;> simp [ttisnil]

/-- Lemma A: the new key goes into its free main position. -/
theorem inv_setkey {N : Type} {ops : LuaConf N} (hL : ops.Lawful) (t t1 : Table N)
    (hI : Inv ops t) (k : TValue N) (mp : Nat)
    (hmp : mp = mainposition ops t k)
    (hnd : t.isdummy = false)
    (hk : validkey ops k = true)
    (habs : ∀ i, i < sizenode t → luaV_rawequalobj ops (gnode t i).i_key k = false)
    (harr : ¬ (0 < arrayindex ops k ∧ arrayindex ops k ≤ (t.sizearray : Int)))
    (h1 : ∀ j, gnode t1 j = if j = mp then { gnode t mp with i_key := k } else gnode t j)
    (hlen : t1.node.length = t.node.length)
    (hls : t1.lsizenode = t.lsizenode) (harr1 : t1.array = t.array)
    (hsa : t1.sizearray = t.sizearray) (hdum : t1.isdummy = t.isdummy)
    (hlf : t1.lastfree = t.lastfree) : Inv ops t1 := by
  have hS : sizenode t1 = sizenode t := sizenode_eq_of_lsizenode hls
  have hM : ∀ x, mainposition ops t1 x = mainposition ops t x :=
    mainposition_eq_of_lsizenode ops hls
  have hmplt : mp < sizenode t := by rw [hmp]; exact mainposition_lt ops t k hI.lsize_le
  have hnext : ∀ i, (gnode t1 i).next = (gnode t i).next := by
    intro i; rw [h1]; split
    · rename_i e; rw [e]
    · rfl
  have hkne : k ≠ .nil := validkey_ne_nil ops k hk
  have hkey : ∀ i, (gnode t1 i).i_key = if i = mp then k else (gnode t i).i_key := by
    intro i; rw [h1]; split <;> rfl
  have hvalv : ∀ i, (gnode t1 i).i_val = (gnode t i).i_val := by
    intro i; rw [h1]; split
    · rename_i e; rw [e]
    · rfl
  have hkne1 : ∀ i, (gnode t1 i).i_key ≠ .nil → i ≠ mp → (gnode t i).i_key ≠ .nil := by
    intro i h2 h3; rw [hkey, if_neg h3] at h2; exact h2
  constructor
  · rw [hlen, hS]; exact hI.size_eq
  · rw [hls]; exact hI.lsize_le
  · rw [hsa, harr1]; exact hI.arr_le
  · rw [hsa]; exact hI.asize_le
  · intro h; rw [hdum, hnd] at h; cases h
  · rw [hlf, hS]; exact hI.lastfree_le
  · intro _ i h2 h3
    rw [hlf] at h2; rw [hS] at h3
    rw [hkey]; split
    · exact hkne
    · exact hI.lastfree_used hnd i h2 h3
  · constructor
    · intro i j hi hj
      rw [hS] at hi ⊢; rw [hnext] at hj
      exact hI.chain.next_lt i j hi hj
    · obtain ⟨r, hr⟩ := hI.chain.rank
      refine ⟨r, ?_⟩
      intro i j hi hj
      rw [hS] at hi; rw [hnext] at hj
      exact hr i j hi hj
  · intro i i1 j hi hi1 hj hj1
    rw [hS] at hi hi1; rw [hnext] at hj hj1
    exact hI.next_inj i i1 j hi hi1 hj hj1
  · intro i hi hkn
    rw [hS] at hi
    rw [hkey] at hkn
    have hne : i ≠ mp := by
      intro e; rw [if_pos e] at hkn; exact hkne hkn
    rw [if_neg hne] at hkn
    obtain ⟨a, b, c⟩ := hI.free i hi hkn
    refine ⟨by rw [hvalv]; exact a, by rw [hnext]; exact b, ?_⟩
    intro j hj
    rw [hS] at hj; rw [hnext]
    exact c j hj
  · intro i hi hkn
    rw [hS] at hi
    rw [hkey] at hkn ⊢
    split
    · exact hk
    · rename_i hne
      rw [if_neg hne] at hkn
      exact hI.keys_valid i hi hkn
  · intro i hi hkn
    rw [hS] at hi
    rw [reach_congr hnext, hM]
    rw [hkey] at hkn ⊢
    split
    · rename_i e; rw [← hmp, e]; exact Relation.ReflTransGen.refl
    · rename_i hne
      rw [if_neg hne] at hkn
      exact hI.reach i hi hkn
  · intro i hi hkn
    rw [hS] at hi
    have hb : ∀ x : TValue N, x ≠ .nil → (x = k ∨ ∃ i0, i0 < sizenode t ∧ (gnode t i0).i_key = x ∧
        (gnode t i0).i_key ≠ .nil) →
        (gnode t1 (mainposition ops t x)).i_key ≠ .nil ∧
        mainposition ops t (gnode t1 (mainposition ops t x)).i_key = mainposition ops t x := by
      intro x _ hx
      rw [hkey]
      by_cases e : mainposition ops t x = mp
      · rw [if_pos e]
        exact ⟨hkne, by rw [← hmp, e]⟩
      · rw [if_neg e]
        rcases hx with hx | ⟨i0, hi0, hx, hx2⟩
        · rw [hx, ← hmp] at e; exact absurd rfl e
        · rw [← hx]; exact hI.brent i0 hi0 hx2
    rw [hM, hM]
    by_cases e : i = mp
    · have e1 : (gnode t1 i).i_key = k := by rw [hkey, if_pos e]
      rw [e1]; exact hb k hkne (Or.inl rfl)
    · have e1 : (gnode t1 i).i_key = (gnode t i).i_key := by rw [hkey, if_neg e]
      rw [e1] at hkn ⊢; exact hb _ hkn (Or.inr ⟨i, hi, rfl, hkn⟩)
  · intro i j hi hj hkn hre
    rw [hS] at hi hj
    rw [hkey] at hkn hre
    rw [hkey] at hre
    by_cases e1 : i = mp
    · by_cases e2 : j = mp
      · rw [e1, e2]
      · rw [if_pos e1, if_neg e2] at hre
        have := habs j hj
        rw [rawequal_symm hL _ _ hre] at this; cases this
    · rw [if_neg e1] at hkn hre
      by_cases e2 : j = mp
      · rw [if_pos e2] at hre
        have := habs i hi
        rw [hre] at this; cases this
      · rw [if_neg e2] at hre
        exact hI.nodup i j hi hj hkn hre
  · intro i hi hkn
    rw [hS] at hi
    rw [hsa]
    rw [hkey] at hkn ⊢
    split
    · exact harr
    · rename_i hne
      rw [if_neg hne] at hkn
      exact hI.array_disjoint i hi hkn

theorem no_self_loop {N : Type} {t : Table N} (hc : ChainOk t) (i : Nat) (hi : i < sizenode t) :
    (gnode t i).next ≠ some i := by
  intro h
  obtain ⟨r, hr⟩ := hc.rank
  have := hr i i hi h
  omega

theorem key_ne_nil_of_next {N : Type} {ops : LuaConf N} {t : Table N} (hI : Inv ops t)
    (i j : Nat) (hi : i < sizenode t) (h : (gnode t i).next = some j) :
    (gnode t i).i_key ≠ .nil := by
  intro e
  have := (hI.free i hi e).2.1
  rw [h] at this; cases this

theorem key_ne_nil_of_val {N : Type} {ops : LuaConf N} {t : Table N} (hI : Inv ops t)
    (i : Nat) (hi : i < sizenode t) (h : (gnode t i).i_val ≠ .nil) :
    (gnode t i).i_key ≠ .nil := by
  intro e
  exact h (hI.free i hi e).1

/-- Lemma B: the owner of the main position stays, the new key is chained after it in a
free node. -/
theorem inv_insert_after {N : Type} {ops : LuaConf N} (hL : ops.Lawful) (t t1 : Table N)
    (hI : Inv ops t) (k : TValue N) (mp n : Nat)
    (hmp : mp = mainposition ops t k)
    (hn : n < sizenode t) (hnfree : (gnode t n).i_key = .nil)
    (habove : ∀ i, n < i → i < sizenode t → (gnode t i).i_key ≠ .nil)
    (hnd : t.isdummy = false)
    (hmpk : (gnode t mp).i_key ≠ .nil)
    (hown : mainposition ops t (gnode t mp).i_key = mp)
    (hk : validkey ops k = true)
    (habs : ∀ i, i < sizenode t → luaV_rawequalobj ops (gnode t i).i_key k = false)
    (harr : ¬ (0 < arrayindex ops k ∧ arrayindex ops k ≤ (t.sizearray : Int)))
    (h1 : ∀ j, gnode t1 j =
      if j = n then { i_val := (gnode t n).i_val, i_key := k, next := (gnode t mp).next }
      else if j = mp then { gnode t mp with next := some n } else gnode t j)
    (hlen : t1.node.length = t.node.length)
    (hls : t1.lsizenode = t.lsizenode) (harr1 : t1.array = t.array)
    (hsa : t1.sizearray = t.sizearray) (hdum : t1.isdummy = t.isdummy)
    (hlf : t1.lastfree = n) : Inv ops t1 := by
  have hS : sizenode t1 = sizenode t := sizenode_eq_of_lsizenode hls
  have hM : ∀ x, mainposition ops t1 x = mainposition ops t x :=
    mainposition_eq_of_lsizenode ops hls
  have hmplt : mp < sizenode t := by rw [hmp]; exact mainposition_lt ops t k hI.lsize_le
  have hkne : k ≠ .nil := validkey_ne_nil ops k hk
  have hnmp : n ≠ mp := by intro e; rw [e] at hnfree; exact hmpk hnfree
  obtain ⟨hnval, hnnext, hnin⟩ := hI.free n hn hnfree
  have hkey : ∀ i, (gnode t1 i).i_key = if i = n then k else (gnode t i).i_key := by
    intro i; rw [h1]; split
    · rfl
    · split
      · rename_i e; rw [e]
      · rfl
  have hvalv : ∀ i, (gnode t1 i).i_val = (gnode t i).i_val := by
    intro i; rw [h1]; split
    · rename_i e; rw [e]
    · split
      · rename_i e; rw [e]
      · rfl
  have hnx : ∀ i, (gnode t1 i).next =
      if i = n then (gnode t mp).next else if i = mp then some n else (gnode t i).next := by
    intro i; rw [h1]; split
    · rfl
    · split <;> rfl
  -- edges of the new table
  have hedge : ∀ i j, i < sizenode t → (gnode t1 i).next = some j →
      (i = n ∧ (gnode t mp).next = some j ∧ j ≠ n) ∨ (i = mp ∧ j = n) ∨
      (i ≠ n ∧ i ≠ mp ∧ (gnode t i).next = some j ∧ j ≠ n) := by
    intro i j hi hj
    rw [hnx] at hj
    by_cases e1 : i = n
    · rw [if_pos e1] at hj
      exact Or.inl ⟨e1, hj, fun e => hnin mp hmplt (e ▸ hj)⟩
    · rw [if_neg e1] at hj
      by_cases e2 : i = mp
      · rw [if_pos e2] at hj
        exact Or.inr (Or.inl ⟨e2, (Option.some.inj hj).symm⟩)
      · rw [if_neg e2] at hj
        exact Or.inr (Or.inr ⟨e1, e2, hj, fun e => hnin i hi (e ▸ hj)⟩)
  have hreach : ∀ a b, Reach t a b → Reach t1 a b := by
    intro a b hab
    unfold Reach at hab ⊢
    induction hab with
    | refl => exact Relation.ReflTransGen.refl
    | @tail b c _ hbc ih =>
      by_cases e1 : b = n
      · rw [e1, hnnext] at hbc; cases hbc
      · by_cases e2 : b = mp
        · have s1 : (gnode t1 b).next = some n := by rw [hnx, if_neg e1, if_pos e2]
          have s2 : (gnode t1 n).next = some c := by rw [hnx, if_pos rfl, ← e2]; exact hbc
          exact (ih.tail s1).tail s2
        · have s1 : (gnode t1 b).next = some c := by rw [hnx, if_neg e1, if_neg e2]; exact hbc
          exact ih.tail s1
  constructor
  · rw [hlen, hS]; exact hI.size_eq
  · rw [hls]; exact hI.lsize_le
  · rw [hsa, harr1]; exact hI.arr_le
  · rw [hsa]; exact hI.asize_le
  · intro h; rw [hdum, hnd] at h; cases h
  · rw [hlf, hS]; exact Nat.le_of_lt hn
  · intro _ i h2 h3
    rw [hlf] at h2; rw [hS] at h3
    rw [hkey]; split
    · exact hkne
    · rename_i hne
      exact habove i (by omega) h3
  · constructor
    · intro i j hi hj
      rw [hS] at hi ⊢
      rcases hedge i j hi hj with ⟨_, h3, _⟩ | ⟨_, h3⟩ | ⟨_, _, h3, _⟩
      · exact hI.chain.next_lt mp j hmplt h3
      · rw [h3]; exact hn
      · exact hI.chain.next_lt i j hi h3
    · obtain ⟨r, hr⟩ := hI.chain.rank
      refine ⟨fun x => if x = n then 2 * r mp + 1 else 2 * r x + 2, ?_⟩
      intro i j hi hj
      rw [hS] at hi
      rcases hedge i j hi hj with ⟨h2, h3, h4⟩ | ⟨h2, h3⟩ | ⟨h2, _, h3, h4⟩
      · have := hr mp j hmplt h3
        simp only [h2, h4, if_true, if_false]; omega
      · have : ¬ mp = n := fun e => hnmp e.symm
        simp only [h2, h3, this, if_true, if_false]; omega
      · have := hr i j hi h3
        simp only [h2, h4, if_false]; omega
  · intro i i1 j hi hi1 hj hj1
    rw [hS] at hi hi1
    rcases hedge i j hi hj with ⟨h2, h3, h4⟩ | ⟨h2, h3⟩ | ⟨h2, h2b, h3, h4⟩ <;>
      rcases hedge i1 j hi1 hj1 with ⟨g2, g3, g4⟩ | ⟨g2, g3⟩ | ⟨g2, g2b, g3, g4⟩
    · rw [h2, g2]
    · exact absurd g3 h4
    · exact absurd (hI.next_inj i1 mp j hi1 hmplt g3 h3) g2b
    · exact absurd h3 g4
    · rw [h2, g2]
    · exact absurd h3 g4
    · exact absurd (hI.next_inj i mp j hi hmplt h3 g3) h2b
    · exact absurd g3 h4
    · exact hI.next_inj i i1 j hi hi1 h3 g3
  · intro i hi hkn
    rw [hS] at hi
    rw [hkey] at hkn
    have hne : i ≠ n := by
      intro e; rw [if_pos e] at hkn; exact hkne hkn
    rw [if_neg hne] at hkn
    have hne2 : i ≠ mp := by intro e; rw [e] at hkn; exact hmpk hkn
    obtain ⟨a, b, c⟩ := hI.free i hi hkn
    refine ⟨by rw [hvalv]; exact a, by rw [hnx, if_neg hne, if_neg hne2]; exact b, ?_⟩
    intro j hj hji
    rw [hS] at hj
    rcases hedge j i hj hji with ⟨_, h3, _⟩ | ⟨_, h3⟩ | ⟨_, _, h3, _⟩
    · exact c mp hmplt h3
    · exact hne h3
    · exact c j hj h3
  · intro i hi hkn
    rw [hS] at hi
    rw [hkey] at hkn ⊢
    split
    · exact hk
    · rename_i hne
      rw [if_neg hne] at hkn
      exact hI.keys_valid i hi hkn
  · intro i hi hkn
    rw [hS] at hi
    rw [hM]
    by_cases e : i = n
    · have e1 : (gnode t1 i).i_key = k := by rw [hkey, if_pos e]
      rw [e1, ← hmp, e]
      unfold Reach
      exact Relation.ReflTransGen.single (by rw [hnx, if_neg (fun e => hnmp e.symm), if_pos rfl])
    · have e1 : (gnode t1 i).i_key = (gnode t i).i_key := by rw [hkey, if_neg e]
      rw [e1] at hkn ⊢
      exact hreach _ _ (hI.reach i hi hkn)
  · intro i hi hkn
    rw [hS] at hi
    rw [hM, hM]
    by_cases e : i = n
    · have e1 : (gnode t1 i).i_key = k := by rw [hkey, if_pos e]
      rw [e1, ← hmp]
      have e2 : (gnode t1 mp).i_key = (gnode t mp).i_key := by
        rw [hkey, if_neg (fun e => hnmp e.symm)]
      rw [e2]
      exact ⟨hmpk, hown⟩
    · have e1 : (gnode t1 i).i_key = (gnode t i).i_key := by rw [hkey, if_neg e]
      rw [e1] at hkn ⊢
      obtain ⟨b1, b2⟩ := hI.brent i hi hkn
      have hMn : mainposition ops t (gnode t i).i_key ≠ n := by
        intro e3; rw [e3] at b1; exact b1 hnfree
      have e2 : (gnode t1 (mainposition ops t (gnode t i).i_key)).i_key =
          (gnode t (mainposition ops t (gnode t i).i_key)).i_key := by
        rw [hkey, if_neg hMn]
      rw [e2]
      exact ⟨b1, b2⟩
  · intro i j hi hj hkn hre
    rw [hS] at hi hj
    rw [hkey] at hkn hre
    rw [hkey] at hre
    by_cases e1 : i = n
    · by_cases e2 : j = n
      · rw [e1, e2]
      · rw [if_pos e1, if_neg e2] at hre
        have := habs j hj
        rw [rawequal_symm hL _ _ hre] at this; cases this
    · rw [if_neg e1] at hkn hre
      by_cases e2 : j = n
      · rw [if_pos e2] at hre
        have := habs i hi
        rw [hre] at this; cases this
      · rw [if_neg e2] at hre
        exact hI.nodup i j hi hj hkn hre
  · intro i hi hkn
    rw [hS] at hi
    rw [hsa]
    rw [hkey] at hkn ⊢
    split
    · exact harr
    · rename_i hne
      rw [if_neg hne] at hkn
      exact hI.array_disjoint i hi hkn

/-- Lemma C: the occupant of the main position is out of place; it moves to the free node
and the new key takes the main position (Brent's variation). -/
theorem inv_brent_move {N : Type} {ops : LuaConf N} (hL : ops.Lawful) (t t1 : Table N)
    (hI : Inv ops t) (k : TValue N) (mp n prev : Nat)
    (hmp : mp = mainposition ops t k)
    (hn : n < sizenode t) (hnfree : (gnode t n).i_key = .nil)
    (habove : ∀ i, n < i → i < sizenode t → (gnode t i).i_key ≠ .nil)
    (hnd : t.isdummy = false)
    (hmpk : (gnode t mp).i_key ≠ .nil)
    (hother : mainposition ops t (gnode t mp).i_key ≠ mp)
    (hprev : prev < sizenode t) (hprevn : (gnode t prev).next = some mp)
    (hk : validkey ops k = true)
    (habs : ∀ i, i < sizenode t → luaV_rawequalobj ops (gnode t i).i_key k = false)
    (harr : ¬ (0 < arrayindex ops k ∧ arrayindex ops k ≤ (t.sizearray : Int)))
    (h1 : ∀ j, gnode t1 j =
      if j = mp then { i_val := .nil, i_key := k, next := none }
      else if j = n then gnode t mp
      else if j = prev then { gnode t prev with next := some n } else gnode t j)
    (hlen : t1.node.length = t.node.length)
    (hls : t1.lsizenode = t.lsizenode) (harr1 : t1.array = t.array)
    (hsa : t1.sizearray = t.sizearray) (hdum : t1.isdummy = t.isdummy)
    (hlf : t1.lastfree = n) : Inv ops t1 := by
  have hS : sizenode t1 = sizenode t := sizenode_eq_of_lsizenode hls
  have hM : ∀ x, mainposition ops t1 x = mainposition ops t x :=
    mainposition_eq_of_lsizenode ops hls
  have hmplt : mp < sizenode t := by rw [hmp]; exact mainposition_lt ops t k hI.lsize_le
  have hkne : k ≠ .nil := validkey_ne_nil ops k hk
  have hnmp : n ≠ mp := by intro e; rw [e] at hnfree; exact hmpk hnfree
  have hmpn : mp ≠ n := fun e => hnmp e.symm
  obtain ⟨hnval, hnnext, hnin⟩ := hI.free n hn hnfree
  have hprevk : (gnode t prev).i_key ≠ .nil := key_ne_nil_of_next hI prev mp hprev hprevn
  have hpn : prev ≠ n := by intro e; rw [e] at hprevk; exact hprevk hnfree
  have hpmp : prev ≠ mp := by
    intro e; rw [e] at hprevn; exact no_self_loop hI.chain mp hmplt hprevn
  have hkey : ∀ i, (gnode t1 i).i_key =
      if i = mp then k else if i = n then (gnode t mp).i_key else (gnode t i).i_key := by
    intro i; rw [h1]; split
    · rfl
    · split
      · rfl
      · split
        · rename_i e; rw [e]
        · rfl
  have hvalv : ∀ i, (gnode t1 i).i_val =
      if i = mp then .nil else if i = n then (gnode t mp).i_val else (gnode t i).i_val := by
    intro i; rw [h1]; split
    · rfl
    · split
      · rfl
      · split
        · rename_i e; rw [e]
        · rfl
  have hnx : ∀ i, (gnode t1 i).next =
      if i = mp then none else if i = n then (gnode t mp).next
      else if i = prev then some n else (gnode t i).next := by
    intro i; rw [h1]; split
    · rfl
    · split
      · rfl
      · split <;> rfl
  have hedge : ∀ i j, i < sizenode t → (gnode t1 i).next = some j →
      (i = n ∧ (gnode t mp).next = some j ∧ j ≠ n ∧ j ≠ mp) ∨ (i = prev ∧ j = n) ∨
      (i ≠ n ∧ i ≠ mp ∧ i ≠ prev ∧ (gnode t i).next = some j ∧ j ≠ n ∧ j ≠ mp) := by
    intro i j hi hj
    rw [hnx] at hj
    by_cases e0 : i = mp
    · rw [if_pos e0] at hj; cases hj
    · rw [if_neg e0] at hj
      by_cases e1 : i = n
      · rw [if_pos e1] at hj
        exact Or.inl ⟨e1, hj, fun e => hnin mp hmplt (e ▸ hj),
          fun e => no_self_loop hI.chain mp hmplt (e ▸ hj)⟩
      · rw [if_neg e1] at hj
        by_cases e2 : i = prev
        · rw [if_pos e2] at hj
          exact Or.inr (Or.inl ⟨e2, (Option.some.inj hj).symm⟩)
        · rw [if_neg e2] at hj
          refine Or.inr (Or.inr ⟨e1, e0, e2, hj, fun e => hnin i hi (e ▸ hj), ?_⟩)
          intro e
          rw [e] at hj
          exact e2 (hI.next_inj i prev mp hi hprev hj hprevn)
  have hreach : ∀ a b, Reach t a b → a ≠ n →
      Reach t1 (if a = mp then n else a) (if b = mp then n else b) := by
    intro a b hab han
    unfold Reach at hab ⊢
    induction hab with
    | refl => exact Relation.ReflTransGen.refl
    | @tail b c _ hbc ih =>
      have hbn : b ≠ n := by intro e; rw [e, hnnext] at hbc; cases hbc
      by_cases e0 : b = mp
      · rw [if_pos e0] at ih
        have hcmp : c ≠ mp := by
          intro e; rw [e0, e] at hbc; exact no_self_loop hI.chain mp hmplt hbc
        rw [if_neg hcmp]
        have s1 : (gnode t1 n).next = some c := by
          rw [hnx, if_neg hnmp, if_pos rfl, ← e0]; exact hbc
        exact ih.tail s1
      · rw [if_neg e0] at ih
        by_cases e2 : b = prev
        · have hc : c = mp := by
            rw [e2, hprevn] at hbc; exact (Option.some.inj hbc).symm
          rw [if_pos hc]
          have s1 : (gnode t1 b).next = some n := by
            rw [hnx, if_neg e0, if_neg hbn, if_pos e2]
          exact ih.tail s1
        · have hcmp : c ≠ mp := by
            intro e; rw [e] at hbc
            have hb : b < sizenode t := by
              by_contra hb
              have : gnode t b = dummynode_ := by
                unfold gnode
                rw [List.getD_eq_default]
                rw [hI.size_eq]; omega
              rw [this] at hbc; simp [dummynode_] at hbc
            exact e2 (hI.next_inj b prev mp hb hprev hbc hprevn)
          rw [if_neg hcmp]
          have s1 : (gnode t1 b).next = some c := by
            rw [hnx, if_neg e0, if_neg hbn, if_neg e2]; exact hbc
          exact ih.tail s1
  constructor
  · rw [hlen, hS]; exact hI.size_eq
  · rw [hls]; exact hI.lsize_le
  · rw [hsa, harr1]; exact hI.arr_le
  · rw [hsa]; exact hI.asize_le
  · intro h; rw [hdum, hnd] at h; cases h
  · rw [hlf, hS]; exact Nat.le_of_lt hn
  · intro _ i h2 h3
    rw [hlf] at h2; rw [hS] at h3
    rw [hkey]; split
    · exact hkne
    · split
      · exact hmpk
      · rename_i hne
        exact habove i (by omega) h3
  · constructor
    · intro i j hi hj
      rw [hS] at hi ⊢
      rcases hedge i j hi hj with ⟨_, h3, _⟩ | ⟨_, h3⟩ | ⟨_, _, _, h3, _⟩
      · exact hI.chain.next_lt mp j hmplt h3
      · rw [h3]; exact hn
      · exact hI.chain.next_lt i j hi h3
    · obtain ⟨r, hr⟩ := hI.chain.rank
      refine ⟨fun x => if x = n then r mp else r x, ?_⟩
      intro i j hi hj
      rw [hS] at hi
      rcases hedge i j hi hj with ⟨h2, h3, h4, _⟩ | ⟨h2, h3⟩ | ⟨h2, _, _, h3, h4, _⟩
      · have := hr mp j hmplt h3
        simp only [h2, h4, if_true, if_false]; omega
      · have := hr prev mp hprev hprevn
        simp only [h2, h3, hpn, if_true, if_false]; omega
      · have := hr i j hi h3
        simp only [h2, h4, if_false]; omega
  · intro i i1 j hi hi1 hj hj1
    rw [hS] at hi hi1
    rcases hedge i j hi hj with ⟨h2, h3, h4, h5⟩ | ⟨h2, h3⟩ | ⟨h2, h2b, h2c, h3, h4, h5⟩ <;>
      rcases hedge i1 j hi1 hj1 with ⟨g2, g3, g4, g5⟩ | ⟨g2, g3⟩ | ⟨g2, g2b, g2c, g3, g4, g5⟩
    · rw [h2, g2]
    · exact absurd g3 h4
    · exact absurd (hI.next_inj i1 mp j hi1 hmplt g3 h3) g2b
    · exact absurd h3 g4
    · rw [h2, g2]
    · exact absurd h3 g4
    · exact absurd (hI.next_inj i mp j hi hmplt h3 g3) h2b
    · exact absurd g3 h4
    · exact hI.next_inj i i1 j hi hi1 h3 g3
  · intro i hi hkn
    rw [hS] at hi
    rw [hkey] at hkn
    have hne0 : i ≠ mp := by
      intro e; rw [if_pos e] at hkn; exact hkne hkn
    rw [if_neg hne0] at hkn
    have hne : i ≠ n := by
      intro e; rw [if_pos e] at hkn; exact hmpk hkn
    rw [if_neg hne] at hkn
    have hne2 : i ≠ prev := by intro e; rw [e] at hkn; exact hprevk hkn
    obtain ⟨a, b, c⟩ := hI.free i hi hkn
    refine ⟨by rw [hvalv, if_neg hne0, if_neg hne]; exact a,
      by rw [hnx, if_neg hne0, if_neg hne, if_neg hne2]; exact b, ?_⟩
    intro j hj hji
    rw [hS] at hj
    rcases hedge j i hj hji with ⟨_, h3, _⟩ | ⟨_, h3⟩ | ⟨_, _, _, h3, _⟩
    · exact c mp hmplt h3
    · exact hne h3
    · exact c j hj h3
  · intro i hi hkn
    rw [hS] at hi
    rw [hkey] at hkn ⊢
    split
    · exact hk
    · rename_i hne0
      rw [if_neg hne0] at hkn
      split
      · exact hI.keys_valid mp hmplt hmpk
      · rename_i hne
        rw [if_neg hne] at hkn
        exact hI.keys_valid i hi hkn
  · intro i hi hkn
    rw [hS] at hi
    rw [hM]
    by_cases e0 : i = mp
    · have e1 : (gnode t1 i).i_key = k := by rw [hkey, if_pos e0]
      rw [e1, ← hmp, e0]
      exact Relation.ReflTransGen.refl
    · by_cases e : i = n
      · have e1 : (gnode t1 i).i_key = (gnode t mp).i_key := by
          rw [hkey, if_neg e0, if_pos e]
        rw [e1, e]
        have h3 := hreach _ _ (hI.reach mp hmplt hmpk)
          (by intro e3
              have := (hI.brent mp hmplt hmpk).1
              rw [e3] at this; exact this hnfree)
        rw [if_neg hother, if_pos rfl] at h3
        exact h3
      · have e1 : (gnode t1 i).i_key = (gnode t i).i_key := by
          rw [hkey, if_neg e0, if_neg e]
        rw [e1] at hkn ⊢
        obtain ⟨b1, b2⟩ := hI.brent i hi hkn
        have hMn : mainposition ops t (gnode t i).i_key ≠ n := by
          intro e3; rw [e3] at b1; exact b1 hnfree
        have hMmp : mainposition ops t (gnode t i).i_key ≠ mp := by
          intro e3; rw [e3] at b2; exact hother b2
        have h3 := hreach _ _ (hI.reach i hi hkn) hMn
        rw [if_neg hMmp, if_neg e0] at h3
        exact h3
  · intro i hi hkn
    rw [hS] at hi
    rw [hM, hM]
    by_cases e0 : i = mp
    · have e1 : (gnode t1 i).i_key = k := by rw [hkey, if_pos e0]
      rw [e1, ← hmp]
      have e2 : (gnode t1 mp).i_key = k := by rw [hkey, if_pos rfl]
      rw [e2]
      exact ⟨hkne, hmp.symm⟩
    · have key2 : ∀ x : TValue N,
          (gnode t (mainposition ops t x)).i_key ≠ .nil →
          mainposition ops t (gnode t (mainposition ops t x)).i_key = mainposition ops t x →
          mainposition ops t x ≠ mp →
          (gnode t1 (mainposition ops t x)).i_key ≠ .nil ∧
          mainposition ops t (gnode t1 (mainposition ops t x)).i_key =
            mainposition ops t x := by
        intro x b1 b2 b3
        have hMn : mainposition ops t x ≠ n := by
          intro e3; rw [e3] at b1; exact b1 hnfree
        have e2 : (gnode t1 (mainposition ops t x)).i_key =
            (gnode t (mainposition ops t x)).i_key := by
          rw [hkey, if_neg b3, if_neg hMn]
        rw [e2]
        exact ⟨b1, b2⟩
      by_cases e : i = n
      · have e1 : (gnode t1 i).i_key = (gnode t mp).i_key := by
          rw [hkey, if_neg e0, if_pos e]
        rw [e1]
        obtain ⟨b1, b2⟩ := hI.brent mp hmplt hmpk
        exact key2 _ b1 b2 hother
      · have e1 : (gnode t1 i).i_key = (gnode t i).i_key := by
          rw [hkey, if_neg e0, if_neg e]
        rw [e1] at hkn ⊢
        obtain ⟨b1, b2⟩ := hI.brent i hi hkn
        exact key2 _ b1 b2 (by intro e3; rw [e3] at b2; exact hother b2)
  · intro i j hi hj hkn hre
    rw [hS] at hi hj
    have hK : ∀ x, x < sizenode t → ∃ y, y < sizenode t ∧
        (gnode t1 x).i_key = (if x = mp then k else (gnode t y).i_key) ∧
        (x ≠ mp → (y = x ∧ x ≠ n) ∨ (y = mp ∧ x = n)) := by
      intro x hx
      by_cases e0 : x = mp
      · exact ⟨x, hx, by rw [hkey, if_pos e0, if_pos e0], fun h => absurd e0 h⟩
      · by_cases e : x = n
        · exact ⟨mp, hmplt, by rw [hkey, if_neg e0, if_pos e, if_neg e0],
            fun _ => Or.inr ⟨rfl, e⟩⟩
        · exact ⟨x, hx, by rw [hkey, if_neg e0, if_neg e, if_neg e0],
            fun _ => Or.inl ⟨rfl, e⟩⟩
    obtain ⟨y, hy, ey, cy⟩ := hK i hi
    obtain ⟨z, hz, ez, cz⟩ := hK j hj
    rw [ey] at hkn hre
    rw [ez] at hre
    by_cases e1 : i = mp
    · by_cases e2 : j = mp
      · rw [e1, e2]
      · rw [if_pos e1, if_neg e2] at hre
        have := habs z hz
        rw [rawequal_symm hL _ _ hre] at this; cases this
    · rw [if_neg e1] at hkn hre
      by_cases e2 : j = mp
      · rw [if_pos e2] at hre
        have := habs y hy
        rw [hre] at this; cases this
      · rw [if_neg e2] at hre
        have hyz := hI.nodup y z hy hz hkn hre
        rcases cy e1 with ⟨c1, c2⟩ | ⟨c1, c2⟩ <;> rcases cz e2 with ⟨d1, d2⟩ | ⟨d1, d2⟩
        · omega
        · exfalso; apply e1; omega
        · exfalso; apply e2; omega
        · omega
  · intro i hi hkn
    rw [hS] at hi
    rw [hsa]
    rw [hkey] at hkn ⊢
    split
    · exact harr
    · rename_i hne0
      rw [if_neg hne0] at hkn
      split
      · exact hI.array_disjoint mp hmplt hmpk
      · rename_i hne
        rw [if_neg hne] at hkn
        exact hI.array_disjoint i hi hkn

theorem getfreepos_loop_spec {N : Type} (t : Table N) : ∀ lf : Nat,
    (∀ n, (getfreepos_loop t lf).2 = some n →
      n < lf ∧ (getfreepos_loop t lf).1 = n ∧ (gnode t n).i_key = .nil ∧
      ∀ i, n < i → i < lf → (gnode t i).i_key ≠ .nil) ∧
    ((getfreepos_loop t lf).2 = none →
      (getfreepos_loop t lf).1 = 0 ∧ ∀ i, i < lf → (gnode t i).i_key ≠ .nil) := by
  intro lf
  induction lf with
  | zero =>
    refine ⟨?_, ?_⟩
    · intro n h; simp [getfreepos_loop] at h
    · intro _; exact ⟨rfl, fun i hi => absurd hi (Nat.not_lt_zero i)⟩
  | succ lf ih =>
    by_cases hk : ttisnil (gnode t lf).i_key = true
    · have e : getfreepos_loop t (lf + 1) = (lf, some lf) := by
        simp [getfreepos_loop, hk]
      rw [e]
      refine ⟨?_, ?_⟩
      · intro n h
        simp only [Option.some.injEq] at h
        subst h
        exact ⟨Nat.lt_succ_self _, rfl, (ttisnil_true_iff _).mp hk, fun i h1 h2 => by omega⟩
      · intro h; cases h
    · have e : getfreepos_loop t (lf + 1) = getfreepos_loop t lf := by
        simp [getfreepos_loop, hk]
      rw [e]
      have hkn : (gnode t lf).i_key ≠ .nil := by
        intro e1; rw [e1] at hk; simp [ttisnil] at hk
      refine ⟨?_, ?_⟩
      · intro n h
        obtain ⟨a, b, c, d⟩ := ih.1 n h
        refine ⟨by omega, b, c, ?_⟩
        intro i h1 h2
        by_cases e2 : i = lf
        · rw [e2]; exact hkn
        · exact d i h1 (by omega)
      · intro h
        obtain ⟨a, b⟩ := ih.2 h
        refine ⟨a, ?_⟩
        intro i h2
        by_cases e2 : i = lf
        · rw [e2]; exact hkn
        · exact b i (by omega)

theorem findprev_eq_walk {N : Type} (t : Table N) (mp : Nat) : ∀ (f n : Nat),
    findprev t mp f n =
      match walk t (fun nd => nd.next == some mp) f n with
      | .ok (some i) => .ok i
      | .ok none => .error .undefined
      | .error e => .error e := by
  intro f
  induction f with
  | zero => intro n; rfl
  | succ f ih =>
    intro n
    simp only [findprev, walk]
    rcases Option.eq_none_or_eq_some (gnode t n).next with hnx | ⟨nx, hnx⟩
    · simp only [hnx]; simp
    · simp only [hnx]
      by_cases e : nx = mp
      · simp [e]
      · have : (some nx == some mp) = false := by simp [e]
        simp only [this, e, if_false, Bool.false_eq_true]
        exact ih nx

theorem findprev_spec {N : Type} (t : Table N) (hc : ChainOk t) (mp othern : Nat)
    (ho : othern < sizenode t) (hne : othern ≠ mp) (hr : Reach t othern mp) :
    ∃ prev, findprev t mp (sizenode t) othern = .ok prev ∧ prev < sizenode t ∧
      (gnode t prev).next = some mp := by
  rw [findprev_eq_walk]
  rcases walk_spec t hc (fun nd => nd.next == some mp) othern ho with
    ⟨i, h1, h2, _, h4⟩ | ⟨_, h2⟩
  · refine ⟨i, by rw [h1], h2, ?_⟩
    simpa using h4
  · exfalso
    unfold Reach at hr
    rcases Relation.ReflTransGen.cases_tail hr with h3 | ⟨b, h3, h4⟩
    · exact hne h3.symm
    · have := h2 b h3
      simp [h4] at this

theorem get_loop_congr {N : Type} (ops : LuaConf N) (t t1 : Table N) (k : TValue N)
    (hk : ∀ i, (gnode t1 i).i_key = (gnode t i).i_key)
    (hn : ∀ i, (gnode t1 i).next = (gnode t i).next) :
    ∀ (f n : Nat), get_loop ops t1 k f n = get_loop ops t k f n := by
  intro f
  induction f with
  | zero => intro n; rfl
  | succ f ih =>
    intro n
    simp only [get_loop, hk, hn]
    split
    · rfl
    · cases (gnode t n).next with
      | none => rfl
      | some n1 => exact ih n1

theorem luaH_get_congr {N : Type} {ops : LuaConf N} (hL : ops.Lawful) (t t1 : Table N)
    (hs : t.sizearray ≤ MAXASIZE)
    (hk : ∀ i, (gnode t1 i).i_key = (gnode t i).i_key)
    (hn : ∀ i, (gnode t1 i).next = (gnode t i).next)
    (hls : t1.lsizenode = t.lsizenode) (hsa : t1.sizearray = t.sizearray) (k : TValue N) :
    luaH_get ops t1 k = luaH_get ops t k := by
  rw [luaH_get_eq hL t hs, luaH_get_eq hL t1 (by rw [hsa]; exact hs)]
  rw [hsa, sizenode_eq_of_lsizenode hls, mainposition_eq_of_lsizenode ops hls,
    get_loop_congr ops t t1 k hk hn]

/-- Lookup of a key outside the array range: the node that holds it, or nil. -/
theorem luaH_get_hash {N : Type} {ops : LuaConf N} (hL : ops.Lawful) (t : Table N)
    (hI : Inv ops t) (k : TValue N) (hk : ttisnil k = false)
    (harr : ¬ (0 < arrayindex ops k ∧ arrayindex ops k ≤ (t.sizearray : Int))) :
    (∃ i, i < sizenode t ∧ luaV_rawequalobj ops (gnode t i).i_key k = true ∧
      luaH_get ops t k = .ok (.val i)) ∨
    ((∀ i, i < sizenode t → luaV_rawequalobj ops (gnode t i).i_key k = false) ∧
      luaH_get ops t k = .ok .nilobject) := by
  rw [luaH_get_eq hL t hI.asize_le]
  simp only [hk, Bool.false_eq_true, if_false, if_neg harr]
  exact get_loop_spec hL t hI k ((ttisnil_false_iff k).mp hk)

theorem luaH_get_array {N : Type} {ops : LuaConf N} (hL : ops.Lawful) (t : Table N)
    (hs : t.sizearray ≤ MAXASIZE) (k : TValue N)
    (harr : 0 < arrayindex ops k ∧ arrayindex ops k ≤ (t.sizearray : Int)) :
    luaH_get ops t k = .ok (.arr (arrayindex ops k - 1).toNat) := by
  rw [luaH_get_eq hL t hs]
  have hk : ttisnil k = false := by
    cases k <;> simp [ttisnil, arrayindex] at harr ⊢
  simp only [hk, Bool.false_eq_true, if_false, if_pos harr]

/-- Lookup never fails on a table that satisfies the invariant. -/
theorem luaH_get_total {N : Type} {ops : LuaConf N} (hL : ops.Lawful) (t : Table N)
    (hI : Inv ops t) (k : TValue N) : ∃ c, luaH_get ops t k = .ok c := by
  by_cases hk : ttisnil k = true
  · exact ⟨.nilobject, by rw [luaH_get_eq hL t hI.asize_le, if_pos hk]⟩
  · by_cases harr : 0 < arrayindex ops k ∧ arrayindex ops k ≤ (t.sizearray : Int)
    · exact ⟨_, luaH_get_array hL t hI.asize_le k harr⟩
    · rcases luaH_get_hash hL t hI k (by simpa using hk) harr with ⟨i, _, _, h⟩ | ⟨_, h⟩
      · exact ⟨_, h⟩
      · exact ⟨_, h⟩

theorem luaH_get_rawequal {N : Type} {ops : LuaConf N} (hL : ops.Lawful) (t : Table N)
    (hI : Inv ops t) (k k1 : TValue N) (h : luaV_rawequalobj ops k k1 = true) :
    luaH_get ops t k1 = luaH_get ops t k := by
  by_cases hk : ttisnil k = true
  · have e := (ttisnil_true_iff k).mp hk
    rw [e] at h
    rw [e, (rawequal_nil_left ops k1).mp h]
  · have hk0 : ttisnil k = false := by simpa using hk
    have hk1 : ttisnil k1 = false := by
      rw [ttisnil_false_iff]
      intro e; rw [e] at h
      exact (ttisnil_false_iff k).mp hk0 ((rawequal_nil_iff ops k).mp h)
    have ha := arrayindex_congr hL k k1 h
    by_cases harr : 0 < arrayindex ops k ∧ arrayindex ops k ≤ (t.sizearray : Int)
    · rw [luaH_get_array hL t hI.asize_le k harr,
        luaH_get_array hL t hI.asize_le k1 (by rw [← ha]; exact harr), ha]
    · have harr1 : ¬ (0 < arrayindex ops k1 ∧ arrayindex ops k1 ≤ (t.sizearray : Int)) := by
        rw [← ha]; exact harr
      rcases luaH_get_hash hL t hI k hk0 harr with ⟨i, hi, h1, h2⟩ | ⟨h1, h2⟩ <;>
        rcases luaH_get_hash hL t hI k1 hk1 harr1 with ⟨j, hj, g1, g2⟩ | ⟨g1, g2⟩
      · rw [h2, g2]
        have := haskey_unique hL t hI k1 ((ttisnil_false_iff k1).mp hk1) i j hi hj
          (rawequal_trans hL _ _ _ h1 h) g1
        rw [this]
      · have := g1 i hi
        rw [rawequal_trans hL _ _ _ h1 h] at this; cases this
      · have := h1 j hj
        rw [rawequal_trans hL _ _ _ g1 (rawequal_symm hL _ _ h)] at this; cases this
      · rw [h2, g2]

theorem arrayindex_pos {N : Type} (ops : LuaConf N) (k : TValue N)
    (hi : 0 < arrayindex ops k) :
    ∃ n, k = .number n ∧ ops.luai_numeq (ops.cast_num (arrayindex ops k)) n = true := by
  cases k with
  | number n =>
    refine ⟨n, rfl, ?_⟩
    simp only [arrayindex] at hi ⊢
    by_cases h : ops.luai_numeq (ops.cast_num (cast_int (ops.lua_number2int n))) n = true
    · rw [if_pos h]; exact h
    · rw [if_neg h] at hi; omega
  | nil => simp [arrayindex] at hi
  | boolean b => simp [arrayindex] at hi
  | lightuserdata b => simp [arrayindex] at hi
  | lcf b => simp [arrayindex] at hi
  | gc a b => simp [arrayindex] at hi
  | deadkey b => simp [arrayindex] at hi

theorem rawequal_of_arrayindex {N : Type} {ops : LuaConf N} (hL : ops.Lawful)
    (k k1 : TValue N) (hi : 0 < arrayindex ops k) (he : arrayindex ops k1 = arrayindex ops k) :
    luaV_rawequalobj ops k k1 = true := by
  obtain ⟨n, e, h⟩ := arrayindex_pos ops k hi
  obtain ⟨n1, e1, h1⟩ := arrayindex_pos ops k1 (by rw [he]; exact hi)
  rw [he] at h1
  rw [e, e1]
  simp only [luaV_rawequalobj]
  exact hL.numeq_trans _ _ _ (hL.numeq_symm _ _ h) h1

theorem getval_nil {N : Type} (ops : LuaConf N) (t : Table N) : getval ops t .nil = .nil := by
  simp [getval, luaH_get, Table.read]

theorem getval_array {N : Type} {ops : LuaConf N} (hL : ops.Lawful) (t : Table N)
    (hs : t.sizearray ≤ MAXASIZE) (k : TValue N)
    (harr : 0 < arrayindex ops k ∧ arrayindex ops k ≤ (t.sizearray : Int)) :
    getval ops t k = t.array.getD (arrayindex ops k - 1).toNat .nil := by
  unfold getval
  rw [luaH_get_array hL t hs k harr]
  rfl

theorem getval_hash_some {N : Type} {ops : LuaConf N} (hL : ops.Lawful) (t : Table N)
    (hI : Inv ops t) (k : TValue N) (hk : ttisnil k = false)
    (harr : ¬ (0 < arrayindex ops k ∧ arrayindex ops k ≤ (t.sizearray : Int)))
    (i : Nat) (hi : i < sizenode t) (h : luaV_rawequalobj ops (gnode t i).i_key k = true) :
    luaH_get ops t k = .ok (.val i) ∧ getval ops t k = (gnode t i).i_val := by
  rcases luaH_get_hash hL t hI k hk harr with ⟨j, hj, h1, h2⟩ | ⟨h1, _⟩
  · have e := haskey_unique hL t hI k ((ttisnil_false_iff k).mp hk) i j hi hj h h1
    unfold getval
    rw [h2, e]
    exact ⟨rfl, rfl⟩
  · have := h1 i hi
    rw [h] at this; cases this

theorem getval_hash_none {N : Type} {ops : LuaConf N} (hL : ops.Lawful) (t : Table N)
    (hI : Inv ops t) (k : TValue N) (hk : ttisnil k = false)
    (harr : ¬ (0 < arrayindex ops k ∧ arrayindex ops k ≤ (t.sizearray : Int)))
    (h : ∀ i, i < sizenode t → luaV_rawequalobj ops (gnode t i).i_key k = false) :
    luaH_get ops t k = .ok .nilobject ∧ getval ops t k = .nil := by
  rcases luaH_get_hash hL t hI k hk harr with ⟨j, hj, h1, _⟩ | ⟨_, h2⟩
  · have := h j hj
    rw [h1] at this; cases this
  · unfold getval
    rw [h2]
    exact ⟨rfl, rfl⟩

/-- A lookup that returns `luaO_nilobject` for a non-nil key: the key is outside the array
range and in no node. -/
theorem absent_of_get_nilobject {N : Type} {ops : LuaConf N} (hL : ops.Lawful) (t : Table N)
    (hI : Inv ops t) (k : TValue N) (hk : ttisnil k = false)
    (h : luaH_get ops t k = .ok .nilobject) :
    ¬ (0 < arrayindex ops k ∧ arrayindex ops k ≤ (t.sizearray : Int)) ∧
    ∀ i, i < sizenode t → luaV_rawequalobj ops (gnode t i).i_key k = false := by
  have harr : ¬ (0 < arrayindex ops k ∧ arrayindex ops k ≤ (t.sizearray : Int)) := by
    intro h1
    rw [luaH_get_array hL t hI.asize_le k h1] at h
    cases h
  refine ⟨harr, ?_⟩
  rcases luaH_get_hash hL t hI k hk harr with ⟨j, _, _, h2⟩ | ⟨h1, _⟩
  · rw [h2] at h; cases h
  · exact h1

/-- Two non-nil keys that are looked up in the same slot are raw-equal. -/
theorem get_same_cell {N : Type} {ops : LuaConf N} (hL : ops.Lawful) (t : Table N)
    (hI : Inv ops t) (k k1 : TValue N) (hk : ttisnil k = false) (hk1 : ttisnil k1 = false)
    (c : Cell) (hc : luaH_get ops t k = .ok c) (hc1 : luaH_get ops t k1 = .ok c)
    (hcn : c ≠ .nilobject) : luaV_rawequalobj ops k k1 = true := by
  by_cases harr : 0 < arrayindex ops k ∧ arrayindex ops k ≤ (t.sizearray : Int)
  · rw [luaH_get_array hL t hI.asize_le k harr] at hc
    by_cases harr1 : 0 < arrayindex ops k1 ∧ arrayindex ops k1 ≤ (t.sizearray : Int)
    · rw [luaH_get_array hL t hI.asize_le k1 harr1, ← Except.ok.inj hc] at hc1
      have e := Cell.arr.inj (Except.ok.inj hc1)
      exact rawequal_of_arrayindex hL k k1 harr.1 (by omega)
    · rcases luaH_get_hash hL t hI k1 hk1 harr1 with ⟨j, _, _, h2⟩ | ⟨_, h2⟩
      · rw [h2, ← Except.ok.inj hc] at hc1; cases hc1
      · rw [h2, ← Except.ok.inj hc] at hc1; cases hc1
  · rcases luaH_get_hash hL t hI k hk harr with ⟨i, hi, h1, h2⟩ | ⟨_, h2⟩
    · rw [h2] at hc
      by_cases harr1 : 0 < arrayindex ops k1 ∧ arrayindex ops k1 ≤ (t.sizearray : Int)
      · rw [luaH_get_array hL t hI.asize_le k1 harr1, ← Except.ok.inj hc] at hc1; cases hc1
      · rcases luaH_get_hash hL t hI k1 hk1 harr1 with ⟨j, hj, g1, g2⟩ | ⟨_, g2⟩
        · rw [g2, ← Except.ok.inj hc] at hc1
          have e := Cell.val.inj (Except.ok.inj hc1)
          rw [e] at g1
          exact rawequal_trans hL _ _ _ (rawequal_symm hL _ _ h1) g1
        · rw [g2, ← Except.ok.inj hc] at hc1; cases hc1
    · rw [h2] at hc
      exact absurd (Except.ok.inj hc).symm hcn

/-- Storing a value into the slot of a key. -/
theorem write_spec {N : Type} {ops : LuaConf N} (hL : ops.Lawful) (t : Table N)
    (hI : Inv ops t) (k : TValue N) (hk : ttisnil k = false) (c : Cell)
    (hc : luaH_get ops t k = .ok c) (hcn : c ≠ .nilobject) (v : TValue N) :
    Inv ops (t.write c v) ∧
    (∀ k1, luaH_get ops (t.write c v) k1 = luaH_get ops t k1) ∧
    (∀ k1, getval ops (t.write c v) k1 =
      if luaV_rawequalobj ops k k1 = true then v else getval ops t k1) ∧
    (t.write c v).array.length = t.array.length ∧
    (t.write c v).sizearray = t.sizearray ∧
    (t.write c v).lsizenode = t.lsizenode ∧
    (t.write c v).isdummy = t.isdummy := by
  -- the slot is in bounds and its node has a key
  have hcell : (∃ j, c = .arr j ∧ j < t.array.length) ∨
      (∃ i, c = .val i ∧ i < sizenode t ∧ (gnode t i).i_key ≠ .nil) := by
    by_cases harr : 0 < arrayindex ops k ∧ arrayindex ops k ≤ (t.sizearray : Int)
    · rw [luaH_get_array hL t hI.asize_le k harr] at hc
      left
      refine ⟨_, (Except.ok.inj hc).symm, ?_⟩
      have := hI.arr_le
      omega
    · rcases luaH_get_hash hL t hI k hk harr with ⟨i, hi, h1, h2⟩ | ⟨_, h2⟩
      · rw [h2] at hc
        right
        exact ⟨i, (Except.ok.inj hc).symm, hi, key_ne_nil_of_rawequal ops _ k hk h1⟩
      · rw [h2] at hc
        exact absurd (Except.ok.inj hc).symm hcn
  have hkeys : ∀ i, (gnode (t.write c v) i).i_key = (gnode t i).i_key := by
    intro i
    rcases hcell with ⟨j, e, _⟩ | ⟨i0, e, hi0, _⟩
    · rw [e]; rfl
    · rw [e, gnode_write_val t i0 v i (by rw [hI.size_eq]; exact hi0)]
      split
      · rename_i e1; rw [e1]
      · rfl
  have hnexts : ∀ i, (gnode (t.write c v) i).next = (gnode t i).next := by
    intro i
    rcases hcell with ⟨j, e, _⟩ | ⟨i0, e, hi0, _⟩
    · rw [e]; rfl
    · rw [e, gnode_write_val t i0 v i (by rw [hI.size_eq]; exact hi0)]
      split
      · rename_i e1; rw [e1]
      · rfl
  have hls : (t.write c v).lsizenode = t.lsizenode := by
    rcases hcell with ⟨j, e, _⟩ | ⟨i0, e, _, _⟩ <;> rw [e] <;> rfl
  have hsa : (t.write c v).sizearray = t.sizearray := by
    rcases hcell with ⟨j, e, _⟩ | ⟨i0, e, _, _⟩ <;> rw [e] <;> rfl
  have hdum : (t.write c v).isdummy = t.isdummy := by
    rcases hcell with ⟨j, e, _⟩ | ⟨i0, e, _, _⟩ <;> rw [e] <;> rfl
  have hlf : (t.write c v).lastfree = t.lastfree := by
    rcases hcell with ⟨j, e, _⟩ | ⟨i0, e, _, _⟩ <;> rw [e] <;> rfl
  have hal : (t.write c v).array.length = t.array.length := by
    rcases hcell with ⟨j, e, _⟩ | ⟨i0, e, _, _⟩ <;> rw [e]
    · simp [Table.write]
    · rfl
  have hnl : (t.write c v).node.length = t.node.length := by
    rcases hcell with ⟨j, e, _⟩ | ⟨i0, e, _, _⟩ <;> rw [e]
    · rfl
    · simp [Table.write]
  have hS : sizenode (t.write c v) = sizenode t := sizenode_eq_of_lsizenode hls
  have hM : ∀ x, mainposition ops (t.write c v) x = mainposition ops t x :=
    mainposition_eq_of_lsizenode ops hls
  have hget : ∀ k1, luaH_get ops (t.write c v) k1 = luaH_get ops t k1 :=
    luaH_get_congr hL t _ hI.asize_le hkeys hnexts hls hsa
  have hread : ∀ c1, (t.write c v).read c1 = if c1 = c then v else t.read c1 := by
    intro c1
    rcases hcell with ⟨j, e, hj⟩ | ⟨i0, e, hi0, _⟩
    · rw [e]
      cases c1 with
      | nilobject => simp [Table.read]
      | val i => simp [Table.read, Table.write, gnode]
      | arr i =>
        simp only [Table.read, Table.write, Cell.arr.injEq]
        simp only [List.getD_eq_getElem?_getD, List.getElem?_set]
        by_cases e1 : i = j
        · subst e1; simp [hj]
        · have : ¬ j = i := fun e2 => e1 e2.symm
          simp [e1, this]
    · rw [e]
      cases c1 with
      | nilobject => simp [Table.read]
      | arr i => simp [Table.read, Table.write]
      | val i =>
        simp only [Table.read, Cell.val.injEq]
        rw [gnode_write_val t i0 v i (by rw [hI.size_eq]; exact hi0)]
        split <;> rfl
  refine ⟨?_, hget, ?_, hal, hsa, hls, hdum⟩
  · constructor
    · rw [hnl, hS]; exact hI.size_eq
    · rw [hls]; exact hI.lsize_le
    · rw [hsa, hal]; exact hI.arr_le
    · rw [hsa]; exact hI.asize_le
    · intro h; rw [hdum] at h
      obtain ⟨a, b, d⟩ := hI.dummy h
      exact ⟨by rw [hls]; exact a, by rw [hkeys]; exact b, by rw [hlf]; exact d⟩
    · rw [hlf, hS]; exact hI.lastfree_le
    · intro h i h2 h3
      rw [hdum] at h; rw [hlf] at h2; rw [hS] at h3
      rw [hkeys]; exact hI.lastfree_used h i h2 h3
    · constructor
      · intro i j hi hj
        rw [hS] at hi ⊢; rw [hnexts] at hj
        exact hI.chain.next_lt i j hi hj
      · obtain ⟨r, hr⟩ := hI.chain.rank
        refine ⟨r, ?_⟩
        intro i j hi hj
        rw [hS] at hi; rw [hnexts] at hj
        exact hr i j hi hj
    · intro i i1 j hi hi1 hj hj1
      rw [hS] at hi hi1; rw [hnexts] at hj hj1
      exact hI.next_inj i i1 j hi hi1 hj hj1
    · intro i hi hkn
      rw [hS] at hi; rw [hkeys] at hkn
      obtain ⟨a, b, d⟩ := hI.free i hi hkn
      refine ⟨?_, by rw [hnexts]; exact b, ?_⟩
      · have hr := hread (.val i)
        simp only [Table.read] at hr
        rw [hr]
        split
        · rename_i e
          rcases hcell with ⟨j, e1, _⟩ | ⟨i0, e1, _, h0⟩
          · rw [e1] at e; cases e
          · rw [e1] at e
            rw [Cell.val.inj e] at hkn
            exact absurd hkn h0
        · exact a
      · intro j hj
        rw [hS] at hj; rw [hnexts]
        exact d j hj
    · intro i hi hkn
      rw [hS] at hi; rw [hkeys] at hkn ⊢
      exact hI.keys_valid i hi hkn
    · intro i hi hkn
      rw [hS] at hi; rw [hkeys] at hkn ⊢
      rw [reach_congr hnexts, hM]
      exact hI.reach i hi hkn
    · intro i hi hkn
      rw [hS] at hi; rw [hkeys] at hkn
      rw [hM, hM, hkeys, hkeys]
      exact hI.brent i hi hkn
    · intro i j hi hj hkn hre
      rw [hS] at hi hj; rw [hkeys] at hkn hre; rw [hkeys] at hre
      exact hI.nodup i j hi hj hkn hre
    · intro i hi hkn
      rw [hS] at hi; rw [hkeys] at hkn ⊢; rw [hsa]
      exact hI.array_disjoint i hi hkn
  · intro k1
    unfold getval
    rw [hget]
    obtain ⟨c1, hc1⟩ := luaH_get_total hL t hI k1
    rw [hc1]
    simp only []
    rw [hread]
    by_cases hre : luaV_rawequalobj ops k k1 = true
    · rw [if_pos hre]
      have := luaH_get_rawequal hL t hI k k1 hre
      rw [hc1, hc] at this
      rw [if_pos (Except.ok.inj this)]
    · rw [if_neg hre]
      split
      · rename_i e
        exfalso
        rw [e] at hc1
        have hk1 : ttisnil k1 = false := by
          rw [ttisnil_false_iff]
          intro e2
          rw [e2] at hc1
          simp [luaH_get] at hc1
          exact hcn hc1.symm
        exact hre (get_same_cell hL t hI k k1 hk hk1 c hc hc1 hcn)
      · rfl

/-- Two tables with the same array part whose nodes hold the same live entries read the
same value under every key. -/
theorem getval_eq_of_content {N : Type} {ops : LuaConf N} (hL : ops.Lawful) (t t1 : Table N)
    (hI : Inv ops t) (hI1 : Inv ops t1)
    (ha : ∀ j, j < t.sizearray → t1.array.getD j .nil = t.array.getD j .nil)
    (hsa : t1.sizearray = t.sizearray)
    (H1 : ∀ i, i < sizenode t → (gnode t i).i_key ≠ .nil → (gnode t i).i_val ≠ .nil →
      ∃ j, j < sizenode t1 ∧ (gnode t1 j).i_key = (gnode t i).i_key ∧
        (gnode t1 j).i_val = (gnode t i).i_val)
    (H2 : ∀ j, j < sizenode t1 → (gnode t1 j).i_key ≠ .nil → (gnode t1 j).i_val ≠ .nil →
      ∃ i, i < sizenode t ∧ (gnode t i).i_key = (gnode t1 j).i_key ∧
        (gnode t i).i_val = (gnode t1 j).i_val)
    (k : TValue N) : getval ops t1 k = getval ops t k := by
  by_cases hk : ttisnil k = true
  · rw [(ttisnil_true_iff k).mp hk, getval_nil, getval_nil]
  · have hk0 : ttisnil k = false := by simpa using hk
    by_cases harr : 0 < arrayindex ops k ∧ arrayindex ops k ≤ (t.sizearray : Int)
    · rw [getval_array hL t hI.asize_le k harr,
        getval_array hL t1 hI1.asize_le k (by rw [hsa]; exact harr)]
      exact ha _ (by omega)
    · have harr1 : ¬ (0 < arrayindex ops k ∧ arrayindex ops k ≤ (t1.sizearray : Int)) := by
        rw [hsa]; exact harr
      rcases luaH_get_hash hL t hI k hk0 harr with ⟨i, hi, h1, _⟩ | ⟨h1, _⟩
      · have hki := key_ne_nil_of_rawequal ops _ k hk0 h1
        rw [(getval_hash_some hL t hI k hk0 harr i hi h1).2]
        by_cases hv : (gnode t i).i_val = .nil
        · rw [hv]
          rcases luaH_get_hash hL t1 hI1 k hk0 harr1 with ⟨j, hj, g1, _⟩ | ⟨g1, _⟩
          · rw [(getval_hash_some hL t1 hI1 k hk0 harr1 j hj g1).2]
            by_contra hv1
            obtain ⟨i1, hi1, e1, e2⟩ := H2 j hj (key_ne_nil_of_rawequal ops _ k hk0 g1) hv1
            rw [← e1] at g1
            have := haskey_unique hL t hI k ((ttisnil_false_iff k).mp hk0) i i1 hi hi1 h1 g1
            rw [← this, hv] at e2
            exact hv1 e2.symm
          · exact (getval_hash_none hL t1 hI1 k hk0 harr1 g1).2
        · obtain ⟨j, hj, e1, e2⟩ := H1 i hi hki hv
          rw [← e1] at h1
          rw [(getval_hash_some hL t1 hI1 k hk0 harr1 j hj h1).2, e2]
      · rw [(getval_hash_none hL t hI k hk0 harr h1).2]
        rcases luaH_get_hash hL t1 hI1 k hk0 harr1 with ⟨j, hj, g1, _⟩ | ⟨g1, _⟩
        · rw [(getval_hash_some hL t1 hI1 k hk0 harr1 j hj g1).2]
          by_contra hv1
          obtain ⟨i1, hi1, e1, _⟩ := H2 j hj (key_ne_nil_of_rawequal ops _ k hk0 g1) hv1
          rw [← e1] at g1
          have := h1 i1 hi1
          rw [g1] at this; cases this
        · exact (getval_hash_none hL t1 hI1 k hk0 harr1 g1).2

/-- Moving the cursor `lastfree` down past used nodes keeps the invariant. -/
theorem inv_lastfree {N : Type} {ops : LuaConf N} (t : Table N) (hI : Inv ops t) (lf : Nat)
    (hlf : lf ≤ t.lastfree)
    (hused : ∀ i, lf ≤ i → i < t.lastfree → (gnode t i).i_key ≠ .nil) :
    Inv ops { t with lastfree := lf } := by
  constructor
  · exact hI.size_eq
  · exact hI.lsize_le
  · exact hI.arr_le
  · exact hI.asize_le
  · intro h
    obtain ⟨a, b, c⟩ := hI.dummy h
    refine ⟨a, b, ?_⟩
    show lf = 0
    omega
  · have := hI.lastfree_le
    show lf ≤ sizenode t
    omega
  · intro h i h2 h3
    by_cases h4 : i < t.lastfree
    · exact hused i h2 h4
    · exact hI.lastfree_used h i (by omega) h3
  · exact ⟨hI.chain.next_lt, hI.chain.rank⟩
  · exact hI.next_inj
  · exact hI.free
  · exact hI.keys_valid
  · exact hI.reach
  · exact hI.brent
  · exact hI.nodup
  · exact hI.array_disjoint

theorem luaH_get_lastfree {N : Type} {ops : LuaConf N} (hL : ops.Lawful) (t : Table N)
    (hs : t.sizearray ≤ MAXASIZE) (lf : Nat) (k : TValue N) :
    luaH_get ops { t with lastfree := lf } k = luaH_get ops t k :=
  luaH_get_congr hL t { t with lastfree := lf } hs (fun _ => rfl) (fun _ => rfl) rfl rfl k

theorem getval_lastfree {N : Type} {ops : LuaConf N} (hL : ops.Lawful) (t : Table N)
    (hs : t.sizearray ≤ MAXASIZE) (lf : Nat) (k : TValue N) :
    getval ops { t with lastfree := lf } k = getval ops t k := by
  unfold getval
  rw [luaH_get_lastfree hL t hs]
  cases luaH_get ops t k <;> rfl

theorem setnode_length {N : Type} (t : Table N) (i : Nat) (nd : Node N) :
    (setnode t i nd).node.length = t.node.length := by
  simp [setnode]

theorem validkey_notnan {N : Type} (ops : LuaConf N) (k : TValue N)
    (hk : validkey ops k = true) :
    (match k with
      | .number n => ops.luai_numisnan n
      | _ => false) = false := by
  cases k <;> simp [validkey] at hk ⊢
  exact hk

theorem luaH_newkey_unfold {N : Type} [DecidableEq N] (ops : LuaConf N) (d : Nat)
    (t : Table N) (k : TValue N) (hk : validkey ops k = true) :
    luaH_newkey ops d t k =
      if (!ttisnil (gnode t (mainposition ops t k)).i_val ||
          (t.isdummy && mainposition ops t k == 0)) = true then
        match getfreepos t with
        | (t0, none) => newkey_rehash ops d t0 k
        | (t0, some n) =>
          if mainposition ops t0 (gnode t0 (mainposition ops t k)).i_key ≠ mainposition ops t k then
            match findprev t0 (mainposition ops t k) (sizenode t0)
                (mainposition ops t0 (gnode t0 (mainposition ops t k)).i_key) with
            | .error e => .error e
            | .ok prev => .ok (newkey_move t0 (mainposition ops t k) n prev k,
                .val (mainposition ops t k))
          else .ok (newkey_chain t0 (mainposition ops t k) n k, .val n)
      else
        .ok (setnode t (mainposition ops t k)
          { gnode t (mainposition ops t k) with i_key := k }, .val (mainposition ops t k)) := by
  cases k <;> simp [validkey] at hk <;> cases d <;>
  · unfold luaH_newkey
    simp only [ttisnil, hk, Bool.false_eq_true, if_false]
    rfl

/-- The postcondition of `luaH_newkey` in the cases without a rehash. -/
theorem newkey_post {N : Type} {ops : LuaConf N} (hL : ops.Lawful) (t t1 : Table N)
    (hI : Inv ops t) (hI1 : Inv ops t1) (k : TValue N) (hk : validkey ops k = true)
    (harr : ¬ (0 < arrayindex ops k ∧ arrayindex ops k ≤ (t.sizearray : Int)))
    (ha : t1.array = t.array) (hsa : t1.sizearray = t.sizearray)
    (i : Nat) (hi : i < sizenode t1) (hki : (gnode t1 i).i_key = k)
    (H1 : ∀ i, i < sizenode t → (gnode t i).i_key ≠ .nil → (gnode t i).i_val ≠ .nil →
      ∃ j, j < sizenode t1 ∧ (gnode t1 j).i_key = (gnode t i).i_key ∧
        (gnode t1 j).i_val = (gnode t i).i_val)
    (H2 : ∀ j, j < sizenode t1 → (gnode t1 j).i_key ≠ .nil → (gnode t1 j).i_val ≠ .nil →
      ∃ i, i < sizenode t ∧ (gnode t i).i_key = (gnode t1 j).i_key ∧
        (gnode t i).i_val = (gnode t1 j).i_val) :
    Inv ops t1 ∧ luaH_get ops t1 k = .ok (.val i) ∧ Cell.val i ≠ .nilobject ∧
      (∀ k1, getval ops t1 k1 = getval ops t k1) ∧ t1.array = t.array ∧
      t1.sizearray = t.sizearray := by
  refine ⟨hI1, ?_, by simp, ?_, ha, hsa⟩
  · refine (getval_hash_some hL t1 hI1 k (validkey_ttisnil ops k hk) (by rw [hsa]; exact harr)
      i hi ?_).1
    rw [hki]; exact rawequal_refl hL k hk
  · intro k1
    exact getval_eq_of_content hL t t1 hI hI1 (fun j _ => by rw [ha]) hsa H1 H2 k1

theorem newkey_caseA {N : Type} {ops : LuaConf N} (hL : ops.Lawful) (t : Table N)
    (hI : Inv ops t) (k : TValue N) (hk : validkey ops k = true)
    (hval : (gnode t (mainposition ops t k)).i_val = .nil)
    (hnd : t.isdummy = false)
    (hget : luaH_get ops t k = .ok .nilobject) :
    Inv ops (setnode t (mainposition ops t k) { gnode t (mainposition ops t k) with i_key := k }) ∧
    luaH_get ops (setnode t (mainposition ops t k)
      { gnode t (mainposition ops t k) with i_key := k }) k = .ok (.val (mainposition ops t k)) ∧
    Cell.val (mainposition ops t k) ≠ .nilobject ∧
    (∀ k1, getval ops (setnode t (mainposition ops t k)
      { gnode t (mainposition ops t k) with i_key := k }) k1 = getval ops t k1) ∧
    (setnode t (mainposition ops t k) { gnode t (mainposition ops t k) with i_key := k }).array
      = t.array ∧
    (setnode t (mainposition ops t k)
      { gnode t (mainposition ops t k) with i_key := k }).sizearray = t.sizearray := by
  obtain ⟨harr, habs⟩ := absent_of_get_nilobject hL t hI k (validkey_ttisnil ops k hk) hget
  have hmplt := mainposition_lt ops t k hI.lsize_le
  have hlen : mainposition ops t k < t.node.length := by rw [hI.size_eq]; exact hmplt
  have h1 := fun j => gnode_setnode t (mainposition ops t k)
    { gnode t (mainposition ops t k) with i_key := k } j hlen
  have hI1 := inv_setkey hL t _ hI k (mainposition ops t k) rfl hnd hk habs harr h1
    (setnode_length _ _ _) rfl rfl rfl rfl rfl
  refine newkey_post hL t _ hI hI1 k hk harr rfl rfl (mainposition ops t k) hmplt ?_ ?_ ?_
  · rw [h1, if_pos rfl]
  · intro i hi hkn hvn
    refine ⟨i, hi, ?_⟩
    rw [h1]
    split
    · rename_i e; rw [e] at hvn; exact absurd hval hvn
    · exact ⟨rfl, rfl⟩
  · intro j hj hkn hvn
    refine ⟨j, hj, ?_⟩
    rw [h1] at hkn hvn ⊢
    split
    · rename_i e
      rw [if_pos e] at hvn
      exact absurd hval hvn
    · exact ⟨rfl, rfl⟩


theorem gnode_newkey_chain {N : Type} (t0 : Table N) (mp n : Nat) (k : TValue N) (j : Nat)
    (hn : n < t0.node.length) (hmp : mp < t0.node.length) (hne : n ≠ mp) :
    gnode (newkey_chain t0 mp n k) j =
      if j = n then { i_val := (gnode t0 n).i_val, i_key := k, next := (gnode t0 mp).next }
      else if j = mp then { gnode t0 mp with next := some n } else gnode t0 j := by
  have hmpn : mp ≠ n := fun e => hne e.symm
  unfold newkey_chain
  simp only []
  rw [gnode_setnode _ _ _ _ (by simp only [setnode_length]; exact hn)]
  rw [gnode_setnode _ _ _ n (by simp only [setnode_length]; exact hmp)]
  rw [gnode_setnode _ _ _ j (by simp only [setnode_length]; exact hmp)]
  rw [gnode_setnode _ _ _ n hn, gnode_setnode _ _ _ mp hn, gnode_setnode _ _ _ j hn]
  by_cases e1 : j = n
  · simp [e1, hne]
  · by_cases e2 : j = mp
    · simp [e1, e2, hmpn]
    · simp [e1, e2]

theorem gnode_newkey_move {N : Type} (t0 : Table N) (mp n prev : Nat) (k : TValue N)
    (j : Nat) (hn : n < t0.node.length) (hmp : mp < t0.node.length)
    (hprev : prev < t0.node.length) (hnmp : n ≠ mp) (hpn : prev ≠ n) (hpmp : prev ≠ mp) :
    gnode (newkey_move t0 mp n prev k) j =
      if j = mp then { i_val := .nil, i_key := k, next := none }
      else if j = n then gnode t0 mp
      else if j = prev then { gnode t0 prev with next := some n } else gnode t0 j := by
  have hmpn : mp ≠ n := fun e => hnmp e.symm
  have hmpp : mp ≠ prev := fun e => hpmp e.symm
  have hnp : n ≠ prev := fun e => hpn e.symm
  unfold newkey_move
  simp (disch := simp only [setnode_length]; assumption) only [gnode_setnode]
  have q1 : ∀ x, gnode (setnode t0 prev { gnode t0 prev with next := some n }) x =
      if x = prev then { gnode t0 prev with next := some n } else gnode t0 x :=
    fun x => gnode_setnode t0 prev _ x hprev
  simp only [q1]
  by_cases e0 : j = mp
  · simp [e0]
  · by_cases e1 : j = n
    · simp [e1, hmpp, hnmp]
    · by_cases e2 : j = prev
      · simp [e2, hpmp, hpn]
      · simp [e0, e1, e2]

theorem newkey_caseB {N : Type} {ops : LuaConf N} (hL : ops.Lawful) (t : Table N)
    (hI : Inv ops t) (k : TValue N) (hk : validkey ops k = true) (n : Nat)
    (hn : n < t.lastfree) (hnfree : (gnode t n).i_key = .nil)
    (habove : ∀ i, n < i → i < t.lastfree → (gnode t i).i_key ≠ .nil)
    (hnd : t.isdummy = false)
    (hval : (gnode t (mainposition ops t k)).i_val ≠ .nil)
    (hown : mainposition ops t (gnode t (mainposition ops t k)).i_key = mainposition ops t k)
    (hget : luaH_get ops t k = .ok .nilobject) :
    Inv ops (newkey_chain { t with lastfree := n } (mainposition ops t k) n k) ∧
    luaH_get ops (newkey_chain { t with lastfree := n } (mainposition ops t k) n k) k
      = .ok (.val n) ∧
    Cell.val n ≠ .nilobject ∧
    (∀ k1, getval ops (newkey_chain { t with lastfree := n } (mainposition ops t k) n k) k1
      = getval ops t k1) ∧
    (newkey_chain { t with lastfree := n } (mainposition ops t k) n k).array = t.array ∧
    (newkey_chain { t with lastfree := n } (mainposition ops t k) n k).sizearray
      = t.sizearray := by
  obtain ⟨harr, habs⟩ := absent_of_get_nilobject hL t hI k (validkey_ttisnil ops k hk) hget
  have hmplt := mainposition_lt ops t k hI.lsize_le
  have hlen : mainposition ops t k < t.node.length := by rw [hI.size_eq]; exact hmplt
  have hnS : n < sizenode t := Nat.lt_of_lt_of_le hn hI.lastfree_le
  have hnlen : n < t.node.length := by rw [hI.size_eq]; exact hnS
  have hmpk := key_ne_nil_of_val hI _ hmplt hval
  have hnmp : n ≠ mainposition ops t k := by intro e; rw [← e] at hmpk; exact hmpk hnfree
  obtain ⟨hnval, _, _⟩ := hI.free n hnS hnfree
  have h1 : ∀ j, gnode (newkey_chain { t with lastfree := n } (mainposition ops t k) n k) j =
      if j = n then
        { i_val := (gnode t n).i_val, i_key := k, next := (gnode t (mainposition ops t k)).next }
      else if j = mainposition ops t k then
        { gnode t (mainposition ops t k) with next := some n } else gnode t j :=
    fun j => gnode_newkey_chain { t with lastfree := n } (mainposition ops t k) n k j
      hnlen hlen hnmp
  have habove1 : ∀ i, n < i → i < sizenode t → (gnode t i).i_key ≠ .nil := by
    intro i h2 h3
    by_cases h4 : i < t.lastfree
    · exact habove i h2 h4
    · exact hI.lastfree_used hnd i (by omega) h3
  have hI1 := inv_insert_after hL t _ hI k (mainposition ops t k) n rfl hnS hnfree habove1 hnd
    hmpk hown hk habs harr h1 (by simp [newkey_chain, setnode_length]) rfl rfl rfl rfl rfl
  refine newkey_post hL t _ hI hI1 k hk harr rfl rfl n hnS ?_ ?_ ?_
  · rw [h1, if_pos rfl]
  · intro i hi hkn hvn
    refine ⟨i, hi, ?_⟩
    rw [h1]
    split
    · rename_i e; rw [e] at hkn; exact absurd hnfree hkn
    · split
      · rename_i e; rw [e]; exact ⟨rfl, rfl⟩
      · exact ⟨rfl, rfl⟩
  · intro j hj hkn hvn
    refine ⟨j, hj, ?_⟩
    rw [h1] at hkn hvn ⊢
    split
    · rename_i e
      rw [if_pos e] at hvn
      exact absurd hnval hvn
    · split
      · rename_i e; rw [e]; exact ⟨rfl, rfl⟩
      · exact ⟨rfl, rfl⟩

theorem newkey_caseC {N : Type} {ops : LuaConf N} (hL : ops.Lawful) (t : Table N)
    (hI : Inv ops t) (k : TValue N) (hk : validkey ops k = true) (n prev : Nat)
    (hn : n < t.lastfree) (hnfree : (gnode t n).i_key = .nil)
    (habove : ∀ i, n < i → i < t.lastfree → (gnode t i).i_key ≠ .nil)
    (hnd : t.isdummy = false)
    (hval : (gnode t (mainposition ops t k)).i_val ≠ .nil)
    (hother : mainposition ops t (gnode t (mainposition ops t k)).i_key ≠ mainposition ops t k)
    (hprev : prev < sizenode t) (hprevn : (gnode t prev).next = some (mainposition ops t k))
    (hget : luaH_get ops t k = .ok .nilobject) :
    Inv ops (newkey_move { t with lastfree := n } (mainposition ops t k) n prev k) ∧
    luaH_get ops (newkey_move { t with lastfree := n } (mainposition ops t k) n prev k) k
      = .ok (.val (mainposition ops t k)) ∧
    Cell.val (mainposition ops t k) ≠ .nilobject ∧
    (∀ k1, getval ops (newkey_move { t with lastfree := n } (mainposition ops t k) n prev k) k1
      = getval ops t k1) ∧
    (newkey_move { t with lastfree := n } (mainposition ops t k) n prev k).array = t.array ∧
    (newkey_move { t with lastfree := n } (mainposition ops t k) n prev k).sizearray
      = t.sizearray := by
  obtain ⟨harr, habs⟩ := absent_of_get_nilobject hL t hI k (validkey_ttisnil ops k hk) hget
  have hmplt := mainposition_lt ops t k hI.lsize_le
  have hlen : mainposition ops t k < t.node.length := by rw [hI.size_eq]; exact hmplt
  have hnS : n < sizenode t := Nat.lt_of_lt_of_le hn hI.lastfree_le
  have hnlen : n < t.node.length := by rw [hI.size_eq]; exact hnS
  have hplen : prev < t.node.length := by rw [hI.size_eq]; exact hprev
  have hmpk := key_ne_nil_of_val hI _ hmplt hval
  have hnmp : n ≠ mainposition ops t k := by intro e; rw [← e] at hmpk; exact hmpk hnfree
  obtain ⟨hnval, _, _⟩ := hI.free n hnS hnfree
  have hprevk : (gnode t prev).i_key ≠ .nil := key_ne_nil_of_next hI prev _ hprev hprevn
  have hpn : prev ≠ n := by intro e; rw [e] at hprevk; exact hprevk hnfree
  have hpmp : prev ≠ mainposition ops t k := by
    intro e; rw [e] at hprevn; exact no_self_loop hI.chain _ hmplt hprevn
  have h1 : ∀ j, gnode (newkey_move { t with lastfree := n } (mainposition ops t k) n prev k) j =
      if j = mainposition ops t k then { i_val := .nil, i_key := k, next := none }
      else if j = n then gnode t (mainposition ops t k)
      else if j = prev then { gnode t prev with next := some n } else gnode t j :=
    fun j => gnode_newkey_move { t with lastfree := n } (mainposition ops t k) n prev k j
      hnlen hlen hplen hnmp hpn hpmp
  have habove1 : ∀ i, n < i → i < sizenode t → (gnode t i).i_key ≠ .nil := by
    intro i h2 h3
    by_cases h4 : i < t.lastfree
    · exact habove i h2 h4
    · exact hI.lastfree_used hnd i (by omega) h3
  have hI1 := inv_brent_move hL t _ hI k (mainposition ops t k) n prev rfl hnS hnfree habove1
    hnd hmpk hother hprev hprevn hk habs harr h1 (by simp [newkey_move, setnode_length])
    rfl rfl rfl rfl rfl
  refine newkey_post hL t _ hI hI1 k hk harr rfl rfl (mainposition ops t k) hmplt ?_ ?_ ?_
  · rw [h1, if_pos rfl]
  · intro i hi hkn hvn
    by_cases e0 : i = mainposition ops t k
    · refine ⟨n, hnS, ?_⟩
      rw [h1, if_neg hnmp, if_pos rfl, e0]
      exact ⟨rfl, rfl⟩
    · refine ⟨i, hi, ?_⟩
      rw [h1, if_neg e0]
      split
      · rename_i e; rw [e] at hkn; exact absurd hnfree hkn
      · split
        · rename_i e; rw [e]; exact ⟨rfl, rfl⟩
        · exact ⟨rfl, rfl⟩
  · intro j hj hkn hvn
    rw [h1] at hkn hvn
    by_cases e0 : j = mainposition ops t k
    · rw [if_pos e0] at hvn; exact absurd rfl hvn
    · by_cases e1 : j = n
      · refine ⟨mainposition ops t k, hmplt, ?_⟩
        rw [h1, if_neg e0, if_pos e1]
        exact ⟨rfl, rfl⟩
      · refine ⟨j, hj, ?_⟩
        rw [h1, if_neg e0, if_neg e1]
        split
        · rename_i e; rw [e]; exact ⟨rfl, rfl⟩
        · exact ⟨rfl, rfl⟩

theorem walk_congr {N : Type} (t t1 : Table N) (P : Node N → Bool)
    (h : ∀ i, gnode t1 i = gnode t i) : ∀ (f n : Nat), walk t1 P f n = walk t P f n := by
  intro f
  induction f with
  | zero => intro n; rfl
  | succ f ih =>
    intro n
    simp only [walk, h]
    split
    · rfl
    · cases (gnode t n).next with
      | none => rfl
      | some n1 => exact ih n1

/-- One call of `luaH_newkey` on a valid key: either no free node is left and the call
continues with `rehash` and the retry, or it returns; when the key was absent the
returned table meets the contract. -/
theorem luaH_newkey_step {N : Type} [DecidableEq N] {ops : LuaConf N} (hL : ops.Lawful)
    (d : Nat) (t : Table N) (hI : Inv ops t) (k : TValue N) (hk : validkey ops k = true) :
    (luaH_newkey ops d t k = newkey_rehash ops d { t with lastfree := 0 } k ∧
      Inv ops { t with lastfree := 0 }) ∨
    (∃ t1 c, luaH_newkey ops d t k = .ok (t1, c) ∧
      (luaH_get ops t k = .ok .nilobject →
        Inv ops t1 ∧ luaH_get ops t1 k = .ok c ∧ c ≠ .nilobject ∧
        (∀ k1, getval ops t1 k1 = getval ops t k1) ∧ t1.array = t.array ∧
        t1.sizearray = t.sizearray)) := by
  rw [luaH_newkey_unfold ops d t k hk]
  have hmplt := mainposition_lt ops t k hI.lsize_le
  have hspec := getfreepos_loop_spec t t.lastfree
  by_cases hc : (!ttisnil (gnode t (mainposition ops t k)).i_val ||
      (t.isdummy && mainposition ops t k == 0)) = true
  · rw [if_pos hc]
    cases hfp : (getfreepos_loop t t.lastfree).2 with
    | none =>
      left
      obtain ⟨h0, hall⟩ := hspec.2 hfp
      have e : getfreepos t = ({ t with lastfree := 0 }, none) := by
        unfold getfreepos; rw [hfp, h0]
      rw [e]
      exact ⟨rfl, inv_lastfree t hI 0 (Nat.zero_le _) (fun i _ hi => hall i hi)⟩
    | some n =>
      right
      obtain ⟨hn, h0, hnfree, habove⟩ := hspec.1 n hfp
      have e : getfreepos t = ({ t with lastfree := n }, some n) := by
        unfold getfreepos; rw [hfp, h0]
      rw [e]
      have hnd : t.isdummy = false := by
        cases hd : t.isdummy with
        | false => rfl
        | true =>
          have := (hI.dummy hd).2.2
          omega
      have hval : (gnode t (mainposition ops t k)).i_val ≠ .nil := by
        rw [hnd] at hc
        intro e1
        rw [e1] at hc
        simp [ttisnil] at hc
      have hmpk := key_ne_nil_of_val hI _ hmplt hval
      simp only []
      have hM : ∀ x, mainposition ops { t with lastfree := n } x = mainposition ops t x :=
        fun _ => rfl
      have hG : ∀ x, gnode { t with lastfree := n } x = gnode t x := fun _ => rfl
      have hZ : sizenode { t with lastfree := n } = sizenode t := rfl
      rw [hM, hG, hZ]
      by_cases ho : mainposition ops t (gnode t (mainposition ops t k)).i_key ≠
          mainposition ops t k
      · rw [if_pos ho]
        obtain ⟨prev, hp1, hp2, hp3⟩ := findprev_spec t hI.chain (mainposition ops t k)
          (mainposition ops t (gnode t (mainposition ops t k)).i_key)
          (mainposition_lt ops t _ hI.lsize_le) ho (hI.reach _ hmplt hmpk)
        have hp1b : findprev { t with lastfree := n } (mainposition ops t k) (sizenode t)
            (mainposition ops t (gnode t (mainposition ops t k)).i_key) = .ok prev := by
          rw [← hp1]
          rw [findprev_eq_walk, findprev_eq_walk,
            walk_congr t { t with lastfree := n } _ (fun _ => rfl)]
        rw [hp1b]
        refine ⟨_, _, rfl, ?_⟩
        intro hget
        exact newkey_caseC hL t hI k hk n prev hn hnfree habove hnd hval ho hp2 hp3 hget
      · rw [if_neg ho]
        refine ⟨_, _, rfl, ?_⟩
        intro hget
        exact newkey_caseB hL t hI k hk n hn hnfree habove hnd hval
          (by simpa using ho) hget
  · rw [if_neg hc]
    right
    refine ⟨_, _, rfl, ?_⟩
    intro hget
    have hnd : t.isdummy = false := by
      cases hd : t.isdummy with
      | false => rfl
      | true =>
        exfalso
        apply hc
        have h0 := (hI.dummy hd).1
        have : mainposition ops t k = 0 := by
          have : sizenode t = 1 := by unfold sizenode twoto; rw [h0]; rfl
          omega
        rw [hd, this]
        simp
    have hval : (gnode t (mainposition ops t k)).i_val = .nil := by
      rw [← ttisnil_true_iff]
      cases h : ttisnil (gnode t (mainposition ops t k)).i_val with
      | true => rfl
      | false => exfalso; apply hc; rw [h]; simp
    exact newkey_caseA hL t hI k hk hval hnd hget

theorem numeq_cast_self {N : Type} {ops : LuaConf N} (hL : ops.Lawful) (i : Int) :
    ops.luai_numeq (ops.cast_num i) (ops.cast_num i) = true := by
  rw [hL.numeq_self, hL.cast_num_notnan]; rfl

theorem arrayindex_cast {N : Type} {ops : LuaConf N} (hL : ops.Lawful) (i : Int)
    (hi : cast_int i = i) : arrayindex ops (.number (ops.cast_num i)) = i := by
  simp only [arrayindex]
  have h := hL.number2int_cast i (ops.cast_num i) hi (numeq_cast_self hL i)
  rw [h, if_pos (numeq_cast_self hL i)]

theorem validkey_cast {N : Type} {ops : LuaConf N} (hL : ops.Lawful) (i : Int) :
    validkey ops (.number (ops.cast_num i)) = true := by
  simp [validkey, hL.cast_num_notnan]

theorem luaH_getint_eq_get {N : Type} {ops : LuaConf N} (hL : ops.Lawful) (t : Table N)
    (hs : t.sizearray ≤ MAXASIZE) (key : Int) (hk : cast_int key = key) :
    luaH_getint ops t key = luaH_get ops t (.number (ops.cast_num key)) := by
  rw [luaH_getint_eq hL t hs key hk, luaH_get_eq hL t hs, arrayindex_cast hL key hk]
  simp [ttisnil]

/-- An integer-valued key is raw-equal to the number of an `int` exactly when that `int`
is its array index. -/
theorem rawequal_cast_iff {N : Type} {ops : LuaConf N} (hL : ops.Lawful) (i : Int)
    (hi : cast_int i = i) (k : TValue N) (hpos : 0 < i) :
    luaV_rawequalobj ops (.number (ops.cast_num i)) k = true ↔ arrayindex ops k = i := by
  constructor
  · intro h
    rw [← arrayindex_congr hL _ _ h, arrayindex_cast hL i hi]
  · intro h
    exact rawequal_of_arrayindex hL _ k (by rw [arrayindex_cast hL i hi]; exact hpos)
      (by rw [arrayindex_cast hL i hi]; exact h)

theorem luaH_set_with_spec {N : Type} {ops : LuaConf N} (hL : ops.Lawful)
    (nk : Table N → TValue N → Except Err (Table N × Cell)) (hnk : NewkeySpec ops nk)
    (t : Table N) (hI : Inv ops t) (k : TValue N) (hk : validkey ops k = true) :
    match luaH_set_with ops nk t k with
    | .ok (t1, c) =>
      Inv ops t1 ∧ luaH_get ops t1 k = .ok c ∧ c ≠ .nilobject ∧
      (∀ k1, getval ops t1 k1 = getval ops t k1) ∧
      (t.array.length = t.sizearray → t1.array.length = t1.sizearray)
    | .error e => e ≠ .runerror .index_is_nil ∧ e ≠ .runerror .index_is_NaN := by
  unfold luaH_set_with
  obtain ⟨c, hc⟩ := luaH_get_total hL t hI k
  rw [hc]
  simp only []
  by_cases hcn : c = .nilobject
  · rw [if_neg (by simpa using hcn)]
    rw [hcn] at hc
    exact hnk t k hI hk hc
  · rw [if_pos hcn]
    exact ⟨hI, hc, hcn, fun _ => rfl, fun h => h⟩

/-- The assignment `*luaH_set(L,t,key) = value`. -/
theorem set_write_spec {N : Type} {ops : LuaConf N} (hL : ops.Lawful)
    (nk : Table N → TValue N → Except Err (Table N × Cell)) (hnk : NewkeySpec ops nk)
    (t : Table N) (hI : Inv ops t) (k : TValue N) (hk : validkey ops k = true)
    (v : TValue N) :
    match luaH_set_with ops nk t k with
    | .ok (t1, c) =>
      Inv ops (t1.write c v) ∧
      (∀ k1, getval ops (t1.write c v) k1 =
        if luaV_rawequalobj ops k k1 = true then v else getval ops t k1) ∧
      (t.array.length = t.sizearray →
        (t1.write c v).array.length = (t1.write c v).sizearray) ∧
      (t1.write c v).array.length = t1.array.length ∧
      (t1.write c v).sizearray = t1.sizearray
    | .error e => e ≠ .runerror .index_is_nil ∧ e ≠ .runerror .index_is_NaN := by
  have h := luaH_set_with_spec hL nk hnk t hI k hk
  cases hr : luaH_set_with ops nk t k with
  | error e => rw [hr] at h; exact h
  | ok r =>
    obtain ⟨t1, c⟩ := r
    rw [hr] at h
    simp only [] at h ⊢
    obtain ⟨h1, h2, h3, h4, h5⟩ := h
    obtain ⟨w1, _, w3, w4, w5, _, _⟩ :=
      write_spec hL t1 h1 k (validkey_ttisnil ops k hk) c h2 h3 v
    refine ⟨w1, ?_, ?_, w4, w5⟩
    · intro k1
      rw [w3 k1, h4 k1]
    · intro hs
      rw [w4, w5]
      exact h5 hs

theorem luaH_setint_with_spec {N : Type} {ops : LuaConf N} (hL : ops.Lawful)
    (nk : Table N → TValue N → Except Err (Table N × Cell)) (hnk : NewkeySpec ops nk)
    (t : Table N) (hI : Inv ops t) (key : Int) (hkey : cast_int key = key) (v : TValue N) :
    match luaH_setint_with ops nk t key v with
    | .ok t1 =>
      Inv ops t1 ∧
      (∀ k1, getval ops t1 k1 =
        if luaV_rawequalobj ops (.number (ops.cast_num key)) k1 = true then v
        else getval ops t k1) ∧
      (t.array.length = t.sizearray → t1.array.length = t1.sizearray)
    | .error e => e ≠ .runerror .index_is_nil ∧ e ≠ .runerror .index_is_NaN := by
  have hk : validkey ops (TValue.number (ops.cast_num key)) = true := validkey_cast hL key
  have h := set_write_spec hL nk hnk t hI (.number (ops.cast_num key)) hk v
  unfold luaH_set_with at h
  unfold luaH_setint_with
  rw [luaH_getint_eq_get hL t hI.asize_le key hkey]
  cases hg : luaH_get ops t (.number (ops.cast_num key)) with
  | error e => rw [hg] at h; exact h
  | ok p =>
    rw [hg] at h
    simp only [] at h ⊢
    by_cases hp : p = .nilobject
    · rw [if_neg (by simpa using hp)] at h ⊢
      cases hn : nk t (.number (ops.cast_num key)) with
      | error e => rw [hn] at h; exact h
      | ok r =>
        obtain ⟨t1, c⟩ := r
        rw [hn] at h
        simp only [] at h ⊢
        exact ⟨h.1, h.2.1, h.2.2.1⟩
    · rw [if_pos hp] at h ⊢
      simp only [] at h ⊢
      exact ⟨h.1, h.2.1, h.2.2.1⟩

theorem foldlM_cons_except {α β : Type} (f : β → α → Except Err β) (b : β) (x : α)
    (xs : List α) :
    (x :: xs).foldlM f b =
      match f b x with
      | .ok b1 => xs.foldlM f b1
      | .error e => .error e := by
  rw [List.foldlM_cons]
  cases f b x <;> rfl

theorem foldlM_nil_except {α β : Type} (f : β → α → Except Err β) (b : β) :
    ([] : List α).foldlM f b = .ok b := rfl

theorem gnode_replicate {N : Type} (t : Table N) (n : Nat)
    (h : t.node = List.replicate n dummynode_) (i : Nat) : gnode t i = dummynode_ := by
  unfold gnode
  rw [h, List.getD_eq_getElem?_getD]
  by_cases hi : i < n
  · simp [List.getElem?_replicate, hi]
  · simp [List.getElem?_replicate, hi]

/-- A table whose nodes are all untouched satisfies the invariant. -/
theorem inv_fresh {N : Type} (ops : LuaConf N) (t : Table N)
    (hnode : ∀ i, gnode t i = dummynode_)
    (hlen : t.node.length = sizenode t) (hls : t.lsizenode ≤ MAXBITS)
    (harr : t.sizearray ≤ t.array.length) (hsa : t.sizearray ≤ MAXASIZE)
    (hdum : t.isdummy = true → t.lsizenode = 0 ∧ t.lastfree = 0)
    (hlf : t.isdummy = false → t.lastfree = sizenode t)
    (hlfle : t.lastfree ≤ sizenode t) : Inv ops t := by
  have hk : ∀ i, (gnode t i).i_key = .nil := fun i => by rw [hnode]; rfl
  have hn : ∀ i, (gnode t i).next = none := fun i => by rw [hnode]; rfl
  constructor
  · exact hlen
  · exact hls
  · exact harr
  · exact hsa
  · intro h; exact ⟨(hdum h).1, hk 0, (hdum h).2⟩
  · exact hlfle
  · intro h i h2 h3
    have := hlf h
    omega
  · constructor
    · intro i j _ hj; rw [hn] at hj; cases hj
    · exact ⟨fun _ => 0, fun i j _ hj => by rw [hn] at hj; cases hj⟩
  · intro i i1 j _ _ hj; rw [hn] at hj; cases hj
  · intro i _ _
    refine ⟨by rw [hnode]; rfl, hn i, ?_⟩
    intro j _ hj; rw [hn] at hj; cases hj
  · intro i _ h; exact absurd (hk i) h
  · intro i _ h; exact absurd (hk i) h
  · intro i _ h; exact absurd (hk i) h
  · intro i j _ _ h; exact absurd (hk i) h
  · intro i _ h; exact absurd (hk i) h

theorem getval_fresh {N : Type} {ops : LuaConf N} (hL : ops.Lawful) (t : Table N)
    (hI : Inv ops t) (hnode : ∀ i, gnode t i = dummynode_) (k : TValue N) :
    getval ops t k =
      if 0 < arrayindex ops k ∧ arrayindex ops k ≤ (t.sizearray : Int) then
        t.array.getD (arrayindex ops k - 1).toNat .nil
      else .nil := by
  by_cases harr : 0 < arrayindex ops k ∧ arrayindex ops k ≤ (t.sizearray : Int)
  · rw [if_pos harr, getval_array hL t hI.asize_le k harr]
  · rw [if_neg harr]
    by_cases hk : ttisnil k = true
    · rw [(ttisnil_true_iff k).mp hk, getval_nil]
    · have hk0 : ttisnil k = false := by simpa using hk
      refine (getval_hash_none hL t hI k hk0 harr ?_).2
      intro i _
      rw [hnode]
      cases h : luaV_rawequalobj ops (dummynode_ : Node N).i_key k with
      | false => rfl
      | true =>
        have := (rawequal_nil_left ops k).mp h
        rw [this] at hk0; simp [ttisnil] at hk0

theorem setnodevector_ok {N : Type} (t : Table N) (size : Nat) (t2 : Table N)
    (h : setnodevector t size = .ok t2) :
    t2.array = t.array ∧ t2.sizearray = t.sizearray ∧ (∀ i, gnode t2 i = dummynode_) ∧
    t2.node.length = sizenode t2 ∧ t2.lsizenode ≤ MAXBITS ∧
    (t2.isdummy = true → t2.lsizenode = 0 ∧ t2.lastfree = 0) ∧
    (t2.isdummy = false → t2.lastfree = sizenode t2) ∧ t2.lastfree ≤ sizenode t2 := by
  unfold setnodevector at h
  by_cases h0 : size = 0
  · rw [if_pos h0] at h
    have e := Except.ok.inj h
    subst e
    refine ⟨rfl, rfl, ?_, rfl, Nat.zero_le _, fun _ => ⟨rfl, rfl⟩, ?_, Nat.zero_le _⟩
    · intro i
      exact gnode_replicate _ 1 rfl i
    · intro h; cases h
  · rw [if_neg h0] at h
    generalize luaO_ceillog2 size = ls at h
    by_cases h1 : ls > MAXBITS
    · simp only [h1, if_true] at h
      cases h
    · simp only [h1, if_false] at h
      have e := Except.ok.inj h
      subst e
      refine ⟨rfl, rfl, ?_, ?_, by simpa using h1, ?_, fun _ => rfl, Nat.le_refl _⟩
      · intro i
        exact gnode_replicate _ _ rfl i
      · simp [sizenode]
      · intro h; cases h

theorem setnodevector_error {N : Type} (t : Table N) (size : Nat) (e : Err)
    (h : setnodevector t size = .error e) : e = .runerror .table_overflow := by
  unfold setnodevector at h
  by_cases h0 : size = 0
  · rw [if_pos h0] at h; cases h
  · rw [if_neg h0] at h
    generalize luaO_ceillog2 size = ls at h
    by_cases h1 : ls > MAXBITS
    · simp only [h1, if_true] at h
      exact (Except.error.inj h).symm
    · simp only [h1, if_false] at h
      cases h


/-- The loop of `luaH_resize` that moves the vanishing slice of the array part into the
hash part: `A` is the array block, `na` the new array size, `m` the next index. -/
theorem evict_fold {N : Type} [DecidableEq N] {ops : LuaConf N} (hL : ops.Lawful)
    (nk : Table N → TValue N → Except Err (Table N × Cell)) (hnk : NewkeySpec ops nk)
    (A : List (TValue N)) (na : Nat) :
    ∀ (cnt m : Nat) (tc : Table N), Inv ops tc → tc.array = A → tc.sizearray = na →
      m + cnt ≤ A.length → m + cnt ≤ 2 ^ 30 →
      (∀ k1, getval ops tc k1 =
        if 0 < arrayindex ops k1 ∧ arrayindex ops k1 ≤ (m : Int) then
          A.getD (arrayindex ops k1 - 1).toNat .nil else .nil) →
      match (List.range' m cnt).foldlM (resize_evict ops nk) tc with
      | .ok t3 =>
        Inv ops t3 ∧ t3.array = A ∧ t3.sizearray = na ∧
        ∀ k1, getval ops t3 k1 =
          if 0 < arrayindex ops k1 ∧ arrayindex ops k1 ≤ ((m + cnt : Nat) : Int) then
            A.getD (arrayindex ops k1 - 1).toNat .nil else .nil
      | .error e => e ≠ .runerror .index_is_nil ∧ e ≠ .runerror .index_is_NaN := by
  intro cnt
  induction cnt with
  | zero =>
    intro m tc hI ha hs _ _ hc
    simp only [List.range'_zero, foldlM_nil_except]
    exact ⟨hI, ha, hs, hc⟩
  | succ cnt ih =>
    intro m tc hI ha hs hlen hbound hc
    rw [List.range'_succ, foldlM_cons_except]
    have hm : m < A.length := by omega
    have hget : tc.array.get? m = some (A.getD m .nil) := by
      rw [ha, List.get?_eq_getElem?, List.getD_eq_getElem?_getD, List.getElem?_eq_getElem hm]
      rfl
    have hstep : ∀ k1 : TValue N, (A.getD m .nil = .nil ∨ True) →
        (if arrayindex ops k1 = ((m : Int) + 1) then A.getD m .nil
         else if 0 < arrayindex ops k1 ∧ arrayindex ops k1 ≤ (m : Int) then
          A.getD (arrayindex ops k1 - 1).toNat .nil else .nil) =
        if 0 < arrayindex ops k1 ∧ arrayindex ops k1 ≤ ((m + 1 : Nat) : Int) then
          A.getD (arrayindex ops k1 - 1).toNat .nil else .nil := by
      intro k1 _
      by_cases e : arrayindex ops k1 = (m : Int) + 1
      · rw [if_pos e, if_pos (by rw [e]; omega)]
        rw [e]
        congr 1
        omega
      · rw [if_neg e]
        by_cases e2 : 0 < arrayindex ops k1 ∧ arrayindex ops k1 ≤ (m : Int)
        · rw [if_pos e2, if_pos ⟨e2.1, by omega⟩]
        · rw [if_neg e2, if_neg (by omega)]
    have hnext : ∀ t1 : Table N, Inv ops t1 → t1.array = A → t1.sizearray = na →
        (∀ k1, getval ops t1 k1 =
          if 0 < arrayindex ops k1 ∧ arrayindex ops k1 ≤ ((m + 1 : Nat) : Int) then
            A.getD (arrayindex ops k1 - 1).toNat .nil else .nil) →
        match (List.range' (m + 1) cnt).foldlM (resize_evict ops nk) t1 with
        | .ok t3 =>
          Inv ops t3 ∧ t3.array = A ∧ t3.sizearray = na ∧
          ∀ k1, getval ops t3 k1 =
            if 0 < arrayindex ops k1 ∧ arrayindex ops k1 ≤ ((m + (cnt + 1) : Nat) : Int) then
              A.getD (arrayindex ops k1 - 1).toNat .nil else .nil
        | .error e => e ≠ .runerror .index_is_nil ∧ e ≠ .runerror .index_is_NaN := by
      intro t1 h1 h2 h3 h4
      have := ih (m + 1) t1 h1 h2 h3 (by omega) (by omega) h4
      have e : m + 1 + cnt = m + (cnt + 1) := by omega
      rw [e] at this
      exact this
    unfold resize_evict
    rw [hget]
    simp only []
    by_cases hv : ttisnil (A.getD m .nil) = true
    · simp only [hv, Bool.not_true, Bool.false_eq_true, if_false]
      apply hnext tc hI ha hs
      intro k1
      rw [hc k1, ← hstep k1 (Or.inr trivial)]
      by_cases e : arrayindex ops k1 = (m : Int) + 1
      · rw [if_pos e, if_neg (by omega), (ttisnil_true_iff _).mp hv]
      · rw [if_neg e]
    · simp only [hv, Bool.not_false, if_true]
      have h30 : (2 : Nat) ^ 30 = 1073741824 := by norm_num
      have hkey : cast_int ((m : Int) + 1) = (m : Int) + 1 := by
        apply cast_int_of_range; omega
      have hsp := luaH_setint_with_spec hL nk hnk tc hI ((m : Int) + 1) hkey (A.getD m .nil)
      cases hr : luaH_setint_with ops nk tc ((m : Int) + 1) (A.getD m .nil) with
      | error e => rw [hr] at hsp; exact hsp
      | ok t1 =>
        rw [hr] at hsp
        simp only [] at hsp ⊢
        by_cases hchk : t1.array = tc.array ∧ t1.sizearray = tc.sizearray
        · rw [if_pos hchk]
          apply hnext t1 hsp.1 (by rw [hchk.1, ha]) (by rw [hchk.2, hs])
          intro k1
          rw [hsp.2.1 k1, hc k1, ← hstep k1 (Or.inr trivial)]
          by_cases e : arrayindex ops k1 = (m : Int) + 1
          · rw [if_pos e, if_pos ((rawequal_cast_iff hL _ hkey k1 (by omega)).mpr e)]
          · rw [if_neg e, if_neg (fun h => e ((rawequal_cast_iff hL _ hkey k1 (by omega)).mp h))]
        · rw [if_neg hchk]
          exact ⟨by simp, by simp⟩

theorem reinserted_congr {N : Type} (ops : LuaConf N) (t tc : Table N) (D1 D2 : Nat → Prop)
    (h : ∀ x, D1 x ↔ D2 x) (hr : Reinserted ops t D1 tc) : Reinserted ops t D2 tc := by
  intro k1
  refine ⟨?_, ?_⟩
  · intro h1
    apply (hr k1).1
    rcases h1 with h1 | ⟨j, h2, h3⟩
    · exact Or.inl h1
    · exact Or.inr ⟨j, (h j).mpr h2, h3⟩
  · intro h1 h2
    exact (hr k1).2 h1 (fun j hj => h2 j ((h j).mp hj))

/-- The loop of `luaH_resize` that re-inserts the nodes of the old hash part. -/
theorem reinsert_fold {N : Type} {ops : LuaConf N} (hL : ops.Lawful)
    (nk : Table N → TValue N → Except Err (Table N × Cell)) (hnk : NewkeySpec ops nk)
    (t : Table N) (hI : Inv ops t) :
    ∀ (l : List Nat) (D : Nat → Prop) (tc : Table N), Inv ops tc →
      (∀ j, j ∈ l → j < sizenode t) → l.Nodup → (∀ j, j ∈ l → ¬ D j) →
      Reinserted ops t D tc →
      match l.foldlM (resize_reinsert ops nk t.node) tc with
      | .ok t3 =>
        Inv ops t3 ∧ Reinserted ops t (fun x => x ∈ l ∨ D x) t3 ∧
        (tc.array.length = tc.sizearray → t3.array.length = t3.sizearray)
      | .error e => e ≠ .runerror .index_is_nil ∧ e ≠ .runerror .index_is_NaN := by
  intro l
  induction l with
  | nil =>
    intro D tc hIc _ _ _ hr
    simp only [foldlM_nil_except]
    exact ⟨hIc, reinserted_congr ops t tc D _ (fun x => by simp) hr, fun h => h⟩
  | cons j l ih =>
    intro D tc hIc hlt hnd hD hr
    rw [foldlM_cons_except]
    have hj : j < sizenode t := hlt j (List.mem_cons_self _ _)
    have hjD : ¬ D j := hD j (List.mem_cons_self _ _)
    have hnd2 := List.nodup_cons.mp hnd
    -- what is left once a table `t1` for `j :: D` is at hand
    have hnext : ∀ t1 : Table N, Inv ops t1 → Reinserted ops t (fun x => x = j ∨ D x) t1 →
        (tc.array.length = tc.sizearray → t1.array.length = t1.sizearray) →
        match l.foldlM (resize_reinsert ops nk t.node) t1 with
        | .ok t3 =>
          Inv ops t3 ∧ Reinserted ops t (fun x => x ∈ j :: l ∨ D x) t3 ∧
          (tc.array.length = tc.sizearray → t3.array.length = t3.sizearray)
        | .error e => e ≠ .runerror .index_is_nil ∧ e ≠ .runerror .index_is_NaN := by
      intro t1 h1 h2 h3
      have := ih (fun x => x = j ∨ D x) t1 h1
        (fun x hx => hlt x (List.mem_cons_of_mem _ hx)) hnd2.2
        (fun x hx hx2 => by
          rcases hx2 with hx2 | hx2
          · rw [hx2] at hx; exact hnd2.1 hx
          · exact hD x (List.mem_cons_of_mem _ hx) hx2) h2
      cases hf : l.foldlM (resize_reinsert ops nk t.node) t1 with
      | error e => rw [hf] at this; exact this
      | ok t3 =>
        rw [hf] at this
        simp only [] at this ⊢
        refine ⟨this.1, ?_, fun h => this.2.2 (h3 h)⟩
        refine reinserted_congr ops t t3 _ _ ?_ this.2.1
        intro x
        simp only [List.mem_cons]
        tauto
    have hnode : t.node.getD j dummynode_ = gnode t j := rfl
    unfold resize_reinsert
    rw [hnode]
    by_cases hv : ttisnil (gnode t j).i_val = true
    · simp only [hv, Bool.not_true, Bool.false_eq_true, if_false]
      have hvn := (ttisnil_true_iff _).mp hv
      apply hnext tc hIc ?_ (fun h => h)
      intro k1
      refine ⟨?_, ?_⟩
      · intro h1
        rcases h1 with h1 | ⟨j1, h2, h3⟩
        · exact (hr k1).1 (Or.inl h1)
        · rcases h2 with h2 | h2
          · rw [h2] at h3
            by_cases harr : 0 < arrayindex ops k1 ∧ arrayindex ops k1 ≤ (t.sizearray : Int)
            · exact (hr k1).1 (Or.inl harr)
            · by_cases hk1 : ttisnil k1 = true
              · rw [(ttisnil_true_iff k1).mp hk1, getval_nil, getval_nil]
              · have hk0 : ttisnil k1 = false := by simpa using hk1
                rw [(getval_hash_some hL t hI k1 hk0 harr j hj h3).2, hvn]
                apply (hr k1).2 harr
                intro j2 hj2
                cases hre : luaV_rawequalobj ops (gnode t j2).i_key k1 with
                | false => rfl
                | true =>
                  exfalso
                  have hj2lt : j2 < sizenode t := by
                    by_contra hb
                    have : gnode t j2 = dummynode_ := by
                      unfold gnode
                      rw [List.getD_eq_default]
                      rw [hI.size_eq]; omega
                    rw [this] at hre
                    have := (rawequal_nil_left ops k1).mp hre
                    rw [this] at hk0; simp [ttisnil] at hk0
                  have := haskey_unique hL t hI k1 ((ttisnil_false_iff k1).mp hk0) j j2 hj hj2lt
                    h3 hre
                  rw [← this] at hj2
                  exact hjD hj2
          · exact (hr k1).1 (Or.inr ⟨j1, h2, h3⟩)
      · intro h1 h2
        exact (hr k1).2 h1 (fun j1 hj1 => h2 j1 (Or.inr hj1))
    · simp only [hv, Bool.not_false, if_true]
      have hvn : (gnode t j).i_val ≠ .nil := by
        intro e; rw [e] at hv; simp [ttisnil] at hv
      have hkn := key_ne_nil_of_val hI j hj hvn
      have hkv := hI.keys_valid j hj hkn
      have hsp := set_write_spec hL nk hnk tc hIc (gnode t j).i_key hkv (gnode t j).i_val
      cases hs : luaH_set_with ops nk tc (gnode t j).i_key with
      | error e => rw [hs] at hsp; exact hsp
      | ok r =>
        obtain ⟨t1, c⟩ := r
        rw [hs] at hsp
        simp only [] at hsp ⊢
        obtain ⟨s1, s2, s3, _, _⟩ := hsp
        apply hnext _ s1 ?_ s3
        intro k1
        rw [s2 k1]
        refine ⟨?_, ?_⟩
        · intro h1
          by_cases hre : luaV_rawequalobj ops (gnode t j).i_key k1 = true
          · rw [if_pos hre]
            have hk0 : ttisnil k1 = false := by
              rw [ttisnil_false_iff]
              intro e; rw [e] at hre
              exact hkn ((rawequal_nil_iff ops _).mp hre)
            have harr : ¬ (0 < arrayindex ops k1 ∧ arrayindex ops k1 ≤ (t.sizearray : Int)) := by
              rw [← arrayindex_congr hL _ _ hre]
              exact hI.array_disjoint j hj hkn
            rw [(getval_hash_some hL t hI k1 hk0 harr j hj hre).2]
          · rw [if_neg hre]
            rcases h1 with h1 | ⟨j1, h2, h3⟩
            · exact (hr k1).1 (Or.inl h1)
            · rcases h2 with h2 | h2
              · rw [h2] at h3; exact absurd h3 hre
              · exact (hr k1).1 (Or.inr ⟨j1, h2, h3⟩)
        · intro h1 h2
          have hre := h2 j (Or.inl rfl)
          rw [if_neg (by rw [hre]; simp)]
          exact (hr k1).2 h1 (fun j1 hj1 => h2 j1 (Or.inr hj1))

/-- Replacing the array block by one that agrees below `sizearray`. -/
theorem inv_array {N : Type} {ops : LuaConf N} (hL : ops.Lawful) (t : Table N)
    (hI : Inv ops t) (A : List (TValue N)) (hlen : t.sizearray ≤ A.length)
    (hA : ∀ j, j < t.sizearray → A.getD j .nil = t.array.getD j .nil) :
    Inv ops { t with array := A } ∧ ∀ k1, getval ops { t with array := A } k1 = getval ops t k1 := by
  have hI1 : Inv ops { t with array := A } := by
    constructor
    · exact hI.size_eq
    · exact hI.lsize_le
    · exact hlen
    · exact hI.asize_le
    · exact hI.dummy
    · exact hI.lastfree_le
    · exact hI.lastfree_used
    · exact ⟨hI.chain.next_lt, hI.chain.rank⟩
    · exact hI.next_inj
    · exact hI.free
    · exact hI.keys_valid
    · exact hI.reach
    · exact hI.brent
    · exact hI.nodup
    · exact hI.array_disjoint
  refine ⟨hI1, ?_⟩
  intro k1
  exact getval_eq_of_content hL t _ hI hI1 hA rfl
    (fun i hi _ _ => ⟨i, hi, rfl, rfl⟩) (fun i hi _ _ => ⟨i, hi, rfl, rfl⟩) k1

/-- The contract of `luaH_resize`: the invariant holds afterwards and every key reads the
same value as before. -/
theorem luaH_resize_with_spec {N : Type} [DecidableEq N] {ops : LuaConf N} (hL : ops.Lawful)
    (nk : Table N → TValue N → Except Err (Table N × Cell)) (hnk : NewkeySpec ops nk)
    (t : Table N) (hI : Inv ops t) (na nh : Nat) (hna : na ≤ MAXASIZE) :
    (∀ t1, luaH_resize_with ops nk t na nh = .ok t1 →
      Inv ops t1 ∧ (∀ k1, getval ops t1 k1 = getval ops t k1) ∧
      (t.array.length = t.sizearray → t1.array.length = t1.sizearray)) ∧
    (∀ e, luaH_resize_with ops nk t na nh = .error e →
      e ≠ .runerror .index_is_nil ∧ e ≠ .runerror .index_is_NaN) := by
  have h30 : MAXASIZE = 2 ^ 30 := rfl
  have hsa := hI.asize_le
  have hal := hI.arr_le
  -- the table after the array part has grown
  have hgrow : ∀ j, (if na > t.sizearray then setarrayvector t na else t).array.getD j .nil =
      if j < t.sizearray then t.array.getD j .nil
      else (if na > t.sizearray then .nil else t.array.getD j .nil) := by
    intro j
    by_cases hg : na > t.sizearray
    · simp only [hg, if_true, setarrayvector]
      simp only [List.getD_eq_getElem?_getD]
      by_cases hj : j < t.sizearray
      · rw [if_pos hj, List.getElem?_append_left (by simp; omega), List.getElem?_take_of_lt hj]
      · rw [if_neg hj, List.getElem?_append_right (by simp; omega)]
        simp only [List.length_take, List.getElem?_replicate]
        split <;> rfl
    · simp only [hg, if_false]
      split <;> rfl
  have hgsize : (if na > t.sizearray then setarrayvector t na else t).sizearray =
      (if na > t.sizearray then na else t.sizearray) := by
    by_cases hg : na > t.sizearray
    · simp only [hg, if_true, setarrayvector]
    · simp only [hg, if_false]
  have hglen : (if na > t.sizearray then setarrayvector t na else t).array.length =
      (if na > t.sizearray then na else t.array.length) := by
    by_cases hg : na > t.sizearray
    · simp only [hg, if_true, setarrayvector, List.length_append, List.length_take,
        List.length_replicate]
      omega
    · simp only [hg, if_false]
  -- the second loop, from a table that holds the old array range
  have hphaseH : ∀ tE : Table N, Inv ops tE → Reinserted ops t (fun _ => False) tE →
      (∀ t1, (List.range (twoto t.lsizenode)).reverse.foldlM
          (resize_reinsert ops nk t.node) tE = .ok t1 →
        Inv ops t1 ∧ (∀ k1, getval ops t1 k1 = getval ops t k1) ∧
        (tE.array.length = tE.sizearray → t1.array.length = t1.sizearray)) ∧
      (∀ e, (List.range (twoto t.lsizenode)).reverse.foldlM
          (resize_reinsert ops nk t.node) tE = .error e →
        e ≠ .runerror .index_is_nil ∧ e ≠ .runerror .index_is_NaN) := by
    intro tE hIE hRE
    have hf := reinsert_fold hL nk hnk t hI (List.range (twoto t.lsizenode)).reverse
      (fun _ => False) tE hIE
      (fun j hj => by
        rw [List.mem_reverse, List.mem_range] at hj
        exact hj)
      (List.nodup_reverse.mpr (List.nodup_range _))
      (fun _ _ h => h) hRE
    refine ⟨?_, ?_⟩
    · intro t1 h1
      rw [h1] at hf
      simp only [] at hf
      refine ⟨hf.1, ?_, hf.2.2⟩
      intro k1
      by_cases harr : 0 < arrayindex ops k1 ∧ arrayindex ops k1 ≤ (t.sizearray : Int)
      · exact (hf.2.1 k1).1 (Or.inl harr)
      · by_cases hk1 : ttisnil k1 = true
        · rw [(ttisnil_true_iff k1).mp hk1, getval_nil, getval_nil]
        · have hk0 : ttisnil k1 = false := by simpa using hk1
          rcases luaH_get_hash hL t hI k1 hk0 harr with ⟨j, hj, g1, _⟩ | ⟨g1, _⟩
          · apply (hf.2.1 k1).1
            refine Or.inr ⟨j, Or.inl ?_, g1⟩
            rw [List.mem_reverse, List.mem_range]
            exact hj
          · rw [(getval_hash_none hL t hI k1 hk0 harr g1).2]
            apply (hf.2.1 k1).2 harr
            intro j hj
            rcases hj with hj | hj
            · rw [List.mem_reverse, List.mem_range] at hj
              exact g1 j hj
            · exact absurd hj id
    · intro e h1
      rw [h1] at hf
      exact hf
  -- the table after `setnodevector`
  have hfreshE : ∀ t2 : Table N,
      setnodevector (if na > t.sizearray then setarrayvector t na else t) nh = .ok t2 →
      ¬ na < t.sizearray → Inv ops t2 ∧ Reinserted ops t (fun _ => False) t2 ∧
        (t.array.length = t.sizearray → t2.array.length = t2.sizearray) := by
    intro t2 h2 hns
    obtain ⟨f1, f2, f3, f4, f5, f6, f7, f8⟩ := setnodevector_ok _ _ t2 h2
    have hI2 : Inv ops t2 := by
      apply inv_fresh ops t2 f3 f4 f5 ?_ ?_ f6 f7 f8
      · rw [f1, f2, hgsize, hglen]
        split <;> omega
      · rw [f2, hgsize]
        split <;> omega
    refine ⟨hI2, ?_, ?_⟩
    · intro k1
      rw [getval_fresh hL t2 hI2 f3, f1, f2, hgsize]
      refine ⟨?_, ?_⟩
      · intro h1
        rcases h1 with h1 | ⟨_, hF, _⟩
        · rw [getval_array hL t hsa k1 h1, if_pos ⟨h1.1, by split <;> omega⟩, hgrow,
            if_pos (by omega)]
        · exact absurd hF id
      · intro h1 _
        by_cases h3 : 0 < arrayindex ops k1 ∧
            arrayindex ops k1 ≤ ((if na > t.sizearray then na else t.sizearray : Nat) : Int)
        · rw [if_pos h3, hgrow]
          have hg : na > t.sizearray := by
            by_contra hg
            rw [if_neg hg] at h3
            exact h1 h3
          rw [if_neg (by omega), if_pos hg]
        · rw [if_neg h3]
    · intro hst
      rw [f1, f2, hgsize, hglen]
      split <;> omega
  have hfreshS : ∀ t2 : Table N,
      setnodevector (if na > t.sizearray then setarrayvector t na else t) nh = .ok t2 →
      na < t.sizearray →
      (∀ t3, (List.range' na (t.sizearray - na)).foldlM (resize_evict ops nk)
          { t2 with sizearray := na } = .ok t3 →
        Inv ops { t3 with array := t3.array.take na } ∧
        Reinserted ops t (fun _ => False) { t3 with array := t3.array.take na } ∧
        ({ t3 with array := t3.array.take na }).array.length =
          ({ t3 with array := t3.array.take na }).sizearray) ∧
      (∀ e, (List.range' na (t.sizearray - na)).foldlM (resize_evict ops nk)
          { t2 with sizearray := na } = .error e →
        e ≠ .runerror .index_is_nil ∧ e ≠ .runerror .index_is_NaN) := by
    intro t2 h2 hs
    have hng : ¬ na > t.sizearray := by omega
    simp only [hng, if_false] at h2
    obtain ⟨f1, f2, f3, f4, f5, f6, f7, f8⟩ := setnodevector_ok _ _ t2 h2
    have hI0 : Inv ops { t2 with sizearray := na } := by
      refine inv_fresh ops { t2 with sizearray := na } f3 f4 f5 ?_ hna f6 f7 f8
      show na ≤ t2.array.length
      rw [f1]; omega
    have hev := evict_fold hL nk hnk t.array na (t.sizearray - na) na
      { t2 with sizearray := na } hI0 f1 rfl (by omega) (by omega)
      (by
        intro k1
        rw [getval_fresh hL _ hI0 f3]
        show (if 0 < arrayindex ops k1 ∧ arrayindex ops k1 ≤ (na : Int) then
          t2.array.getD (arrayindex ops k1 - 1).toNat .nil else .nil) = _
        rw [f1])
    have hsum : na + (t.sizearray - na) = t.sizearray := by omega
    rw [hsum] at hev
    refine ⟨?_, ?_⟩
    · intro t3 h3
      rw [h3] at hev
      simp only [] at hev
      obtain ⟨e1, e2, e3, e4⟩ := hev
      have hia := inv_array hL t3 e1 (t3.array.take na)
        (by rw [e3, List.length_take, e2]; omega)
        (by
          intro j hj
          rw [e3] at hj
          simp only [List.getD_eq_getElem?_getD]
          rw [List.getElem?_take_of_lt hj])
      refine ⟨hia.1, ?_, ?_⟩
      · intro k1
        rw [hia.2 k1, e4 k1]
        refine ⟨?_, ?_⟩
        · intro h1
          rcases h1 with h1 | ⟨_, hF, _⟩
          · rw [if_pos h1, getval_array hL t hsa k1 h1]
          · exact absurd hF id
        · intro h1 _
          rw [if_neg h1]
      · show (t3.array.take na).length = t3.sizearray
        rw [e3, List.length_take, e2]; omega
    · intro e h3
      rw [h3] at hev
      exact hev
  unfold luaH_resize_with
  simp only []
  cases hsn : setnodevector (if na > t.sizearray then setarrayvector t na else t) nh with
  | error e =>
    simp only []
    have := setnodevector_error _ _ e hsn
    refine ⟨fun t1 h => (nomatch h), ?_⟩
    intro e1 h1
    have := Except.error.inj h1
    subst this
    rw [‹e = Err.runerror Msg.table_overflow›]
    exact ⟨by simp, by simp⟩
  | ok t2 =>
    simp only []
    by_cases hs : na < t.sizearray
    · simp only [hs, if_true]
      obtain ⟨g1, g2⟩ := hfreshS t2 hsn hs
      cases hev : (List.range' na (t.sizearray - na)).foldlM (resize_evict ops nk)
          { t2 with sizearray := na } with
      | error e =>
        simp only []
        refine ⟨fun t1 h => (nomatch h), ?_⟩
        intro e1 h1
        have := Except.error.inj h1
        subst this
        exact g2 _ hev
      | ok t3 =>
        simp only []
        obtain ⟨i1, i2, i3⟩ := g1 t3 hev
        obtain ⟨p1, p2⟩ := hphaseH _ i1 i2
        refine ⟨?_, p2⟩
        intro t1 h1
        obtain ⟨q1, q2, q3⟩ := p1 t1 h1
        exact ⟨q1, q2, fun _ => q3 i3⟩
    · simp only [hs, if_false]
      obtain ⟨i1, i2, i3⟩ := hfreshE t2 hsn hs
      obtain ⟨p1, p2⟩ := hphaseH _ i1 i2
      refine ⟨?_, p2⟩
      intro t1 h1
      obtain ⟨q1, q2, q3⟩ := p1 t1 h1
      exact ⟨q1, q2, fun h => q3 (i3 h)⟩

theorem computesizes_loop_le (nums : List Nat) (narray : Nat) (hlen : nums.length ≤ 31) :
    ∀ (fuel i twotoi a na n : Nat), twotoi = 2 ^ i → n ≤ 2 ^ 30 →
      ∀ r, computesizes_loop nums narray fuel i twotoi a na n = .ok r → r.2 ≤ 2 ^ 30 := by
  intro fuel
  induction fuel with
  | zero => intro i twotoi a na n _ _ r h; simp [computesizes_loop] at h
  | succ fuel ih =>
    intro i twotoi a na n h2 hn r h
    simp only [computesizes_loop] at h
    by_cases hc : twotoi / 2 < narray
    · rw [if_pos hc] at h
      cases hg : nums.get? i with
      | none => rw [hg] at h; cases h
      | some c =>
        rw [hg] at h
        simp only [] at h
        have hi : i < nums.length := by
          rw [List.get?_eq_getElem?] at hg
          exact (List.getElem?_eq_some_iff.mp hg).1
        have htw : twotoi ≤ 2 ^ 30 := by
          rw [h2]
          exact Nat.pow_le_pow_right (by norm_num) (by omega)
        have hn1 : (if c > 0 ∧ (if c > 0 then a + c else a) > twotoi / 2 then twotoi else n)
            ≤ 2 ^ 30 := by
          by_cases hx : c > 0 ∧ (if c > 0 then a + c else a) > twotoi / 2
          · rw [if_pos hx]; exact htw
          · rw [if_neg hx]; exact hn
        by_cases he : (if c > 0 then a + c else a) = narray
        · rw [if_pos he] at h
          have := Except.ok.inj h
          rw [← this]
          exact hn1
        · rw [if_neg he] at h
          exact ih (i + 1) (twotoi * 2) _ _ _ (by rw [h2, pow_succ]) hn1 r h
    · rw [if_neg hc] at h
      have := Except.ok.inj h
      rw [← this]
      exact hn

theorem computesizes_le (nums : List Nat) (narray : Nat) (hlen : nums.length ≤ 31)
    (r : Nat × Nat) (h : computesizes nums narray = .ok r) : r.2 ≤ MAXASIZE := by
  unfold computesizes at h
  exact computesizes_loop_le nums narray hlen _ 0 1 0 0 0 rfl (Nat.zero_le _) r h

theorem computesizes_loop_error (nums : List Nat) (narray : Nat) :
    ∀ (fuel i twotoi a na n : Nat) (e : Err),
      computesizes_loop nums narray fuel i twotoi a na n = .error e → e = .undefined := by
  intro fuel
  induction fuel with
  | zero =>
    intro i twotoi a na n e h
    simp only [computesizes_loop] at h
    exact (Except.error.inj h).symm
  | succ fuel ih =>
    intro i twotoi a na n e h
    simp only [computesizes_loop] at h
    by_cases hc : twotoi / 2 < narray
    · rw [if_pos hc] at h
      cases hg : nums.get? i with
      | none => rw [hg] at h; exact (Except.error.inj h).symm
      | some c =>
        rw [hg] at h
        simp only [] at h
        by_cases he : (if c > 0 then a + c else a) = narray
        · rw [if_pos he] at h; cases h
        · rw [if_neg he] at h
          exact ih _ _ _ _ _ e h
    · rw [if_neg hc] at h; cases h

theorem countint_length {N : Type} (ops : LuaConf N) (key : TValue N) (nums : List Nat) :
    (countint ops key nums).2.length = nums.length := by
  unfold countint
  simp only []
  split
  · simp
  · rfl

theorem numusearray_loop_length {N : Type} (t : Table N) :
    ∀ (fuel lg ttlg i ause : Nat) (nums : List Nat),
      (numusearray_loop t fuel lg ttlg i ause nums).2.length = nums.length := by
  intro fuel
  induction fuel with
  | zero => intro lg ttlg i ause nums; rfl
  | succ fuel ih =>
    intro lg ttlg i ause nums
    simp only [numusearray_loop]
    generalize (if ttlg > t.sizearray then t.sizearray else ttlg) = lim
    by_cases hb : ttlg > t.sizearray ∧ i > lim
    · rw [if_pos hb]
    · rw [if_neg hb, ih]; simp

theorem numusehash_length {N : Type} (ops : LuaConf N) (t : Table N) (nums : List Nat)
    (p : Nat) : (numusehash ops t nums p).2.1.length = nums.length := by
  unfold numusehash
  simp only []
  have : ∀ (l : List Nat) (acc : Nat × Nat × List Nat),
      (l.foldl (numusehash_step ops t) acc).2.2.length = acc.2.2.length := by
    intro l
    induction l with
    | nil => intro acc; rfl
    | cons x l ih =>
      intro acc
      rw [List.foldl_cons, ih]
      unfold numusehash_step
      split
      · exact countint_length ops _ _
      · rfl
  exact this _ _

/-- The contract of `rehash`. -/
theorem rehash_with_spec {N : Type} [DecidableEq N] {ops : LuaConf N} (hL : ops.Lawful)
    (nk : Table N → TValue N → Except Err (Table N × Cell)) (hnk : NewkeySpec ops nk)
    (t : Table N) (hI : Inv ops t) (ek : TValue N) :
    (∀ t1, rehash_with ops nk t ek = .ok t1 →
      Inv ops t1 ∧ (∀ k1, getval ops t1 k1 = getval ops t k1) ∧
      (t.array.length = t.sizearray → t1.array.length = t1.sizearray)) ∧
    (∀ e, rehash_with ops nk t ek = .error e →
      e ≠ .runerror .index_is_nil ∧ e ≠ .runerror .index_is_NaN) := by
  unfold rehash_with
  simp only []
  generalize hnums : (countint ops ek
    (numusehash ops t (numusearray t (List.replicate (MAXBITS + 1) 0)).2
      (numusearray t (List.replicate (MAXBITS + 1) 0)).1).2.1).2 = nums
  have hlen : nums.length ≤ 31 := by
    rw [← hnums, countint_length, numusehash_length]
    unfold numusearray
    rw [numusearray_loop_length]
    simp [MAXBITS]
  generalize (numusehash ops t (numusearray t (List.replicate (MAXBITS + 1) 0)).2
      (numusearray t (List.replicate (MAXBITS + 1) 0)).1).2.2 +
      (countint ops ek (numusehash ops t (numusearray t (List.replicate (MAXBITS + 1) 0)).2
      (numusearray t (List.replicate (MAXBITS + 1) 0)).1).2.1).1 = nasize
  cases hcs : computesizes nums nasize with
  | error e =>
    simp only []
    refine ⟨fun t1 h => (nomatch h), ?_⟩
    intro e1 h1
    have := Except.error.inj h1
    subst this
    unfold computesizes at hcs
    rw [computesizes_loop_error _ _ _ _ _ _ _ _ e hcs]
    exact ⟨by simp, by simp⟩
  | ok r =>
    obtain ⟨na, nasize1⟩ := r
    simp only []
    exact luaH_resize_with_spec hL nk hnk t hI nasize1 _ (computesizes_le nums nasize hlen _ hcs)

/-- The contract of `luaH_newkey`, at every depth. -/
theorem luaH_newkey_spec {N : Type} [DecidableEq N] {ops : LuaConf N} (hL : ops.Lawful) :
    ∀ d, NewkeySpec ops (luaH_newkey ops d) := by
  intro d
  induction d with
  | zero =>
    intro t k hI hk hget
    rcases luaH_newkey_step hL 0 t hI k hk with ⟨h1, _⟩ | ⟨t1, c, h1, h2⟩
    · rw [h1]
      simp only [newkey_rehash]
      exact ⟨by simp, by simp⟩
    · rw [h1]
      simp only []
      obtain ⟨a, b, c1, d1, e1, f1⟩ := h2 hget
      exact ⟨a, b, c1, d1, fun h => by rw [e1, f1]; exact h⟩
  | succ d ih =>
    intro t k hI hk hget
    rcases luaH_newkey_step hL (d + 1) t hI k hk with ⟨h1, h0⟩ | ⟨t1, c, h1, h2⟩
    · rw [h1]
      simp only [newkey_rehash]
      obtain ⟨r1, r2⟩ := rehash_with_spec hL (luaH_newkey ops d) ih _ h0 k
      cases hr : rehash_with ops (luaH_newkey ops d) { t with lastfree := 0 } k with
      | error e => simp only []; exact r2 e hr
      | ok t1 =>
        simp only []
        obtain ⟨i1, i2, i3⟩ := r1 t1 hr
        have hs := luaH_set_with_spec hL (luaH_newkey ops d) ih t1 i1 k hk
        cases hs2 : luaH_set_with ops (luaH_newkey ops d) t1 k with
        | error e => rw [hs2] at hs; exact hs
        | ok r =>
          obtain ⟨t2, c⟩ := r
          rw [hs2] at hs
          simp only [] at hs ⊢
          obtain ⟨s1, s2, s3, s4, s5⟩ := hs
          refine ⟨s1, s2, s3, ?_, fun h => s5 (i3 h)⟩
          intro k1
          rw [s4 k1, i2 k1, getval_lastfree hL t hI.asize_le]
    · rw [h1]
      simp only []
      obtain ⟨a, b, c1, d1, e1, f1⟩ := h2 hget
      exact ⟨a, b, c1, d1, fun h => by rw [e1, f1]; exact h⟩

theorem intConf_lawful : intConf.Lawful where
  numeq_self := by
    intro a; cases a <;> simp [intConf]
  numeq_symm := by
    intro a b h
    cases a <;> cases b <;> simp [intConf] at h ⊢
    exact h.symm
  numeq_trans := by
    intro a b c h1 h2
    cases a <;> cases b <;> cases c <;> simp [intConf] at h1 h2 ⊢
    exact h1.trans h2
  hashnum_congr := by
    intro a b h
    cases a <;> cases b <;> simp [intConf] at h ⊢
    rw [h]
  cast_num_notnan := by
    intro i; simp [intConf]
  number2int_cast := by
    intro i n hi h
    cases n <;> simp [intConf] at h ⊢
    rw [← h]; exact hi
  eqlngstr_refl := by
    intro a; simp [intConf]
  eqlngstr_symm := by
    intro a b h
    simp [intConf] at h ⊢
    exact h.symm
  eqlngstr_trans := by
    intro a b c h1 h2
    simp [intConf] at h1 h2 ⊢
    exact h1.trans h2
  strhash_congr := by
    intro a b h
    simp [intConf] at h ⊢
    exact h

theorem inv_luaH_new {N : Type} (ops : LuaConf N) : Inv ops (luaH_new : Table N) := by
  apply inv_fresh ops luaH_new (gnode_replicate _ 1 rfl) rfl (Nat.zero_le _) (Nat.zero_le _)
    (Nat.zero_le _) (fun _ => ⟨rfl, rfl⟩) (fun h => by cases h) (Nat.zero_le _)

/-- A key that `luaH_get` does not find and that is not valid is rejected by
`luaH_newkey`, so a `luaH_set` that returns had a valid key. -/
theorem validkey_of_set_ok {N : Type} [DecidableEq N] {ops : LuaConf N} (hL : ops.Lawful)
    (t : Table N) (hI : Inv ops t) (d : Nat) (k : TValue N) (r : Table N × Cell)
    (hd : ttisdeadkey k = false) (h : luaH_set ops d t k = .ok r) :
    validkey ops k = true := by
  cases k with
  | nil =>
    exfalso
    simp [luaH_set, luaH_set_with, luaH_get] at h
    unfold luaH_newkey at h
    simp [ttisnil] at h
  | deadkey o => simp [ttisdeadkey] at hd
  | number n =>
    simp only [validkey]
    cases hn : ops.luai_numisnan n with
    | false => rfl
    | true =>
      exfalso
      have harr : ¬ (0 < arrayindex ops (.number n) ∧
          arrayindex ops (.number n) ≤ (t.sizearray : Int)) := by
        intro h1
        obtain ⟨m, e, h2⟩ := arrayindex_pos ops _ h1.1
        have := TValue.number.inj e
        subst this
        rw [numeq_notnan_right hL h2] at hn
        cases hn
      have habs : ∀ i, i < sizenode t →
          luaV_rawequalobj ops (gnode t i).i_key (.number n) = false := by
        intro i _
        rw [rawequal_number_left]
        cases (gnode t i).i_key <;> simp only []
        rename_i m
        cases h3 : ops.luai_numeq m n with
        | false => rfl
        | true =>
          rw [numeq_notnan_right hL h3] at hn
          cases hn
      have hg := (getval_hash_none hL t hI (.number n) rfl harr habs).1
      simp only [luaH_set, luaH_set_with, hg] at h
      simp only [ne_eq, not_true_eq_false, if_false] at h
      unfold luaH_newkey at h
      simp [ttisnil, hn] at h
  | boolean b => rfl
  | lightuserdata p => rfl
  | lcf f => rfl
  | gc tt o => rfl

/-- Every reachable table satisfies the invariant, and its array block has exactly
`sizearray` slots. -/
theorem reachable_inv {N : Type} [DecidableEq N] {ops : LuaConf N} (hL : ops.Lawful)
    (t : Table N) (h : Reachable ops t) : Inv ops t ∧ t.array.length = t.sizearray := by
  induction h with
  | new => exact ⟨inv_luaH_new ops, rfl⟩
  | set d t t1 k v c _ hd hs ih =>
    have hk := validkey_of_set_ok hL t ih.1 d k _ hd hs
    have hsp := set_write_spec hL (luaH_newkey ops d) (luaH_newkey_spec hL d) t ih.1 k hk v
    unfold luaH_set at hs
    rw [hs] at hsp
    exact ⟨hsp.1, hsp.2.2.1 ih.2⟩
  | setint d t t1 key v _ hkey hs ih =>
    have hsp := luaH_setint_with_spec hL (luaH_newkey ops d) (luaH_newkey_spec hL d) t ih.1
      key hkey v
    unfold luaH_setint at hs
    rw [hs] at hsp
    exact ⟨hsp.1, hsp.2.2 ih.2⟩
  | resize d t t1 na nh _ hna hs ih =>
    have hsp := (luaH_resize_with_spec hL (luaH_newkey ops d) (luaH_newkey_spec hL d) t ih.1
      na nh hna).1 t1 hs
    exact ⟨hsp.1, hsp.2.2 ih.2⟩

/-- On a table that satisfies the invariant `luaH_newkey` raises no key error for a valid
key, whether the key is present or not. -/
theorem luaH_newkey_no_keyerror {N : Type} [DecidableEq N] {ops : LuaConf N}
    (hL : ops.Lawful) (d : Nat) (t : Table N) (hI : Inv ops t) (k : TValue N)
    (hk : validkey ops k = true) :
    luaH_newkey ops d t k ≠ .error (.runerror .index_is_nil) ∧
    luaH_newkey ops d t k ≠ .error (.runerror .index_is_NaN) := by
  rcases luaH_newkey_step hL d t hI k hk with ⟨h1, h0⟩ | ⟨t1, c, h1, _⟩
  · rw [h1]
    cases d with
    | zero => simp [newkey_rehash]
    | succ d =>
      simp only [newkey_rehash]
      have ih : NewkeySpec ops (luaH_newkey ops d) := luaH_newkey_spec hL d
      obtain ⟨r1, r2⟩ := rehash_with_spec hL (luaH_newkey ops d) ih _ h0 k
      cases hr : rehash_with ops (luaH_newkey ops d) { t with lastfree := 0 } k with
      | error e =>
        simp only []
        have := r2 e hr
        exact ⟨fun h => this.1 (Except.error.inj h), fun h => this.2 (Except.error.inj h)⟩
      | ok t1 =>
        simp only []
        have hs := luaH_set_with_spec hL (luaH_newkey ops d) ih t1 (r1 t1 hr).1 k hk
        cases hs2 : luaH_set_with ops (luaH_newkey ops d) t1 k with
        | error e =>
          rw [hs2] at hs
          exact ⟨fun h => hs.1 (Except.error.inj h), fun h => hs.2 (Except.error.inj h)⟩
        | ok r => exact ⟨fun h => (nomatch h), fun h => (nomatch h)⟩
  · rw [h1]
    exact ⟨fun h => (nomatch h), fun h => (nomatch h)⟩

theorem write_write {N : Type} (t : Table N) (c : Cell) (v : TValue N) :
    (t.write c v).write c v = t.write c v := by
  cases c with
  | nilobject => rfl
  | arr i =>
    simp only [Table.write, List.set_set]
  | val i =>
    by_cases hi : i < t.node.length
    · have hg : gnode (t.write (.val i) v) i = { gnode t i with i_val := v } := by
        rw [gnode_write_val t i v i hi, if_pos rfl]
      show ({ (t.write (.val i) v) with
        node := (t.write (.val i) v).node.set i
          { gnode (t.write (.val i) v) i with i_val := v } } : Table N) = t.write (.val i) v
      rw [hg]
      simp only [Table.write, List.set_set]
    · have h1 : t.write (.val i) v = t := by
        simp only [Table.write]
        rw [List.set_eq_of_length_le (by omega)]
      rw [h1, h1]

/-- A lookup outside the array range that meets no raw-equal key on the chain of the main
position returns `luaO_nilobject`. -/
theorem luaH_get_chain_none {N : Type} {ops : LuaConf N} (hL : ops.Lawful) (t : Table N)
    (hI : Inv ops t) (k : TValue N)
    (harr : ¬ (0 < arrayindex ops k ∧ arrayindex ops k ≤ (t.sizearray : Int)))
    (hch : ∀ i, Reach t (mainposition ops t k) i →
      luaV_rawequalobj ops (gnode t i).i_key k = false) :
    luaH_get ops t k = .ok .nilobject := by
  rw [luaH_get_eq hL t hI.asize_le]
  by_cases hk : ttisnil k = true
  · rw [if_pos hk]
  · rw [if_neg hk, if_neg harr, get_loop_eq_walk]
    rcases walk_spec t hI.chain (fun nd => luaV_rawequalobj ops nd.i_key k) _
      (mainposition_lt ops t k hI.lsize_le) with ⟨i, _, _, h3, h4⟩ | ⟨h1, _⟩
    · have := hch i h3
      simp only [this] at h4
      cases h4
    · rw [h1]

theorem getval_of_get {N : Type} (ops : LuaConf N) (t : Table N) (k : TValue N) (c : Cell)
    (h : luaH_get ops t k = .ok c) : getval ops t k = t.read c := by
  unfold getval; rw [h]

/-- Every chain of an acyclic node vector ends: from every node some node with a null
`next` is reached. -/
theorem chain_ends {N : Type} (t : Table N) (hc : ChainOk t) (n : Nat) (hn : n < sizenode t) :
    ∃ i, i < sizenode t ∧ Reach t n i ∧ (gnode t i).next = none := by
  obtain ⟨r, hr⟩ := hc.rank
  have key : ∀ m n, r n ≤ m → n < sizenode t →
      ∃ i, i < sizenode t ∧ Reach t n i ∧ (gnode t i).next = none := by
    intro m
    induction m with
    | zero =>
      intro n hm hn
      rcases Option.eq_none_or_eq_some (gnode t n).next with h | ⟨j, h⟩
      · exact ⟨n, hn, Relation.ReflTransGen.refl, h⟩
      · have := hr n j hn h
        omega
    | succ m ih =>
      intro n hm hn
      rcases Option.eq_none_or_eq_some (gnode t n).next with h | ⟨j, h⟩
      · exact ⟨n, hn, Relation.ReflTransGen.refl, h⟩
      · have h1 := hr n j hn h
        obtain ⟨i, hi, hri, hnone⟩ := ih j (by omega) (hc.next_lt n j hn h)
        exact ⟨i, hi, Relation.ReflTransGen.head h hri, hnone⟩
  exact key (r n) n (le_refl _) hn

theorem validkey_iff {N : Type} (ops : LuaConf N) (k : TValue N) :
    validkey ops k = true ↔
      (ttisnil k = false ∧ isnankey ops k = false ∧ ttisdeadkey k = false) := by
  cases k <;> simp [validkey, ttisnil, isnankey, ttisdeadkey, rttype]

theorem luaH_newkey_nil {N : Type} [DecidableEq N] (ops : LuaConf N) (d : Nat) (t : Table N)
    (k : TValue N) (hk : ttisnil k = true) :
    luaH_newkey ops d t k = .error (.runerror .index_is_nil) := by
  cases d <;> (unfold luaH_newkey; simp only [hk, if_true])

theorem luaH_newkey_nan {N : Type} [DecidableEq N] (ops : LuaConf N) (d : Nat) (t : Table N)
    (k : TValue N) (hk : isnankey ops k = true) :
    luaH_newkey ops d t k = .error (.runerror .index_is_NaN) := by
  cases k <;> simp [isnankey] at hk
  cases d <;> (unfold luaH_newkey; simp [ttisnil, rttype, hk])

theorem deadmatch_false_of_not_dead {N : Type} (a b : TValue N) (h : ttisdeadkey a = false) :
    deadmatch a b = false := by
  cases a <;> simp [ttisdeadkey, rttype] at h <;> cases b <;> rfl

theorem not_dead_of_validkey {N : Type} (ops : LuaConf N) (a : TValue N)
    (h : validkey ops a = true) : ttisdeadkey a = false := by
  cases a <;> simp [validkey] at h <;> rfl

theorem findindex_loop_eq_walk {N : Type} (ops : LuaConf N) (t : Table N) (key : TValue N)
    (f n : Nat) :
    findindex_loop ops t key f n =
      match walk t (fun nd => luaV_rawequalobj ops nd.i_key key || deadmatch nd.i_key key) f n with
      | .ok (some i) => .ok ((i : Int) + t.sizearray)
      | .ok none => .error (.runerror .invalid_key_to_next)
      | .error e => .error e := by
  induction f generalizing n with
  | zero => rfl
  | succ f ih =>
    simp only [findindex_loop, walk]
    by_cases h : (luaV_rawequalobj ops (gnode t n).i_key key || deadmatch (gnode t n).i_key key) = true
    · rw [if_pos h, if_pos h]
    · rw [if_neg h, if_neg h]
      rcases Option.eq_none_or_eq_some (gnode t n).next with hn | ⟨n1, hn⟩
      · simp only [hn]
      · simp only [hn]
        exact ih n1

/-- On a table that satisfies the invariant no node holds a dead key, so the walk of
`findindex` is the walk of `luaH_get`. -/
theorem node_deadmatch_false {N : Type} {ops : LuaConf N} (t : Table N) (hI : Inv ops t)
    (key : TValue N) (i : Nat) (hi : i < sizenode t) :
    deadmatch (gnode t i).i_key key = false := by
  apply deadmatch_false_of_not_dead
  by_cases h : (gnode t i).i_key = .nil
  · rw [h]; rfl
  · exact not_dead_of_validkey ops _ (hI.keys_valid i hi h)

theorem walk_pred_congr {N : Type} (t : Table N) (hc : ChainOk t) (P Q : Node N → Bool)
    (h : ∀ i, i < sizenode t → P (gnode t i) = Q (gnode t i)) (f n : Nat)
    (hn : n < sizenode t) : walk t P f n = walk t Q f n := by
  induction f generalizing n with
  | zero => rfl
  | succ f ih =>
    simp only [walk]
    rw [h n hn]
    by_cases hq : Q (gnode t n) = true
    · rw [if_pos hq, if_pos hq]
    · rw [if_neg hq, if_neg hq]
      rcases Option.eq_none_or_eq_some (gnode t n).next with hx | ⟨n1, hx⟩
      · simp only [hx]
      · simp only [hx]
        exact ih n1 (hc.next_lt n n1 hn hx)

/-- The traversal index that `findindex` computes for a key is the index of the slot that
`luaH_get` returns for it. -/
theorem findindex_of_get {N : Type} {ops : LuaConf N} (hL : ops.Lawful) (t : Table N)
    (hI : Inv ops t) (k : TValue N) (c : Cell) (hg : luaH_get ops t k = .ok c)
    (hc : c ≠ .nilobject) : findindex ops t k = .ok (cellindex t c) := by
  rw [luaH_get_eq hL t hI.asize_le] at hg
  unfold findindex
  by_cases hn : ttisnil k = true
  · rw [if_pos hn] at hg
    cases hg
    exact absurd rfl hc
  · rw [if_neg hn] at hg
    rw [if_neg hn]
    simp only []
    by_cases ha : 0 < arrayindex ops k ∧ arrayindex ops k ≤ (t.sizearray : Int)
    · rw [if_pos ha] at hg
      rw [if_pos ha]
      cases hg
      simp only [cellindex]
      congr 1
      omega
    · rw [if_neg ha] at hg
      rw [if_neg ha, findindex_loop_eq_walk]
      rw [get_loop_eq_walk] at hg
      rw [walk_pred_congr t hI.chain _ (fun nd => luaV_rawequalobj ops nd.i_key k)
        (fun i hi => by simp only [node_deadmatch_false t hI k i hi, Bool.or_false]) _ _
        (mainposition_lt ops t k hI.lsize_le)]
      cases hw : walk t (fun nd => luaV_rawequalobj ops nd.i_key k) (sizenode t)
          (mainposition ops t k) with
      | error e => rw [hw] at hg; cases hg
      | ok r =>
        rw [hw] at hg
        cases r with
        | none => cases hg; exact absurd rfl hc
        | some i => cases hg; rfl

theorem findindex_write {N : Type} (ops : LuaConf N) (t : Table N) (c : Cell) (v k : TValue N) :
    findindex ops (t.write c v) k = findindex ops t k := by
  have hsz : (t.write c v).sizearray = t.sizearray := by cases c <;> rfl
  have hls : (t.write c v).lsizenode = t.lsizenode := by cases c <;> rfl
  have hkey : ∀ i, (gnode (t.write c v) i).i_key = (gnode t i).i_key ∧
      (gnode (t.write c v) i).next = (gnode t i).next := by
    intro i
    cases c with
    | nilobject => exact ⟨rfl, rfl⟩
    | arr j => exact ⟨rfl, rfl⟩
    | val j =>
      by_cases hj : j < t.node.length
      · rw [gnode_write_val t j v i hj]
        by_cases e : i = j
        · rw [if_pos e, e]; exact ⟨rfl, rfl⟩
        · rw [if_neg e]; exact ⟨rfl, rfl⟩
      · have h1 : t.write (.val j) v = t := by
          simp only [Table.write]
          rw [List.set_eq_of_length_le (by omega)]
        rw [h1]; exact ⟨rfl, rfl⟩
  have hloop : ∀ f n, findindex_loop ops (t.write c v) k f n = findindex_loop ops t k f n := by
    intro f
    induction f with
    | zero => intro n; rfl
    | succ f ih =>
      intro n
      simp only [findindex_loop, (hkey n).1, (hkey n).2, hsz]
      by_cases h : (luaV_rawequalobj ops (gnode t n).i_key k || deadmatch (gnode t n).i_key k) = true
      · rw [if_pos h, if_pos h]
      · rw [if_neg h, if_neg h]
        rcases Option.eq_none_or_eq_some (gnode t n).next with hx | ⟨n1, hx⟩
        · simp only [hx]
        · simp only [hx]; exact ih n1
  unfold findindex
  rw [hsz, sizenode_eq_of_lsizenode hls, mainposition_eq_of_lsizenode ops hls k, hloop]

theorem filterMap_range_none {α : Type} (f : Nat → Option α) (n p : Nat)
    (h : ∀ m, p ≤ m → m < p + n → f m = none) : (List.range' p n).filterMap f = [] := by
  induction n generalizing p with
  | zero => rfl
  | succ n ih =>
    rw [List.range'_succ, List.filterMap_cons, h p (le_refl _) (by omega)]
    exact ih (p + 1) (fun m h1 h2 => h m (by omega) (by omega))

theorem filterMap_range_first {α : Type} (f : Nat → Option α) (n p q : Nat) (e : α)
    (hpq : p ≤ q) (hq : q < p + n) (hnone : ∀ m, p ≤ m → m < q → f m = none)
    (hsome : f q = some e) :
    (List.range' p n).filterMap f = e :: (List.range' (q + 1) (p + n - (q + 1))).filterMap f := by
  induction n generalizing p with
  | zero => omega
  | succ n ih =>
    rw [List.range'_succ, List.filterMap_cons]
    by_cases hp : p = q
    · subst hp
      rw [hsome]
      have : p + (n + 1) - (p + 1) = n := by omega
      rw [this]
    · rw [hnone p (le_refl _) (by omega)]
      have := ih (p + 1) (by omega) (by omega) (fun m h1 h2 => hnone m (by omega) h2)
      rw [this]
      have : p + 1 + n - (q + 1) = p + (n + 1) - (q + 1) := by omega
      rw [this]

theorem filterMap_eq_filter_map {α β : Type} (f : α → Option β) (p : α → Bool) (g : α → β)
    (l : List α) (h : ∀ x, x ∈ l → f x = if p x = true then some (g x) else none) :
    l.filterMap f = (l.filter p).map g := by
  induction l with
  | nil => rfl
  | cons a l ih =>
    rw [List.filterMap_cons, h a (List.mem_cons_self _ _)]
    have ih1 := ih (fun x hx => h x (List.mem_cons_of_mem _ hx))
    by_cases hp : p a = true
    · rw [if_pos hp, List.filter_cons_of_pos hp, List.map_cons, ih1]
    · rw [if_neg hp, List.filter_cons_of_neg hp, ih1]

theorem next_array_spec {N : Type} (ops : LuaConf N) (t : Table N) (fuel i : Nat)
    (hf : i + fuel = t.sizearray) :
    match next_array t fuel i with
    | some j => i ≤ j ∧ j < t.sizearray ∧
        pos_entry ops t j = some (.number (ops.cast_num ((j : Int) + 1)), t.array.getD j .nil) ∧
        ∀ m, i ≤ m → m < j → pos_entry ops t m = none
    | none => ∀ m, i ≤ m → m < t.sizearray → pos_entry ops t m = none := by
  induction fuel generalizing i with
  | zero =>
    simp only [next_array]
    intro m h1 h2
    omega
  | succ fuel ih =>
    simp only [next_array]
    rw [if_pos (by omega)]
    by_cases hv : ttisnil (t.array.getD i .nil) = true
    · simp only [hv, Bool.not_true, Bool.false_eq_true, if_false]
      have h1 := ih (i + 1) (by omega)
      have hi : pos_entry ops t i = none := by
        unfold pos_entry
        rw [if_pos (by omega), if_pos hv]
      cases hr : next_array t fuel (i + 1) with
      | none =>
        rw [hr] at h1
        intro m hm1 hm2
        by_cases e : m = i
        · rw [e]; exact hi
        · exact h1 m (by omega) hm2
      | some j =>
        rw [hr] at h1
        obtain ⟨a, b, c, d⟩ := h1
        refine ⟨by omega, b, c, ?_⟩
        intro m hm1 hm2
        by_cases e : m = i
        · rw [e]; exact hi
        · exact d m (by omega) hm2
    · have hv1 : ttisnil (t.array.getD i .nil) = false := by simpa using hv
      simp only [hv1, Bool.not_false, if_true]
      refine ⟨le_refl _, by omega, ?_, fun m h1 h2 => by omega⟩
      unfold pos_entry
      rw [if_pos (by omega), if_neg hv]

theorem next_hash_spec {N : Type} (ops : LuaConf N) (t : Table N) (fuel i : Nat)
    (hf : i + fuel = sizenode t) :
    match next_hash t fuel i with
    | some j => i ≤ j ∧ j < sizenode t ∧
        pos_entry ops t (t.sizearray + j) = some ((gnode t j).i_key, (gnode t j).i_val) ∧
        ∀ m, i ≤ m → m < j → pos_entry ops t (t.sizearray + m) = none
    | none => ∀ m, i ≤ m → m < sizenode t → pos_entry ops t (t.sizearray + m) = none := by
  induction fuel generalizing i with
  | zero =>
    simp only [next_hash]
    intro m h1 h2
    omega
  | succ fuel ih =>
    simp only [next_hash]
    rw [if_pos (by omega)]
    by_cases hv : ttisnil (gnode t i).i_val = true
    · simp only [hv, Bool.not_true, Bool.false_eq_true, if_false]
      have h1 := ih (i + 1) (by omega)
      have hi : pos_entry ops t (t.sizearray + i) = none := by
        unfold pos_entry
        rw [if_neg (by omega), Nat.add_sub_cancel_left, if_pos hv]
      cases hr : next_hash t fuel (i + 1) with
      | none =>
        rw [hr] at h1
        intro m hm1 hm2
        by_cases e : m = i
        · rw [e]; exact hi
        · exact h1 m (by omega) hm2
      | some j =>
        rw [hr] at h1
        obtain ⟨a, b, c, d⟩ := h1
        refine ⟨by omega, b, c, ?_⟩
        intro m hm1 hm2
        by_cases e : m = i
        · rw [e]; exact hi
        · exact d m (by omega) hm2
    · have hv1 : ttisnil (gnode t i).i_val = false := by simpa using hv
      simp only [hv1, Bool.not_false, if_true]
      refine ⟨le_refl _, by omega, ?_, fun m h1 h2 => by omega⟩
      unfold pos_entry
      rw [if_neg (by omega), Nat.add_sub_cancel_left, if_neg hv]

/-- The result of `luaH_next` for a key of traversal index `p-1`: the first pair at an
index from `p` on, and 0 (`none`) when there is none. -/
theorem luaH_next_spec {N : Type} (ops : LuaConf N) (t : Table N) (k : TValue N) (p : Nat)
    (hp : p ≤ t.sizearray + sizenode t) (hf : findindex ops t k = .ok ((p : Int) - 1)) :
    (luaH_next ops t k = .ok none ∧
      ∀ m, p ≤ m → m < t.sizearray + sizenode t → pos_entry ops t m = none) ∨
    (∃ q e, p ≤ q ∧ q < t.sizearray + sizenode t ∧ pos_entry ops t q = some e ∧
      luaH_next ops t k = .ok (some e) ∧ ∀ m, p ≤ m → m < q → pos_entry ops t m = none) := by
  unfold luaH_next
  rw [hf]
  simp only []
  have hi : ((p : Int) - 1 + 1).toNat = p := by omega
  rw [hi]
  by_cases hlt : p < t.sizearray
  · have h1 := next_array_spec ops t (t.sizearray - p) p (by omega)
    cases hr : next_array t (t.sizearray - p) p with
    | some j =>
      rw [hr] at h1
      obtain ⟨a, b, c, d⟩ := h1
      exact Or.inr ⟨j, _, a, by omega, c, rfl, d⟩
    | none =>
      rw [hr] at h1
      simp only [if_pos hlt, Nat.sub_self, Nat.sub_zero]
      have h2 := next_hash_spec ops t (sizenode t) 0 (by omega)
      cases hr2 : next_hash t (sizenode t) 0 with
      | some j =>
        rw [hr2] at h2
        obtain ⟨a, b, c, d⟩ := h2
        refine Or.inr ⟨t.sizearray + j, _, by omega, by omega, c, rfl, ?_⟩
        intro m hm1 hm2
        by_cases hm : m < t.sizearray
        · exact h1 m hm1 hm
        · have := d (m - t.sizearray) (by omega) (by omega)
          rwa [show t.sizearray + (m - t.sizearray) = m by omega] at this
      | none =>
        rw [hr2] at h2
        refine Or.inl ⟨rfl, ?_⟩
        intro m hm1 hm2
        by_cases hm : m < t.sizearray
        · exact h1 m hm1 hm
        · have := h2 (m - t.sizearray) (by omega) (by omega)
          rwa [show t.sizearray + (m - t.sizearray) = m by omega] at this
  · have h0 : t.sizearray - p = 0 := by omega
    rw [h0]
    simp only [next_array, if_neg hlt]
    have h2 := next_hash_spec ops t (sizenode t - (p - t.sizearray)) (p - t.sizearray) (by omega)
    cases hr2 : next_hash t (sizenode t - (p - t.sizearray)) (p - t.sizearray) with
    | some j =>
      rw [hr2] at h2
      obtain ⟨a, b, c, d⟩ := h2
      refine Or.inr ⟨t.sizearray + j, _, by omega, by omega, c, rfl, ?_⟩
      intro m hm1 hm2
      have := d (m - t.sizearray) (by omega) (by omega)
      rwa [show t.sizearray + (m - t.sizearray) = m by omega] at this
    | none =>
      rw [hr2] at h2
      refine Or.inl ⟨rfl, ?_⟩
      intro m hm1 hm2
      have := h2 (m - t.sizearray) (by omega) (by omega)
      rwa [show t.sizearray + (m - t.sizearray) = m by omega] at this

/-- The traversal from a key of traversal index `p-1` yields the pairs at the indices from
`p` on, provided `findindex` maps each yielded key to its index. -/
theorem traversal_spec {N : Type} (ops : LuaConf N) (t : Table N)
    (hfi : ∀ q e, q < t.sizearray + sizenode t → pos_entry ops t q = some e →
      findindex ops t e.1 = .ok (q : Int))
    (fuel n p : Nat) (k : TValue N) (hn : n < fuel) (hp : p + n = t.sizearray + sizenode t)
    (hf : findindex ops t k = .ok ((p : Int) - 1)) :
    traversal ops t fuel k = .ok (entries_from ops t p n) := by
  induction fuel generalizing n p k with
  | zero => omega
  | succ fuel ih =>
    simp only [traversal]
    rcases luaH_next_spec ops t k p (by omega) hf with ⟨h1, h2⟩ | ⟨q, e, hq1, hq2, he, h1, h2⟩
    · rw [h1]
      simp only []
      unfold entries_from
      rw [filterMap_range_none _ n p (fun m a b => h2 m a (by omega))]
    · rw [h1]
      obtain ⟨k1, v⟩ := e
      simp only []
      have h3 := ih (p + n - (q + 1)) (q + 1) k1 (by omega) (by omega)
        (by
          have := hfi q (k1, v) hq2 he
          simp only [] at this
          rw [this]
          congr 1
          push_cast
          omega)
      rw [h3]
      simp only []
      unfold entries_from
      rw [filterMap_range_first (pos_entry ops t) n p q (k1, v) hq1 (by omega) h2 he]

theorem entries_from_zero {N : Type} (ops : LuaConf N) (t : Table N) :
    entries_from ops t 0 (t.sizearray + sizenode t) =
      array_entries ops t ++ node_entries t := by
  unfold entries_from
  have h1 : List.range' 0 (t.sizearray + sizenode t) =
      List.range' 0 t.sizearray ++ List.range' t.sizearray (sizenode t) := by
    have := List.range'_append 0 t.sizearray (sizenode t) 1
    simp only [one_mul, zero_add] at this
    rw [Nat.add_comm (sizenode t)] at this
    exact this.symm
  rw [h1, List.filterMap_append]
  congr 1
  · unfold array_entries
    rw [List.range_eq_range']
    apply filterMap_eq_filter_map
    intro x hx
    have hx1 : x < t.sizearray := by
      have := List.mem_range'_1.1 hx
      omega
    unfold pos_entry
    rw [if_pos hx1]
    generalize ttisnil (t.array.getD x .nil) = b
    cases b <;> simp
  · unfold node_entries
    rw [List.range'_eq_map_range, List.filterMap_map]
    apply filterMap_eq_filter_map
    intro x hx
    simp only [Function.comp]
    unfold pos_entry
    rw [if_neg (by omega), Nat.add_sub_cancel_left]
    generalize ttisnil (gnode t x).i_val = b
    cases b <;> simp

/-- The key of the pair at a traversal index is looked up in the slot of that index. -/
theorem pos_entry_get {N : Type} {ops : LuaConf N} (hL : ops.Lawful) (t : Table N)
    (hI : Inv ops t) (q : Nat) (hq : q < t.sizearray + sizenode t) (k v : TValue N)
    (he : pos_entry ops t q = some (k, v)) :
    ttisnil v = false ∧
    ((q < t.sizearray ∧ k = .number (ops.cast_num ((q : Int) + 1)) ∧
        v = t.array.getD q .nil ∧ luaH_get ops t k = .ok (.arr q)) ∨
     (t.sizearray ≤ q ∧ k = (gnode t (q - t.sizearray)).i_key ∧
        v = (gnode t (q - t.sizearray)).i_val ∧ k ≠ .nil ∧
        luaH_get ops t k = .ok (.val (q - t.sizearray)))) := by
  have hsz : t.sizearray ≤ 2 ^ 30 := hI.asize_le
  norm_num at hsz
  unfold pos_entry at he
  by_cases hlt : q < t.sizearray
  · rw [if_pos hlt] at he
    by_cases hv : ttisnil (t.array.getD q .nil) = true
    · rw [if_pos hv] at he; cases he
    · rw [if_neg hv] at he
      simp only [Option.some.injEq, Prod.mk.injEq] at he
      obtain ⟨e1, e2⟩ := he
      refine ⟨by rw [← e2]; simpa using hv, Or.inl ⟨hlt, e1.symm, e2.symm, ?_⟩⟩
      have hc : cast_int ((q : Int) + 1) = (q : Int) + 1 :=
        cast_int_of_range _ (by constructor <;> omega)
      have ha := arrayindex_cast hL ((q : Int) + 1) hc
      rw [← e1, luaH_get_array hL t hI.asize_le _ (by rw [ha]; constructor <;> omega), ha]
      have hq1 : ((q : Int) + 1 - 1).toNat = q := by omega
      rw [hq1]
  · rw [if_neg hlt] at he
    by_cases hv : ttisnil (gnode t (q - t.sizearray)).i_val = true
    · rw [if_pos hv] at he; cases he
    · rw [if_neg hv] at he
      simp only [Option.some.injEq, Prod.mk.injEq] at he
      obtain ⟨e1, e2⟩ := he
      have hj : q - t.sizearray < sizenode t := by omega
      have hvn : (gnode t (q - t.sizearray)).i_val ≠ .nil := by
        intro e
        rw [e] at hv
        exact hv rfl
      have hkn := key_ne_nil_of_val hI _ hj hvn
      have hkv := hI.keys_valid _ hj hkn
      refine ⟨by rw [← e2]; simpa using hv,
        Or.inr ⟨by omega, e1.symm, e2.symm, by rw [← e1]; exact hkn, ?_⟩⟩
      rw [← e1]
      exact (getval_hash_some hL t hI _ (validkey_ttisnil ops _ hkv)
        (hI.array_disjoint _ hj hkn) _ hj (rawequal_refl hL _ hkv)).1

theorem pos_entry_findindex {N : Type} {ops : LuaConf N} (hL : ops.Lawful) (t : Table N)
    (hI : Inv ops t) (q : Nat) (e : TValue N × TValue N)
    (hq : q < t.sizearray + sizenode t) (he : pos_entry ops t q = some e) :
    findindex ops t e.1 = .ok (q : Int) := by
  obtain ⟨k, v⟩ := e
  rcases (pos_entry_get hL t hI q hq k v he).2 with ⟨h1, _, _, h2⟩ | ⟨h1, _, _, _, h2⟩
  · rw [findindex_of_get hL t hI k _ h2 (by simp)]
    rfl
  · rw [findindex_of_get hL t hI k _ h2 (by simp)]
    simp only [cellindex]
    congr 1
    omega

/-- The traversal of a table that satisfies the invariant, started at nil, ends and yields
the array entries followed by the node entries. -/
theorem traversal_nil {N : Type} {ops : LuaConf N} (hL : ops.Lawful) (t : Table N)
    (hI : Inv ops t) :
    traversal ops t (t.sizearray + sizenode t + 1) .nil =
      .ok (array_entries ops t ++ node_entries t) := by
  rw [← entries_from_zero]
  exact traversal_spec ops t (fun q e hq he => pos_entry_findindex hL t hI q e hq he)
    _ _ 0 .nil (Nat.lt_succ_self _) (by omega) rfl

theorem mem_array_entries {N : Type} (ops : LuaConf N) (t : Table N) (e : TValue N × TValue N) :
    e ∈ array_entries ops t ↔ ∃ i, i < t.sizearray ∧ ttisnil (t.array.getD i .nil) = false ∧
      e = (.number (ops.cast_num ((i : Int) + 1)), t.array.getD i .nil) := by
  unfold array_entries
  simp only [List.mem_map, List.mem_filter, List.mem_range, Bool.not_eq_true']
  constructor
  · rintro ⟨i, ⟨h1, h2⟩, h3⟩
    exact ⟨i, h1, h2, h3.symm⟩
  · rintro ⟨i, h1, h2, h3⟩
    exact ⟨i, ⟨h1, h2⟩, h3.symm⟩

theorem mem_node_entries {N : Type} (t : Table N) (e : TValue N × TValue N) :
    e ∈ node_entries t ↔ ∃ i, i < sizenode t ∧ ttisnil (gnode t i).i_val = false ∧
      e = ((gnode t i).i_key, (gnode t i).i_val) := by
  unfold node_entries
  simp only [List.mem_map, List.mem_filter, List.mem_range, Bool.not_eq_true']
  constructor
  · rintro ⟨i, ⟨h1, h2⟩, h3⟩
    exact ⟨i, h1, h2, h3.symm⟩
  · rintro ⟨i, h1, h2, h3⟩
    exact ⟨i, ⟨h1, h2⟩, h3.symm⟩

theorem array_key_get {N : Type} {ops : LuaConf N} (hL : ops.Lawful) (t : Table N)
    (hI : Inv ops t) (i : Nat) (hi : i < t.sizearray) :
    arrayindex ops (.number (ops.cast_num ((i : Int) + 1))) = (i : Int) + 1 ∧
    cast_int ((i : Int) + 1) = (i : Int) + 1 ∧
    luaH_get ops t (.number (ops.cast_num ((i : Int) + 1))) = .ok (.arr i) := by
  have hsz : t.sizearray ≤ 2 ^ 30 := hI.asize_le
  norm_num at hsz
  have hc : cast_int ((i : Int) + 1) = (i : Int) + 1 :=
    cast_int_of_range _ (by constructor <;> omega)
  have ha := arrayindex_cast hL ((i : Int) + 1) hc
  refine ⟨ha, hc, ?_⟩
  rw [luaH_get_array hL t hI.asize_le _ (by rw [ha]; constructor <;> omega), ha]
  have hq1 : ((i : Int) + 1 - 1).toNat = i := by omega
  rw [hq1]

theorem node_key_get {N : Type} {ops : LuaConf N} (hL : ops.Lawful) (t : Table N)
    (hI : Inv ops t) (j : Nat) (hj : j < sizenode t) (hv : ttisnil (gnode t j).i_val = false) :
    (gnode t j).i_key ≠ .nil ∧ validkey ops (gnode t j).i_key = true ∧
    luaH_get ops t (gnode t j).i_key = .ok (.val j) := by
  have hvn : (gnode t j).i_val ≠ .nil := (ttisnil_false_iff _).1 hv
  have hkn := key_ne_nil_of_val hI _ hj hvn
  have hkv := hI.keys_valid _ hj hkn
  exact ⟨hkn, hkv, (getval_hash_some hL t hI _ (validkey_ttisnil ops _ hkv)
    (hI.array_disjoint _ hj hkn) _ hj (rawequal_refl hL _ hkv)).1⟩

/-- A slot returned by `luaH_get` is the array slot of the key's array index, a node that
holds a raw-equal key, or `luaO_nilobject`. -/
theorem luaH_get_cases {N : Type} {ops : LuaConf N} (hL : ops.Lawful) (t : Table N)
    (hI : Inv ops t) (k : TValue N) (c : Cell) (hg : luaH_get ops t k = .ok c) :
    c = .nilobject ∨
    (∃ i, c = .arr i ∧ i < t.sizearray ∧ arrayindex ops k = (i : Int) + 1) ∨
    (∃ j, c = .val j ∧ j < sizenode t ∧ ttisnil k = false ∧
      luaV_rawequalobj ops (gnode t j).i_key k = true) := by
  by_cases hn : ttisnil k = true
  · rw [luaH_get_eq hL t hI.asize_le, if_pos hn] at hg
    cases hg
    exact Or.inl rfl
  · have hn1 : ttisnil k = false := by simpa using hn
    by_cases ha : 0 < arrayindex ops k ∧ arrayindex ops k ≤ (t.sizearray : Int)
    · rw [luaH_get_array hL t hI.asize_le k ha] at hg
      cases hg
      exact Or.inr (Or.inl ⟨_, rfl, by omega, by omega⟩)
    · rcases luaH_get_hash hL t hI k hn1 ha with ⟨i, hi, h1, h2⟩ | ⟨_, h2⟩
      · rw [h2] at hg
        cases hg
        exact Or.inr (Or.inr ⟨i, rfl, hi, hn1, h1⟩)
      · rw [h2] at hg
        cases hg
        exact Or.inl rfl

theorem entries_pairwise {N : Type} {ops : LuaConf N} (hL : ops.Lawful) (t : Table N)
    (hI : Inv ops t) :
    (array_entries ops t ++ node_entries t).Pairwise
      (fun a b => luaV_rawequalobj ops a.1 b.1 = false) := by
  rw [List.pairwise_append]
  refine ⟨?_, ?_, ?_⟩
  · unfold array_entries
    rw [List.pairwise_map]
    have h0 : ((List.range t.sizearray).filter
        (fun i => !ttisnil (t.array.getD i .nil))).Pairwise (· < ·) :=
      (List.pairwise_lt_range _).sublist (List.filter_sublist _)
    refine h0.imp_of_mem ?_
    intro a b ha hb hab
    simp only [List.mem_filter, List.mem_range] at ha hb
    obtain ⟨ha1, hc1, _⟩ := array_key_get hL t hI a ha.1
    obtain ⟨hb1, _, _⟩ := array_key_get hL t hI b hb.1
    by_contra hne
    have hne1 : luaV_rawequalobj ops (TValue.number (ops.cast_num ((a : Int) + 1)))
        (TValue.number (ops.cast_num ((b : Int) + 1))) = true := by simpa using hne
    have := (rawequal_cast_iff hL _ hc1 _ (by omega)).1 hne1
    rw [hb1] at this
    omega
  · unfold node_entries
    rw [List.pairwise_map]
    have h0 : ((List.range (sizenode t)).filter
        (fun i => !ttisnil (gnode t i).i_val)).Pairwise (· < ·) :=
      (List.pairwise_lt_range _).sublist (List.filter_sublist _)
    refine h0.imp_of_mem ?_
    intro a b ha hb hab
    simp only [List.mem_filter, List.mem_range, Bool.not_eq_true'] at ha hb
    obtain ⟨hkn, _, _⟩ := node_key_get hL t hI a ha.1 ha.2
    by_contra hne
    have hne1 : luaV_rawequalobj ops (gnode t a).i_key (gnode t b).i_key = true := by
      simpa using hne
    have := hI.nodup a b ha.1 hb.1 hkn hne1
    omega
  · intro a ha b hb
    obtain ⟨i, hi, _, rfl⟩ := (mem_array_entries ops t a).1 ha
    obtain ⟨j, hj, hv, rfl⟩ := (mem_node_entries t b).1 hb
    obtain ⟨ha1, hc1, _⟩ := array_key_get hL t hI i hi
    obtain ⟨hkn, _, _⟩ := node_key_get hL t hI j hj hv
    by_contra hne
    have hne1 : luaV_rawequalobj ops (TValue.number (ops.cast_num ((i : Int) + 1)))
        (gnode t j).i_key = true := by simpa using hne
    have := (rawequal_cast_iff hL _ hc1 _ (by omega)).1 hne1
    exact hI.array_disjoint j hj hkn (by rw [this]; constructor <;> omega)

theorem next_array_congr {N : Type} (t t1 : Table N) (hs : t1.sizearray = t.sizearray)
    (fuel i : Nat) (h : ∀ m, i ≤ m → t1.array.getD m .nil = t.array.getD m .nil) :
    next_array t1 fuel i = next_array t fuel i ∧
    ∀ j, next_array t fuel i = some j → i ≤ j := by
  induction fuel generalizing i with
  | zero => exact ⟨rfl, fun j hj => by simp [next_array] at hj⟩
  | succ fuel ih =>
    simp only [next_array, hs, h i (le_refl _)]
    by_cases hlt : i < t.sizearray
    · simp only [if_pos hlt]
      by_cases hv : (!ttisnil (t.array.getD i .nil)) = true
      · simp only [if_pos hv]
        exact ⟨trivial, fun j hj => by cases hj; exact le_refl _⟩
      · simp only [if_neg hv]
        have := ih (i + 1) (fun m hm => h m (by omega))
        exact ⟨this.1, fun j hj => by have := this.2 j hj; omega⟩
    · simp only [if_neg hlt]
      exact ⟨trivial, fun j hj => by cases hj⟩

theorem next_hash_congr {N : Type} (t t1 : Table N) (hs : sizenode t1 = sizenode t)
    (fuel i : Nat) (h : ∀ m, i ≤ m → gnode t1 m = gnode t m) :
    next_hash t1 fuel i = next_hash t fuel i ∧
    ∀ j, next_hash t fuel i = some j → i ≤ j := by
  induction fuel generalizing i with
  | zero => exact ⟨rfl, fun j hj => by simp [next_hash] at hj⟩
  | succ fuel ih =>
    simp only [next_hash, hs, h i (le_refl _)]
    by_cases hlt : i < sizenode t
    · simp only [if_pos hlt]
      by_cases hv : (!ttisnil (gnode t i).i_val) = true
      · simp only [if_pos hv]
        exact ⟨trivial, fun j hj => by cases hj; exact le_refl _⟩
      · simp only [if_neg hv]
        have := ih (i + 1) (fun m hm => h m (by omega))
        exact ⟨this.1, fun j hj => by have := this.2 j hj; omega⟩
    · simp only [if_neg hlt]
      exact ⟨trivial, fun j hj => by cases hj⟩

/-- A table that differs from `t` only in values at traversal indices up to the one of
`k` has the same successor of `k`. -/
theorem luaH_next_congr {N : Type} (ops : LuaConf N) (t t1 : Table N) (k : TValue N)
    (p : Nat) (hf : findindex ops t k = .ok ((p : Int) - 1))
    (hf1 : findindex ops t1 k = findindex ops t k)
    (hsa : t1.sizearray = t.sizearray) (hsn : sizenode t1 = sizenode t)
    (ha : ∀ m, p ≤ m → t1.array.getD m .nil = t.array.getD m .nil)
    (hn : ∀ m, p ≤ m + t.sizearray → gnode t1 m = gnode t m) :
    luaH_next ops t1 k = luaH_next ops t k := by
  unfold luaH_next
  rw [hf1, hf]
  simp only []
  have hi : ((p : Int) - 1 + 1).toNat = p := by omega
  rw [hi, hsa, hsn]
  obtain ⟨h1, h2⟩ := next_array_congr t t1 hsa (t.sizearray - p) p ha
  rw [h1]
  cases hr : next_array t (t.sizearray - p) p with
  | some j =>
    simp only []
    rw [ha j (h2 j hr)]
  | none =>
    simp only []
    obtain ⟨h3, h4⟩ := next_hash_congr t t1 hsn
      (sizenode t - ((if p < t.sizearray then t.sizearray else p) - t.sizearray))
      ((if p < t.sizearray then t.sizearray else p) - t.sizearray)
      (fun m hm => hn m (by split at hm <;> omega))
    rw [h3]
    cases hr2 : next_hash t
        (sizenode t - ((if p < t.sizearray then t.sizearray else p) - t.sizearray))
        ((if p < t.sizearray then t.sizearray else p) - t.sizearray) with
    | some j =>
      simp only []
      rw [hn j (by have := h4 j hr2; split at this <;> omega)]
    | none => rfl

/-- Storing a value in the slot of a key leaves the successor of the key as it was. -/
theorem luaH_next_write {N : Type} {ops : LuaConf N} (hL : ops.Lawful) (t : Table N)
    (hI : Inv ops t) (k : TValue N) (c : Cell) (hg : luaH_get ops t k = .ok c)
    (hc : c ≠ .nilobject) (v : TValue N) :
    luaH_next ops (t.write c v) k = luaH_next ops t k ∧
    ∃ r, luaH_next ops t k = .ok r := by
  have hf := findindex_of_get hL t hI k c hg hc
  have hex : ∀ p : Nat, findindex ops t k = .ok ((p : Int) - 1) →
      p ≤ t.sizearray + sizenode t → ∃ r, luaH_next ops t k = .ok r := by
    intro p hp hle
    rcases luaH_next_spec ops t k p hle hp with ⟨h, _⟩ | ⟨_, e, _, _, _, h, _⟩
    · exact ⟨_, h⟩
    · exact ⟨_, h⟩
  rcases luaH_get_cases hL t hI k c hg with h0 | ⟨i, rfl, hi, _⟩ | ⟨j, rfl, hj, _, _⟩
  · exact absurd h0 hc
  · have hf2 : findindex ops t k = .ok (((i + 1 : Nat) : Int) - 1) := by
      rw [hf]; simp [cellindex]
    refine ⟨luaH_next_congr ops t _ k (i + 1) hf2 (findindex_write ops t _ v k) rfl rfl ?_
      (fun m _ => rfl), hex (i + 1) hf2 (by omega)⟩
    intro m hm
    show (t.array.set i v).getD m .nil = t.array.getD m .nil
    simp only [List.getD_eq_getElem?_getD]
    rw [List.getElem?_set_ne (by omega)]
  · have hf2 : findindex ops t k = .ok (((j + t.sizearray + 1 : Nat) : Int) - 1) := by
      rw [hf]; simp [cellindex]
    refine ⟨luaH_next_congr ops t _ k (j + t.sizearray + 1) hf2 (findindex_write ops t _ v k)
      rfl rfl (fun m _ => rfl) ?_, hex _ hf2 (by omega)⟩
    intro m hm
    have hjl : j < t.node.length := by rw [hI.size_eq]; exact hj
    rw [gnode_write_val t j v m hjl, if_neg (by omega)]

/-! ## The example tables are built by the interface -/

theorem reachable_extab1 : Reachable intConf extab1 :=
  Reachable.setint 1 luaH_new extab1 1 (exnum 5) Reachable.new (by decide) (by decide)

theorem reachable_extab3 : Reachable intConf extab3 :=
  Reachable.setint 1 luaH_new extab3 3 (exnum 7) Reachable.new (by decide) (by decide)

theorem reachable_extab13 : Reachable intConf extab13 :=
  Reachable.set 1 extab3 exset13.1 (exnum 1) (exnum 5) exset13.2 reachable_extab3
    (by decide) (by decide)

theorem reachable_extab13d : Reachable intConf extab13d :=
  Reachable.set 0 extab13 extab13 (exnum 3) .nil (.val 0) reachable_extab13
    (by decide) (by decide)

theorem reachable_extab13n : Reachable intConf extab13n :=
  Reachable.set 0 extab13 extab13 (exnum 1) .nil (.arr 0) reachable_extab13
    (by decide) (by decide)

theorem luaH_getint_total {N : Type} {ops : LuaConf N} (hL : ops.Lawful) (t : Table N)
    (hI : Inv ops t) (j : Int) : ∃ c, luaH_getint ops t (cast_int j) = .ok c := by
  rw [luaH_getint_eq_get hL t hI.asize_le _ (cast_int_idem j)]
  exact luaH_get_total hL t hI _

theorem tget_of_getint {N : Type} (ops : LuaConf N) (t : Table N) (j : Int) (c : Cell)
    (h : luaH_getint ops t (cast_int j) = .ok c) : tget ops t j = t.read c := by
  unfold tget; rw [h]

theorem tget_array {N : Type} {ops : LuaConf N} (hL : ops.Lawful) (t : Table N)
    (hI : Inv ops t) (j : Nat) (h1 : 1 ≤ j) (h2 : j ≤ t.sizearray) :
    tget ops t (j : Int) = t.array.getD (j - 1) .nil := by
  have hsz : t.sizearray ≤ 2 ^ 30 := hI.asize_le
  norm_num at hsz
  have hc : cast_int (j : Int) = (j : Int) := cast_int_of_range _ (by constructor <;> omega)
  unfold tget
  rw [hc, luaH_getint_eq hL t hI.asize_le _ hc, if_pos (by constructor <;> omega)]
  simp only [Table.read]
  have : ((j : Int) - 1).toNat = j - 1 := by omega
  rw [this]

/-- With an empty hash part every integer key outside the array part reads nil. -/
theorem tget_dummy {N : Type} {ops : LuaConf N} (hL : ops.Lawful) (t : Table N)
    (hI : Inv ops t) (hd : t.isdummy = true) (j : Int)
    (hj : ¬ (0 < cast_int j ∧ cast_int j ≤ (t.sizearray : Int))) :
    tget ops t j = .nil := by
  have hc := cast_int_idem j
  unfold tget
  rw [luaH_getint_eq_get hL t hI.asize_le _ hc]
  have ha := arrayindex_cast hL _ hc
  obtain ⟨hd1, hd2, _⟩ := hI.dummy hd
  have hsn : sizenode t = 1 := by unfold sizenode twoto; rw [hd1]; rfl
  rcases luaH_get_hash hL t hI (.number (ops.cast_num (cast_int j))) rfl
    (by rw [ha]; exact hj) with ⟨i, hi, h1, _⟩ | ⟨_, h2⟩
  · have hi0 : i = 0 := by omega
    rw [hi0, hd2] at h1
    simp [luaV_rawequalobj] at h1
  · rw [h2]
    rfl

theorem getn_binsearch_spec {N : Type} (t : Table N) (hsz : t.sizearray ≤ 1073741824)
    (e : Nat) : ∀ (fuel i j : Nat), e < fuel → i < j → j ≤ t.sizearray → j - i ≤ 2 ^ e →
      (i = 0 ∨ ttisnil (t.array.getD (i - 1) .nil) = false) →
      ttisnil (t.array.getD (j - 1) .nil) = true →
      ∃ r : Nat, getn_binsearch t fuel i j = .ok (r : Int) ∧ r < t.sizearray ∧
        (r = 0 ∨ ttisnil (t.array.getD (r - 1) .nil) = false) ∧
        ttisnil (t.array.getD r .nil) = true := by
  induction e with
  | zero =>
    intro fuel i j hf hij hj hd hi hjn
    obtain ⟨f, rfl⟩ : ∃ f, fuel = f + 1 := ⟨fuel - 1, by omega⟩
    simp only [pow_zero] at hd
    have hji : j = i + 1 := by omega
    subst hji
    refine ⟨i, ?_, by omega, hi, by simpa using hjn⟩
    simp only [getn_binsearch]
    rw [if_neg (by omega)]
    rw [cast_int_of_range _ (by constructor <;> omega)]
  | succ e ih =>
    intro fuel i j hf hij hj hd hi hjn
    obtain ⟨f, rfl⟩ : ∃ f, fuel = f + 1 := ⟨fuel - 1, by omega⟩
    have hp : 2 ^ (e + 1) = 2 * 2 ^ e := by rw [pow_succ]; ring
    rw [hp] at hd
    simp only [getn_binsearch]
    by_cases hgt : (j + 4294967296 - i) % 4294967296 > 1
    · rw [if_pos hgt]
      have hm : (i + j) % 4294967296 / 2 = (i + j) / 2 := by
        rw [Nat.mod_eq_of_lt (by omega)]
      rw [hm]
      have h1 : i < (i + j) / 2 := by omega
      have h2 : (i + j) / 2 < j := by omega
      by_cases hv : ttisnil (t.array.getD ((i + j) / 2 - 1) .nil) = true
      · rw [if_pos hv]
        exact ih f i ((i + j) / 2) (by omega) h1 (by omega) (by omega) hi hv
      · rw [if_neg hv]
        exact ih f ((i + j) / 2) j (by omega) h2 hj (by omega)
          (Or.inr (by simpa using hv)) hjn
    · rw [if_neg hgt]
      have hji : j = i + 1 := by omega
      subst hji
      refine ⟨i, ?_, by omega, hi, by simpa using hjn⟩
      rw [cast_int_of_range _ (by constructor <;> omega)]

theorem cast_int_add_cast {x y : Int} : cast_int (cast_int x + y) = cast_int (x + y) := by
  unfold cast_int; omega

theorem tget_cast {N : Type} (ops : LuaConf N) (t : Table N) (j : Int) :
    tget ops t (cast_int j) = tget ops t j := by
  unfold tget; rw [cast_int_idem]

theorem tget_cast_succ {N : Type} (ops : LuaConf N) (t : Table N) (j : Int) :
    tget ops t (cast_int j + 1) = tget ops t (j + 1) := by
  unfold tget; rw [cast_int_add_cast]

theorem sizenode_le {N : Type} {ops : LuaConf N} (t : Table N) (hI : Inv ops t) :
    sizenode t ≤ 1073741824 := by
  have h : t.lsizenode ≤ 30 := hI.lsize_le
  have : sizenode t = 2 ^ t.lsizenode := rfl
  rw [this]
  calc 2 ^ t.lsizenode ≤ 2 ^ 30 := Nat.pow_le_pow_right (by norm_num) h
    _ = 1073741824 := by norm_num

/-- A slot that holds a non-nil value under an integer key is an array slot or a node, and
two integer keys with the same such slot are equal. -/
theorem getint_slot {N : Type} {ops : LuaConf N} (hL : ops.Lawful) (t : Table N)
    (hI : Inv ops t) (n : Int) (hv : ttisnil (tget ops t n) = false) :
    ∃ c, luaH_getint ops t (cast_int n) = .ok c ∧
      luaH_get ops t (.number (ops.cast_num (cast_int n))) = .ok c ∧ c ≠ .nilobject ∧
      (cellindex t c).toNat < t.sizearray + sizenode t ∧
      ((∃ a, c = .arr a ∧ a < t.sizearray) ∨ (∃ j, c = .val j ∧ j < sizenode t)) := by
  obtain ⟨c, hc⟩ := luaH_getint_total hL t hI n
  have hg : luaH_get ops t (.number (ops.cast_num (cast_int n))) = .ok c := by
    rw [← luaH_getint_eq_get hL t hI.asize_le _ (cast_int_idem n)]; exact hc
  rw [tget_of_getint ops t n c hc] at hv
  have hcn : c ≠ .nilobject := by
    intro e
    rw [e] at hv
    simp [Table.read, ttisnil, rttype] at hv
  refine ⟨c, hc, hg, hcn, ?_⟩
  rcases luaH_get_cases hL t hI _ c hg with h0 | ⟨a, rfl, ha, _⟩ | ⟨j, rfl, hj, _, _⟩
  · exact absurd h0 hcn
  · exact ⟨by simp only [cellindex]; omega, Or.inl ⟨a, rfl, ha⟩⟩
  · exact ⟨by simp only [cellindex]; omega, Or.inr ⟨j, rfl, hj⟩⟩

/-- Among the keys 1 to 2^31+1, as `luaH_getint` reads them, one reads nil: the table has
at most `sizearray + sizenode <= 2^31` slots. -/
theorem exists_absent {N : Type} {ops : LuaConf N} (hL : ops.Lawful) (t : Table N)
    (hI : Inv ops t) :
    ∃ n : Nat, 1 ≤ n ∧ n ≤ 2147483649 ∧ ttisnil (tget ops t (n : Int)) = true := by
  by_contra hcon
  have hall : ∀ n : Nat, 1 ≤ n → n ≤ 2147483649 → ttisnil (tget ops t (n : Int)) = false := by
    intro n h1 h2
    by_contra h3
    exact hcon ⟨n, h1, h2, by simpa using h3⟩
  let f : Nat → Nat := fun n =>
    match luaH_getint ops t (cast_int (n : Int)) with
    | .ok c => (cellindex t c).toNat
    | .error _ => 0
  have hsz : t.sizearray ≤ 2 ^ 30 := hI.asize_le
  norm_num at hsz
  have hsn := sizenode_le t hI
  have hmaps : ∀ a ∈ Finset.Icc 1 2147483649, f a ∈ Finset.range (t.sizearray + sizenode t) := by
    intro a ha
    rw [Finset.mem_Icc] at ha
    obtain ⟨c, hc, _, _, hlt, _⟩ := getint_slot hL t hI a (hall a ha.1 ha.2)
    rw [Finset.mem_range]
    show (match luaH_getint ops t (cast_int (a : Int)) with
      | .ok c => (cellindex t c).toNat
      | .error _ => 0) < _
    rw [hc]
    exact hlt
  have hinj : Set.InjOn f (Finset.Icc 1 2147483649 : Finset Nat) := by
    intro a ha b hb hab
    rw [Finset.mem_coe, Finset.mem_Icc] at ha hb
    obtain ⟨c, hc, hg, hcn, _, hcase⟩ := getint_slot hL t hI a (hall a ha.1 ha.2)
    obtain ⟨c1, hc1, hg1, _, _, hcase1⟩ := getint_slot hL t hI b (hall b hb.1 hb.2)
    have hab1 : (cellindex t c).toNat = (cellindex t c1).toNat := by
      have := hab
      simp only [f] at this
      rw [hc, hc1] at this
      exact this
    have hcc : c = c1 := by
      rcases hcase with ⟨x, rfl, hx⟩ | ⟨x, rfl, hx⟩ <;>
        rcases hcase1 with ⟨y, rfl, hy⟩ | ⟨y, rfl, hy⟩ <;>
        simp only [cellindex] at hab1
      · have : x = y := by omega
        rw [this]
      · omega
      · omega
      · have : x = y := by omega
        rw [this]
    rw [← hcc] at hg1
    have hr := get_same_cell hL t hI (.number (ops.cast_num (cast_int (a : Int))))
      (.number (ops.cast_num (cast_int (b : Int)))) rfl rfl c hg hg1 hcn
    have h1 := arrayindex_congr hL _ _ hr
    rw [arrayindex_cast hL _ (cast_int_idem _), arrayindex_cast hL _ (cast_int_idem _)] at h1
    unfold cast_int at h1
    omega
  have hcard := Finset.card_le_card_of_injOn f hmaps hinj
  rw [Nat.card_Icc, Finset.card_range] at hcard
  omega

theorem isboundary_zero {N : Type} (ops : LuaConf N) (t : Table N)
    (h : ttisnil (tget ops t 1) = true) : isboundary ops t 0 = true := by
  simp [isboundary, h]

theorem isboundary_pos {N : Type} (ops : LuaConf N) (t : Table N) (i : Int)
    (h1 : ttisnil (tget ops t i) = false) (h2 : ttisnil (tget ops t (i + 1)) = true) :
    isboundary ops t i = true := by
  simp [isboundary, h1, h2]

/-- The linear search of `unbound_search` stops at the first absent index `n` and returns
`n - 1`, a boundary. -/
theorem unbound_linear_spec {N : Type} {ops : LuaConf N} (hL : ops.Lawful) (t : Table N)
    (hI : Inv ops t) (n : Nat) (hn : n < 4294967296)
    (hnil : ttisnil (tget ops t (n : Int)) = true) :
    ∀ (fuel i : Nat), 1 ≤ i → i ≤ n → n < i + fuel →
      (∀ m : Nat, i ≤ m → m < n → ttisnil (tget ops t (m : Int)) = false) →
      (i = 1 ∨ ttisnil (tget ops t ((i : Int) - 1)) = false) →
      ∃ r, unbound_linear ops t fuel i = .ok r ∧ isboundary ops t r = true := by
  intro fuel
  induction fuel with
  | zero => intro i h1 h2 h3; omega
  | succ fuel ih =>
    intro i h1 h2 h3 hall hprev
    obtain ⟨c, hc⟩ := luaH_getint_total hL t hI (i : Int)
    have htg := tget_of_getint ops t _ c hc
    simp only [unbound_linear, hc]
    by_cases hin : i = n
    · subst hin
      rw [htg] at hnil
      simp only [hnil, Bool.not_true, Bool.false_eq_true, if_false]
      refine ⟨_, rfl, ?_⟩
      have hm : ((i : Int) + 4294967295) % 4294967296 = (i : Int) - 1 := by omega
      rw [hm]
      rcases hprev with h | h
      · subst h
        have : cast_int (((1 : Nat) : Int) - 1) = 0 := by decide
        rw [this]
        apply isboundary_zero
        have h11 : tget ops t 1 = tget ops t ((1 : Nat) : Int) := rfl
        rw [h11, htg]; exact hnil
      · apply isboundary_pos
        · rw [tget_cast]; exact h
        · rw [tget_cast_succ]
          have : (i : Int) - 1 + 1 = (i : Int) := by omega
          rw [this, htg]; exact hnil
    · have hv := hall i (le_refl _) (by omega)
      rw [htg] at hv
      simp only [hv, Bool.not_false, if_true]
      have hm : (i + 1) % 4294967296 = i + 1 := Nat.mod_eq_of_lt (by omega)
      rw [hm]
      refine ih (i + 1) (by omega) (by omega) (by omega)
        (fun m a b => hall m (by omega) b) (Or.inr ?_)
      have : (((i + 1 : Nat) : Int) - 1) = (i : Int) := by omega
      rw [this, htg]; exact hv

theorem unbound_linear_ok {N : Type} {ops : LuaConf N} (hL : ops.Lawful) (t : Table N)
    (hI : Inv ops t) :
    ∃ r, unbound_linear ops t 4294967296 1 = .ok r ∧ isboundary ops t r = true := by
  classical
  have hex := exists_absent hL t hI
  have hex1 : ∃ n : Nat, 1 ≤ n ∧ ttisnil (tget ops t (n : Int)) = true := by
    obtain ⟨n, h1, _, h3⟩ := hex
    exact ⟨n, h1, h3⟩
  obtain ⟨n1, hn1, hn2, _⟩ := hex
  have hspec := Nat.find_spec hex1
  have hmin : ∀ m, m < Nat.find hex1 → ¬ (1 ≤ m ∧ ttisnil (tget ops t (m : Int)) = true) :=
    fun m hm => Nat.find_min hex1 hm
  have hle : Nat.find hex1 ≤ n1 := Nat.find_min' hex1 ⟨hn1, by assumption⟩
  refine unbound_linear_spec hL t hI (Nat.find hex1) (by omega) hspec.2 4294967296 1
    (le_refl _) hspec.1 (by omega) ?_ (Or.inl rfl)
  intro m h1 h2
  have := hmin m h2
  by_contra h3
  exact this ⟨h1, by simpa using h3⟩

/-- The binary search of `unbound_search` between a present (or zero) `i` and an absent
`j` returns a boundary. -/
theorem unbound_binsearch_spec {N : Type} {ops : LuaConf N} (hL : ops.Lawful) (t : Table N)
    (hI : Inv ops t) (e : Nat) :
    ∀ (fuel i j : Nat), e < fuel → i < j → j < 2147483648 → j - i ≤ 2 ^ e →
      (i = 0 ∨ ttisnil (tget ops t (i : Int)) = false) →
      ttisnil (tget ops t (j : Int)) = true →
      ∃ r, unbound_binsearch ops t fuel i j = .ok r ∧ isboundary ops t r = true := by
  have hexit : ∀ (i : Nat), i + 1 < 2147483648 →
      (i = 0 ∨ ttisnil (tget ops t (i : Int)) = false) →
      ttisnil (tget ops t ((i + 1 : Nat) : Int)) = true →
      isboundary ops t (cast_int (i : Int)) = true := by
    intro i hi h1 h2
    rw [cast_int_of_range _ (by constructor <;> omega)]
    rcases h1 with h | h
    · subst h
      exact isboundary_zero ops t h2
    · apply isboundary_pos ops t _ h
      have : (i : Int) + 1 = ((i + 1 : Nat) : Int) := by push_cast; rfl
      rw [this]; exact h2
  induction e with
  | zero =>
    intro fuel i j hf hij hj hd hi hjn
    obtain ⟨f, rfl⟩ : ∃ f, fuel = f + 1 := ⟨fuel - 1, by omega⟩
    simp only [pow_zero] at hd
    have hji : j = i + 1 := by omega
    subst hji
    simp only [unbound_binsearch]
    rw [if_neg (by omega)]
    exact ⟨_, rfl, hexit i hj hi hjn⟩
  | succ e ih =>
    intro fuel i j hf hij hj hd hi hjn
    obtain ⟨f, rfl⟩ : ∃ f, fuel = f + 1 := ⟨fuel - 1, by omega⟩
    have hp : 2 ^ (e + 1) = 2 * 2 ^ e := by rw [pow_succ]; ring
    rw [hp] at hd
    simp only [unbound_binsearch]
    by_cases hgt : (j + 4294967296 - i) % 4294967296 > 1
    · rw [if_pos hgt]
      have hm : (i + j) % 4294967296 / 2 = (i + j) / 2 := by
        rw [Nat.mod_eq_of_lt (by omega)]
      rw [hm]
      have h1 : i < (i + j) / 2 := by omega
      have h2 : (i + j) / 2 < j := by omega
      obtain ⟨c, hc⟩ := luaH_getint_total hL t hI (((i + j) / 2 : Nat) : Int)
      have htg := tget_of_getint ops t _ c hc
      simp only [hc]
      by_cases hv : ttisnil (t.read c) = true
      · rw [if_pos hv]
        exact ih f i ((i + j) / 2) (by omega) h1 (by omega) (by omega) hi
          (by rw [htg]; exact hv)
      · rw [if_neg hv]
        exact ih f ((i + j) / 2) j (by omega) h2 hj (by omega)
          (Or.inr (by rw [htg]; simpa using hv)) hjn
    · rw [if_neg hgt]
      have hji : j = i + 1 := by omega
      subst hji
      exact ⟨_, rfl, hexit i hj hi hjn⟩

/-- The doubling loop of `unbound_search`, with the searches it ends in, returns a
boundary; the fuel is not exhausted since `j` doubles at most 31 times below `MAX_INT`. -/
theorem unbound_double_spec {N : Type} {ops : LuaConf N} (hL : ops.Lawful) (t : Table N)
    (hI : Inv ops t) :
    ∀ (fuel i j : Nat), 2147483648 ≤ j * 2 ^ fuel → i < j → j ≤ 2147483645 →
      (i = 0 ∨ ttisnil (tget ops t (i : Int)) = false) →
      ∃ r, unbound_double ops t fuel i j = .ok r ∧ isboundary ops t r = true := by
  intro fuel
  induction fuel with
  | zero => intro i j h1 h2 h3; simp only [pow_zero] at h1; omega
  | succ fuel ih =>
    intro i j h1 h2 h3 hi
    obtain ⟨c, hc⟩ := luaH_getint_total hL t hI (j : Int)
    have htg := tget_of_getint ops t _ c hc
    simp only [unbound_double, hc]
    by_cases hv : ttisnil (t.read c) = true
    · simp only [hv, Bool.not_true, Bool.false_eq_true, if_false]
      have hd : j - i ≤ 2 ^ 31 := by norm_num; omega
      exact unbound_binsearch_spec hL t hI 31 32 i j (by omega) h2 (by omega) hd hi
        (by rw [htg]; exact hv)
    · have hv1 : ttisnil (t.read c) = false := by simpa using hv
      simp only [hv1, Bool.not_false, if_true]
      by_cases hov : (((j : Int) * 2) % 4294967296 : Int) > MAX_INT
      · rw [if_pos hov]
        exact unbound_linear_ok hL t hI
      · rw [if_neg hov]
        have hov1 : j * 2 ≤ 2147483645 := by
          simp only [MAX_INT, INT_MAX] at hov
          omega
        have hm : j * 2 % 4294967296 = j * 2 := Nat.mod_eq_of_lt (by omega)
        rw [hm]
        refine ih j (j * 2) ?_ (by omega) hov1 (Or.inr (by rw [htg]; exact hv1))
        have : 2 ^ (fuel + 1) = 2 * 2 ^ fuel := by rw [pow_succ]; ring
        rw [this] at h1
        calc 2147483648 ≤ j * (2 * 2 ^ fuel) := h1
          _ = j * 2 * 2 ^ fuel := by ring

/-- The result of `luaH_getn` on a table that satisfies the invariant is a boundary. -/
theorem luaH_getn_spec {N : Type} {ops : LuaConf N} (hL : ops.Lawful) (t : Table N)
    (hI : Inv ops t) :
    ∃ r, luaH_getn ops t = .ok r ∧ isboundary ops t r = true := by
  have hsz : t.sizearray ≤ 2 ^ 30 := hI.asize_le
  norm_num at hsz
  have hcu : cast_unsigned (t.sizearray : Int) = t.sizearray := by
    unfold cast_unsigned; omega
  unfold luaH_getn
  simp only [hcu]
  by_cases h1 : t.sizearray > 0 ∧ ttisnil (t.array.getD (t.sizearray - 1) .nil) = true
  · rw [if_pos h1]
    obtain ⟨r, hr, hlt, hp, hnil⟩ := getn_binsearch_spec t hsz 30 32 0 t.sizearray (by omega)
      h1.1 (le_refl _) (by norm_num; omega) (Or.inl rfl) h1.2
    refine ⟨_, hr, ?_⟩
    have hnil1 : ttisnil (tget ops t ((r : Int) + 1)) = true := by
      have : (r : Int) + 1 = ((r + 1 : Nat) : Int) := by push_cast; rfl
      rw [this, tget_array hL t hI (r + 1) (by omega) (by omega)]
      exact hnil
    by_cases hr0 : r = 0
    · subst hr0
      exact isboundary_zero ops t hnil1
    · have h : ttisnil (t.array.getD (r - 1) .nil) = false := by
        rcases hp with h | h
        · exact absurd h hr0
        · exact h
      apply isboundary_pos ops t _ _ hnil1
      rw [tget_array hL t hI r (by omega) (by omega)]
      exact h
  · rw [if_neg h1]
    have hlast : t.sizearray = 0 ∨ ttisnil (tget ops t (t.sizearray : Int)) = false := by
      by_cases h0 : t.sizearray = 0
      · exact Or.inl h0
      · refine Or.inr ?_
        rw [tget_array hL t hI t.sizearray (by omega) (le_refl _)]
        by_contra hc
        exact h1 ⟨by omega, by simpa using hc⟩
    by_cases hd : t.isdummy = true
    · rw [if_pos hd]
      refine ⟨_, rfl, ?_⟩
      rw [cast_int_of_range _ (by constructor <;> omega)]
      have hnext : ttisnil (tget ops t ((t.sizearray : Int) + 1)) = true := by
        rw [tget_dummy hL t hI hd _ (by
          rw [cast_int_of_range _ (by constructor <;> omega)]
          omega)]
        rfl
      rcases hlast with h | h
      · rw [h] at hnext ⊢
        exact isboundary_zero ops t hnext
      · exact isboundary_pos ops t _ h hnext
    · rw [if_neg hd]
      unfold unbound_search
      have hm : (t.sizearray + 1) % 4294967296 = t.sizearray + 1 :=
        Nat.mod_eq_of_lt (by omega)
      rw [hm]
      exact unbound_double_spec hL t hI 33 t.sizearray (t.sizearray + 1)
        (by norm_num; omega) (by omega) (by omega) hlast

theorem countP_le_succ_of_diff (l : List Nat) (hnd : l.Nodup) (p q : Nat → Bool) (n : Nat)
    (h : ∀ j, j ∈ l → j ≠ n → p j = true → q j = true) :
    l.countP p ≤ l.countP q + 1 := by
  have key : ∀ (l : List Nat), l.Nodup → (∀ j, j ∈ l → j ≠ n → p j = true → q j = true) →
      l.countP p ≤ l.countP q + (if n ∈ l then 1 else 0) := by
    intro l
    induction l with
    | nil => intro _ _; simp
    | cons a l ih =>
      intro hnd h
      have hnd1 := (List.nodup_cons.1 hnd)
      have ih1 := ih hnd1.2 (fun j hj => h j (List.mem_cons_of_mem _ hj))
      rw [List.countP_cons, List.countP_cons]
      by_cases han : a = n
      · subst han
        have hnl : a ∉ l := hnd1.1
        rw [if_neg hnl] at ih1
        rw [if_pos (List.mem_cons_self _ _)]
        have : (if p a = true then 1 else 0) ≤ 1 := by split <;> omega
        omega
      · have hpq : (if p a = true then 1 else 0) ≤ (if q a = true then 1 else 0) := by
          by_cases hp : p a = true
          · rw [if_pos hp, if_pos (h a (List.mem_cons_self _ _) han hp)]
          · rw [if_neg hp]; omega
        have hmem : (n ∈ a :: l) ↔ n ∈ l := by
          rw [List.mem_cons]
          constructor
          · rintro (e | e)
            · exact absurd e.symm han
            · exact e
          · exact Or.inr
        by_cases hnl : n ∈ l
        · rw [if_pos hnl] at ih1
          rw [if_pos (hmem.2 hnl)]
          omega
        · rw [if_neg hnl] at ih1
          rw [if_neg (fun e => hnl (hmem.1 e))]
          omega
  have := key l hnd h
  split at this <;> omega

/-- Two node vectors of the same size whose keys differ, from nil to non-nil, at one node
at most: the second uses at most one node more. -/
theorem usednodes_le_succ {N : Type} (t t1 : Table N) (hs : sizenode t1 = sizenode t) (n : Nat)
    (h : ∀ j, j < sizenode t → j ≠ n → (gnode t1 j).i_key ≠ .nil → (gnode t j).i_key ≠ .nil) :
    usednodes t1 ≤ usednodes t + 1 := by
  unfold usednodes
  rw [hs]
  apply countP_le_succ_of_diff _ (List.nodup_range _) _ _ n
  intro j hj hjn hp
  rw [List.mem_range] at hj
  have h1 : (gnode t1 j).i_key ≠ .nil := by
    intro e
    rw [e] at hp
    simp [ttisnil, rttype] at hp
  have h2 := h j hj hjn h1
  have h3 : ttisnil (gnode t j).i_key = false := (ttisnil_false_iff _).2 h2
  simp [h3]

theorem exists_free_of_usednodes {N : Type} (t : Table N) (h : usednodes t < sizenode t) :
    ∃ i, i < sizenode t ∧ (gnode t i).i_key = .nil := by
  by_contra hcon
  have hall : ∀ a ∈ List.range (sizenode t), (fun i => !ttisnil (gnode t i).i_key) a = true := by
    intro a ha
    rw [List.mem_range] at ha
    have : (gnode t a).i_key ≠ .nil := fun e => hcon ⟨a, ha, e⟩
    have h3 : ttisnil (gnode t a).i_key = false := (ttisnil_false_iff _).2 this
    simp [h3]
  have := List.countP_eq_length.2 hall
  unfold usednodes at h
  rw [this, List.length_range] at h
  omega

theorem room_pos {N : Type} (t : Table N) (h : 0 < room t) :
    t.isdummy = false ∧ usednodes t < sizenode t := by
  unfold room at h
  cases hd : t.isdummy with
  | true => rw [hd] at h; simp at h
  | false =>
    rw [hd] at h
    simp only [Bool.false_eq_true, if_false] at h
    exact ⟨rfl, by omega⟩

/-- With a free node left `luaH_newkey` inserts the key without `rehash`, at every depth,
and takes one node at most. -/
theorem luaH_newkey_free {N : Type} [DecidableEq N] {ops : LuaConf N}
    (d : Nat) (t : Table N) (hI : Inv ops t) (k : TValue N) (hk : validkey ops k = true)
    (hroom : 0 < room t) :
    ∃ t1 c, luaH_newkey ops d t k = .ok (t1, c) ∧ t1.lsizenode = t.lsizenode ∧
      t1.isdummy = false ∧ room t ≤ room t1 + 1 ∧ t1.array = t.array ∧
      t1.sizearray = t.sizearray := by
  obtain ⟨hnd, hused⟩ := room_pos t hroom
  have hroomle : ∀ t1 : Table N, t1.isdummy = false → sizenode t1 = sizenode t →
      usednodes t1 ≤ usednodes t + 1 → room t ≤ room t1 + 1 := by
    intro t1 h1 h2 h3
    unfold room
    rw [hnd, h1]
    simp only [Bool.false_eq_true, if_false]
    omega
  rw [luaH_newkey_unfold ops d t k hk]
  have hmplt := mainposition_lt ops t k hI.lsize_le
  have hlen : mainposition ops t k < t.node.length := by rw [hI.size_eq]; exact hmplt
  have hspec := getfreepos_loop_spec t t.lastfree
  by_cases hc : (!ttisnil (gnode t (mainposition ops t k)).i_val ||
      (t.isdummy && mainposition ops t k == 0)) = true
  · rw [if_pos hc]
    cases hfp : (getfreepos_loop t t.lastfree).2 with
    | none =>
      exfalso
      obtain ⟨_, hall⟩ := hspec.2 hfp
      obtain ⟨i, hi, hnil⟩ := exists_free_of_usednodes t hused
      by_cases hil : i < t.lastfree
      · exact hall i hil hnil
      · exact hI.lastfree_used hnd i (by omega) hi hnil
    | some n =>
      obtain ⟨hn, h0, hnfree, habove⟩ := hspec.1 n hfp
      have e : getfreepos t = ({ t with lastfree := n }, some n) := by
        unfold getfreepos; rw [hfp, h0]
      rw [e]
      have hval : (gnode t (mainposition ops t k)).i_val ≠ .nil := by
        rw [hnd] at hc
        intro e1
        rw [e1] at hc
        simp [ttisnil] at hc
      have hmpk := key_ne_nil_of_val hI _ hmplt hval
      have hnS : n < sizenode t := Nat.lt_of_lt_of_le hn hI.lastfree_le
      have hnlen : n < t.node.length := by rw [hI.size_eq]; exact hnS
      have hnmp : n ≠ mainposition ops t k := by
        intro e1
        rw [e1] at hnfree
        exact hmpk hnfree
      simp only []
      have hM : ∀ x, mainposition ops { t with lastfree := n } x = mainposition ops t x :=
        fun _ => rfl
      have hG : ∀ x, gnode { t with lastfree := n } x = gnode t x := fun _ => rfl
      have hZ : sizenode { t with lastfree := n } = sizenode t := rfl
      rw [hM, hG, hZ]
      by_cases ho : mainposition ops t (gnode t (mainposition ops t k)).i_key ≠
          mainposition ops t k
      · rw [if_pos ho]
        obtain ⟨prev, hp1, hp2, hp3⟩ := findprev_spec t hI.chain (mainposition ops t k)
          (mainposition ops t (gnode t (mainposition ops t k)).i_key)
          (mainposition_lt ops t _ hI.lsize_le) ho (hI.reach _ hmplt hmpk)
        have hp1b : findprev { t with lastfree := n } (mainposition ops t k) (sizenode t)
            (mainposition ops t (gnode t (mainposition ops t k)).i_key) = .ok prev := by
          rw [← hp1]
          rw [findprev_eq_walk, findprev_eq_walk,
            walk_congr t { t with lastfree := n } _ (fun _ => rfl)]
        rw [hp1b]
        have hprevlen : prev < t.node.length := by rw [hI.size_eq]; exact hp2
        have hpn : prev ≠ n := by
          intro e1
          rw [e1] at hp3
          have := (hI.free n hnS hnfree).2.1
          rw [this] at hp3
          cases hp3
        have hpmp : prev ≠ mainposition ops t k := by
          intro e1
          rw [e1] at hp3
          exact no_self_loop hI.chain _ hmplt hp3
        refine ⟨_, _, rfl, rfl, hnd, ?_, rfl, rfl⟩
        refine hroomle (newkey_move { t with lastfree := n } (mainposition ops t k) n prev k)
          hnd rfl ?_
        refine usednodes_le_succ t
          (newkey_move { t with lastfree := n } (mainposition ops t k) n prev k) rfl n ?_
        intro j hj hjn hkey
        rw [gnode_newkey_move { t with lastfree := n } _ n prev k j hnlen hlen hprevlen hnmp
          hpn hpmp] at hkey
        by_cases e1 : j = mainposition ops t k
        · rw [e1]; exact hmpk
        · rw [if_neg e1, if_neg hjn] at hkey
          by_cases e2 : j = prev
          · rw [if_pos e2] at hkey
            rw [e2]
            exact hkey
          · rw [if_neg e2] at hkey
            exact hkey
      · rw [if_neg ho]
        refine ⟨_, _, rfl, rfl, hnd, ?_, rfl, rfl⟩
        refine hroomle (newkey_chain { t with lastfree := n } (mainposition ops t k) n k)
          hnd rfl ?_
        refine usednodes_le_succ t
          (newkey_chain { t with lastfree := n } (mainposition ops t k) n k) rfl n ?_
        intro j hj hjn hkey
        rw [gnode_newkey_chain { t with lastfree := n } _ n k j hnlen hlen hnmp,
          if_neg hjn] at hkey
        by_cases e1 : j = mainposition ops t k
        · rw [e1]; exact hmpk
        · rw [if_neg e1] at hkey
          exact hkey
  · rw [if_neg hc]
    refine ⟨_, _, rfl, rfl, hnd, ?_, rfl, rfl⟩
    refine hroomle (setnode t (mainposition ops t k)
      { gnode t (mainposition ops t k) with i_key := k }) hnd rfl ?_
    refine usednodes_le_succ t (setnode t (mainposition ops t k)
      { gnode t (mainposition ops t k) with i_key := k }) rfl (mainposition ops t k) ?_
    intro j hj hjn hkey
    rw [gnode_setnode t _ _ j hlen, if_neg hjn] at hkey
    exact hkey

set_option maxRecDepth 100000 in
theorem log_2_spec : ∀ y, y < 256 →
    y < 2 ^ (log_2.getD y 0) ∧ (y = 0 ∨ 2 ^ (log_2.getD y 0 - 1) ≤ y) ∧
    (y = 0 → log_2.getD y 0 = 0) := by
  decide

theorem ceillog2_loop_spec : ∀ (fuel l y : Nat), y < 256 ^ (fuel + 1) →
    ∃ r, ceillog2_loop fuel l y = l + r ∧ y < 2 ^ r ∧ (y = 0 ∨ 2 ^ (r - 1) ≤ y) ∧
      (y = 0 → r = 0) := by
  intro fuel
  induction fuel with
  | zero =>
    intro l y hy
    simp only [zero_add, pow_one] at hy
    exact ⟨_, rfl, log_2_spec y hy⟩
  | succ fuel ih =>
    intro l y hy
    simp only [ceillog2_loop]
    by_cases h : y ≥ 256
    · rw [if_pos h]
      have hs : y >>> 8 = y / 256 := by
        rw [Nat.shiftRight_eq_div_pow]
      rw [hs]
      have hlt : y / 256 < 256 ^ (fuel + 1) := by
        rw [Nat.div_lt_iff_lt_mul (by norm_num)]
        calc y < 256 ^ (fuel + 1 + 1) := hy
          _ = 256 ^ (fuel + 1) * 256 := by rw [pow_succ]
      obtain ⟨r, h1, h2, h3, _⟩ := ih (l + 8) (y / 256) hlt
      refine ⟨8 + r, by rw [h1]; omega, ?_, Or.inr ?_, fun h0 => by omega⟩
      · have : 2 ^ (8 + r) = 256 * 2 ^ r := by rw [pow_add]; norm_num
        rw [this]
        omega
      · have hpos : y / 256 ≠ 0 := by
          intro e
          have := Nat.div_eq_zero_iff (by norm_num : 0 < 256) |>.1 e
          omega
        rcases h3 with h3 | h3
        · exact absurd h3 hpos
        · have hr : r ≠ 0 := by
            intro e
            rw [e] at h2
            simp only [pow_zero] at h2
            omega
          have : 2 ^ (8 + r - 1) = 256 * 2 ^ (r - 1) := by
            have : 8 + r - 1 = 8 + (r - 1) := by omega
            rw [this, pow_add]; norm_num
          rw [this]
          omega
    · rw [if_neg h]
      exact ⟨_, rfl, log_2_spec y (by omega)⟩

/-- The result of `luaO_ceillog2(x)` for `1 <= x < 2^32` is the least `r` with
`x <= 2^r`. -/
theorem luaO_ceillog2_spec (x : Nat) (h1 : 1 ≤ x) (h2 : x < 4294967296) :
    x ≤ 2 ^ luaO_ceillog2 x ∧ (luaO_ceillog2 x = 0 ∨ 2 ^ (luaO_ceillog2 x - 1) < x) ∧
    (x = 1 → luaO_ceillog2 x = 0) := by
  unfold luaO_ceillog2
  have hx : (x % 4294967296 + 4294967295) % 4294967296 = x - 1 := by omega
  rw [hx]
  obtain ⟨r, hr, hlt, hge, h0⟩ := ceillog2_loop_spec 4 0 (x - 1) (by norm_num; omega)
  rw [hr]
  simp only [zero_add]
  refine ⟨by omega, ?_, fun h => h0 (by omega)⟩
  rcases hge with h | h
  · exact Or.inl (h0 h)
  · exact Or.inr (by omega)

theorem take_sum_set (l : List Nat) : ∀ (j m c : Nat), j < l.length →
    ((l.set j (l.getD j 0 + c)).take m).sum = (l.take m).sum + (if j < m then c else 0) := by
  induction l with
  | nil => intro j m c h; simp at h
  | cons a l ih =>
    intro j m c h
    cases m with
    | zero => simp
    | succ m =>
      cases j with
      | zero =>
        simp only [List.set_cons_zero, List.take_succ_cons, List.sum_cons, List.getD_cons_zero]
        rw [if_pos (Nat.succ_pos _)]
        omega
      | succ j =>
        simp only [List.set_cons_succ, List.take_succ_cons, List.sum_cons, List.getD_cons_succ]
        rw [ih j m c (by simpa using h)]
        by_cases hjm : j < m
        · rw [if_pos hjm, if_pos (by omega)]; omega
        · rw [if_neg hjm, if_neg (by omega)]; omega

theorem sum_set (l : List Nat) (j c : Nat) (h : j < l.length) :
    (l.set j (l.getD j 0 + c)).sum = l.sum + c := by
  have := take_sum_set l j l.length c h
  rw [if_pos h] at this
  have h1 : (l.set j (l.getD j 0 + c)).take l.length = l.set j (l.getD j 0 + c) := by
    apply List.take_of_length_le
    simp
  rw [h1, List.take_of_length_le (le_refl _)] at this
  exact this

theorem arraycount_split {N : Type} (t : Table N) (a b c : Nat) (hab : a ≤ b) (hbc : b ≤ c) :
    arraycount t a c = arraycount t a b + arraycount t b c := by
  unfold arraycount
  have h : List.range' a (c - a) = List.range' a (b - a) ++ List.range' b (c - b) := by
    have := List.range'_append a (b - a) (c - b) 1
    simp only [one_mul] at this
    rw [show a + (b - a) = b by omega, show c - b + (b - a) = c - a by omega] at this
    exact this.symm
  rw [h, List.countP_append]

theorem arraycount_mono {N : Type} (t : Table N) (b c : Nat) (hbc : b ≤ c) :
    arraycount t 0 b ≤ arraycount t 0 c := by
  rw [arraycount_split t 0 b c (Nat.zero_le _) hbc]
  omega

theorem arraycount_empty {N : Type} (t : Table N) (a b : Nat) (h : b ≤ a) :
    arraycount t a b = 0 := by
  unfold arraycount
  rw [show b - a = 0 by omega]
  rfl

theorem countslice_eq {N : Type} (t : Table N) (i lim : Nat) (hi : 1 ≤ i) :
    countslice t i lim = arraycount t (i - 1) lim := by
  unfold countslice arraycount
  have h1 : lim + 1 - i = lim - (i - 1) := by omega
  rw [h1]
  have h2 : List.range' i (lim - (i - 1)) =
      (List.range' (i - 1) (lim - (i - 1))).map (fun x => 1 + x) := by
    rw [List.map_add_range']
    congr 1
    omega
  rw [h2, List.countP_map]
  apply List.countP_congr
  intro x _
  simp only [Function.comp]
  rw [show 1 + x - 1 = x by omega]

/-- The counts of `numusearray`: the loop leaves in `ause` the number of non-nil array
slots, keeps `ause` equal to the sum of `nums`, and the first `m+1` counters hold at most
the number of non-nil slots among the first `2^m`. -/
theorem numusearray_loop_spec {N : Type} (t : Table N) (hsz : t.sizearray ≤ 1073741824) :
    ∀ (fuel lg ttlg i ause : Nat) (nums : List Nat), ttlg = 2 ^ lg → fuel + lg = 31 →
      nums.length = 31 → i = min (ttlg / 2) t.sizearray + 1 →
      ause = arraycount t 0 (i - 1) → nums.sum = ause →
      (∀ m, (nums.take (m + 1)).sum ≤ arraycount t 0 (min (i - 1) (2 ^ m))) →
      (numusearray_loop t fuel lg ttlg i ause nums).1 = arraycount t 0 t.sizearray ∧
      (numusearray_loop t fuel lg ttlg i ause nums).2.sum = arraycount t 0 t.sizearray ∧
      ∀ m, ((numusearray_loop t fuel lg ttlg i ause nums).2.take (m + 1)).sum ≤
        arraycount t 0 (min t.sizearray (2 ^ m)) := by
  intro fuel
  induction fuel with
  | zero =>
    intro lg ttlg i ause nums h2 hf hlen hi hause hsum hpre
    have hlg : lg = 31 := by omega
    subst hlg
    have htt : ttlg / 2 = 1073741824 := by rw [h2]; norm_num
    have hi1 : i - 1 = t.sizearray := by rw [hi, htt]; omega
    simp only [numusearray_loop]
    rw [hi1] at hause hpre
    exact ⟨hause, by rw [hsum, hause], hpre⟩
  | succ fuel ih =>
    intro lg ttlg i ause nums h2 hf hlen hi hause hsum hpre
    simp only [numusearray_loop]
    have hlim : (if ttlg > t.sizearray then t.sizearray else ttlg) = min ttlg t.sizearray := by
      split <;> omega
    rw [hlim]
    have hi1 : i - 1 = min (ttlg / 2) t.sizearray := by omega
    by_cases hb : ttlg > t.sizearray ∧ i > min ttlg t.sizearray
    · rw [if_pos hb]
      have hi2 : i - 1 = t.sizearray := by omega
      rw [hi2] at hause hpre
      exact ⟨hause, by rw [hsum, hause], hpre⟩
    · rw [if_neg hb]
      have hi0 : 1 ≤ i := by omega
      have hile : i - 1 ≤ min ttlg t.sizearray := by omega
      have hlc := countslice_eq t i (min ttlg t.sizearray) hi0
      have hi' : (if i ≤ min ttlg t.sizearray then min ttlg t.sizearray + 1 else i) =
          min (ttlg * 2 / 2) t.sizearray + 1 := by
        have : ttlg * 2 / 2 = ttlg := by omega
        rw [this]
        split <;> omega
      have hi'' : (if i ≤ min ttlg t.sizearray then min ttlg t.sizearray + 1 else i) - 1 =
          min ttlg t.sizearray := by
        rw [hi']
        have : ttlg * 2 / 2 = ttlg := by omega
        rw [this]
        omega
      have hsplit := arraycount_split t 0 (i - 1) (min ttlg t.sizearray) (Nat.zero_le _) hile
      apply ih (lg + 1) (ttlg * 2) _ _ _ (by rw [h2, pow_succ]) (by omega)
        (by simp [hlen]) hi'
      · rw [hi'', hlc, hsplit, hause]
      · rw [sum_set nums lg _ (by omega), hsum]
      · intro m
        rw [take_sum_set nums lg (m + 1) _ (by omega), hi'']
        by_cases hlm : lg < m + 1
        · rw [if_pos hlm]
          have hpow : ttlg ≤ 2 ^ m := by
            rw [h2]
            exact Nat.pow_le_pow_right (by norm_num) (by omega)
          have hmin : min (min ttlg t.sizearray) (2 ^ m) = min ttlg t.sizearray := by omega
          rw [hmin, hlc, hsplit]
          have h3 := hpre m
          have h4 := arraycount_mono t (min (i - 1) (2 ^ m)) (i - 1) (by omega)
          omega
        · rw [if_neg hlm]
          have h3 := hpre m
          have h4 := arraycount_mono t (min (i - 1) (2 ^ m))
            (min (min ttlg t.sizearray) (2 ^ m)) (by omega)
          omega

theorem numusearray_spec {N : Type} (t : Table N) (hsz : t.sizearray ≤ 1073741824) :
    (numusearray t (List.replicate (MAXBITS + 1) 0)).1 = arraycount t 0 t.sizearray ∧
    (numusearray t (List.replicate (MAXBITS + 1) 0)).2.sum = arraycount t 0 t.sizearray ∧
    (numusearray t (List.replicate (MAXBITS + 1) 0)).2.length = 31 ∧
    ∀ m, ((numusearray t (List.replicate (MAXBITS + 1) 0)).2.take (m + 1)).sum ≤
      arraycount t 0 (min t.sizearray (2 ^ m)) := by
  unfold numusearray
  have hz : ∀ m, ((List.replicate (MAXBITS + 1) 0).take m).sum = 0 := by
    intro m
    rw [List.take_replicate, List.sum_replicate]
    simp
  have hs : (List.replicate (MAXBITS + 1) 0).sum = 0 := by
    rw [List.sum_replicate]; simp
  have h := numusearray_loop_spec t hsz (MAXBITS + 1) 0 1 1 0 (List.replicate (MAXBITS + 1) 0)
    rfl rfl (by simp [MAXBITS]) (by simp) (by simp [arraycount]) hs
    (fun m => by rw [hz]; exact Nat.zero_le _)
  refine ⟨h.1, h.2.1, ?_, h.2.2⟩
  rw [numusearray_loop_length]
  simp [MAXBITS]

theorem ceillog2_le_30 (x : Nat) (h1 : 1 ≤ x) (h2 : x ≤ 1073741824) :
    luaO_ceillog2 x ≤ 30 ∧ x ≤ 2 ^ luaO_ceillog2 x := by
  obtain ⟨ha, hb, _⟩ := luaO_ceillog2_spec x h1 (by omega)
  refine ⟨?_, ha⟩
  rcases hb with h | h
  · omega
  · by_contra hc
    have h3 : 30 ≤ luaO_ceillog2 x - 1 := by omega
    have h4 : 2 ^ 30 ≤ 2 ^ (luaO_ceillog2 x - 1) := Nat.pow_le_pow_right (by norm_num) h3
    norm_num at h4
    omega

/-- The counters after `countint`: an integer key of the range `1..MAXASIZE` adds one to
the counter of its slice, so to the first `m+1` counters only if it is at most `2^m`. -/
theorem countint_spec {N : Type} (ops : LuaConf N) (key : TValue N) (nums : List Nat)
    (hlen : nums.length = 31) :
    (countint ops key nums).1 = (if intkey_le ops key 1073741824 = true then 1 else 0) ∧
    (countint ops key nums).2.sum = nums.sum + (countint ops key nums).1 ∧
    ∀ m, ((countint ops key nums).2.take (m + 1)).sum ≤
      (nums.take (m + 1)).sum + (if intkey_le ops key (2 ^ m) = true then 1 else 0) := by
  unfold countint
  simp only []
  have hM : ((MAXASIZE : Nat) : Int) = 1073741824 := by
    simp [MAXASIZE, MAXBITS]
  rw [hM]
  by_cases hk : 0 < arrayindex ops key ∧ arrayindex ops key ≤ 1073741824
  · rw [if_pos hk]
    have hint : intkey_le ops key 1073741824 = true := by
      simp [intkey_le, hk.1, hk.2]
    have hcu : cast_unsigned (arrayindex ops key) = (arrayindex ops key).toNat := by
      unfold cast_unsigned
      congr 1
      omega
    rw [hcu]
    obtain ⟨h30, hle⟩ := ceillog2_le_30 (arrayindex ops key).toNat (by omega) (by omega)
    refine ⟨by rw [hint]; rfl, ?_, ?_⟩
    · simp only []
      rw [sum_set nums _ 1 (by omega)]
    · intro m
      simp only []
      rw [take_sum_set nums _ (m + 1) 1 (by omega)]
      by_cases hlm : luaO_ceillog2 (arrayindex ops key).toNat < m + 1
      · rw [if_pos hlm]
        have hpow : 2 ^ luaO_ceillog2 (arrayindex ops key).toNat ≤ 2 ^ m :=
          Nat.pow_le_pow_right (by norm_num) (by omega)
        have hint2 : intkey_le ops key (2 ^ m) = true := by
          simp only [intkey_le, Bool.and_eq_true, decide_eq_true_eq]
          refine ⟨hk.1, ?_⟩
          have : (arrayindex ops key).toNat ≤ 2 ^ m := le_trans hle hpow
          omega
        rw [if_pos hint2]
      · rw [if_neg hlm]
        omega
  · rw [if_neg hk]
    have hint : intkey_le ops key 1073741824 = false := by
      simp only [intkey_le]
      by_cases h1 : 0 < arrayindex ops key
      · have h2 : ¬ arrayindex ops key ≤ 1073741824 := fun h => hk ⟨h1, h⟩
        simp [h2]
      · simp [h1]
    refine ⟨by rw [hint]; rfl, by simp, ?_⟩
    intro m
    simp only []
    omega

/-- The counts of `numusehash` over a list of nodes. -/
theorem numusehash_fold_spec {N : Type} (ops : LuaConf N) (t : Table N) :
    ∀ (l : List Nat) (acc : Nat × Nat × List Nat), acc.2.2.length = 31 →
      (l.foldl (numusehash_step ops t) acc).1 = acc.1 + nodecount t (fun _ => true) l ∧
      (l.foldl (numusehash_step ops t) acc).2.2.length = 31 ∧
      (l.foldl (numusehash_step ops t) acc).2.2.sum + acc.2.1 =
        acc.2.2.sum + (l.foldl (numusehash_step ops t) acc).2.1 ∧
      ∀ m, ((l.foldl (numusehash_step ops t) acc).2.2.take (m + 1)).sum ≤
        (acc.2.2.take (m + 1)).sum + nodecount t (fun k => intkey_le ops k (2 ^ m)) l := by
  intro l
  induction l with
  | nil =>
    intro acc hlen
    simp [nodecount, hlen]
  | cons x l ih =>
    intro acc hlen
    rw [List.foldl_cons]
    have hnc : ∀ P : TValue N → Bool, nodecount t P (x :: l) =
        nodecount t P l + (if (!ttisnil (gnode t x).i_val && P (gnode t x).i_key) = true
          then 1 else 0) := by
      intro P
      unfold nodecount
      rw [List.countP_cons]
    by_cases hv : (!ttisnil (gnode t x).i_val) = true
    · have hstep : numusehash_step ops t acc x =
          (acc.1 + 1, acc.2.1 + (countint ops (gnode t x).i_key acc.2.2).1,
            (countint ops (gnode t x).i_key acc.2.2).2) := by
        unfold numusehash_step
        rw [if_pos hv]
      obtain ⟨c1, c2, c3⟩ := countint_spec ops (gnode t x).i_key acc.2.2 hlen
      have hlen1 : (numusehash_step ops t acc x).2.2.length = 31 := by
        rw [hstep]
        simp only []
        rw [countint_length, hlen]
      obtain ⟨i1, i2, i3, i4⟩ := ih (numusehash_step ops t acc x) hlen1
      have e1 : (numusehash_step ops t acc x).1 = acc.1 + 1 := by rw [hstep]
      have e2 : (numusehash_step ops t acc x).2.1 =
          acc.2.1 + (countint ops (gnode t x).i_key acc.2.2).1 := by rw [hstep]
      have e3 : (numusehash_step ops t acc x).2.2 =
          (countint ops (gnode t x).i_key acc.2.2).2 := by rw [hstep]
      refine ⟨?_, i2, ?_, ?_⟩
      · rw [i1, e1, hnc]
        simp only [hv, Bool.true_and, if_true]
        omega
      · rw [e2, e3, c2] at i3
        omega
      · intro m
        have h4 := i4 m
        rw [e3] at h4
        have h5 := c3 m
        rw [hnc]
        simp only [hv, Bool.true_and]
        omega
    · have hstep : numusehash_step ops t acc x = acc := by
        unfold numusehash_step
        rw [if_neg hv]
      rw [hstep]
      obtain ⟨i1, i2, i3, i4⟩ := ih acc hlen
      have hv0 : (!ttisnil (gnode t x).i_val) = false := by simpa using hv
      refine ⟨?_, i2, i3, ?_⟩
      · rw [i1, hnc]
        simp [hv0]
      · intro m
        rw [hnc]
        simp only [hv0, Bool.false_and, Bool.false_eq_true, if_false, Nat.add_zero]
        exact i4 m

/-- The result of `computesizes` on counters whose sum is `narray`: the new array size is
0 or a power of two `2^i`, and `na` is the sum of the counters of the slices up to `i`. -/
theorem computesizes_spec (nums : List Nat) (hlen : nums.length = 31) :
    ∃ na n, computesizes nums nums.sum = .ok (na, n) ∧
      ((n = 0 ∧ na = 0) ∨ ∃ i, i ≤ 30 ∧ n = 2 ^ i ∧ na = (nums.take (i + 1)).sum) := by
  have key : ∀ (fuel i twotoi a na n : Nat), twotoi = 2 ^ i → fuel + i = 32 → i ≤ 30 →
      a = (nums.take i).sum →
      ((n = 0 ∧ na = 0) ∨ ∃ j, j ≤ 30 ∧ n = 2 ^ j ∧ na = (nums.take (j + 1)).sum) →
      ∃ na1 n1, computesizes_loop nums nums.sum fuel i twotoi a na n = .ok (na1, n1) ∧
        ((n1 = 0 ∧ na1 = 0) ∨ ∃ j, j ≤ 30 ∧ n1 = 2 ^ j ∧ na1 = (nums.take (j + 1)).sum) := by
    intro fuel
    induction fuel with
    | zero => intro i twotoi a na n _ h; omega
    | succ fuel ih =>
      intro i twotoi a na n h2 hf hi ha hgood
      simp only [computesizes_loop]
      by_cases hc : twotoi / 2 < nums.sum
      · rw [if_pos hc]
        have hget : nums.get? i = some (nums.getD i 0) := by
          rw [List.get?_eq_getElem?, List.getD_eq_getElem?_getD]
          have : i < nums.length := by omega
          rw [List.getElem?_eq_getElem this]
          rfl
        rw [hget]
        simp only []
        have ha1 : (if nums.getD i 0 > 0 then a + nums.getD i 0 else a) =
            (nums.take (i + 1)).sum := by
          have : (nums.take (i + 1)).sum = (nums.take i).sum + nums.getD i 0 := by
            have hil : i < nums.length := by omega
            rw [List.take_succ, List.sum_append, List.getD_eq_getElem?_getD]
            rw [List.getElem?_eq_getElem hil]
            simp
          rw [this, ha]
          split <;> omega
        rw [ha1]
        have hgood1 : (((if nums.getD i 0 > 0 ∧ (nums.take (i + 1)).sum > twotoi / 2
              then twotoi else n) = 0 ∧
            (if nums.getD i 0 > 0 ∧ (nums.take (i + 1)).sum > twotoi / 2
              then (nums.take (i + 1)).sum else na) = 0) ∨
            ∃ j, j ≤ 30 ∧ (if nums.getD i 0 > 0 ∧ (nums.take (i + 1)).sum > twotoi / 2
              then twotoi else n) = 2 ^ j ∧
            (if nums.getD i 0 > 0 ∧ (nums.take (i + 1)).sum > twotoi / 2
              then (nums.take (i + 1)).sum else na) = (nums.take (j + 1)).sum) := by
          by_cases hx : nums.getD i 0 > 0 ∧ (nums.take (i + 1)).sum > twotoi / 2
          · rw [if_pos hx, if_pos hx]
            exact Or.inr ⟨i, hi, h2, rfl⟩
          · rw [if_neg hx, if_neg hx]
            exact hgood
        by_cases hbrk : (nums.take (i + 1)).sum = nums.sum
        · rw [if_pos hbrk]
          exact ⟨_, _, rfl, hgood1⟩
        · rw [if_neg hbrk]
          have hi30 : i < 30 := by
            by_contra h30
            have : i = 30 := by omega
            subst this
            apply hbrk
            rw [List.take_of_length_le (by omega)]
          exact ih (i + 1) (twotoi * 2) _ _ _ (by rw [h2, pow_succ]) (by omega) (by omega)
            rfl hgood1
      · rw [if_neg hc]
        exact ⟨_, _, rfl, hgood⟩
  unfold computesizes
  rw [hlen]
  exact key 32 0 1 0 0 0 rfl rfl (by omega) (by simp) (Or.inl ⟨rfl, rfl⟩)

theorem gnode_write_key {N : Type} (t : Table N) (c : Cell) (v : TValue N) (i : Nat) :
    (gnode (t.write c v) i).i_key = (gnode t i).i_key := by
  cases c with
  | nilobject => rfl
  | arr j => rfl
  | val j =>
    by_cases hj : j < t.node.length
    · rw [gnode_write_val t j v i hj]
      by_cases e : i = j
      · rw [if_pos e, e]
      · rw [if_neg e]
    · have h1 : t.write (.val j) v = t := by
        simp only [Table.write]
        rw [List.set_eq_of_length_le (by omega)]
      rw [h1]

theorem room_write {N : Type} (t : Table N) (c : Cell) (v : TValue N) :
    room (t.write c v) = room t := by
  have hls : (t.write c v).lsizenode = t.lsizenode := by cases c <;> rfl
  have hd : (t.write c v).isdummy = t.isdummy := by cases c <;> rfl
  have hs : sizenode (t.write c v) = sizenode t := sizenode_eq_of_lsizenode hls
  unfold room usednodes
  rw [hd, hs]
  simp only [gnode_write_key]

theorem write_val_array {N : Type} (t : Table N) (j : Nat) (v : TValue N) :
    (t.write (.val j) v).array = t.array ∧ (t.write (.val j) v).sizearray = t.sizearray :=
  ⟨rfl, rfl⟩

theorem intkey_le_false_iff {N : Type} (ops : LuaConf N) (k : TValue N) (n : Nat) :
    intkey_le ops k n = false ↔ ¬ (0 < arrayindex ops k ∧ arrayindex ops k ≤ (n : Int)) := by
  unfold intkey_le
  by_cases h1 : 0 < arrayindex ops k <;> by_cases h2 : arrayindex ops k ≤ (n : Int) <;>
    simp [h1, h2]

/-- One `*luaH_set(L,t,k) = v` with the nested `luaH_newkey` at any depth: it returns
as soon as a free node is left for a key that does not belong to the array part. -/
theorem set_step_total {N : Type} [DecidableEq N] {ops : LuaConf N} (hL : ops.Lawful) (d : Nat)
    (tc : Table N) (hI : Inv ops tc) (k : TValue N) (hk : validkey ops k = true)
    (v : TValue N) (hroom : intkey_le ops k tc.sizearray = false → 0 < room tc) :
    ∃ t1 c, luaH_set_with ops (luaH_newkey ops d) tc k = .ok (t1, c) ∧
      Inv ops (t1.write c v) ∧
      room tc ≤ room (t1.write c v) + (if intkey_le ops k tc.sizearray = true then 0 else 1) ∧
      (t1.write c v).sizearray = tc.sizearray ∧
      (t1.write c v).array.length = tc.array.length := by
  have hspec := set_write_spec hL (luaH_newkey ops d) (luaH_newkey_spec hL d) tc hI k hk v
  obtain ⟨p, hp⟩ := luaH_get_total hL tc hI k
  by_cases hpn : p = .nilobject
  · subst hpn
    obtain ⟨harr, _⟩ := absent_of_get_nilobject hL tc hI k (validkey_ttisnil ops k hk) hp
    have hint := (intkey_le_false_iff ops k tc.sizearray).2 harr
    obtain ⟨t1, c, h1, _, _, h4, h5, h6⟩ := luaH_newkey_free d tc hI k hk (hroom hint)
    have hset : luaH_set_with ops (luaH_newkey ops d) tc k = .ok (t1, c) := by
      unfold luaH_set_with
      rw [hp]
      simp only [ne_eq, not_true_eq_false, if_false]
      exact h1
    rw [hset] at hspec
    obtain ⟨s1, _, _, s4, s5⟩ := hspec
    refine ⟨t1, c, hset, s1, ?_, by rw [s5, h6], by rw [s4, h5]⟩
    rw [room_write, hint]
    simpa using h4
  · have hset : luaH_set_with ops (luaH_newkey ops d) tc k = .ok (tc, p) := by
      unfold luaH_set_with
      rw [hp]
      simp only [ne_eq, hpn, not_false_eq_true, if_true]
    rw [hset] at hspec
    obtain ⟨s1, _, _, s4, s5⟩ := hspec
    refine ⟨tc, p, hset, s1, ?_, s5, s4⟩
    rw [room_write]
    omega

/-- One `luaH_setint(L,t,key,v)` for a key outside the array part, with the nested
`luaH_newkey` at any depth: it returns as soon as a free node is left, and leaves the array
part as it is. -/
theorem setint_step_total {N : Type} [DecidableEq N] {ops : LuaConf N} (hL : ops.Lawful)
    (d : Nat) (tc : Table N) (hI : Inv ops tc) (key : Int) (hkey : cast_int key = key)
    (hout : ¬ (0 < key ∧ key ≤ (tc.sizearray : Int))) (v : TValue N) (hroom : 0 < room tc) :
    ∃ t1, luaH_setint_with ops (luaH_newkey ops d) tc key v = .ok t1 ∧ Inv ops t1 ∧
      room tc ≤ room t1 + 1 ∧ t1.array = tc.array ∧ t1.sizearray = tc.sizearray := by
  have hspec := luaH_setint_with_spec hL (luaH_newkey ops d) (luaH_newkey_spec hL d) tc hI
    key hkey v
  have hk : validkey ops (TValue.number (ops.cast_num key)) = true := validkey_cast hL key
  have ha := arrayindex_cast hL key hkey
  have hge := luaH_getint_eq_get hL tc hI.asize_le key hkey
  obtain ⟨p, hp⟩ := luaH_get_total hL tc hI (.number (ops.cast_num key))
  have hnotarr : ∀ (t1 : Table N) (c : Cell), Inv ops t1 → t1.sizearray = tc.sizearray →
      luaH_get ops t1 (.number (ops.cast_num key)) = .ok c → c ≠ .nilobject →
      ∃ j, c = .val j := by
    intro t1 c hI1 hs hg hc
    rcases luaH_get_cases hL t1 hI1 _ c hg with h0 | ⟨i, _, hi, hai⟩ | ⟨j, rfl, _⟩
    · exact absurd h0 hc
    · exfalso
      rw [ha] at hai
      apply hout
      rw [← hs]
      omega
    · exact ⟨j, rfl⟩
  by_cases hpn : p = .nilobject
  · subst hpn
    obtain ⟨t1, c, h1, _, _, h4, h5, h6⟩ := luaH_newkey_free d tc hI _ hk hroom
    have hnk := luaH_newkey_spec hL d tc (.number (ops.cast_num key)) hI hk hp
    rw [h1] at hnk
    obtain ⟨n1, n2, n3, _, _⟩ := hnk
    obtain ⟨j, rfl⟩ := hnotarr t1 c n1 h6 n2 n3
    have hset : luaH_setint_with ops (luaH_newkey ops d) tc key v =
        .ok (t1.write (.val j) v) := by
      unfold luaH_setint_with
      rw [hge, hp]
      simp only [ne_eq, not_true_eq_false, if_false, h1]
    rw [hset] at hspec
    refine ⟨_, hset, hspec.1, by rw [room_write]; exact h4, h5, h6⟩
  · obtain ⟨j, rfl⟩ := hnotarr tc p hI rfl hp hpn
    have hset : luaH_setint_with ops (luaH_newkey ops d) tc key v =
        .ok (tc.write (.val j) v) := by
      unfold luaH_setint_with
      rw [hge, hp]
      simp only [ne_eq, hpn, not_false_eq_true, if_true]
    rw [hset] at hspec
    refine ⟨_, hset, hspec.1, by rw [room_write]; omega, rfl, rfl⟩

theorem list_get?_getD {α : Type} (A : List α) (m : Nat) (d : α) (h : m < A.length) :
    A.get? m = some (A.getD m d) := by
  rw [List.get?_eq_getElem?, List.getD_eq_getElem?_getD, List.getElem?_eq_getElem h]
  rfl

/-- The loop of `luaH_resize` over the vanishing slice of the array part returns when the
new node vector has a free node for each non-nil slot of the slice. -/
theorem evict_fold_total {N : Type} [DecidableEq N] {ops : LuaConf N} (hL : ops.Lawful)
    (d : Nat) (A : List (TValue N)) (na extra : Nat) :
    ∀ (cnt m : Nat) (tc : Table N), Inv ops tc → tc.array = A → tc.sizearray = na → na ≤ m →
      m + cnt ≤ A.length → m + cnt ≤ 1073741824 →
      (List.range' m cnt).countP (fun i => !ttisnil (A.getD i .nil)) + extra ≤ room tc →
      ∃ t3, (List.range' m cnt).foldlM (resize_evict ops (luaH_newkey ops d)) tc = .ok t3 ∧
        Inv ops t3 ∧ t3.array = A ∧ t3.sizearray = na ∧ extra ≤ room t3 := by
  intro cnt
  induction cnt with
  | zero =>
    intro m tc hI ha hs _ _ _ hroom
    exact ⟨tc, rfl, hI, ha, hs, by simpa using hroom⟩
  | succ cnt ih =>
    intro m tc hI ha hs hnm hlen hmax hroom
    rw [List.range'_succ, foldlM_cons_except]
    rw [List.range'_succ, List.countP_cons] at hroom
    have hget : tc.array.get? m = some (A.getD m .nil) := by
      rw [ha]
      exact list_get?_getD A m .nil (by omega)
    by_cases hv : (!ttisnil (A.getD m .nil)) = true
    · rw [if_pos hv] at hroom
      have hkey : cast_int ((m : Int) + 1) = (m : Int) + 1 :=
        cast_int_of_range _ (by constructor <;> omega)
      obtain ⟨t1, h1, hI1, hr1, ha1, hs1⟩ := setint_step_total hL d tc hI ((m : Int) + 1) hkey
        (by rw [hs]; omega) (A.getD m .nil) (by omega)
      have hstep : resize_evict ops (luaH_newkey ops d) tc m = .ok t1 := by
        unfold resize_evict
        rw [hget]
        simp only [hv, if_true]
        have : luaH_setint_with ops (luaH_newkey ops d) tc (↑m + 1) (A.getD m .nil) = .ok t1 := h1
        rw [this]
        simp only [ha1, hs1, and_self, if_true]
      rw [hstep]
      exact ih (m + 1) t1 hI1 (by rw [ha1, ha]) (by rw [hs1, hs]) (by omega) (by omega)
        (by omega) (by omega)
    · rw [if_neg hv] at hroom
      have hstep : resize_evict ops (luaH_newkey ops d) tc m = .ok tc := by
        unfold resize_evict
        rw [hget]
        simp only [hv, Bool.false_eq_true, if_false]
      rw [hstep]
      exact ih (m + 1) tc hI ha hs (by omega) (by omega) (by omega) (by omega)

/-- The loop of `luaH_resize` over the old nodes returns when the new node vector has a
free node for each old node whose key does not belong to the new array part. -/
theorem reinsert_fold_total {N : Type} [DecidableEq N] {ops : LuaConf N} (hL : ops.Lawful)
    (d : Nat) (t : Table N) (hI : Inv ops t) (n extra : Nat) :
    ∀ (l : List Nat) (tc : Table N), Inv ops tc → tc.sizearray = n →
      (∀ j, j ∈ l → j < sizenode t) →
      nodecount t (fun k => !intkey_le ops k n) l + extra ≤ room tc →
      ∃ t3, l.foldlM (resize_reinsert ops (luaH_newkey ops d) t.node) tc = .ok t3 ∧
        Inv ops t3 ∧ t3.sizearray = n ∧ extra ≤ room t3 ∧
        t3.array.length = tc.array.length := by
  intro l
  induction l with
  | nil =>
    intro tc hIc hs _ hroom
    exact ⟨tc, rfl, hIc, hs, by simpa [nodecount] using hroom, rfl⟩
  | cons x l ih =>
    intro tc hIc hs hmem hroom
    rw [foldlM_cons_except]
    have hx : x < sizenode t := hmem x (List.mem_cons_self _ _)
    have hnd : t.node.getD x dummynode_ = gnode t x := rfl
    unfold nodecount at hroom
    rw [List.countP_cons] at hroom
    beta_reduce at hroom
    by_cases hv : (!ttisnil (gnode t x).i_val) = true
    · have hvn : (gnode t x).i_val ≠ .nil := by
        intro e
        rw [e] at hv
        simp [ttisnil, rttype] at hv
      have hkn := key_ne_nil_of_val hI x hx hvn
      have hkv := hI.keys_valid x hx hkn
      obtain ⟨t1, c, h1, hI1, hr1, hs1, hl1⟩ := set_step_total hL d tc hIc (gnode t x).i_key hkv
        (gnode t x).i_val (by
          intro hint
          rw [hs] at hint
          simp only [hv, hint, Bool.not_false, Bool.and_self, if_true] at hroom
          omega)
      have hstep : resize_reinsert ops (luaH_newkey ops d) t.node tc x =
          .ok (t1.write c (gnode t x).i_val) := by
        unfold resize_reinsert
        rw [hnd]
        simp only [hv, if_true, h1]
      rw [hstep]
      obtain ⟨t3, g1, g2, g3, g4, g5⟩ := ih (t1.write c (gnode t x).i_val) hI1 (by rw [hs1, hs])
        (fun j hj => hmem j (List.mem_cons_of_mem _ hj)) (by
          unfold nodecount
          beta_reduce
          rw [hs] at hr1
          by_cases hint : intkey_le ops (gnode t x).i_key n = true
          · rw [if_pos hint] at hr1
            simp only [hv, hint, Bool.not_true, Bool.and_false, Bool.false_eq_true,
              if_false] at hroom
            omega
          · rw [if_neg hint] at hr1
            have hint0 : intkey_le ops (gnode t x).i_key n = false := by simpa using hint
            simp only [hv, hint0, Bool.not_false, Bool.and_self, if_true] at hroom
            omega)
      exact ⟨t3, g1, g2, g3, g4, by rw [g5, hl1]⟩
    · have hstep : resize_reinsert ops (luaH_newkey ops d) t.node tc x = .ok tc := by
        unfold resize_reinsert
        rw [hnd]
        simp only [hv, Bool.false_eq_true, if_false]
      rw [hstep]
      have hv0 : (!ttisnil (gnode t x).i_val) = false := by simpa using hv
      exact ih tc hIc hs (fun j hj => hmem j (List.mem_cons_of_mem _ hj)) (by
        unfold nodecount
        beta_reduce
        simp only [hv0, Bool.false_and, Bool.false_eq_true, if_false] at hroom
        omega)

theorem usednodes_fresh {N : Type} (t : Table N) (h : ∀ i, gnode t i = dummynode_) :
    usednodes t = 0 := by
  unfold usednodes
  rw [List.countP_eq_zero]
  intro a _
  rw [h a]
  simp [dummynode_, ttisnil, rttype]

/-- The node vector allocated by `setnodevector` for `size` nodes has room for `size`
keys. -/
theorem setnodevector_room {N : Type} (t : Table N) (size : Nat) (t2 : Table N)
    (hsz : size < 4294967296) (h : setnodevector t size = .ok t2) : size ≤ room t2 := by
  obtain ⟨_, _, f3, _, _, _, _, _⟩ := setnodevector_ok t size t2 h
  have hu := usednodes_fresh t2 f3
  unfold setnodevector at h
  by_cases h0 : size = 0
  · omega
  · rw [if_neg h0] at h
    have hspec := (luaO_ceillog2_spec size (by omega) hsz).1
    generalize luaO_ceillog2 size = ls at h hspec
    by_cases h1 : ls > MAXBITS
    · simp only [h1, if_true] at h
      cases h
    · simp only [h1, if_false] at h
      have e := Except.ok.inj h
      have hd : t2.isdummy = false := by rw [← e]
      have hs : sizenode t2 = 2 ^ ls := by rw [← e]; rfl
      unfold room
      rw [hd, hu, hs]
      simpa using hspec

/-- "table overflow" is raised by `setnodevector` only for more than `2^30` nodes. -/
theorem setnodevector_error_size {N : Type} (t : Table N) (size : Nat) (e : Err)
    (h : setnodevector t size = .error e) : 1073741824 < size := by
  by_contra hle
  unfold setnodevector at h
  by_cases h0 : size = 0
  · rw [if_pos h0] at h
    cases h
  · rw [if_neg h0] at h
    have hspec := (ceillog2_le_30 size (by omega) (by omega)).1
    generalize luaO_ceillog2 size = ls at h hspec
    have h1 : ¬ ls > MAXBITS := by
      have : MAXBITS = 30 := rfl
      omega
    simp only [h1, if_false] at h
    cases h

theorem room_with_array {N : Type} (t : Table N) (A : List (TValue N)) :
    room { t with array := A } = room t := rfl

theorem room_with_sizearray {N : Type} (t : Table N) (n : Nat) :
    room { t with sizearray := n } = room t := rfl

/-- The call `luaH_resize(L,t,na,nh)` returns, or raises "table overflow", when `nh` is at
least the number of entries that go to the new hash part: the non-nil slots of the array
part from `na` on and the nodes whose key is not an integer of `1..na`. The new table has
room for `extra` more keys when `nh` counts them too. The error is raised only when `nh`
is more than `2^30`. -/
theorem luaH_resize_total {N : Type} [DecidableEq N] {ops : LuaConf N} (hL : ops.Lawful)
    (d : Nat) (t : Table N) (hI : Inv ops t) (hlen : t.array.length = t.sizearray)
    (na nh extra : Nat) (hna : na ≤ MAXASIZE) (hnh : nh < 4294967296)
    (hcount : arraycount t na t.sizearray +
      nodecount t (fun k => !intkey_le ops k na) (List.range (sizenode t)).reverse + extra ≤ nh) :
    (∃ t1, luaH_resize_with ops (luaH_newkey ops d) t na nh = .ok t1 ∧ Inv ops t1 ∧
      t1.sizearray = na ∧ t1.array.length = na ∧ extra ≤ room t1) ∨
    (luaH_resize_with ops (luaH_newkey ops d) t na nh = .error (.runerror .table_overflow) ∧
      1073741824 < nh) := by
  have hsa := hI.asize_le
  have hgsize : (if na > t.sizearray then setarrayvector t na else t).sizearray =
      (if na > t.sizearray then na else t.sizearray) := by
    by_cases hg : na > t.sizearray
    · simp only [hg, if_true, setarrayvector]
    · simp only [hg, if_false]
  have hglen : (if na > t.sizearray then setarrayvector t na else t).array.length =
      (if na > t.sizearray then na else t.array.length) := by
    by_cases hg : na > t.sizearray
    · simp only [hg, if_true, setarrayvector, List.length_append, List.length_take,
        List.length_replicate]
      omega
    · simp only [hg, if_false]
  have hmemrev : ∀ j, j ∈ (List.range (twoto t.lsizenode)).reverse → j < sizenode t := by
    intro j hj
    rw [List.mem_reverse, List.mem_range] at hj
    exact hj
  unfold luaH_resize_with
  simp only []
  cases hsv : setnodevector (if na > t.sizearray then setarrayvector t na else t) nh with
  | error e =>
    right
    rw [setnodevector_error _ _ e hsv]
    exact ⟨rfl, setnodevector_error_size _ _ e hsv⟩
  | ok t2 =>
    left
    simp only []
    obtain ⟨f1, f2, f3, f4, f5, f6, f7, f8⟩ := setnodevector_ok _ _ t2 hsv
    have hroom2 := setnodevector_room _ _ t2 hnh hsv
    by_cases hshrink : na < t.sizearray
    · rw [if_pos hshrink]
      have hng : ¬ na > t.sizearray := by omega
      rw [if_neg hng] at f1 f2
      have hIc : Inv ops { t2 with sizearray := na } := by
        apply inv_fresh ops { t2 with sizearray := na } f3 f4 f5 ?_ ?_ f6 f7 f8
        · show na ≤ t2.array.length
          rw [f1]
          have := hI.arr_le
          omega
        · exact hna
      obtain ⟨t3, e1, e2, e3, e4, e5⟩ := evict_fold_total hL d t.array na
        (nodecount t (fun k => !intkey_le ops k na) (List.range (sizenode t)).reverse + extra)
        (t.sizearray - na) na { t2 with sizearray := na } hIc f1 rfl (le_refl _)
        (by have := hI.arr_le; omega)
        (by
          have h30 : MAXASIZE = 1073741824 := by norm_num [MAXASIZE, MAXBITS]
          omega)
        (by
          rw [room_with_sizearray]
          unfold arraycount at hcount
          omega)
      rw [e1]
      simp only []
      obtain ⟨hI4, _⟩ := inv_array hL t3 e2 (t3.array.take na)
        (by rw [e4, List.length_take, e3]; have := hI.arr_le; omega)
        (by
          intro j hj
          rw [e4] at hj
          simp only [List.getD_eq_getElem?_getD]
          rw [List.getElem?_take_of_lt hj])
      obtain ⟨t5, g1, g2, g3, g4, g5⟩ := reinsert_fold_total hL d t hI na extra
        (List.range (twoto t.lsizenode)).reverse { t3 with array := t3.array.take na } hI4 e4
        hmemrev (by rw [room_with_array]; exact e5)
      refine ⟨t5, g1, g2, g3, ?_, g4⟩
      rw [g5]
      show (t3.array.take na).length = na
      rw [List.length_take, e3]
      have := hI.arr_le
      omega
    · rw [if_neg hshrink]
      simp only []
      have hs2 : t2.sizearray = na := by
        rw [f2, hgsize]
        split <;> omega
      have hl2 : t2.array.length = na := by
        rw [f1, hglen]
        split <;> omega
      have hI2 : Inv ops t2 := by
        apply inv_fresh ops t2 f3 f4 f5 ?_ ?_ f6 f7 f8
        · rw [hs2, hl2]
        · rw [hs2]; exact hna
      obtain ⟨t5, g1, g2, g3, g4, g5⟩ := reinsert_fold_total hL d t hI na extra
        (List.range (twoto t.lsizenode)).reverse t2 hI2 hs2 hmemrev (by
          have : sizenode t = twoto t.lsizenode := rfl
          rw [this] at hcount
          omega)
      exact ⟨t5, g1, g2, g3, by rw [g5, hl2], g4⟩

theorem nodecount_split {N : Type} (ops : LuaConf N) (t : Table N) (n : Nat) (l : List Nat) :
    nodecount t (fun _ => true) l =
      nodecount t (fun k => intkey_le ops k n) l +
      nodecount t (fun k => !intkey_le ops k n) l := by
  unfold nodecount
  beta_reduce
  induction l with
  | nil => rfl
  | cons x l ih =>
    rw [List.countP_cons, List.countP_cons, List.countP_cons, ih]
    generalize ttisnil (gnode t x).i_val = b1
    generalize intkey_le ops (gnode t x).i_key n = b2
    cases b1 <;> cases b2 <;> simp <;> omega

theorem nodecount_le_length {N : Type} (t : Table N) (P : TValue N → Bool) (l : List Nat) :
    nodecount t P l ≤ l.length := by
  unfold nodecount
  exact List.countP_le_length _

theorem arraycount_le {N : Type} (t : Table N) (a b : Nat) : arraycount t a b ≤ b - a := by
  unfold arraycount
  have := List.countP_le_length (fun i => !ttisnil (t.array.getD i .nil))
    (l := List.range' a (b - a))
  rw [List.length_range'] at this
  exact this

theorem intkey_le_zero {N : Type} (ops : LuaConf N) (k : TValue N) :
    intkey_le ops k 0 = false := by
  rw [intkey_le_false_iff]
  intro h
  have := h.1
  have := h.2
  omega

/-- The call `rehash(L,t,ek)` returns, or raises "table overflow": the sizes that it
computes leave a node for every entry that goes to the hash part, and one more for the key
`ek` when that key does not belong to the new array part. The error is raised only for a
table of `2^30` entries or more. -/
theorem rehash_total {N : Type} [DecidableEq N] {ops : LuaConf N} (hL : ops.Lawful) (d : Nat)
    (t : Table N) (hI : Inv ops t) (hlen : t.array.length = t.sizearray) (ek : TValue N) :
    (∃ t1, rehash_with ops (luaH_newkey ops d) t ek = .ok t1 ∧ Inv ops t1 ∧
      t1.array.length = t1.sizearray ∧
      (intkey_le ops ek t1.sizearray = false → 0 < room t1)) ∨
    (rehash_with ops (luaH_newkey ops d) t ek = .error (.runerror .table_overflow) ∧
      1073741824 ≤ numentries t) := by
  have hsz : t.sizearray ≤ 2 ^ 30 := hI.asize_le
  norm_num at hsz
  have hsn := sizenode_le t hI
  unfold rehash_with
  simp only []
  obtain ⟨a1, a2, a3, a4⟩ := numusearray_spec t hsz
  generalize numusearray t (List.replicate (MAXBITS + 1) 0) = r1 at a1 a2 a3 a4 ⊢
  unfold numusehash
  simp only []
  obtain ⟨b1, b2, b3, b4⟩ := numusehash_fold_spec ops t (List.range (sizenode t)).reverse
    (0, 0, r1.2) a3
  simp only [zero_add, Nat.add_zero] at b1 b3
  generalize List.foldl (numusehash_step ops t) (0, 0, r1.2)
    (List.range (sizenode t)).reverse = r at b1 b2 b3 b4 ⊢
  obtain ⟨c1, c2, c3⟩ := countint_spec ops ek r.2.2 b2
  have c4 := countint_length ops ek r.2.2
  generalize countint ops ek r.2.2 = c at c1 c2 c3 c4 ⊢
  have hnas : r1.1 + r.2.1 + c.1 = c.2.sum := by omega
  rw [hnas]
  obtain ⟨na, n, hcs, hgood⟩ := computesizes_spec c.2 (by rw [c4, b2])
  rw [hcs]
  simp only []
  have hl : (List.range (sizenode t)).reverse.length = sizenode t := by simp
  have htot : nodecount t (fun _ => true) (List.range (sizenode t)).reverse ≤ sizenode t := by
    have := nodecount_le_length t (fun _ => true) (List.range (sizenode t)).reverse
    omega
  have hac := arraycount_le t 0 t.sizearray
  have hn30 : n ≤ 1073741824 := by
    rcases hgood with ⟨h, _⟩ | ⟨i, hi, h, _⟩
    · omega
    · rw [h]
      calc 2 ^ i ≤ 2 ^ 30 := Nat.pow_le_pow_right (by norm_num) hi
        _ = 1073741824 := by norm_num
  have hnabound : na ≤ arraycount t 0 (min t.sizearray n) +
      nodecount t (fun k => intkey_le ops k n) (List.range (sizenode t)).reverse +
      (if intkey_le ops ek n = true then 1 else 0) := by
    rcases hgood with ⟨_, h⟩ | ⟨i, _, h1, h2⟩
    · omega
    · rw [h2, h1]
      have hc3 := c3 i
      have hb4 := b4 i
      have ha4 := a4 i
      simp only [] at hb4
      omega
  have hsplitA : arraycount t 0 t.sizearray =
      arraycount t 0 (min t.sizearray n) + arraycount t n t.sizearray := by
    by_cases hle : n ≤ t.sizearray
    · rw [show min t.sizearray n = n by omega]
      exact arraycount_split t 0 n t.sizearray (Nat.zero_le _) hle
    · rw [show min t.sizearray n = t.sizearray by omega, arraycount_empty t n t.sizearray
        (by omega)]
      rfl
  have hsplitN := nodecount_split ops t n (List.range (sizenode t)).reverse
  have hres := luaH_resize_total hL d t hI hlen n (r1.1 + r.1 + 1 - na)
    (if intkey_le ops ek n = true then 0 else 1)
    (by
      have h30 : MAXASIZE = 1073741824 := by norm_num [MAXASIZE, MAXBITS]
      omega)
    (by omega)
    (by
      rw [a1, b1]
      by_cases hint : intkey_le ops ek n = true
      · rw [if_pos hint] at hnabound ⊢
        omega
      · rw [if_neg hint] at hnabound ⊢
        omega)
  rcases hres with ⟨t1, h1, h2, h3, h4, h5⟩ | h
  · left
    refine ⟨t1, h1, h2, by rw [h4, h3], ?_⟩
    intro hint
    rw [h3] at hint
    rw [hint] at h5
    simpa using h5
  · right
    refine ⟨h.1, ?_⟩
    have hrev : nodecount t (fun _ => true) (List.range (sizenode t)).reverse =
        nodecount t (fun _ => true) (List.range (sizenode t)) := by
      unfold nodecount
      exact (List.reverse_perm _).countP_eq _
    have h2 := h.2
    unfold numentries
    rw [← hrev, ← a1, ← b1]
    omega

/-- One level of `rehash` is enough: on a table that satisfies the invariant
`luaH_newkey` with depth 1 or more returns, or raises "table overflow", and that only for a
table of `2^30` entries or more. -/
theorem luaH_newkey_total {N : Type} [DecidableEq N] {ops : LuaConf N} (hL : ops.Lawful)
    (d : Nat) (t : Table N) (hI : Inv ops t) (hlen : t.array.length = t.sizearray)
    (k : TValue N) (hk : validkey ops k = true) :
    (∃ t1 c, luaH_newkey ops (d + 1) t k = .ok (t1, c)) ∨
    (luaH_newkey ops (d + 1) t k = .error (.runerror .table_overflow) ∧
      1073741824 ≤ numentries t) := by
  rcases luaH_newkey_step hL (d + 1) t hI k hk with ⟨h1, h0⟩ | ⟨t1, c, h1, _⟩
  · rw [h1]
    simp only [newkey_rehash]
    rcases rehash_total hL d { t with lastfree := 0 } h0 hlen k with
      ⟨t1, r1, r2, _, r4⟩ | r
    · rw [r1]
      simp only []
      obtain ⟨t2, c, s1, _⟩ := set_step_total hL d t1 r2 k hk .nil r4
      exact Or.inl ⟨t2, c, s1⟩
    · rw [r.1]
      exact Or.inr ⟨rfl, r.2⟩
  · exact Or.inl ⟨t1, c, h1⟩

/-- The call `luaH_set(L,t,k)` with depth 1 or more returns a slot, or raises "table
overflow". -/
theorem luaH_set_total {N : Type} [DecidableEq N] {ops : LuaConf N} (hL : ops.Lawful)
    (d : Nat) (t : Table N) (hI : Inv ops t) (hlen : t.array.length = t.sizearray)
    (k : TValue N) (hk : validkey ops k = true) :
    (∃ t1 c, luaH_set ops (d + 1) t k = .ok (t1, c)) ∨
    (luaH_set ops (d + 1) t k = .error (.runerror .table_overflow) ∧
      1073741824 ≤ numentries t) := by
  unfold luaH_set luaH_set_with
  obtain ⟨p, hp⟩ := luaH_get_total hL t hI k
  rw [hp]
  simp only []
  by_cases hpn : p = .nilobject
  · simp only [ne_eq, hpn, not_true_eq_false, if_false]
    exact luaH_newkey_total hL d t hI hlen k hk
  · simp only [ne_eq, hpn, not_false_eq_true, if_true]
    exact Or.inl ⟨t, p, rfl⟩

theorem set_total {N : Type} [DecidableEq N] {ops : LuaConf N} (hL : ops.Lawful)
    (d : Nat) (t : Table N) (hI : Inv ops t) (hlen : t.array.length = t.sizearray)
    (k v : TValue N) (hk : validkey ops k = true) :
    (∃ t1, set ops (d + 1) t k v = .ok t1) ∨
    (set ops (d + 1) t k v = .error (.runerror .table_overflow) ∧
      1073741824 ≤ numentries t) := by
  unfold set
  rcases luaH_set_total hL d t hI hlen k hk with ⟨t1, c, h⟩ | h
  · rw [h]
    exact Or.inl ⟨_, rfl⟩
  · rw [h.1]
    exact Or.inr ⟨rfl, h.2⟩

/-- The call `luaH_setint(L,t,key,v)` with depth 1 or more returns, or raises "table
overflow". -/
theorem luaH_setint_total {N : Type} [DecidableEq N] {ops : LuaConf N} (hL : ops.Lawful)
    (d : Nat) (t : Table N) (hI : Inv ops t) (hlen : t.array.length = t.sizearray)
    (key : Int) (hkey : cast_int key = key) (v : TValue N) :
    (∃ t1, luaH_setint ops (d + 1) t key v = .ok t1) ∨
    (luaH_setint ops (d + 1) t key v = .error (.runerror .table_overflow) ∧
      1073741824 ≤ numentries t) := by
  unfold luaH_setint luaH_setint_with
  obtain ⟨p, hp⟩ := luaH_get_total hL t hI (.number (ops.cast_num key))
  rw [luaH_getint_eq_get hL t hI.asize_le key hkey, hp]
  simp only []
  by_cases hpn : p = .nilobject
  · simp only [ne_eq, hpn, not_true_eq_false, if_false]
    rcases luaH_newkey_total hL d t hI hlen _ (validkey_cast hL key) with ⟨t1, c, h⟩ | h
    · rw [h]
      exact Or.inl ⟨_, rfl⟩
    · rw [h.1]
      exact Or.inr ⟨rfl, h.2⟩
  · simp only [ne_eq, hpn, not_false_eq_true, if_true]
    exact Or.inl ⟨_, rfl⟩

/-! ## Memory manager: case analysis -/

theorem cast_lmem_of_range (w : Nat) (x : Int) (hw : 0 < w)
    (h1 : -(2 : Int) ^ (w - 1) ≤ x) (h2 : x < (2 : Int) ^ (w - 1)) : cast_lmem w x = x := by
  unfold cast_lmem
  have hp : (2 : Int) ^ w = 2 * (2 : Int) ^ (w - 1) := by
    obtain ⟨k, rfl⟩ : ∃ k, w = k + 1 := ⟨w - 1, by omega⟩
    simp [pow_succ, mul_comm]
  have hpos : (0 : Int) < (2 : Int) ^ (w - 1) := by positivity
  rw [Int.emod_eq_of_lt (by omega) (by omega)]
  omega

/-- The outcome of `luaM_realloc_` in terms of the allocator's answers. -/
theorem luaM_realloc_cases {H : Type} (env : MemEnv H) (L : MemState H) (block : Block)
    (osize nsize : Nat) :
    let r1 := call_frealloc env L block osize nsize
    let r2 := call_frealloc env (call_fullgc env r1.2) block osize nsize
    let realosize : Nat := if block.isSome then osize else 0
    let debt := fun (s : MemState H) =>
      cast_lmem env.w ((s.g.GCdebt + (nsize : Int)) - (realosize : Int))
    let upd := fun (s : MemState H) => ({ s with g := { s.g with GCdebt := debt s } } : MemState H)
    (¬ (r1.1 = none ∧ nsize > 0) → luaM_realloc_ env L block osize nsize = (.ok r1.1, upd r1.2)) ∧
    (r1.1 = none → nsize > 0 → r1.2.g.gcrunning = 0 →
      luaM_realloc_ env L block osize nsize = (.error .errmem, r1.2)) ∧
    (r1.1 = none → nsize > 0 → r1.2.g.gcrunning ≠ 0 → r2.1 = none →
      luaM_realloc_ env L block osize nsize = (.error .errmem, r2.2)) ∧
    (r1.1 = none → nsize > 0 → r1.2.g.gcrunning ≠ 0 → r2.1 ≠ none →
      luaM_realloc_ env L block osize nsize = (.ok r2.1, upd r2.2)) := by
  intro r1 r2 realosize debt upd
  refine ⟨?_, ?_, ?_, ?_⟩
  · intro h
    have h' : ¬ ((call_frealloc env L block osize nsize).1 = none ∧ nsize > 0) := h
    unfold luaM_realloc_
    simp only [h', if_false]
    have : ¬ ((call_frealloc env L block osize nsize).1 = none ∧ nsize > 0 ∧
        (call_frealloc env L block osize nsize).1 = none) := fun hh => h' ⟨hh.1, hh.2.1⟩
    simp only [this, if_false]
  · intro h1 h2 h3
    have h1' : (call_frealloc env L block osize nsize).1 = none := h1
    have h3' : (call_frealloc env L block osize nsize).2.g.gcrunning = 0 := h3
    unfold luaM_realloc_
    simp [h1', h2, h3']
  · intro h1 h2 h3 h4
    have h1' : (call_frealloc env L block osize nsize).1 = none := h1
    have h3' : (call_frealloc env L block osize nsize).2.g.gcrunning ≠ 0 := h3
    have h4' : (call_frealloc env (call_fullgc env (call_frealloc env L block osize nsize).2)
      block osize nsize).1 = none := h4
    unfold luaM_realloc_
    simp [h1', h2, h3', h4']
  · intro h1 h2 h3 h4
    have h1' : (call_frealloc env L block osize nsize).1 = none := h1
    have h3' : (call_frealloc env L block osize nsize).2.g.gcrunning ≠ 0 := h3
    have h4' : (call_frealloc env (call_fullgc env (call_frealloc env L block osize nsize).2)
      block osize nsize).1 ≠ none := h4
    unfold luaM_realloc_
    simp only [h1', h2, h3', h4', and_self, and_true, true_and, if_true, if_false, ne_eq,
      not_false_eq_true, gt_iff_lt, and_false]

/-- The only error of `luaM_realloc_` is the memory error. -/
theorem luaM_realloc_error {H : Type} (env : MemEnv H) (L : MemState H) (block : Block)
    (osize nsize : Nat) (e : MemErr)
    (h : (luaM_realloc_ env L block osize nsize).1 = .error e) : e = .errmem := by
  obtain ⟨c1, c2, c3, c4⟩ := luaM_realloc_cases env L block osize nsize
  by_cases hf : (call_frealloc env L block osize nsize).1 = none ∧ nsize > 0
  · by_cases hg : (call_frealloc env L block osize nsize).2.g.gcrunning = 0
    · rw [c2 hf.1 hf.2 hg] at h; cases h; rfl
    · by_cases h2 : (call_frealloc env (call_fullgc env (call_frealloc env L block osize
          nsize).2) block osize nsize).1 = none
      · rw [c3 hf.1 hf.2 hg h2] at h; cases h; rfl
      · rw [c4 hf.1 hf.2 hg h2] at h; cases h
  · rw [c1 hf] at h; cases h
/-- The two outcomes of `luaM_growaux_` that are not the "too many" error: the new size
that it asks `luaM_reallocv` for, and its effect on `*size`. -/
theorem luaM_growaux_cases {H : Type} (env : MemEnv H) (L : MemState H) (block : Block)
    (size : Int) (size_elems : Nat) (limit : Int) (what : String) :
    let newsize : Int :=
      if size ≥ Int.tdiv limit 2 then limit
      else if size * 2 < MINSIZEARRAY then MINSIZEARRAY else size * 2
    let res := luaM_growaux_ env L block size size_elems limit what
    (size ≥ Int.tdiv limit 2 ∧ size ≥ limit ∧
      res = (.error (.runerror (.too_many what limit)), size, L)) ∨
    (¬ (size ≥ Int.tdiv limit 2 ∧ size ≥ limit) ∧
      ((∃ b L1, luaM_reallocv_int env L block size newsize size_elems = (.ok b, L1) ∧
          res = (.ok b, newsize, L1)) ∨
       (∃ e L1, luaM_reallocv_int env L block size newsize size_elems = (.error e, L1) ∧
          res = (.error e, size, L1)))) := by
  intro newsize res
  by_cases h1 : size ≥ Int.tdiv limit 2
  · by_cases h2 : size ≥ limit
    · left
      refine ⟨h1, h2, ?_⟩
      simp only [res, luaM_growaux_, h1, h2, if_true]
    · right
      refine ⟨fun hh => h2 hh.2, ?_⟩
      have hn : newsize = limit := by simp only [newsize, h1, if_true]
      rw [hn]
      rcases hr : luaM_reallocv_int env L block size limit size_elems with ⟨r, L1⟩
      cases r with
      | ok b =>
        left
        exact ⟨b, L1, rfl, by simp only [res, luaM_growaux_, h1, h2, if_true, if_false, hr]⟩
      | error e =>
        right
        exact ⟨e, L1, rfl, by simp only [res, luaM_growaux_, h1, h2, if_true, if_false, hr]⟩
  · right
    refine ⟨fun hh => h1 hh.1, ?_⟩
    have hn : newsize = if size * 2 < MINSIZEARRAY then MINSIZEARRAY else size * 2 := by
      simp only [newsize, h1, if_false]
    rw [hn]
    rcases hr : luaM_reallocv_int env L block size
      (if size * 2 < MINSIZEARRAY then MINSIZEARRAY else size * 2) size_elems with ⟨r, L1⟩
    cases r with
    | ok b =>
      left
      exact ⟨b, L1, rfl, by simp only [res, luaM_growaux_, h1, if_false, hr]⟩
    | error e =>
      right
      exact ⟨e, L1, rfl, by simp only [res, luaM_growaux_, h1, if_false, hr]⟩

/-- Truncating division by 2 of a non-negative `int`. -/
theorem tdiv_two_nonneg (a : Int) (h : 0 ≤ a) : 2 * Int.tdiv a 2 ≤ a ∧ a < 2 * Int.tdiv a 2 + 2 := by
  rw [Int.tdiv_eq_ediv h (by decide)]
  omega

/-- Truncating division by 2 of a negative `int` is not positive. -/
theorem tdiv_two_neg (a : Int) (h : a < 0) : Int.tdiv a 2 ≤ 0 ∧ a ≤ Int.tdiv a 2 := by
  obtain ⟨n, rfl⟩ : ∃ n : Nat, a = -((n : Int) + 1) := ⟨(-a - 1).toNat, by omega⟩
  have e : Int.tdiv (-((n : Int) + 1)) 2 = -(Int.tdiv ((n : Int) + 1) 2) := by
    rw [Int.neg_tdiv]
  rw [e, Int.tdiv_eq_ediv (by omega) (by decide)]
  omega

/-- The size check of `luaM_reallocv` on `size_t` operands is exact for every count
below `2 ^ w - 1`: if it passes, the byte count handed to `luaM_realloc_` is the product
`n * e` itself, which is at most `MAX_SIZET`. -/
theorem luaM_reallocv_exact {H : Type} (env : MemEnv H) (L : MemState H) (b : Block)
    (oldn n e : Nat) (he : 1 ≤ e) (hn : n + 1 < 2 ^ env.w) :
    (MAX_SIZET env.w < n * e → luaM_reallocv env L b oldn n e = luaM_toobig L) ∧
    (luaM_reallocv env L b oldn n e ≠ luaM_toobig L →
      (n * e) % 2 ^ env.w = n * e ∧ n * e ≤ MAX_SIZET env.w ∧
      luaM_reallocv env L b oldn n e =
        luaM_realloc_ env L b ((oldn * e) % 2 ^ env.w) (n * e)) := by
  have hmod : (n + 1) % 2 ^ env.w = n + 1 := Nat.mod_eq_of_lt hn
  have key : ¬ (n + 1 > MAX_SIZET env.w / e) → n * e + e ≤ MAX_SIZET env.w := by
    intro hc
    have h1 : n + 1 ≤ MAX_SIZET env.w / e := by omega
    have h2 := (Nat.le_div_iff_mul_le (by omega : 0 < e)).1 h1
    nlinarith [h2]
  have hM : MAX_SIZET env.w < 2 ^ env.w := by
    unfold MAX_SIZET; omega
  constructor
  · intro hbig
    unfold luaM_reallocv
    rw [hmod]
    by_cases hc : n + 1 > MAX_SIZET env.w / e
    · simp only [hc, if_true]
    · have := key hc; omega
  · intro hne
    by_cases hc : n + 1 > MAX_SIZET env.w / e
    · exfalso; apply hne
      unfold luaM_reallocv
      rw [hmod]; simp only [hc, if_true]
    · have hk := key hc
      have hlt : n * e < 2 ^ env.w := by omega
      refine ⟨Nat.mod_eq_of_lt hlt, by omega, ?_⟩
      unfold luaM_reallocv
      rw [hmod, Nat.mod_eq_of_lt hlt]; simp only [hc, if_false]

/-! ## Buffered streams: one step of the reader -/

theorem answer_ok_iff (w : Nat) (a : Answer) :
    answer_ok w a = true ↔ a.size < 2 ^ w ∧ ∀ b, a.buff = some b → a.size ≤ b.length := by
  unfold answer_ok
  cases hb : a.buff with
  | none => simp
  | some b => simp

theorem zio_ok_iff (w : Nat) (z : Zio (List Answer)) :
    zio_ok w z = true ↔ z.n < 2 ^ w ∧
      (z.n = 0 ∨ ∃ q, z.p = some q ∧ q.off + z.n ≤ q.buf.length) ∧
      ∀ a ∈ z.data, answer_ok w a = true := by
  unfold zio_ok
  cases hp : z.p with
  | none => simp [and_assoc]
  | some q => simp [and_assoc]

theorem cast_uchar_range (c : Int) : 0 ≤ cast_uchar c ∧ cast_uchar c ≤ 255 ∧ cast_uchar c ≠ EOZ := by
  unfold cast_uchar EOZ
  omega

/-- The buffer part of a stream with `z->n = 0` is empty. -/
theorem buffered_zero {R : Type} (z : Zio R) (h : z.n = 0) : buffered z = [] := by
  unfold buffered
  cases z.p with
  | none => rfl
  | some q => simp [h]

/-- At the end of the input `luaZ_fill` returns `EOZ` and changes only the reader's
state. -/
theorem luaZ_fill_eoz (w : Nat) (z : Zio (List Answer)) (hr : z.reader = answers_reader)
    (hok : ∀ a ∈ z.data, answer_ok w a = true) (he : answers_input z.data = []) :
    luaZ_fill z = .ok (EOZ, { z with data := z.data.tail }) := by
  unfold luaZ_fill
  rw [hr]
  cases hd : z.data with
  | nil => simp [answers_reader]
  | cons a rest =>
    rw [hd] at he hok
    have hc : a.buff = none ∨ a.size = 0 := by
      cases hb : a.buff with
      | none => exact Or.inl rfl
      | some b =>
        right
        by_contra hs
        have h1 := ((answer_ok_iff w a).1 (hok a (List.mem_cons_self _ _))).2 b hb
        simp only [answers_input, hb, hs, if_false] at he
        have h2 : (b.take a.size).length = 0 := by
          have := congrArg List.length he
          simp only [List.length_append, List.length_nil] at this
          omega
        rw [List.length_take] at h2
        omega
    simp only [answers_reader, hc, if_true, List.tail_cons]

/-- When the reader has a chunk to give, `luaZ_fill` returns its first byte and leaves
the stream on the second. -/
theorem luaZ_fill_chunk (w : Nat) (z : Zio (List Answer)) (hr : z.reader = answers_reader)
    (hok : ∀ a ∈ z.data, answer_ok w a = true) (c : Int) (l : List Int)
    (he : answers_input z.data = c :: l) :
    ∃ a rest b, z.data = a :: rest ∧ a.buff = some (c :: b) ∧ 0 < a.size ∧
      a.size ≤ b.length + 1 ∧
      l = b.take (a.size - 1) ++ answers_input rest ∧
      luaZ_fill z = .ok (cast_uchar c,
        { z with data := rest, n := a.size - 1, p := some { buf := c :: b, off := 1 } }) := by
  cases hd : z.data with
  | nil => rw [hd] at he; simp [answers_input] at he
  | cons a rest =>
    rw [hd] at he hok
    cases hb : a.buff with
    | none => simp [answers_input, hb] at he
    | some buf =>
      by_cases hs : a.size = 0
      · simp [answers_input, hb, hs] at he
      · have h1 := ((answer_ok_iff w a).1 (hok a (List.mem_cons_self _ _))).2 buf hb
        simp only [answers_input, hb, hs, if_false] at he
        cases buf with
        | nil => simp at h1; exact absurd h1 hs
        | cons c0 b =>
          obtain ⟨k, hk⟩ : ∃ k, a.size = k + 1 := ⟨a.size - 1, by omega⟩
          rw [hk, List.take_succ_cons, List.cons_append] at he
          injection he with e1 e2
          subst e1
          refine ⟨a, rest, b, rfl, hb, by omega, by simpa using h1, ?_, ?_⟩
          · rw [hk]; exact e2.symm
          · unfold luaZ_fill
            rw [hr, hd]
            have hc : ¬ (a.buff = none ∨ a.size = 0) := by
              rw [hb]; simp [hs]
            simp only [answers_reader, hc, if_false, hb, Option.map_some', deref, ptr_add,
              List.getElem?_cons_zero]
            rw [hb] at hc
            simp only [hc, if_false, Nat.zero_add]

/-- The buffer part of a well-formed stream has `z->n` bytes. -/
theorem buffered_length (w : Nat) (z : Zio (List Answer)) (hok : zio_ok w z = true) :
    (buffered z).length = z.n := by
  obtain ⟨-, h2, -⟩ := (zio_ok_iff w z).1 hok
  rcases h2 with h0 | ⟨q, hq, hle⟩
  · rw [buffered_zero z h0, h0]; rfl
  · unfold buffered
    rw [hq]
    simp only [List.length_take, List.length_drop]
    omega

/-- A step inside the buffer: the first byte of a buffer that is not empty. -/
theorem buffered_cons (z : Zio (List Answer)) (q : CharPtr) (hq : z.p = some q)
    (hn : 0 < z.n) (hle : q.off + z.n ≤ q.buf.length) :
    ∃ c, q.buf[q.off]? = some c ∧
      buffered z = c :: (q.buf.drop (q.off + 1)).take (z.n - 1) := by
  have hlt : q.off < q.buf.length := by omega
  refine ⟨q.buf[q.off], List.getElem?_eq_getElem hlt, ?_⟩
  unfold buffered
  rw [hq]
  obtain ⟨k, hk⟩ : ∃ k, z.n = k + 1 := ⟨z.n - 1, by omega⟩
  simp only [hk, Nat.add_sub_cancel]
  rw [List.drop_eq_getElem_cons hlt, List.take_succ_cons]

/-- One evaluation of `zgetc` on a stream that has input left: it returns the first
remaining byte as an `unsigned char` and moves the stream past it. -/
theorem zgetc_step (w : Nat) (z : Zio (List Answer)) (hok : zio_ok w z = true)
    (hr : z.reader = answers_reader) (c : Int) (l : List Int) (he : remaining z = c :: l) :
    ∃ z1, zgetc w z = .ok (cast_uchar c, z1) ∧ zio_ok w z1 = true ∧
      z1.reader = answers_reader ∧ remaining z1 = l := by
  obtain ⟨h1, h2, h3⟩ := (zio_ok_iff w z).1 hok
  have hpow : 0 < 2 ^ w := Nat.two_pow_pos w
  by_cases hn : z.n > 0
  · rcases h2 with h0 | ⟨q, hq, hle⟩
    · omega
    · obtain ⟨c0, hc0, hb⟩ := buffered_cons z q hq hn hle
      unfold remaining at he
      rw [hb, List.cons_append] at he
      injection he with e1 e2
      subst e1
      have hdec : (z.n + (2 ^ w - 1)) % 2 ^ w = z.n - 1 := by
        have : z.n + (2 ^ w - 1) = (z.n - 1) + 2 ^ w := by omega
        rw [this, Nat.add_mod_right, Nat.mod_eq_of_lt (by omega)]
      refine ⟨{ z with n := z.n - 1, p := some { q with off := q.off + 1 } }, ?_, ?_, hr, ?_⟩
      · unfold zgetc
        simp only [hn, if_true, hq, deref, hc0, ptr_add, hdec]
      · rw [zio_ok_iff]
        refine ⟨by simp only; omega, Or.inr ⟨_, rfl, by simp only; omega⟩, h3⟩
      · unfold remaining buffered
        simpa using e2
  · have h0 : z.n = 0 := by omega
    unfold remaining at he
    rw [buffered_zero z h0, List.nil_append] at he
    obtain ⟨a, rest, b, hd, hb, hs, hle, hl, hfill⟩ :=
      luaZ_fill_chunk w { z with n := (z.n + (2 ^ w - 1)) % 2 ^ w } hr h3 c l he
    have ha := (answer_ok_iff w a).1 (h3 a (by rw [show z.data = a :: rest from hd]; simp))
    refine ⟨{ z with data := rest, n := a.size - 1, p := some { buf := c :: b, off := 1 } },
      ?_, ?_, hr, ?_⟩
    · unfold zgetc
      simp only [hn, if_false]
      exact hfill
    · rw [zio_ok_iff]
      refine ⟨by simp only; omega, Or.inr ⟨_, rfl, by simp only [List.length_cons]; omega⟩, ?_⟩
      intro x hx
      exact h3 x (by rw [show z.data = a :: rest from hd]; exact List.mem_cons_of_mem _ hx)
    · unfold remaining buffered
      simp only [List.drop_succ_cons, List.drop_zero]
      exact hl.symm

/-- One evaluation of `zgetc` on a stream without input left returns `EOZ`. -/
theorem zgetc_eoz (w : Nat) (z : Zio (List Answer)) (hok : zio_ok w z = true)
    (hr : z.reader = answers_reader) (he : remaining z = []) :
    ∃ z1, zgetc w z = .ok (EOZ, z1) := by
  obtain ⟨h1, h2, h3⟩ := (zio_ok_iff w z).1 hok
  have hlen := buffered_length w z hok
  unfold remaining at he
  have hb : buffered z = [] := (List.append_eq_nil.1 he).1
  have hi : answers_input z.data = [] := (List.append_eq_nil.1 he).2
  have h0 : z.n = 0 := by rw [hb] at hlen; simpa using hlen.symm
  have hfill := luaZ_fill_eoz w { z with n := (z.n + (2 ^ w - 1)) % 2 ^ w } hr h3 hi
  refine ⟨{ z with n := (z.n + (2 ^ w - 1)) % 2 ^ w, data := z.data.tail }, ?_⟩
  unfold zgetc
  have hn : ¬ z.n > 0 := by omega
  simp only [hn, if_false]
  exact hfill

/-- Successive evaluations of `zgetc` read the remaining input byte by byte and then
return `EOZ`. -/
theorem zgetc_seq_spec (w : Nat) : ∀ (l : List Int) (z : Zio (List Answer)),
    zio_ok w z = true → z.reader = answers_reader → remaining z = l →
    ∃ z1, zgetc_seq w (l.length + 1) z = .ok (l.map cast_uchar ++ [EOZ], z1) := by
  intro l
  induction l with
  | nil =>
    intro z hok hr he
    obtain ⟨z1, h1⟩ := zgetc_eoz w z hok hr he
    exact ⟨z1, by simp [zgetc_seq, h1]⟩
  | cons c l ih =>
    intro z hok hr he
    obtain ⟨z1, h1, hok1, hr1, he1⟩ := zgetc_step w z hok hr c l he
    obtain ⟨z2, h2⟩ := ih z1 hok1 hr1 he1
    refine ⟨z2, ?_⟩
    rw [List.length_cons, zgetc_seq, h1]
    simp only [h2, List.map_cons, List.cons_append]

/-- The input of a list of chunks that are not empty is their concatenation. -/
theorem answers_input_chunks (cs : List (List Int)) (h : ∀ c ∈ cs, c ≠ []) :
    answers_input (cs.map chunk) = cs.flatten := by
  induction cs with
  | nil => rfl
  | cons c cs ih =>
    have hc : c ≠ [] := h c (List.mem_cons_self _ _)
    have hl : c.length ≠ 0 := fun h0 => hc (List.length_eq_zero.1 h0)
    simp only [List.map_cons, answers_input, chunk, hl, if_false, List.take_length,
      List.flatten_cons]
    rw [ih (fun x hx => h x (List.mem_cons_of_mem _ hx))]

/-- The refill step of `luaZ_read` at the end of the input: the function returns there,
with the buffer empty and the reader past its end-of-input answer. -/
theorem luaZ_read_refill_eoz (w : Nat) (z : Zio (List Answer)) (hok : zio_ok w z = true)
    (hr : z.reader = answers_reader) (he : remaining z = []) :
    ∃ z1, luaZ_read_refill w z = .ok (true, z1) ∧ z1.reader = answers_reader ∧ z1.n = 0 ∧
      z1.data = answers_rest z.data := by
  obtain ⟨h1, h2, h3⟩ := (zio_ok_iff w z).1 hok
  have hlen := buffered_length w z hok
  unfold remaining at he
  have hb : buffered z = [] := (List.append_eq_nil.1 he).1
  have hi : answers_input z.data = [] := (List.append_eq_nil.1 he).2
  have h0 : z.n = 0 := by rw [hb] at hlen; simpa using hlen.symm
  have hfill := luaZ_fill_eoz w z hr h3 hi
  refine ⟨{ z with data := z.data.tail }, ?_, hr, h0, ?_⟩
  · unfold luaZ_read_refill
    simp only [h0, if_true, hfill]
  · show z.data.tail = answers_rest z.data
    cases hd : z.data with
    | nil => rfl
    | cons a rest =>
      rw [hd] at hi h3
      have hc : a.buff = none ∨ a.size = 0 := by
        cases hb : a.buff with
        | none => exact Or.inl rfl
        | some b =>
          right
          by_contra hs
          have h4 := ((answer_ok_iff w a).1 (h3 a (List.mem_cons_self _ _))).2 b hb
          simp only [answers_input, hb, hs, if_false] at hi
          have h5 : (b.take a.size).length = 0 := by
            have := congrArg List.length hi
            simp only [List.length_append, List.length_nil] at this
            omega
          rw [List.length_take] at h5
          omega
      simp only [answers_rest, hc, if_true, List.tail_cons]

/-- The refill step of `luaZ_read` when input is left: the stream that it leaves has
bytes in its buffer and the same remaining input. -/
theorem luaZ_read_refill_more (w : Nat) (z : Zio (List Answer)) (hok : zio_ok w z = true)
    (hr : z.reader = answers_reader) (c : Int) (l : List Int) (he : remaining z = c :: l) :
    ∃ z2, luaZ_read_refill w z = .ok (false, z2) ∧ zio_ok w z2 = true ∧
      z2.reader = answers_reader ∧ remaining z2 = remaining z ∧ 0 < z2.n ∧
      answers_rest z2.data = answers_rest z.data := by
  obtain ⟨h1, h2, h3⟩ := (zio_ok_iff w z).1 hok
  by_cases hn : z.n = 0
  · have he0 := he
    unfold remaining at he
    rw [buffered_zero z hn, List.nil_append] at he
    obtain ⟨a, rest, b, hd, hb, hs, hle, hl, hfill⟩ := luaZ_fill_chunk w z hr h3 c l he
    have ha := (answer_ok_iff w a).1 (h3 a (by rw [hd]; simp))
    have hinc : (a.size - 1 + 1) % 2 ^ w = a.size := by
      rw [Nat.sub_add_cancel hs, Nat.mod_eq_of_lt ha.1]
    refine ⟨{ z with data := rest, n := a.size, p := some { buf := c :: b, off := 0 } },
      ?_, ?_, hr, ?_, hs, ?_⟩
    · unfold luaZ_read_refill
      have hne : cast_uchar c ≠ EOZ := (cast_uchar_range c).2.2
      simp only [hn, if_true, hfill, hne, if_false, ptr_dec, hinc]
      simp
    · rw [zio_ok_iff]
      refine ⟨ha.1, Or.inr ⟨_, rfl, by simp only [List.length_cons]; omega⟩, ?_⟩
      intro x hx
      exact h3 x (by rw [hd]; exact List.mem_cons_of_mem _ hx)
    · rw [he0]
      unfold remaining buffered
      simp only [List.drop_zero]
      obtain ⟨k, hk⟩ : ∃ k, a.size = k + 1 := ⟨a.size - 1, by omega⟩
      rw [hk, List.take_succ_cons, List.cons_append, hl, hk]
      rfl
    · show answers_rest rest = answers_rest z.data
      rw [hd]
      have hc : ¬ (a.buff = none ∨ a.size = 0) := by
        rw [hb]; simp; omega
      simp only [answers_rest, hc, if_false]
  · exact ⟨z, by unfold luaZ_read_refill; simp only [hn, if_false], hok, hr, rfl,
      by omega, rfl⟩

/-- The copy step of `luaZ_read`: `m` bytes, at most `z->n`, are taken from the buffer. -/
theorem luaZ_read_copy (w : Nat) (z : Zio (List Answer)) (hok : zio_ok w z = true)
    (hn : 0 < z.n) (m : Nat) (hm : m ≤ z.n) :
    memread z.p m = some ((remaining z).take m) ∧
    zio_ok w { z with n := z.n - m, p := ptr_add z.p m } = true ∧
    remaining { z with n := z.n - m, p := ptr_add z.p m } = (remaining z).drop m := by
  obtain ⟨h1, h2, h3⟩ := (zio_ok_iff w z).1 hok
  have hlen := buffered_length w z hok
  rcases h2 with h0 | ⟨q, hq, hle⟩
  · omega
  · have hb : buffered z = (q.buf.drop q.off).take z.n := by unfold buffered; rw [hq]
    refine ⟨?_, ?_, ?_⟩
    · unfold memread remaining
      rw [hq]
      have : q.off + m ≤ q.buf.length := by omega
      simp only [this, if_true]
      rw [List.take_append_of_le_length (by omega), hb, List.take_take,
        Nat.min_eq_left hm]
    · rw [zio_ok_iff]
      refine ⟨by simp only; omega, Or.inr ⟨{ q with off := q.off + m }, ?_, ?_⟩, h3⟩
      · simp only [ptr_add, hq]
      · simp only; omega
    · unfold remaining
      rw [List.drop_append_of_le_length (by omega), hb]
      congr 1
      unfold buffered
      simp only [hq, ptr_add]
      rw [List.drop_take, List.drop_drop]

/-- The loop of `luaZ_read` delivers the first `n` bytes of the remaining input, or all
of it when it is shorter, and returns the number of bytes that are missing. -/
theorem luaZ_read_loop_spec (w : Nat) : ∀ (fuel : Nat) (z : Zio (List Answer))
    (b : List Int) (n : Nat), n ≤ fuel → zio_ok w z = true → z.reader = answers_reader →
    ∃ z1, luaZ_read_loop w fuel z b n =
        .ok (n - (remaining z).length, b ++ (remaining z).take n, z1) ∧
      z1.reader = answers_reader ∧
      (n ≤ (remaining z).length → zio_ok w z1 = true ∧ remaining z1 = (remaining z).drop n) ∧
      ((remaining z).length < n → z1.n = 0 ∧ z1.data = answers_rest z.data) := by
  intro fuel
  induction fuel with
  | zero =>
    intro z b n hn hok hr
    have h0 : n = 0 := by omega
    subst h0
    exact ⟨z, by simp [luaZ_read_loop], hr, fun _ => ⟨hok, rfl⟩, fun h => by omega⟩
  | succ fuel ih =>
    intro z b n hn hok hr
    by_cases h0 : n = 0
    · subst h0
      exact ⟨z, by simp [luaZ_read_loop], hr, fun _ => ⟨hok, rfl⟩, fun h => by omega⟩
    · cases he : remaining z with
      | nil =>
        obtain ⟨z1, hf, hr1, hn1, hd1⟩ := luaZ_read_refill_eoz w z hok hr he
        refine ⟨z1, ?_, hr1, fun h => ?_, fun _ => ⟨hn1, hd1⟩⟩
        · rw [luaZ_read_loop]
          simp only [h0, if_false, hf, List.length_nil, Nat.sub_zero, List.take_nil,
            List.append_nil]
        · simp at h; exact absurd h h0
      | cons c l =>
        obtain ⟨z2, hf, hok2, hr2, he2, hn2, hd2⟩ := luaZ_read_refill_more w z hok hr c l he
        have hlen2 := buffered_length w z2 hok2
        have hR : z2.n ≤ (remaining z2).length := by
          unfold remaining
          rw [List.length_append]
          omega
        obtain ⟨m, hm⟩ : ∃ m, m = (if n ≤ z2.n then n else z2.n) := ⟨_, rfl⟩
        have hm1 : m ≤ z2.n := by rw [hm]; split <;> omega
        have hm2 : m ≤ n := by rw [hm]; split <;> omega
        have hm3 : 0 < m := by rw [hm]; split <;> omega
        obtain ⟨hc1, hc2, hc3⟩ := luaZ_read_copy w z2 hok2 hn2 m hm1
        obtain ⟨z3, hl3, hr3, ha3, hb3⟩ :=
          ih { z2 with n := z2.n - m, p := ptr_add z2.p m } (b ++ (remaining z2).take m)
            (n - m) (by omega) hc2 hr2
        rw [hc3] at hl3 ha3 hb3
        rw [he2, he] at hR hl3 ha3 hb3 hc1
        have hlen : ((c :: l).drop m).length = (c :: l).length - m := List.length_drop _ _
        refine ⟨z3, ?_, hr3, fun h => ?_, fun h => ?_⟩
        · rw [luaZ_read_loop]
          simp only [h0, if_false, hf, ← hm, hc1, hl3]
          rw [hlen, List.append_assoc]
          have e1 : n - m - ((c :: l).length - m) = n - (c :: l).length := by omega
          have e2 : List.take m (c :: l) ++ List.take (n - m) (List.drop m (c :: l)) =
              List.take n (c :: l) := by
            rw [← List.take_add, Nat.add_sub_cancel' hm2]
          rw [e1, e2]
        · obtain ⟨a1, a2⟩ := ha3 (by rw [hlen]; omega)
          refine ⟨a1, ?_⟩
          rw [a2, List.drop_drop, Nat.add_comm, Nat.sub_add_cancel hm2]
        · obtain ⟨a1, a2⟩ := hb3 (by rw [hlen]; omega)
          exact ⟨a1, by rw [a2]; exact hd2⟩

/-! ## Sequences: exact counts -/

/-- The counters of `numusearray`, exactly: started on zeros, the first `m+1` counters
hold the number of non-nil slots among the first `2^m`. -/
theorem numusearray_loop_exact {N : Type} (t : Table N) (hsz : t.sizearray ≤ 1073741824) :
    ∀ (fuel lg ttlg i ause : Nat) (nums : List Nat), ttlg = 2 ^ lg → fuel + lg = 31 →
      nums.length = 31 → i = min (ttlg / 2) t.sizearray + 1 →
      (∀ m, (nums.take (m + 1)).sum = arraycount t 0 (min (i - 1) (2 ^ m))) →
      ∀ m, ((numusearray_loop t fuel lg ttlg i ause nums).2.take (m + 1)).sum =
        arraycount t 0 (min t.sizearray (2 ^ m)) := by
  intro fuel
  induction fuel with
  | zero =>
    intro lg ttlg i ause nums h2 hf hlen hi hpre
    have hlg : lg = 31 := by omega
    subst hlg
    have htt : ttlg / 2 = 1073741824 := by rw [h2]; norm_num
    have hi1 : i - 1 = t.sizearray := by rw [hi, htt]; omega
    simp only [numusearray_loop]
    rw [hi1] at hpre
    exact hpre
  | succ fuel ih =>
    intro lg ttlg i ause nums h2 hf hlen hi hpre
    simp only [numusearray_loop]
    have hlim : (if ttlg > t.sizearray then t.sizearray else ttlg) = min ttlg t.sizearray := by
      split <;> omega
    rw [hlim]
    have hi1 : i - 1 = min (ttlg / 2) t.sizearray := by omega
    by_cases hb : ttlg > t.sizearray ∧ i > min ttlg t.sizearray
    · rw [if_pos hb]
      have hi2 : i - 1 = t.sizearray := by omega
      rw [hi2] at hpre
      exact hpre
    · rw [if_neg hb]
      have hi0 : 1 ≤ i := by omega
      have hile : i - 1 ≤ min ttlg t.sizearray := by omega
      have hlc := countslice_eq t i (min ttlg t.sizearray) hi0
      have hi' : (if i ≤ min ttlg t.sizearray then min ttlg t.sizearray + 1 else i) =
          min (ttlg * 2 / 2) t.sizearray + 1 := by
        have : ttlg * 2 / 2 = ttlg := by omega
        rw [this]
        split <;> omega
      have hi'' : (if i ≤ min ttlg t.sizearray then min ttlg t.sizearray + 1 else i) - 1 =
          min ttlg t.sizearray := by
        rw [hi']
        have : ttlg * 2 / 2 = ttlg := by omega
        rw [this]
        omega
      have hsplit := arraycount_split t 0 (i - 1) (min ttlg t.sizearray) (Nat.zero_le _) hile
      apply ih (lg + 1) (ttlg * 2) _ _ _ (by rw [h2, pow_succ]) (by omega)
        (by simp [hlen]) hi'
      intro m
      rw [take_sum_set nums lg (m + 1) _ (by omega), hi'']
      have hpos : 0 < 2 ^ m := Nat.two_pow_pos m
      by_cases hlm : lg < m + 1
      · rw [if_pos hlm]
        have hpow : ttlg ≤ 2 ^ m := by
          rw [h2]
          exact Nat.pow_le_pow_right (by norm_num) (by omega)
        have hmin : min (min ttlg t.sizearray) (2 ^ m) = min ttlg t.sizearray := by omega
        have hmin2 : min (i - 1) (2 ^ m) = i - 1 := by omega
        rw [hmin, hlc, hsplit, hpre m, hmin2]
      · rw [if_neg hlm]
        have hpow : 2 ^ m * 2 ≤ ttlg := by
          rw [h2, ← pow_succ]
          exact Nat.pow_le_pow_right (by norm_num) (by omega)
        have hmin : min (min ttlg t.sizearray) (2 ^ m) = min (i - 1) (2 ^ m) := by omega
        rw [hmin, hpre m]
        rfl

theorem numusearray_exact {N : Type} (t : Table N) (hsz : t.sizearray ≤ 1073741824) (m : Nat) :
    ((numusearray t (List.replicate (MAXBITS + 1) 0)).2.take (m + 1)).sum =
      arraycount t 0 (min t.sizearray (2 ^ m)) := by
  unfold numusearray
  have hz : ∀ m, ((List.replicate (MAXBITS + 1) 0).take m).sum = 0 := by
    intro m
    rw [List.take_replicate, List.sum_replicate]
    simp
  exact numusearray_loop_exact t hsz (MAXBITS + 1) 0 1 1 0 (List.replicate (MAXBITS + 1) 0)
    rfl rfl (by simp [MAXBITS]) (by simp)
    (fun m => by rw [hz]; simp [arraycount]) m

/-- The result of `computesizes` when the counters reach `narray` at index `k` with a
count there and more than half of `2^k` counted: the array gets `2^k` slots and holds all
the `narray` keys. -/
theorem computesizes_loop_exact (nums : List Nat) (narray k : Nat) (hk : k < nums.length)
    (hsum : (nums.take (k + 1)).sum = narray) (hpos : 0 < nums.getD k 0)
    (hhalf : 2 ^ k / 2 < narray) :
    ∀ (d fuel i a na n : Nat), i + d = k → d < fuel → a = (nums.take i).sum →
      computesizes_loop nums narray fuel i (2 ^ i) a na n = .ok (narray, 2 ^ k) := by
  intro d
  induction d with
  | zero =>
    intro fuel i a na n hi hf ha
    have hik : i = k := by omega
    subst hik
    obtain ⟨f, rfl⟩ : ∃ f, fuel = f + 1 := ⟨fuel - 1, by omega⟩
    have hget : nums.get? i = some (nums.getD i 0) := by
      rw [List.get?_eq_getElem?, List.getD_eq_getElem?_getD, List.getElem?_eq_getElem hk]
      rfl
    have hs : (nums.take (i + 1)).sum = (nums.take i).sum + nums.getD i 0 := by
      rw [List.take_succ, List.sum_append, List.getD_eq_getElem?_getD,
        List.getElem?_eq_getElem hk]
      simp
    simp only [computesizes_loop, hhalf, if_true, hget]
    have ha1 : a + nums.getD i 0 = narray := by rw [ha, ← hs, hsum]
    simp only [hpos, gt_iff_lt, if_true, ha1, hhalf, and_self]
  | succ d ih =>
    intro fuel i a na n hi hf ha
    obtain ⟨f, rfl⟩ : ∃ f, fuel = f + 1 := ⟨fuel - 1, by omega⟩
    have hik : i < nums.length := by omega
    have hget : nums.get? i = some (nums.getD i 0) := by
      rw [List.get?_eq_getElem?, List.getD_eq_getElem?_getD, List.getElem?_eq_getElem hik]
      rfl
    have hs : (nums.take (i + 1)).sum = (nums.take i).sum + nums.getD i 0 := by
      rw [List.take_succ, List.sum_append, List.getD_eq_getElem?_getD,
        List.getElem?_eq_getElem hik]
      simp
    have hle : 2 ^ i ≤ 2 ^ k := Nat.pow_le_pow_right (by norm_num) (by omega)
    have hhalf' : 2 ^ i / 2 < narray := by
      have : 2 ^ i / 2 ≤ 2 ^ k / 2 := Nat.div_le_div_right hle
      omega
    -- the counters up to `i` stay below `narray`, because there is a count at `k`
    have hlt : (nums.take (i + 1)).sum < narray := by
      have h1 : (nums.take k).sum + nums.getD k 0 = narray := by
        rw [← hsum, List.take_succ, List.sum_append, List.getD_eq_getElem?_getD,
          List.getElem?_eq_getElem hk]
        simp
      have h2 : (nums.take (i + 1)).sum ≤ (nums.take k).sum := by
        have hsplit : nums.take k = nums.take (i + 1) ++ (nums.drop (i + 1)).take (k - (i + 1)) := by
          rw [← List.take_add]
          congr 1
          omega
        rw [hsplit, List.sum_append]
        omega
      omega
    simp only [computesizes_loop, hhalf', if_true, hget]
    have ha1 : (if nums.getD i 0 > 0 then a + nums.getD i 0 else a) = (nums.take (i + 1)).sum := by
      rw [hs, ha]
      split <;> omega
    rw [ha1]
    have hne : ¬ ((nums.take (i + 1)).sum = narray) := by omega
    simp only [hne, if_false]
    rw [show 2 ^ i * 2 = 2 ^ (i + 1) from (pow_succ 2 i).symm]
    exact ih f (i + 1) _ _ _ (by omega) (by omega) rfl

theorem computesizes_exact (nums : List Nat) (narray k : Nat) (hk : k < nums.length)
    (hsum : (nums.take (k + 1)).sum = narray) (hpos : 0 < nums.getD k 0)
    (hhalf : 2 ^ k / 2 < narray) :
    computesizes nums narray = .ok (narray, 2 ^ k) := by
  unfold computesizes
  exact computesizes_loop_exact nums narray k hk hsum hpos hhalf k (nums.length + 1) 0 0 0 0
    (by omega) (by omega) rfl

/-! ## Sequences: the table `seqtab` -/

theorem seqtab_getD {N : Type} (vs : List (TValue N)) (size i : Nat) :
    (seqtab vs size).array.getD i .nil = vs.getD i .nil := by
  unfold seqtab
  simp only [List.getD_eq_getElem?_getD]
  by_cases h : i < vs.length
  · rw [List.getElem?_append_left h]
  · rw [List.getElem?_append_right (by omega)]
    have h1 : vs[i]? = none := List.getElem?_eq_none (by omega)
    rw [h1]
    by_cases h2 : i - vs.length < size - vs.length
    · rw [List.getElem?_replicate_of_lt h2]; rfl
    · rw [List.getElem?_eq_none (by simp; omega)]

theorem seq_getD_nil {N : Type} (vs : List (TValue N)) (hv : ∀ v ∈ vs, ttisnil v = false)
    (i : Nat) : ttisnil (vs.getD i .nil) = decide (vs.length ≤ i) := by
  rw [List.getD_eq_getElem?_getD]
  by_cases h : i < vs.length
  · rw [List.getElem?_eq_getElem h]
    have := hv vs[i] (List.getElem_mem h)
    simp [this]; omega
  · rw [List.getElem?_eq_none (by omega)]
    simp [ttisnil]; omega

theorem seqtab_arraycount {N : Type} (vs : List (TValue N))
    (hv : ∀ v ∈ vs, ttisnil v = false) (size b : Nat) (hb : b ≤ vs.length) :
    arraycount (seqtab vs size) 0 b = b := by
  unfold arraycount
  have : List.countP (fun i => !ttisnil ((seqtab vs size).array.getD i .nil))
      (List.range' 0 (b - 0)) = (List.range' 0 (b - 0)).length := by
    rw [List.countP_eq_length]
    intro i hi
    rw [List.mem_range'_1] at hi
    rw [seqtab_getD, seq_getD_nil vs hv]
    simp; omega
  rw [this]
  simp

theorem seqtab_sizenode {N : Type} (vs : List (TValue N)) (size : Nat) :
    sizenode (seqtab vs size) = 1 := rfl

theorem seqtab_gnode {N : Type} (vs : List (TValue N)) (size i : Nat) :
    gnode (seqtab vs size) i = dummynode_ := by
  unfold gnode seqtab
  cases i <;> rfl

/-- The main position in a table of one node is node 0. -/
theorem mainposition_one {N : Type} (ops : LuaConf N) (t : Table N) (h : t.lsizenode = 0)
    (k : TValue N) : mainposition ops t k = 0 := by
  have hs : sizenode t = 1 := by unfold sizenode twoto; rw [h]; rfl
  have hm : ∀ x, hashmod t x = 0 := by
    intro x; unfold hashmod; rw [hs]; simp [Nat.mod_one]
  have hp : ∀ x, hashpow2 t x = 0 := by
    intro x; unfold hashpow2 lmod; rw [hs]; simp
  cases k with
  | nil => exact hm _
  | boolean b => exact hp _
  | lightuserdata p => exact hm _
  | number n => exact hm _
  | lcf f => exact hm _
  | gc tt o => cases tt <;> first | exact hm _ | exact hp _
  | deadkey o => exact hm _

/-- Lookup of an integer key in a sequence table: the array slot for a key of the array
range, else `luaO_nilobject`. -/
theorem seqtab_getint {N : Type} {ops : LuaConf N} (hL : ops.Lawful) (vs : List (TValue N))
    (size : Nat) (hs : size ≤ 1073741824) (k : Int) (hk : cast_int k = k) :
    luaH_getint ops (seqtab vs size) k =
      if 0 < k ∧ k ≤ (size : Int) then .ok (.arr (k - 1).toNat) else .ok .nilobject := by
  rw [luaH_getint_eq hL (seqtab vs size) (by simpa [seqtab, MAXASIZE, MAXBITS] using hs) k hk]
  have hsz : (seqtab vs size).sizearray = size := rfl
  rw [hsz]
  split
  · rfl
  · rw [mainposition_one ops _ rfl, seqtab_sizenode]
    simp [get_loop, seqtab_gnode, dummynode_, luaV_rawequalobj]

/-- The hash part of a sequence table adds nothing to the counts of `rehash`. -/
theorem seqtab_numusehash {N : Type} (ops : LuaConf N) (vs : List (TValue N)) (size : Nat)
    (nums : List Nat) (p : Nat) :
    numusehash ops (seqtab vs size) nums p = (0, nums, p) := by
  unfold numusehash
  rw [seqtab_sizenode]
  simp [numusehash_step, seqtab_gnode, dummynode_, ttisnil]

/-- The value of `luaO_ceillog2` just above a power of two. -/
theorem ceillog2_succ_pow (j : Nat) (hj : j ≤ 30) : luaO_ceillog2 (2 ^ j + 1) = j + 1 := by
  have hp : 2 ^ j ≤ 2 ^ 30 := Nat.pow_le_pow_right (by norm_num) hj
  have hp1 : 1 ≤ 2 ^ j := Nat.two_pow_pos j
  have hp2 : 2 ^ j ≤ 1073741824 := by norm_num at hp; exact hp
  obtain ⟨ha, hb, _⟩ := luaO_ceillog2_spec (2 ^ j + 1) (by omega) (by omega)
  have h1 : j < luaO_ceillog2 (2 ^ j + 1) := by
    by_contra hc
    have : 2 ^ luaO_ceillog2 (2 ^ j + 1) ≤ 2 ^ j := Nat.pow_le_pow_right (by norm_num) (by omega)
    omega
  rcases hb with h0 | h2
  · omega
  · by_contra hc
    have : 2 ^ (j + 1) ≤ 2 ^ (luaO_ceillog2 (2 ^ j + 1) - 1) :=
      Nat.pow_le_pow_right (by norm_num) (by omega)
    rw [pow_succ] at this
    omega

theorem list_getD_set_self (l : List Nat) (i x : Nat) (h : i < l.length) :
    (l.set i x).getD i 0 = x := by
  rw [List.getD_eq_getElem?_getD, List.getElem?_set_self h]
  rfl

/-! ## Sequences: `rehash` on a full array part -/

/-- Growing the array part of a full sequence table to `size` slots, without a hash
part. -/
theorem seqtab_resize {N : Type} [DecidableEq N] (ops : LuaConf N)
    (nk : Table N → TValue N → Except Err (Table N × Cell)) (vs : List (TValue N))
    (size : Nat) (hs : vs.length < size) :
    luaH_resize_with ops nk (seqtab vs vs.length) size 0 = .ok (seqtab vs size) := by
  unfold luaH_resize_with
  have h1 : (seqtab vs vs.length).sizearray = vs.length := rfl
  have h2 : (seqtab vs vs.length).lsizenode = 0 := rfl
  have h3 : (seqtab vs vs.length).node = [dummynode_] := rfl
  simp only [h1, h2, h3, gt_iff_lt, hs, if_true, setnodevector]
  have h4 : ¬ size < vs.length := by omega
  have hr : List.range 1 = [0] := rfl
  simp only [h4, if_false, twoto, pow_zero, hr, List.reverse_singleton,
    List.foldlM_cons, List.foldlM_nil, resize_reinsert, List.getD_cons_zero, dummynode_,
    ttisnil, Bool.not_true, Bool.false_eq_true, if_false]
  simp only [setarrayvector, seqtab, Nat.sub_self, List.replicate_zero, List.append_nil,
    List.take_length]
  rfl

/-- The counters after `countint` on an integer key of the range `1..MAXASIZE`. -/
theorem countint_cast {N : Type} {ops : LuaConf N} (hL : ops.Lawful) (k : Nat)
    (h1 : 1 ≤ k) (h2 : k ≤ 1073741824) (nums : List Nat) :
    countint ops (.number (ops.cast_num (k : Int))) nums =
      (1, nums.set (luaO_ceillog2 k) (nums.getD (luaO_ceillog2 k) 0 + 1)) := by
  unfold countint
  have hk : cast_int (k : Int) = k := cast_int_of_range _ (by omega)
  rw [arrayindex_cast hL _ hk]
  have hM : ((MAXASIZE : Nat) : Int) = 1073741824 := by simp [MAXASIZE, MAXBITS]
  have hc : (0 : Int) < k ∧ (k : Int) ≤ (MAXASIZE : Nat) := by rw [hM]; omega
  have hu : cast_unsigned (k : Int) = k := by
    unfold cast_unsigned
    rw [Int.emod_eq_of_lt (by omega) (by omega)]
    simp
  simp only [hc, and_self, if_true, hu]

/-- An integer key above `MAXASIZE` is not counted. -/
theorem countint_big {N : Type} {ops : LuaConf N} (hL : ops.Lawful) (k : Int)
    (h1 : 1073741824 < k) (h2 : k ≤ 2147483647) (nums : List Nat) :
    countint ops (.number (ops.cast_num k)) nums = (0, nums) := by
  unfold countint
  have hk : cast_int k = k := cast_int_of_range _ (by omega)
  rw [arrayindex_cast hL _ hk]
  have hM : ((MAXASIZE : Nat) : Int) = 1073741824 := by simp [MAXASIZE, MAXBITS]
  have hc : ¬ ((0 : Int) < k ∧ k ≤ (MAXASIZE : Nat)) := by rw [hM]; omega
  simp only [hc, if_false]

/-- The sizes that `rehash` computes for a full sequence table of `0` or `2^j` slots,
`j < 30`, and the key that follows the sequence: the array part doubles (to 1 slot from
none) and there is no hash part. -/
theorem seqtab_rehash {N : Type} [DecidableEq N] {ops : LuaConf N} (hL : ops.Lawful)
    (nk : Table N → TValue N → Except Err (Table N × Cell)) (vs : List (TValue N))
    (hv : ∀ v ∈ vs, ttisnil v = false) (c : Nat) (hc : c ≤ 30)
    (hfull : (vs.length = 0 ∧ c = 0) ∨ ∃ j, vs.length = 2 ^ j ∧ c = j + 1) :
    rehash_with ops nk (seqtab vs vs.length) (.number (ops.cast_num ((vs.length : Int) + 1))) =
      .ok (seqtab vs (2 ^ c)) := by
  have hn : vs.length ≤ 536870912 ∧ luaO_ceillog2 (vs.length + 1) = c ∧ vs.length < 2 ^ c ∧
      2 ^ c / 2 < vs.length + 1 := by
    rcases hfull with ⟨h0, hc0⟩ | ⟨j, hj, hcj⟩
    · rw [h0, hc0]; exact ⟨by omega, by decide, by norm_num, by norm_num⟩
    · have hj29 : j ≤ 29 := by omega
      have hp : 2 ^ j ≤ 2 ^ 29 := Nat.pow_le_pow_right (by norm_num) hj29
      norm_num at hp
      have hpos : 0 < 2 ^ j := Nat.two_pow_pos j
      rw [hj, hcj, pow_succ]
      exact ⟨hp, ceillog2_succ_pow j (by omega), by omega, by omega⟩
  obtain ⟨hn1, hn2, hn3, hn4⟩ := hn
  have hsz : (seqtab vs vs.length).sizearray ≤ 1073741824 := by
    show vs.length ≤ 1073741824
    omega
  obtain ⟨hA1, -, hA3, -⟩ := numusearray_spec (seqtab vs vs.length) hsz
  have hE := numusearray_exact (seqtab vs vs.length) hsz c
  have hcnt : arraycount (seqtab vs vs.length) 0 (seqtab vs vs.length).sizearray = vs.length :=
    seqtab_arraycount vs hv _ _ (le_refl _)
  have hmin : min (seqtab vs vs.length).sizearray (2 ^ c) = vs.length := by
    show min vs.length (2 ^ c) = vs.length
    omega
  rw [hmin, seqtab_arraycount vs hv _ _ (le_refl _)] at hE
  rw [hcnt] at hA1
  have hkey : ((vs.length : Int) + 1) = ((vs.length + 1 : Nat) : Int) := by push_cast; rfl
  unfold rehash_with
  simp only []
  rw [seqtab_numusehash, hkey, countint_cast hL (vs.length + 1) (by omega) (by omega), hn2, hA1]
  simp only []
  have hcs := computesizes_exact
    ((numusearray (seqtab vs vs.length) (List.replicate (MAXBITS + 1) 0)).2.set c
      ((numusearray (seqtab vs vs.length) (List.replicate (MAXBITS + 1) 0)).2.getD c 0 + 1))
    (vs.length + 1) c (by rw [List.length_set, hA3]; omega)
    (by rw [take_sum_set _ c (c + 1) 1 (by rw [hA3]; omega), hE]; simp)
    (by rw [list_getD_set_self _ _ _ (by rw [hA3]; omega)]; omega) hn4
  rw [hcs]
  simp only []
  have hz : vs.length + 0 + 1 - (vs.length + 1) = 0 := by omega
  rw [hz]
  exact seqtab_resize ops nk vs (2 ^ c) hn3

/-! ## Sequences: one more element -/

/-- Storing the next value in the array slot after the sequence. -/
theorem seqtab_write {N : Type} (vs : List (TValue N)) (size : Nat) (v : TValue N)
    (h : vs.length < size) :
    (seqtab vs size).write (.arr vs.length) v = seqtab (vs ++ [v]) size := by
  unfold Table.write seqtab
  simp only [List.length_append, List.length_singleton]
  have h1 : (vs ++ List.replicate (size - vs.length) (TValue.nil : TValue N)).set vs.length v =
      vs ++ [v] ++ List.replicate (size - (vs.length + 1)) .nil := by
    obtain ⟨m, hm⟩ : ∃ m, size - vs.length = m + 1 := ⟨size - vs.length - 1, by omega⟩
    have hm2 : size - (vs.length + 1) = m := by omega
    rw [hm, hm2, List.replicate_succ, List.set_append_right _ _ (le_refl _), Nat.sub_self,
      List.set_cons_zero, List.append_assoc]
    rfl
  rw [h1]

/-- The next key of a sequence goes to the array part when there is room for it. -/
theorem seqtab_setint_room {N : Type} [DecidableEq N] {ops : LuaConf N} (hL : ops.Lawful)
    (d : Nat) (vs : List (TValue N)) (size : Nat) (v : TValue N) (h : vs.length < size)
    (hs : size ≤ 1073741824) :
    luaH_setint ops d (seqtab vs size) ((vs.length : Int) + 1) v =
      .ok (seqtab (vs ++ [v]) size) := by
  unfold luaH_setint luaH_setint_with
  have hk : cast_int ((vs.length : Int) + 1) = (vs.length : Int) + 1 :=
    cast_int_of_range _ (by omega)
  rw [seqtab_getint hL vs size hs _ hk]
  have hc : (0 : Int) < (vs.length : Int) + 1 ∧ (vs.length : Int) + 1 ≤ (size : Int) := by
    omega
  have hidx : ((vs.length : Int) + 1 - 1).toNat = vs.length := by omega
  simp only [hc, and_self, if_true, hidx, ne_eq, reduceCtorEq, not_false_eq_true]
  rw [seqtab_write vs size v h]

/-- The next key of a full sequence table goes through `rehash`, which doubles the array
part. -/
theorem seqtab_setint_full {N : Type} [DecidableEq N] {ops : LuaConf N} (hL : ops.Lawful)
    (d : Nat) (vs : List (TValue N)) (hv : ∀ v ∈ vs, ttisnil v = false) (v : TValue N)
    (c : Nat) (hc : c ≤ 30)
    (hfull : (vs.length = 0 ∧ c = 0) ∨ ∃ j, vs.length = 2 ^ j ∧ c = j + 1) :
    luaH_setint ops (d + 1) (seqtab vs vs.length) ((vs.length : Int) + 1) v =
      .ok (seqtab (vs ++ [v]) (2 ^ c)) := by
  have hn : vs.length ≤ 536870912 ∧ vs.length < 2 ^ c := by
    rcases hfull with ⟨h0, hc0⟩ | ⟨j, hj, hcj⟩
    · rw [h0, hc0]; exact ⟨by omega, by norm_num⟩
    · have hj29 : j ≤ 29 := by omega
      have hp : 2 ^ j ≤ 2 ^ 29 := Nat.pow_le_pow_right (by norm_num) hj29
      norm_num at hp
      have hpos : 0 < 2 ^ j := Nat.two_pow_pos j
      rw [hj, hcj, pow_succ]
      exact ⟨hp, by omega⟩
  obtain ⟨hn1, hn3⟩ := hn
  have hpc : 2 ^ c ≤ 1073741824 := by
    have := Nat.pow_le_pow_right (by norm_num : 0 < 2) hc
    norm_num at this
    exact this
  have hk : cast_int ((vs.length : Int) + 1) = (vs.length : Int) + 1 :=
    cast_int_of_range _ (by omega)
  have hvk := validkey_cast hL ((vs.length : Int) + 1)
  unfold luaH_setint luaH_setint_with
  rw [seqtab_getint hL vs vs.length (by omega) _ hk]
  have hc1 : ¬ ((0 : Int) < (vs.length : Int) + 1 ∧ (vs.length : Int) + 1 ≤ (vs.length : Int)) := by
    omega
  simp only [hc1, if_false, ne_eq, not_true_eq_false]
  rw [luaH_newkey_unfold ops (d + 1) _ _ hvk, mainposition_one ops _ rfl, seqtab_gnode]
  have hcond : (!ttisnil (dummynode_ : Node N).i_val ||
      ((seqtab vs vs.length).isdummy && (0 : Nat) == 0)) = true := by
    simp [seqtab]
  rw [if_pos hcond]
  have hfp : getfreepos (seqtab vs vs.length) = (seqtab vs vs.length, none) := by
    unfold getfreepos
    simp [seqtab, getfreepos_loop]
  rw [hfp]
  simp only [newkey_rehash]
  rw [seqtab_rehash hL _ vs hv c hc hfull]
  simp only [luaH_set_with]
  rw [← luaH_getint_eq_get hL (seqtab vs (2 ^ c))
    (by simpa [seqtab, MAXASIZE, MAXBITS] using hpc) _ hk,
    seqtab_getint hL vs (2 ^ c) hpc _ hk]
  have hc2 : (0 : Int) < (vs.length : Int) + 1 ∧ (vs.length : Int) + 1 ≤ ((2 ^ c : Nat) : Int) := by
    omega
  have hidx : ((vs.length : Int) + 1 - 1).toNat = vs.length := by omega
  simp only [hc2, and_self, if_true, hidx, ne_eq, reduceCtorEq, not_false_eq_true]
  rw [seqtab_write vs (2 ^ c) v hn3]

/-! ## Sequences: the fill -/

theorem luaH_new_eq_seqtab {N : Type} : (luaH_new : Table N) = seqtab [] 0 := rfl

/-- The assignments of a sequence, one after the other, keep the table a sequence table
whose array size is the least power of two that holds the sequence. -/
theorem seqfill_from_spec {N : Type} [DecidableEq N] {ops : LuaConf N} (hL : ops.Lawful)
    (d : Nat) : ∀ (ws vs : List (TValue N)) (size : Nat),
    (∀ v ∈ vs, ttisnil v = false) → (∀ v ∈ ws, ttisnil v = false) →
    seqsize vs.length size → vs.length + ws.length ≤ 1073741824 →
    Reachable ops (seqtab vs size) →
    ∃ size1, seqfill_from ops (d + 1) ws ((vs.length : Int) + 1) (seqtab vs size) =
        .ok (seqtab (vs ++ ws) size1) ∧
      seqsize (vs ++ ws).length size1 ∧ Reachable ops (seqtab (vs ++ ws) size1) := by
  intro ws
  induction ws with
  | nil =>
    intro vs size hv _ hs _ hr
    exact ⟨size, by simp [seqfill_from], by simpa using hs, by simpa using hr⟩
  | cons w ws ih =>
    intro vs size hv hw hs hlen hr
    have hw1 : ttisnil w = false := hw w (List.mem_cons_self _ _)
    have hv1 : ∀ v ∈ vs ++ [w], ttisnil v = false := by
      intro v hm
      rcases List.mem_append.1 hm with h | h
      · exact hv v h
      · rw [List.mem_singleton.1 h]; exact hw1
    have hlen1 : (vs ++ [w]).length = vs.length + 1 := by simp
    have hk : cast_int ((vs.length : Int) + 1) = (vs.length : Int) + 1 := by
      simp only [List.length_cons] at hlen
      exact cast_int_of_range _ (by omega)
    have hkey : ((vs.length : Int) + 1) + 1 = (((vs ++ [w]).length : Nat) : Int) + 1 := by
      rw [hlen1]; push_cast; rfl
    -- one step, then the induction hypothesis
    have hstep : ∃ size1, luaH_setint ops (d + 1) (seqtab vs size) ((vs.length : Int) + 1) w =
        .ok (seqtab (vs ++ [w]) size1) ∧ seqsize (vs.length + 1) size1 := by
      simp only [List.length_cons] at hlen
      rcases hs with ⟨h0, hs0⟩ | ⟨j, hj, hsj, h1, h2, h3⟩
      · refine ⟨2 ^ 0, ?_, Or.inr ⟨0, by omega, rfl, by omega, by rw [h0]; norm_num, Or.inl rfl⟩⟩
        have hsz : size = vs.length := by omega
        rw [hsz]
        exact seqtab_setint_full hL d vs hv w 0 (by omega) (Or.inl ⟨h0, rfl⟩)
      · by_cases hroom : vs.length < size
        · refine ⟨size, seqtab_setint_room hL (d + 1) vs size w hroom ?_,
            Or.inr ⟨j, hj, hsj, by omega, by omega, ?_⟩⟩
          · rw [hsj]
            have := Nat.pow_le_pow_right (by norm_num : 0 < 2) hj
            norm_num at this
            exact this
          · rcases h3 with h3 | h3
            · exact Or.inl h3
            · exact Or.inr (by omega)
        · have hfull : vs.length = 2 ^ j := by omega
          have hj29 : j ≤ 29 := by
            by_contra hc
            have : 2 ^ 30 ≤ 2 ^ j := Nat.pow_le_pow_right (by norm_num) (by omega)
            norm_num at this
            omega
          refine ⟨2 ^ (j + 1), ?_, Or.inr ⟨j + 1, by omega, rfl, by omega, ?_, Or.inr ?_⟩⟩
          · have hsz : size = vs.length := by omega
            rw [hsz]
            exact seqtab_setint_full hL d vs hv w (j + 1) (by omega) (Or.inr ⟨j, hfull, rfl⟩)
          · rw [pow_succ]; omega
          · simp only [Nat.add_sub_cancel]; omega
    obtain ⟨size1, hset, hs1⟩ := hstep
    have hr1 : Reachable ops (seqtab (vs ++ [w]) size1) :=
      Reachable.setint (d + 1) _ _ _ w hr hk hset
    obtain ⟨size2, h2, hs2, hr2⟩ := ih (vs ++ [w]) size1 hv1
      (fun v hm => hw v (List.mem_cons_of_mem _ hm)) (by rw [hlen1]; exact hs1)
      (by rw [hlen1]; simp only [List.length_cons] at hlen; omega) hr1
    refine ⟨size2, ?_, by simpa using hs2, by simpa using hr2⟩
    rw [seqfill_from, hset]
    simp only []
    rw [hkey, h2]
    simp

/-- The length operator on a sequence table is the length of the sequence. -/
theorem seqtab_getn {N : Type} (ops : LuaConf N) (vs : List (TValue N))
    (hv : ∀ v ∈ vs, ttisnil v = false) (size : Nat) (h1 : vs.length ≤ size)
    (hs : size ≤ 1073741824) : luaH_getn ops (seqtab vs size) = .ok (vs.length : Int) := by
  unfold luaH_getn
  have hsz : (seqtab vs size).sizearray = size := rfl
  have hu : cast_unsigned ((seqtab vs size).sizearray : Int) = size := by
    rw [hsz]
    unfold cast_unsigned
    rw [Int.emod_eq_of_lt (by omega) (by omega)]
    simp
  simp only [hu, seqtab_getD, seq_getD_nil vs hv]
  by_cases hfull : vs.length < size
  · have hc : size > 0 ∧ decide (vs.length ≤ size - 1) = true := by
      refine ⟨by omega, ?_⟩
      simp; omega
    rw [if_pos hc]
    obtain ⟨r, hr1, hr2, hr3, hr4⟩ := getn_binsearch_spec (seqtab vs size) hs 30 32 0 size
      (by omega) (by omega) (le_refl _) (by norm_num; omega) (Or.inl rfl)
      (by rw [seqtab_getD, seq_getD_nil vs hv]; simp; omega)
    rw [hr1]
    rw [seqtab_getD, seq_getD_nil vs hv] at hr3 hr4
    simp at hr3 hr4
    have : r = vs.length := by omega
    rw [this]
  · have hc : ¬ (size > 0 ∧ decide (vs.length ≤ size - 1) = true) := by
      simp; omega
    rw [if_neg hc]
    have hd : (seqtab vs size).isdummy = true := rfl
    simp only [hd, if_true]
    rw [cast_int_of_range _ (by omega)]
    have : size = vs.length := by omega
    rw [this]

theorem filter_range_lt (n size : Nat) (h : n ≤ size) :
    (List.range size).filter (fun i => decide (i < n)) = List.range n := by
  induction size with
  | zero =>
    have : n = 0 := by omega
    subst this; rfl
  | succ m ih =>
    rw [List.range_succ, List.filter_append]
    by_cases hn : n ≤ m
    · rw [ih hn]
      simp; omega
    · have hnm : n = m + 1 := by omega
      subst hnm
      have h1 : (List.range m).filter (fun i => decide (i < m + 1)) = List.range m := by
        rw [List.filter_eq_self]
        intro a ha
        rw [List.mem_range] at ha
        simp; omega
      rw [h1, List.range_succ]
      simp

/-- The traversal of a sequence table yields the pairs of the sequence in order. -/
theorem seqtab_entries {N : Type} (ops : LuaConf N) (vs : List (TValue N))
    (hv : ∀ v ∈ vs, ttisnil v = false) (size : Nat) (h1 : vs.length ≤ size) :
    array_entries ops (seqtab vs size) ++ node_entries (seqtab vs size) = seqpairs ops vs := by
  have hne : node_entries (seqtab vs size) = [] := by
    unfold node_entries
    rw [seqtab_sizenode]
    simp [seqtab_gnode, dummynode_, ttisnil]
  rw [hne, List.append_nil]
  unfold array_entries seqpairs
  have hsz : (seqtab vs size).sizearray = size := rfl
  rw [hsz]
  have hf : (List.range size).filter (fun i => !ttisnil ((seqtab vs size).array.getD i .nil)) =
      List.range vs.length := by
    rw [← filter_range_lt vs.length size h1]
    apply List.filter_congr
    intro i _
    rw [seqtab_getD, seq_getD_nil vs hv]
    by_cases h : i < vs.length <;> simp [h]
    omega
  rw [hf]
  apply List.map_congr_left
  intro i _
  rw [seqtab_getD]

/-! ## A hash part of one node -/

theorem sparsetab_eq_mixtab {N : Type} (k v : TValue N) :
    sparsetab k v = mixtab [] 0 { i_val := v, i_key := k, next := none } := rfl

/-- Giving a full sequence table a hash part of one node, the array part unchanged. -/
theorem seqtab_resize_node {N : Type} [DecidableEq N] (ops : LuaConf N)
    (nk : Table N → TValue N → Except Err (Table N × Cell)) (vs : List (TValue N)) :
    luaH_resize_with ops nk (seqtab vs vs.length) vs.length 1 =
      .ok (mixtab vs vs.length dummynode_) := by
  unfold luaH_resize_with
  have h1 : (seqtab vs vs.length).sizearray = vs.length := rfl
  have h2 : (seqtab vs vs.length).lsizenode = 0 := rfl
  have h3 : (seqtab vs vs.length).node = [dummynode_] := rfl
  have hl : luaO_ceillog2 1 = 0 := by decide
  have hr : List.range 1 = [0] := rfl
  simp only [h1, h2, h3, gt_iff_lt, lt_irrefl, if_false, setnodevector, one_ne_zero, hl,
    MAXBITS, Nat.not_lt_zero, twoto, pow_zero, List.replicate_one, hr, List.reverse_singleton,
    List.foldlM_cons, List.foldlM_nil, resize_reinsert, List.getD_cons_zero, dummynode_,
    ttisnil, Bool.not_true, Bool.false_eq_true]
  rfl

theorem mixtab_gnode {N : Type} (vs : List (TValue N)) (size : Nat) (nd : Node N) :
    gnode (mixtab vs size nd) 0 = nd := rfl

/-- Lookup of an integer key outside the array range in a table whose only node is
free: `luaO_nilobject`. -/
theorem mixtab_getint_free {N : Type} {ops : LuaConf N} (hL : ops.Lawful)
    (vs : List (TValue N)) (size : Nat) (hs : size ≤ 1073741824) (k : Int)
    (hk : cast_int k = k) (hout : ¬ (0 < k ∧ k ≤ (size : Int))) :
    luaH_getint ops (mixtab vs size dummynode_) k = .ok .nilobject := by
  rw [luaH_getint_eq hL _ (by simpa [mixtab, MAXASIZE, MAXBITS] using hs) k hk]
  have hsz : (mixtab vs size (dummynode_ : Node N)).sizearray = size := rfl
  rw [hsz, if_neg hout, mainposition_one ops _ rfl]
  have hsn : sizenode (mixtab vs size (dummynode_ : Node N)) = 1 := rfl
  rw [hsn]
  simp [get_loop, mixtab_gnode, dummynode_, luaV_rawequalobj]

/-- The counts of `rehash` on the table that `luaH_new` builds. -/
theorem numusearray_new {N : Type} (nums : List Nat) :
    numusearray (seqtab ([] : List (TValue N)) 0) nums = (0, nums) := by
  simp [numusearray, numusearray_loop, seqtab, MAXBITS]

theorem computesizes_sparse (c : Nat) (h1 : 1 ≤ c) (h2 : c ≤ 30) :
    computesizes ((List.replicate (MAXBITS + 1) 0).set c
      ((List.replicate (MAXBITS + 1) 0).getD c 0 + 1)) 1 = .ok (0, 0) := by
  obtain ⟨m, rfl⟩ : ∃ m, c = m + 1 := ⟨c - 1, by omega⟩
  simp [computesizes, computesizes_loop, MAXBITS, List.replicate_succ]

/-- The steps of `rehash`, given what each of them returns. -/
theorem rehash_with_eq {N : Type} [DecidableEq N] (ops : LuaConf N)
    (nk : Table N → TValue N → Except Err (Table N × Cell)) (t : Table N) (ek : TValue N)
    (a h p c1 na n : Nat) (nums1 nums2 nums3 : List Nat)
    (e1 : numusearray t (List.replicate (MAXBITS + 1) 0) = (a, nums1))
    (e2 : numusehash ops t nums1 a = (h, nums2, p))
    (e3 : countint ops ek nums2 = (c1, nums3))
    (e4 : computesizes nums3 (p + c1) = .ok (na, n)) :
    rehash_with ops nk t ek = luaH_resize_with ops nk t n (a + h + 1 - na) := by
  unfold rehash_with
  simp only []
  rw [e1]
  simp only []
  rw [e2]
  simp only []
  rw [e3]
  simp only []
  rw [e4]

/-- The `rehash` that the first key of a table triggers when the key is an integer above
1: no array part, one node. -/
theorem rehash_new_sparse {N : Type} [DecidableEq N] {ops : LuaConf N} (hL : ops.Lawful)
    (nk : Table N → TValue N → Except Err (Table N × Cell)) (k : Int) (h2 : 2 ≤ k)
    (hk : k ≤ 2147483647) :
    rehash_with ops nk (seqtab [] 0) (.number (ops.cast_num k)) =
      .ok (mixtab [] 0 dummynode_) := by
  by_cases hbig : k ≤ 1073741824
  · obtain ⟨n, rfl⟩ : ∃ n : Nat, k = (n : Int) := ⟨k.toNat, by omega⟩
    obtain ⟨c30, -⟩ := ceillog2_le_30 n (by omega) (by omega)
    obtain ⟨ha, hb, -⟩ := luaO_ceillog2_spec n (by omega) (by omega)
    have hc1 : 1 ≤ luaO_ceillog2 n := by
      by_contra hc
      have h0 : luaO_ceillog2 n = 0 := by omega
      rw [h0] at ha
      norm_num at ha
      omega
    rw [rehash_with_eq ops nk _ _ 0 0 0 1 0 0 _ _ _ (numusearray_new _)
      (seqtab_numusehash ops [] 0 _ 0) (countint_cast hL n (by omega) (by omega) _)
      (computesizes_sparse _ hc1 c30)]
    exact seqtab_resize_node ops nk []
  · have hcs : computesizes (List.replicate (MAXBITS + 1) 0) (0 + 0) = .ok (0, 0) := by
      simp [computesizes, computesizes_loop, MAXBITS]
    rw [rehash_with_eq ops nk _ _ 0 0 0 0 0 0 _ _ _ (numusearray_new _)
      (seqtab_numusehash ops [] 0 _ 0) (countint_big hL k (by omega) hk _) hcs]
    exact seqtab_resize_node ops nk []

theorem getfreepos_seqtab {N : Type} (vs : List (TValue N)) (size : Nat) :
    getfreepos (seqtab vs size) = (seqtab vs size, none) := by
  unfold getfreepos
  simp [seqtab, getfreepos_loop]

/-! ## The sparse key: lookups -/

/-- Different `int`s convert to numbers that are not equal. -/
theorem numeq_cast_ne {N : Type} {ops : LuaConf N} (hL : ops.Lawful) (a b : Int)
    (ha : cast_int a = a) (hb : cast_int b = b) (hab : a ≠ b) :
    ops.luai_numeq (ops.cast_num a) (ops.cast_num b) = false := by
  cases h : ops.luai_numeq (ops.cast_num a) (ops.cast_num b) with
  | false => rfl
  | true =>
    have h1 := hL.number2int_cast a (ops.cast_num b) ha h
    have h2 := hL.number2int_cast b (ops.cast_num b) hb (numeq_cast_self hL b)
    exact absurd (h1.symm.trans h2) hab

/-- An integer key outside the array range, explicit form: the table and the slot that
`luaH_set` returns when the only node of the hash part is free. -/
theorem mixtab_set_free {N : Type} [DecidableEq N] {ops : LuaConf N} (hL : ops.Lawful)
    (d : Nat) (vs : List (TValue N)) (size : Nat) (hs : size ≤ 1073741824) (k : Int)
    (hk : cast_int k = k) (hout : ¬ (0 < k ∧ k ≤ (size : Int))) :
    luaH_set_with ops (luaH_newkey ops d) (mixtab vs size dummynode_)
        (.number (ops.cast_num k)) =
      .ok (mixtab vs size { i_val := .nil, i_key := .number (ops.cast_num k), next := none },
        .val 0) := by
  unfold luaH_set_with
  rw [← luaH_getint_eq_get hL _ (by simpa [mixtab, MAXASIZE, MAXBITS] using hs) k hk,
    mixtab_getint_free hL vs size hs k hk hout]
  simp only [ne_eq, not_true_eq_false, if_false]
  rw [luaH_newkey_unfold ops d _ _ (validkey_cast hL k), mainposition_one ops _ rfl,
    mixtab_gnode]
  have hcond : ¬ ((!ttisnil (dummynode_ : Node N).i_val ||
      ((mixtab vs size (dummynode_ : Node N)).isdummy && (0 : Nat) == 0)) = true) := by
    simp [mixtab, dummynode_, ttisnil]
  rw [if_neg hcond]
  simp [setnode, mixtab, dummynode_]

theorem mixtab_write {N : Type} (vs : List (TValue N)) (size : Nat) (nd : Node N)
    (v : TValue N) :
    (mixtab vs size nd).write (.val 0) v = mixtab vs size { nd with i_val := v } := by
  simp [Table.write, mixtab, gnode]

/-- The first key of a table, an integer above 1: `luaH_newkey` on the table of
`luaH_new` returns a one-node hash part with the key in it. -/
theorem newkey_new_sparse {N : Type} [DecidableEq N] {ops : LuaConf N} (hL : ops.Lawful)
    (d : Nat) (k : Int) (h2 : 2 ≤ k) (hk : k ≤ 2147483647) :
    luaH_newkey ops (d + 1) luaH_new (.number (ops.cast_num k)) =
      .ok (sparsetab (.number (ops.cast_num k)) .nil, .val 0) := by
  have hki : cast_int k = k := cast_int_of_range _ (by omega)
  have hout : ¬ (0 < k ∧ k ≤ ((0 : Nat) : Int)) := by omega
  rw [luaH_new_eq_seqtab, sparsetab_eq_mixtab]
  rw [luaH_newkey_unfold ops (d + 1) _ _ (validkey_cast hL k), mainposition_one ops _ rfl,
    seqtab_gnode]
  have hcond : (!ttisnil (dummynode_ : Node N).i_val ||
      ((seqtab ([] : List (TValue N)) 0).isdummy && (0 : Nat) == 0)) = true := by
    simp [seqtab]
  rw [if_pos hcond, getfreepos_seqtab]
  simp only [newkey_rehash]
  rw [rehash_new_sparse hL _ k h2 hk]
  exact mixtab_set_free hL d [] 0 (by omega) k hki hout

theorem sparsetab_getint_self {N : Type} {ops : LuaConf N} (hL : ops.Lawful) (k : Int)
    (h2 : 2 ≤ k) (hk : k ≤ 2147483647) (v : TValue N) :
    luaH_getint ops (sparsetab (.number (ops.cast_num k)) v) k = .ok (.val 0) := by
  have hki : cast_int k = k := cast_int_of_range _ (by omega)
  rw [luaH_getint_eq hL _ (by simp [sparsetab, MAXASIZE]) k hki]
  have hsz : (sparsetab (TValue.number (ops.cast_num k)) v).sizearray = 0 := rfl
  have hout : ¬ (0 < k ∧ k ≤ ((0 : Nat) : Int)) := by omega
  rw [hsz, if_neg hout, mainposition_one ops _ rfl]
  have hsn : sizenode (sparsetab (TValue.number (ops.cast_num k)) v) = 1 := rfl
  rw [hsn]
  simp [get_loop, sparsetab, gnode, luaV_rawequalobj, numeq_cast_self hL]

theorem sparsetab_getint_one {N : Type} {ops : LuaConf N} (hL : ops.Lawful) (k : Int)
    (h2 : 2 ≤ k) (hk : k ≤ 2147483647) (v : TValue N) :
    luaH_getint ops (sparsetab (.number (ops.cast_num k)) v) 1 = .ok .nilobject := by
  have hki : cast_int k = k := cast_int_of_range _ (by omega)
  have h1i : cast_int 1 = 1 := by decide
  rw [luaH_getint_eq hL _ (by simp [sparsetab, MAXASIZE]) 1 h1i]
  have hsz : (sparsetab (TValue.number (ops.cast_num k)) v).sizearray = 0 := rfl
  have hout : ¬ ((0 : Int) < 1 ∧ (1 : Int) ≤ ((0 : Nat) : Int)) := by omega
  rw [hsz, if_neg hout, mainposition_one ops _ rfl]
  have hsn : sizenode (sparsetab (TValue.number (ops.cast_num k)) v) = 1 := rfl
  rw [hsn]
  simp [get_loop, sparsetab, gnode, luaV_rawequalobj,
    numeq_cast_ne hL k 1 hki h1i (by omega)]

/-- The length of the table that holds one integer key above 1 is 0. -/
theorem sparsetab_getn {N : Type} {ops : LuaConf N} (hL : ops.Lawful) (k : Int)
    (h2 : 2 ≤ k) (hk : k ≤ 2147483647) (v : TValue N) :
    luaH_getn ops (sparsetab (.number (ops.cast_num k)) v) = .ok 0 := by
  have h1i : cast_int ((1 : Nat) : Int) = 1 := by decide
  have hg := sparsetab_getint_one hL k h2 hk v
  unfold luaH_getn
  have hsz : (sparsetab (TValue.number (ops.cast_num k)) v).sizearray = 0 := rfl
  have hd : (sparsetab (TValue.number (ops.cast_num k)) v).isdummy = false := rfl
  have hu : cast_unsigned ((0 : Nat) : Int) = 0 := by decide
  simp only [hsz, hd, hu, gt_iff_lt, lt_irrefl, false_and, if_false, Bool.false_eq_true]
  unfold unbound_search
  have e1 : (0 + 1) % 4294967296 = 1 := by decide
  rw [e1]
  rw [unbound_double]
  simp only [h1i, hg, Table.read, ttisnil, Bool.not_true, Bool.false_eq_true, if_false]
  rw [unbound_binsearch]
  have e2 : ¬ ((1 + 4294967296 - 0) % 4294967296 > 1) := by decide
  rw [if_neg e2]
  decide

/-! ## Sequences: beyond `MAXASIZE` -/

/-- The `rehash` on a full array part of `MAXASIZE` slots: the next key is not counted
for the array part, which keeps its size, and gets a hash part of one node. -/
theorem seqtab_rehash_overflow {N : Type} [DecidableEq N] {ops : LuaConf N} (hL : ops.Lawful)
    (nk : Table N → TValue N → Except Err (Table N × Cell)) (vs : List (TValue N))
    (hv : ∀ v ∈ vs, ttisnil v = false) (hlen : vs.length = 1073741824) :
    rehash_with ops nk (seqtab vs vs.length) (.number (ops.cast_num 1073741825)) =
      .ok (mixtab vs vs.length dummynode_) := by
  have hsz : (seqtab vs vs.length).sizearray ≤ 1073741824 := by
    show vs.length ≤ 1073741824
    omega
  obtain ⟨hA1, -, hA3, -⟩ := numusearray_spec (seqtab vs vs.length) hsz
  have hcnt : arraycount (seqtab vs vs.length) 0 (seqtab vs vs.length).sizearray = vs.length :=
    seqtab_arraycount vs hv _ _ (le_refl _)
  rw [hcnt] at hA1
  have hE30 := numusearray_exact (seqtab vs vs.length) hsz 30
  have hE29 := numusearray_exact (seqtab vs vs.length) hsz 29
  have hm30 : min (seqtab vs vs.length).sizearray (2 ^ 30) = vs.length := by
    show min vs.length (2 ^ 30) = vs.length
    rw [hlen]; norm_num
  have hm29 : min (seqtab vs vs.length).sizearray (2 ^ 29) = 536870912 := by
    show min vs.length (2 ^ 29) = 536870912
    rw [hlen]; norm_num
  rw [hm30, seqtab_arraycount vs hv _ _ (le_refl _)] at hE30
  rw [hm29, seqtab_arraycount vs hv _ _ (by omega)] at hE29
  generalize hnums : (numusearray (seqtab vs vs.length) (List.replicate (MAXBITS + 1) 0)).2 =
    nums1 at hA3 hE30 hE29
  have e1 : numusearray (seqtab vs vs.length) (List.replicate (MAXBITS + 1) 0) =
      (vs.length, nums1) := Prod.ext hA1 hnums
  have hpos : 0 < nums1.getD 30 0 := by
    have hs : (nums1.take (30 + 1)).sum = (nums1.take 30).sum + nums1.getD 30 0 := by
      rw [List.take_succ, List.sum_append, List.getD_eq_getElem?_getD,
        List.getElem?_eq_getElem (by omega)]
      simp
    have h29 : (nums1.take 30).sum = 536870912 := hE29
    omega
  have e4 : computesizes nums1 (vs.length + 0) = .ok (vs.length + 0, 2 ^ 30) :=
    computesizes_exact nums1 (vs.length + 0) 30 (by omega) (by rw [hE30]; rfl) hpos
      (by rw [hlen]; norm_num)
  rw [rehash_with_eq ops nk _ _ vs.length 0 vs.length 0 (vs.length + 0) (2 ^ 30) nums1 nums1
    nums1 e1 (seqtab_numusehash ops vs _ _ _)
    (countint_big hL 1073741825 (by omega) (by omega) _) e4]
  have h30 : 2 ^ 30 = vs.length := by rw [hlen]; norm_num
  have h1 : vs.length + 0 + 1 - (vs.length + 0) = 1 := by omega
  rw [h30, h1]
  exact seqtab_resize_node ops nk vs

/-- The key after a full array part of `MAXASIZE` slots goes to the hash part. -/
theorem seqtab_setint_overflow {N : Type} [DecidableEq N] {ops : LuaConf N} (hL : ops.Lawful)
    (d : Nat) (vs : List (TValue N)) (hv : ∀ v ∈ vs, ttisnil v = false) (w : TValue N)
    (hlen : vs.length = 1073741824) :
    luaH_setint ops (d + 1) (seqtab vs vs.length) 1073741825 w =
      .ok (mixtab vs vs.length
        { i_val := w, i_key := .number (ops.cast_num 1073741825), next := none }) := by
  have hk : cast_int 1073741825 = 1073741825 := by decide
  have hvk := validkey_cast hL 1073741825
  have hout : ¬ ((0 : Int) < 1073741825 ∧ (1073741825 : Int) ≤ (vs.length : Int)) := by omega
  unfold luaH_setint luaH_setint_with
  rw [seqtab_getint hL vs vs.length (by omega) _ hk, if_neg hout]
  simp only [ne_eq, not_true_eq_false, if_false]
  rw [luaH_newkey_unfold ops (d + 1) _ _ hvk, mainposition_one ops _ rfl, seqtab_gnode]
  have hcond : (!ttisnil (dummynode_ : Node N).i_val ||
      ((seqtab vs vs.length).isdummy && (0 : Nat) == 0)) = true := by
    simp [seqtab]
  rw [if_pos hcond, getfreepos_seqtab]
  simp only [newkey_rehash]
  rw [seqtab_rehash_overflow hL _ vs hv hlen]
  simp only []
  rw [mixtab_set_free hL d vs vs.length (by omega) 1073741825 hk hout]
  simp only []
  rw [mixtab_write]

theorem seqfill_from_append {N : Type} [DecidableEq N] (ops : LuaConf N) (d : Nat)
    (w : TValue N) : ∀ (ws : List (TValue N)) (k : Int) (t : Table N),
    seqfill_from ops d (ws ++ [w]) k t =
      match seqfill_from ops d ws k t with
      | .error e => .error e
      | .ok t1 => luaH_setint ops d t1 (k + (ws.length : Int)) w := by
  intro ws
  induction ws with
  | nil =>
    intro k t
    simp only [List.nil_append, seqfill_from, List.length_nil, Nat.cast_zero, add_zero]
    cases luaH_setint ops d t k w <;> rfl
  | cons v ws ih =>
    intro k t
    simp only [List.cons_append, seqfill_from, List.length_cons]
    cases luaH_setint ops d t k v with
    | error e => rfl
    | ok t1 =>
      simp only []
      refine Eq.trans (ih (k + 1) t1) ?_
      have : k + 1 + (ws.length : Int) = k + ((ws.length + 1 : Nat) : Int) := by
        push_cast; ring
      rw [this]

/-- The sequence of `MAXASIZE + 1` values: the last one goes to a hash part of one node,
and the array part keeps `MAXASIZE` slots. -/
theorem seqfill_overflow {N : Type} [DecidableEq N] {ops : LuaConf N} (hL : ops.Lawful)
    (d : Nat) (vs : List (TValue N)) (hv : ∀ v ∈ vs, ttisnil v = false) (w : TValue N)
    (hlen : vs.length = 1073741824) :
    seqfill ops (d + 1) (vs ++ [w]) = .ok (mixtab vs 1073741824
      { i_val := w, i_key := .number (ops.cast_num 1073741825), next := none }) := by
  obtain ⟨size1, h1, h2, -⟩ := seqfill_from_spec hL d vs [] 0 (by simp) hv
    (Or.inl ⟨rfl, rfl⟩) (by simp; omega) (by rw [← luaH_new_eq_seqtab]; exact Reachable.new)
  have hs : size1 = vs.length := by
    simp only [List.nil_append] at h2
    rcases h2 with ⟨h0, -⟩ | ⟨j, hj, hsj, -, hle, -⟩
    · omega
    · have hj30 : j = 30 := by
        by_contra hc
        have : 2 ^ j ≤ 2 ^ 29 := Nat.pow_le_pow_right (by norm_num) (by omega)
        norm_num at this
        omega
      rw [hsj, hj30, hlen]; norm_num
  unfold seqfill
  rw [seqfill_from_append, luaH_new_eq_seqtab]
  simp only [List.length_nil, Nat.cast_zero, zero_add, List.nil_append] at h1
  rw [h1]
  simp only []
  have hkey : (1 : Int) + (vs.length : Int) = 1073741825 := by rw [hlen]; norm_num
  rw [hkey, hs, seqtab_setint_overflow hL d vs hv w hlen, hlen]

/-! ## Rehash: sizes, density and capacity -/

theorem inv_brentok {N : Type} {ops : LuaConf N} (t : Table N) (hI : Inv ops t) :
    BrentOk ops t :=
  fun i hi hk => ⟨hI.reach i hi hk, fun _ => hI.brent i hi hk⟩

theorem reachable_exfree4 : Reachable intConf exfree4 :=
  Reachable.resize 0 luaH_new exfree4 0 4 Reachable.new (by decide) (by decide)

theorem reachable_ex3 : Reachable intConf ex3 :=
  Reachable.set 0 exfree4 (ex3.write (.val 0) .nil) (exnum 3) (exnum 7) (.val 0) reachable_exfree4
    (by decide) (by decide)

theorem reachable_ex36 : Reachable intConf ex36 :=
  Reachable.set 0 ex3 (ex36.write (.val 3) .nil) (exnum 6) (exnum 8) (.val 3) reachable_ex3
    (by decide) (by decide)

theorem reachable_ex369 : Reachable intConf ex369 :=
  Reachable.set 0 ex36 (ex369.write (.val 2) .nil) (exnum 9) (exnum 5) (.val 2) reachable_ex36
    (by decide) (by decide)

/-- The choice that `computesizes` makes among the slices below `i`: the last slice `j`
with a count and with more than `2^j / 2` keys up to `2^j`, if there is one. -/
theorem computesizes_char (nums : List Nat) (hlen : nums.length = 31) :
    ∃ na n i, computesizes nums nums.sum = .ok (na, n) ∧ i ≤ 31 ∧
      ((n = 0 ∧ na = 0 ∧
          ∀ j, j < i → 0 < nums.getD j 0 → ¬ 2 ^ j / 2 < (nums.take (j + 1)).sum) ∨
        (∃ j, j < i ∧ n = 2 ^ j ∧ na = (nums.take (j + 1)).sum ∧ 2 ^ j / 2 < na ∧
          ∀ m, j < m → m < i → 0 < nums.getD m 0 → ¬ 2 ^ m / 2 < (nums.take (m + 1)).sum)) ∧
      (nums.sum ≤ 2 ^ i / 2 ∨ (nums.take i).sum = nums.sum) := by
  have key : ∀ (fuel i twotoi a na n : Nat), twotoi = 2 ^ i → fuel + i = 32 → i ≤ 30 →
      a = (nums.take i).sum →
      ((n = 0 ∧ na = 0 ∧
          ∀ j, j < i → 0 < nums.getD j 0 → ¬ 2 ^ j / 2 < (nums.take (j + 1)).sum) ∨
        (∃ j, j < i ∧ n = 2 ^ j ∧ na = (nums.take (j + 1)).sum ∧ 2 ^ j / 2 < na ∧
          ∀ m, j < m → m < i → 0 < nums.getD m 0 →
            ¬ 2 ^ m / 2 < (nums.take (m + 1)).sum)) →
      ∃ na1 n1 i1, computesizes_loop nums nums.sum fuel i twotoi a na n = .ok (na1, n1) ∧
        i1 ≤ 31 ∧
        ((n1 = 0 ∧ na1 = 0 ∧
            ∀ j, j < i1 → 0 < nums.getD j 0 → ¬ 2 ^ j / 2 < (nums.take (j + 1)).sum) ∨
          (∃ j, j < i1 ∧ n1 = 2 ^ j ∧ na1 = (nums.take (j + 1)).sum ∧ 2 ^ j / 2 < na1 ∧
            ∀ m, j < m → m < i1 → 0 < nums.getD m 0 →
              ¬ 2 ^ m / 2 < (nums.take (m + 1)).sum)) ∧
        (nums.sum ≤ 2 ^ i1 / 2 ∨ (nums.take i1).sum = nums.sum) := by
    intro fuel
    induction fuel with
    | zero => intro i twotoi a na n _ h; omega
    | succ fuel ih =>
      intro i twotoi a na n h2 hf hi ha hgood
      simp only [computesizes_loop]
      by_cases hc : twotoi / 2 < nums.sum
      · rw [if_pos hc]
        have hget : nums.get? i = some (nums.getD i 0) := by
          rw [List.get?_eq_getElem?, List.getD_eq_getElem?_getD]
          have : i < nums.length := by omega
          rw [List.getElem?_eq_getElem this]
          rfl
        rw [hget]
        simp only []
        have ha1 : (if nums.getD i 0 > 0 then a + nums.getD i 0 else a) =
            (nums.take (i + 1)).sum := by
          have : (nums.take (i + 1)).sum = (nums.take i).sum + nums.getD i 0 := by
            have hil : i < nums.length := by omega
            rw [List.take_succ, List.sum_append, List.getD_eq_getElem?_getD]
            rw [List.getElem?_eq_getElem hil]
            simp
          rw [this, ha]
          split <;> omega
        rw [ha1]
        have hgood1 : (((if nums.getD i 0 > 0 ∧ (nums.take (i + 1)).sum > twotoi / 2
              then twotoi else n) = 0 ∧
            (if nums.getD i 0 > 0 ∧ (nums.take (i + 1)).sum > twotoi / 2
              then (nums.take (i + 1)).sum else na) = 0 ∧
            ∀ j, j < i + 1 → 0 < nums.getD j 0 →
              ¬ 2 ^ j / 2 < (nums.take (j + 1)).sum) ∨
            ∃ j, j < i + 1 ∧ (if nums.getD i 0 > 0 ∧ (nums.take (i + 1)).sum > twotoi / 2
              then twotoi else n) = 2 ^ j ∧
            (if nums.getD i 0 > 0 ∧ (nums.take (i + 1)).sum > twotoi / 2
              then (nums.take (i + 1)).sum else na) = (nums.take (j + 1)).sum ∧
            2 ^ j / 2 < (if nums.getD i 0 > 0 ∧ (nums.take (i + 1)).sum > twotoi / 2
              then (nums.take (i + 1)).sum else na) ∧
            ∀ m, j < m → m < i + 1 → 0 < nums.getD m 0 →
              ¬ 2 ^ m / 2 < (nums.take (m + 1)).sum) := by
          by_cases hx : nums.getD i 0 > 0 ∧ (nums.take (i + 1)).sum > twotoi / 2
          · rw [if_pos hx, if_pos hx]
            refine Or.inr ⟨i, by omega, h2, rfl, ?_, ?_⟩
            · rw [← h2]; exact hx.2
            · intro m h1 h3; omega
          · rw [if_neg hx, if_neg hx]
            have hnew : 0 < nums.getD i 0 → ¬ 2 ^ i / 2 < (nums.take (i + 1)).sum := by
              intro hp hq
              rw [← h2] at hq
              exact hx ⟨hp, hq⟩
            rcases hgood with ⟨g1, g2, g3⟩ | ⟨j, g1, g2, g3, g4, g5⟩
            · refine Or.inl ⟨g1, g2, ?_⟩
              intro j hj
              by_cases e : j = i
              · rw [e]; exact hnew
              · exact g3 j (by omega)
            · refine Or.inr ⟨j, by omega, g2, g3, g4, ?_⟩
              intro m hm1 hm2
              by_cases e : m = i
              · rw [e]; exact hnew
              · exact g5 m hm1 (by omega)
        by_cases hbrk : (nums.take (i + 1)).sum = nums.sum
        · rw [if_pos hbrk]
          exact ⟨_, _, i + 1, rfl, by omega, hgood1, Or.inr hbrk⟩
        · rw [if_neg hbrk]
          have hi30 : i < 30 := by
            by_contra h30
            have : i = 30 := by omega
            subst this
            apply hbrk
            rw [List.take_of_length_le (by omega)]
          exact ih (i + 1) (twotoi * 2) _ _ _ (by rw [h2, pow_succ]) (by omega) (by omega)
            rfl hgood1
      · rw [if_neg hc]
        refine ⟨_, _, i, rfl, by omega, hgood, Or.inl ?_⟩
        rw [← h2]
        omega
  unfold computesizes
  rw [hlen]
  exact key 32 0 1 0 0 0 rfl rfl (by omega) (by simp)
    (Or.inl ⟨rfl, rfl, fun j hj => absurd hj (Nat.not_lt_zero j)⟩)

theorem nodecount_reverse {N : Type} (t : Table N) (P : TValue N → Bool) (l : List Nat) :
    nodecount t P l.reverse = nodecount t P l := by
  unfold nodecount
  exact (List.reverse_perm _).countP_eq _

/-- The sizes that `rehash` hands to `luaH_resize`: the array size `n` is 0 or a power of
two of which more than half is counted in `na`, `na` counts no more than the integer keys
of `1..n` with a non-nil value and the key `ek`, and the hash size is the number of entries
plus one, less `na`. -/
theorem rehash_sizes {N : Type} [DecidableEq N] (ops : LuaConf N)
    (nk : Table N → TValue N → Except Err (Table N × Cell))
    (t : Table N) (hI : Inv ops t) (ek : TValue N) :
    ∃ na n, rehash_with ops nk t ek =
        luaH_resize_with ops nk t n (numentries t + 1 - na) ∧
      n ≤ 1073741824 ∧
      na ≤ arraycount t 0 (min t.sizearray n) +
        nodecount t (fun k => intkey_le ops k n) (List.range (sizenode t)) +
        (if intkey_le ops ek n = true then 1 else 0) ∧
      (n = 0 ∨ n < 2 * na) := by
  have hsz : t.sizearray ≤ 2 ^ 30 := hI.asize_le
  norm_num at hsz
  unfold rehash_with
  simp only []
  obtain ⟨a1, a2, a3, a4⟩ := numusearray_spec t hsz
  generalize numusearray t (List.replicate (MAXBITS + 1) 0) = r1 at a1 a2 a3 a4 ⊢
  unfold numusehash
  simp only []
  obtain ⟨b1, b2, b3, b4⟩ := numusehash_fold_spec ops t (List.range (sizenode t)).reverse
    (0, 0, r1.2) a3
  simp only [zero_add, Nat.add_zero] at b1 b3
  generalize List.foldl (numusehash_step ops t) (0, 0, r1.2)
    (List.range (sizenode t)).reverse = r at b1 b2 b3 b4 ⊢
  obtain ⟨c1, c2, c3⟩ := countint_spec ops ek r.2.2 b2
  have c4 := countint_length ops ek r.2.2
  generalize countint ops ek r.2.2 = c at c1 c2 c3 c4 ⊢
  have hnas : r1.1 + r.2.1 + c.1 = c.2.sum := by omega
  rw [hnas]
  obtain ⟨na, n, i, hcs, _, hbest, _⟩ := computesizes_char c.2 (by rw [c4, b2])
  rw [hcs]
  simp only []
  have htot : r1.1 + r.1 + 1 = numentries t + 1 := by
    unfold numentries
    rw [a1, b1, nodecount_reverse]
  rw [htot]
  refine ⟨na, n, rfl, ?_, ?_, ?_⟩
  · rcases hbest with ⟨h, _⟩ | ⟨j, hj, h, _⟩
    · omega
    · rw [h]
      calc 2 ^ j ≤ 2 ^ 30 := Nat.pow_le_pow_right (by norm_num) (by omega)
        _ = 1073741824 := by norm_num
  · rcases hbest with ⟨_, h, _⟩ | ⟨j, _, h1, h2, _⟩
    · omega
    · rw [h2, h1]
      have hc3 := c3 j
      have hb4 := b4 j
      have ha4 := a4 j
      simp only [] at hb4
      rw [nodecount_reverse] at hb4
      omega
  · rcases hbest with ⟨h, _⟩ | ⟨j, _, h1, _, h3, _⟩
    · exact Or.inl h
    · right
      rw [h1]
      have hp : 2 ^ j ≤ 2 * (2 ^ j / 2) + 1 := by omega
      omega

theorem getval_intkey_array {N : Type} {ops : LuaConf N} (hL : ops.Lawful) (t : Table N)
    (hI : Inv ops t) (i : Nat) (hi : i < t.sizearray) :
    getval ops t (.number (ops.cast_num ((1 + i : Nat) : Int))) = t.array.getD i .nil := by
  have hsz : t.sizearray ≤ 2 ^ 30 := hI.asize_le
  norm_num at hsz
  have hc : cast_int ((1 + i : Nat) : Int) = ((1 + i : Nat) : Int) :=
    cast_int_of_range _ (by constructor <;> omega)
  have ha := arrayindex_cast hL _ hc
  have e : (((1 + i : Nat) : Int) - 1).toNat = i := by omega
  rw [getval_array hL t hI.asize_le _ (by rw [ha]; constructor <;> omega), ha, e]

/-- The non-nil slots of an array part are the integer keys of its range that read a
non-nil value. -/
theorem arraycount_eq_intcount {N : Type} {ops : LuaConf N} (hL : ops.Lawful) (t : Table N)
    (hI : Inv ops t) (n : Nat) (hn : n ≤ t.sizearray) :
    arraycount t 0 n = intcount ops t n := by
  unfold arraycount intcount
  have h : List.range' 1 n = (List.range' 0 n).map (fun x => 1 + x) := by
    rw [List.map_add_range']
  rw [Nat.sub_zero, h, List.countP_map]
  apply List.countP_congr
  intro i hi
  rw [List.mem_range'_1] at hi
  simp only [Function.comp]
  rw [getval_intkey_array hL t hI i (by omega)]

theorem intcount_split {N : Type} (ops : LuaConf N) (t : Table N) (a n : Nat) (h : a ≤ n) :
    intcount ops t n = intcount ops t a +
      (List.range' (1 + a) (n - a)).countP
        (fun (m : Nat) => !ttisnil (getval ops t (.number (ops.cast_num (m : Int))))) := by
  unfold intcount
  have h1 : List.range' 1 n = List.range' 1 a ++ List.range' (1 + a) (n - a) := by
    have := List.range'_append 1 a (n - a) 1
    simp only [one_mul] at this
    rw [show n - a + a = n by omega] at this
    exact this.symm
  rw [h1, List.countP_append]

theorem intcount_le {N : Type} (ops : LuaConf N) (t : Table N) (n : Nat) :
    intcount ops t n ≤ n := by
  unfold intcount
  have := List.countP_le_length
    (fun (m : Nat) => !ttisnil (getval ops t (.number (ops.cast_num (m : Int)))))
    (l := List.range' 1 n)
  rw [List.length_range'] at this
  exact this

/-- A key of `1..n` that reads nil leaves one of the `n` integers out of the count. -/
theorem intcount_lt_of_nil {N : Type} {ops : LuaConf N} (hL : ops.Lawful) (t : Table N)
    (hI : Inv ops t) (n : Nat) (hn : n ≤ 1073741824) (ek : TValue N)
    (hint : intkey_le ops ek n = true) (hnil : getval ops t ek = .nil) :
    intcount ops t n + 1 ≤ n := by
  have harr : 0 < arrayindex ops ek ∧ arrayindex ops ek ≤ (n : Int) := by
    by_contra hc
    rw [(intkey_le_false_iff ops ek n).2 hc] at hint
    cases hint
  obtain ⟨m, hm⟩ : ∃ m : Nat, (m : Int) = arrayindex ops ek :=
    ⟨(arrayindex ops ek).toNat, by omega⟩
  have hc : cast_int (m : Int) = (m : Int) := cast_int_of_range _ (by constructor <;> omega)
  have hreq : luaV_rawequalobj ops ek (.number (ops.cast_num (m : Int))) = true :=
    rawequal_of_arrayindex hL ek _ harr.1 (by rw [arrayindex_cast hL _ hc, hm])
  have hval : getval ops t (.number (ops.cast_num (m : Int))) = .nil := by
    unfold getval at hnil ⊢
    rw [luaH_get_rawequal hL t hI ek _ hreq]
    exact hnil
  unfold intcount
  have hmem : m ∈ List.range' 1 n := by
    rw [List.mem_range'_1]
    omega
  have hlt : (List.range' 1 n).countP
      (fun (m : Nat) => !ttisnil (getval ops t (.number (ops.cast_num (m : Int))))) <
      (List.range' 1 n).length := by
    rw [List.countP_eq_length_filter]
    apply List.length_filter_lt_length_iff_exists.2
    exact ⟨m, hmem, by rw [hval]; simp [ttisnil]⟩
  rw [List.length_range'] at hlt
  omega

theorem intkey_node_range {N : Type} {ops : LuaConf N} (t : Table N) (hI : Inv ops t)
    (n j : Nat) (hj : j < sizenode t)
    (hp : (!ttisnil (gnode t j).i_val && intkey_le ops (gnode t j).i_key n) = true) :
    (gnode t j).i_val ≠ .nil ∧ (t.sizearray : Int) < arrayindex ops (gnode t j).i_key ∧
      arrayindex ops (gnode t j).i_key ≤ (n : Int) := by
  rw [Bool.and_eq_true] at hp
  have hv : (gnode t j).i_val ≠ .nil := by
    intro e
    rw [e] at hp
    simp [ttisnil] at hp
  have harr : 0 < arrayindex ops (gnode t j).i_key ∧
      arrayindex ops (gnode t j).i_key ≤ (n : Int) := by
    by_contra hc
    rw [(intkey_le_false_iff ops _ n).2 hc] at hp
    exact absurd hp.2 (by simp)
  have hd := hI.array_disjoint j hj (key_ne_nil_of_val hI j hj hv)
  exact ⟨hv, by omega, harr.2⟩

/-- The nodes with a non-nil value and an integer key of `1..n` are read under as many
integer keys above the array part. -/
theorem nodecount_le_intkeys {N : Type} {ops : LuaConf N} (hL : ops.Lawful) (t : Table N)
    (hI : Inv ops t) (n : Nat) (hn : n ≤ 1073741824) :
    nodecount t (fun k => intkey_le ops k n) (List.range (sizenode t)) ≤
      (List.range' (1 + t.sizearray) (n - t.sizearray)).countP
        (fun (m : Nat) => !ttisnil (getval ops t (.number (ops.cast_num (m : Int))))) := by
  unfold nodecount
  rw [List.countP_eq_length_filter, List.countP_eq_length_filter]
  rw [← List.toFinset_card_of_nodup ((List.nodup_range _).filter _),
    ← List.toFinset_card_of_nodup ((List.nodup_range' _ _).filter _)]
  apply Finset.card_le_card_of_injOn (fun j => (arrayindex ops (gnode t j).i_key).toNat)
  · intro j hj
    rw [List.mem_toFinset, List.mem_filter, List.mem_range] at hj
    obtain ⟨hv, h1, h2⟩ := intkey_node_range t hI n j hj.1 hj.2
    rw [List.mem_toFinset, List.mem_filter, List.mem_range'_1]
    have hcast : (((arrayindex ops (gnode t j).i_key).toNat : Nat) : Int) =
        arrayindex ops (gnode t j).i_key := by omega
    refine ⟨by omega, ?_⟩
    rw [hcast]
    have hc : cast_int (arrayindex ops (gnode t j).i_key) = arrayindex ops (gnode t j).i_key :=
      cast_int_of_range _ (by constructor <;> omega)
    have ha := arrayindex_cast hL _ hc
    have hreq : luaV_rawequalobj ops (gnode t j).i_key
        (.number (ops.cast_num (arrayindex ops (gnode t j).i_key))) = true :=
      rawequal_of_arrayindex hL _ _ (by omega) ha
    have hg := (getval_hash_some hL t hI
      (.number (ops.cast_num (arrayindex ops (gnode t j).i_key))) rfl
      (by rw [ha]; omega) j hj.1 hreq).2
    rw [hg]
    cases hval : (gnode t j).i_val <;> simp [ttisnil]
    exact hv hval
  · intro j hj j1 hj1 he
    rw [Finset.mem_coe, List.mem_toFinset, List.mem_filter, List.mem_range] at hj hj1
    obtain ⟨hv, h1, h2⟩ := intkey_node_range t hI n j hj.1 hj.2
    obtain ⟨hv1, h3, h4⟩ := intkey_node_range t hI n j1 hj1.1 hj1.2
    simp only [] at he
    have he1 : arrayindex ops (gnode t j1).i_key = arrayindex ops (gnode t j).i_key := by
      omega
    exact hI.nodup j j1 hj.1 hj1.1 (key_ne_nil_of_val hI j hj.1 hv)
      (rawequal_of_arrayindex hL _ _ (by omega) he1)

/-- The count of `rehash` for an array part of `n` slots is at most the number of integer
keys of `1..n` that read a non-nil value. -/
theorem keycount_le_intcount {N : Type} {ops : LuaConf N} (hL : ops.Lawful) (t : Table N)
    (hI : Inv ops t) (n : Nat) (hn : n ≤ 1073741824) :
    arraycount t 0 (min t.sizearray n) +
      nodecount t (fun k => intkey_le ops k n) (List.range (sizenode t)) ≤
      intcount ops t n := by
  by_cases hle : n ≤ t.sizearray
  · rw [show min t.sizearray n = n by omega, arraycount_eq_intcount hL t hI n hle]
    have h0 : nodecount t (fun k => intkey_le ops k n) (List.range (sizenode t)) = 0 := by
      unfold nodecount
      rw [List.countP_eq_zero]
      intro j hj hp
      rw [List.mem_range] at hj
      obtain ⟨_, h1, h2⟩ := intkey_node_range t hI n j hj hp
      omega
    omega
  · rw [show min t.sizearray n = t.sizearray by omega,
      arraycount_eq_intcount hL t hI t.sizearray (le_refl _),
      intcount_split ops t t.sizearray n (by omega)]
    have := nodecount_le_intkeys hL t hI n hn
    omega

/-! ## The nesting depth of the model does not change a result -/

theorem luaH_set_with_mono {N : Type} (ops : LuaConf N)
    (nk nk1 : Table N → TValue N → Except Err (Table N × Cell))
    (hm : ∀ t k, nk t k ≠ .error .depth → nk1 t k = nk t k) (t : Table N) (k : TValue N)
    (h : luaH_set_with ops nk t k ≠ .error .depth) :
    luaH_set_with ops nk1 t k = luaH_set_with ops nk t k := by
  unfold luaH_set_with at h ⊢
  cases hg : luaH_get ops t k with
  | error e => rfl
  | ok p =>
    rw [hg] at h
    simp only [] at h ⊢
    by_cases hp : p ≠ .nilobject
    · rw [if_pos hp, if_pos hp]
    · rw [if_neg hp] at h ⊢
      rw [if_neg hp]
      exact hm t k h

theorem luaH_setint_with_mono {N : Type} (ops : LuaConf N)
    (nk nk1 : Table N → TValue N → Except Err (Table N × Cell))
    (hm : ∀ t k, nk t k ≠ .error .depth → nk1 t k = nk t k) (t : Table N) (key : Int)
    (v : TValue N) (h : luaH_setint_with ops nk t key v ≠ .error .depth) :
    luaH_setint_with ops nk1 t key v = luaH_setint_with ops nk t key v := by
  unfold luaH_setint_with at h ⊢
  cases hg : luaH_getint ops t key with
  | error e => rfl
  | ok p =>
    rw [hg] at h
    simp only [] at h ⊢
    by_cases hp : p ≠ .nilobject
    · rw [if_pos hp, if_pos hp]
    · rw [if_neg hp] at h ⊢
      rw [if_neg hp]
      have h1 : nk t (.number (ops.cast_num key)) ≠ .error .depth := by
        intro e
        rw [e] at h
        exact h rfl
      rw [hm t _ h1]

theorem resize_evict_mono {N : Type} [DecidableEq N] (ops : LuaConf N)
    (nk nk1 : Table N → TValue N → Except Err (Table N × Cell))
    (hm : ∀ t k, nk t k ≠ .error .depth → nk1 t k = nk t k) (t : Table N) (i : Nat)
    (h : resize_evict ops nk t i ≠ .error .depth) :
    resize_evict ops nk1 t i = resize_evict ops nk t i := by
  unfold resize_evict at h ⊢
  cases hg : t.array.get? i with
  | none => rfl
  | some v =>
    rw [hg] at h
    simp only [] at h ⊢
    by_cases hv : (!ttisnil v) = true
    · rw [if_pos hv] at h ⊢
      rw [if_pos hv]
      have h1 : luaH_setint_with ops nk t (i + 1) v ≠ .error .depth := by
        intro e
        rw [e] at h
        exact h rfl
      rw [luaH_setint_with_mono ops nk nk1 hm t _ v h1]
    · rw [if_neg hv, if_neg hv]

theorem resize_reinsert_mono {N : Type} (ops : LuaConf N)
    (nk nk1 : Table N → TValue N → Except Err (Table N × Cell))
    (hm : ∀ t k, nk t k ≠ .error .depth → nk1 t k = nk t k) (nold : List (Node N))
    (t : Table N) (i : Nat) (h : resize_reinsert ops nk nold t i ≠ .error .depth) :
    resize_reinsert ops nk1 nold t i = resize_reinsert ops nk nold t i := by
  unfold resize_reinsert at h ⊢
  by_cases hv : (!ttisnil (nold.getD i dummynode_).i_val) = true
  · rw [if_pos hv] at h ⊢
    rw [if_pos hv]
    have h1 : luaH_set_with ops nk t (nold.getD i dummynode_).i_key ≠ .error .depth := by
      intro e
      rw [e] at h
      exact h rfl
    rw [luaH_set_with_mono ops nk nk1 hm t _ h1]
  · rw [if_neg hv, if_neg hv]

theorem foldlM_mono {α β : Type} (f f1 : β → α → Except Err β)
    (hm : ∀ b a, f b a ≠ .error .depth → f1 b a = f b a) :
    ∀ (l : List α) (b : β), l.foldlM f b ≠ .error .depth → l.foldlM f1 b = l.foldlM f b := by
  intro l
  induction l with
  | nil => intro b _; rfl
  | cons x l ih =>
    intro b h
    rw [foldlM_cons_except] at h ⊢
    rw [foldlM_cons_except]
    have h1 : f b x ≠ .error .depth := by
      intro e
      rw [e] at h
      exact h rfl
    rw [hm b x h1]
    cases hf : f b x with
    | error e => rfl
    | ok b1 =>
      rw [hf] at h
      exact ih b1 h

theorem luaH_resize_with_mono {N : Type} [DecidableEq N] (ops : LuaConf N)
    (nk nk1 : Table N → TValue N → Except Err (Table N × Cell))
    (hm : ∀ t k, nk t k ≠ .error .depth → nk1 t k = nk t k) (t : Table N) (na nh : Nat)
    (h : luaH_resize_with ops nk t na nh ≠ .error .depth) :
    luaH_resize_with ops nk1 t na nh = luaH_resize_with ops nk t na nh := by
  unfold luaH_resize_with at h ⊢
  simp only [] at h ⊢
  cases hs : setnodevector (if na > t.sizearray then setarrayvector t na else t) nh with
  | error e => rfl
  | ok t2 =>
    rw [hs] at h
    simp only [] at h ⊢
    by_cases hlt : na < t.sizearray
    · rw [if_pos hlt] at h ⊢
      rw [if_pos hlt]
      have h1 : (List.range' na (t.sizearray - na)).foldlM (resize_evict ops nk)
          { t2 with sizearray := na } ≠ .error .depth := by
        intro e
        rw [e] at h
        exact h rfl
      rw [foldlM_mono _ _ (resize_evict_mono ops nk nk1 hm) _ _ h1]
      cases hf : (List.range' na (t.sizearray - na)).foldlM (resize_evict ops nk)
          { t2 with sizearray := na } with
      | error e => rfl
      | ok t3 =>
        rw [hf] at h
        simp only [] at h ⊢
        exact foldlM_mono _ _ (resize_reinsert_mono ops nk nk1 hm t.node) _ _ h
    · rw [if_neg hlt] at h ⊢
      rw [if_neg hlt]
      simp only [] at h ⊢
      exact foldlM_mono _ _ (resize_reinsert_mono ops nk nk1 hm t.node) _ _ h

theorem rehash_with_mono {N : Type} [DecidableEq N] (ops : LuaConf N)
    (nk nk1 : Table N → TValue N → Except Err (Table N × Cell))
    (hm : ∀ t k, nk t k ≠ .error .depth → nk1 t k = nk t k) (t : Table N) (ek : TValue N)
    (h : rehash_with ops nk t ek ≠ .error .depth) :
    rehash_with ops nk1 t ek = rehash_with ops nk t ek := by
  unfold rehash_with at h ⊢
  simp only [] at h ⊢
  generalize computesizes _ _ = cs at h ⊢
  cases cs with
  | error e => rfl
  | ok r =>
    obtain ⟨na, n⟩ := r
    simp only [] at h ⊢
    exact luaH_resize_with_mono ops nk nk1 hm t _ _ h

theorem luaH_newkey_eq {N : Type} [DecidableEq N] (ops : LuaConf N) (d : Nat)
    (t : Table N) (k : TValue N) :
    luaH_newkey ops d t k =
      if ttisnil k then .error (.runerror .index_is_nil)
      else if isnankey ops k then .error (.runerror .index_is_NaN)
      else if (!ttisnil (gnode t (mainposition ops t k)).i_val ||
          (t.isdummy && mainposition ops t k == 0)) = true then
        match getfreepos t with
        | (t0, none) => newkey_rehash ops d t0 k
        | (t0, some n) =>
          if mainposition ops t0 (gnode t0 (mainposition ops t k)).i_key ≠ mainposition ops t k then
            match findprev t0 (mainposition ops t k) (sizenode t0)
                (mainposition ops t0 (gnode t0 (mainposition ops t k)).i_key) with
            | .error e => .error e
            | .ok prev => .ok (newkey_move t0 (mainposition ops t k) n prev k,
                .val (mainposition ops t k))
          else .ok (newkey_chain t0 (mainposition ops t k) n k, .val n)
      else
        .ok (setnode t (mainposition ops t k)
          { gnode t (mainposition ops t k) with i_key := k }, .val (mainposition ops t k)) := by
  cases k <;> cases d <;>
  · unfold luaH_newkey
    rfl

theorem newkey_rehash_mono {N : Type} [DecidableEq N] (ops : LuaConf N) (d : Nat)
    (ih : ∀ t k, luaH_newkey ops d t k ≠ .error .depth →
      luaH_newkey ops (d + 1) t k = luaH_newkey ops d t k)
    (t : Table N) (k : TValue N) (h : newkey_rehash ops (d + 1) t k ≠ .error .depth) :
    newkey_rehash ops (d + 2) t k = newkey_rehash ops (d + 1) t k := by
  simp only [newkey_rehash] at h ⊢
  have h1 : rehash_with ops (luaH_newkey ops d) t k ≠ .error .depth := by
    intro e
    rw [e] at h
    exact h rfl
  rw [rehash_with_mono ops _ _ ih t k h1]
  cases hr : rehash_with ops (luaH_newkey ops d) t k with
  | error e => rfl
  | ok t1 =>
    rw [hr] at h
    simp only [] at h ⊢
    exact luaH_set_with_mono ops _ _ ih t1 k h

/-- A result of `luaH_newkey` that is not the depth limit of the model is the result at
every greater depth. -/
theorem luaH_newkey_mono {N : Type} [DecidableEq N] (ops : LuaConf N) :
    ∀ (d : Nat) (t : Table N) (k : TValue N), luaH_newkey ops d t k ≠ .error .depth →
      luaH_newkey ops (d + 1) t k = luaH_newkey ops d t k := by
  intro d
  induction d with
  | zero =>
    intro t k h
    rw [luaH_newkey_eq] at h ⊢
    rw [luaH_newkey_eq ops 0]
    split_ifs at h ⊢ <;> try rfl
    rcases hg : getfreepos t with ⟨t0, _ | n⟩
    · rw [hg] at h
      exact absurd rfl h
    · rfl
  | succ d ih =>
    intro t k h
    rw [luaH_newkey_eq] at h ⊢
    rw [luaH_newkey_eq ops (d + 1)]
    split_ifs at h ⊢ <;> try rfl
    rcases hg : getfreepos t with ⟨t0, _ | n⟩
    · rw [hg] at h
      simp only [] at h ⊢
      exact newkey_rehash_mono ops d ih t0 k h
    · rfl

theorem luaH_newkey_depth {N : Type} [DecidableEq N] (ops : LuaConf N) (d : Nat)
    (t : Table N) (k : TValue N) (h : luaH_newkey ops d t k ≠ .error .depth) :
    ∀ e, luaH_newkey ops (d + e) t k = luaH_newkey ops d t k := by
  intro e
  induction e with
  | zero => rfl
  | succ e ih =>
    rw [← Nat.add_assoc, luaH_newkey_mono ops (d + e) t k (by rw [ih]; exact h), ih]

/-! ## Insertions without rehash keep the sizes -/

theorem write_shape {N : Type} (t : Table N) (c : Cell) (v : TValue N) :
    (t.write c v).lsizenode = t.lsizenode ∧ (t.write c v).isdummy = t.isdummy ∧
      (t.write c v).sizearray = t.sizearray := by
  cases c <;> exact ⟨rfl, rfl, rfl⟩

theorem newkey0_shape {N : Type} [DecidableEq N] (ops : LuaConf N) (t : Table N)
    (k : TValue N) (t1 : Table N) (c : Cell) (h : luaH_newkey ops 0 t k = .ok (t1, c)) :
    t1.lsizenode = t.lsizenode ∧ t1.isdummy = t.isdummy ∧ t1.sizearray = t.sizearray := by
  rw [luaH_newkey_eq] at h
  split_ifs at h
  · rcases hg : getfreepos t with ⟨t0, _ | n⟩
    · rw [hg] at h
      cases h
    · rw [hg] at h
      have e0 : t0 = { t with lastfree := (getfreepos_loop t t.lastfree).1 } := by
        unfold getfreepos at hg
        exact (Prod.mk.inj hg).1.symm
      simp only [] at h
      split_ifs at h
      · cases hf : findprev t0 (mainposition ops t k) (sizenode t0)
            (mainposition ops t0 (gnode t0 (mainposition ops t k)).i_key) with
        | error e => rw [hf] at h; cases h
        | ok prev =>
          rw [hf] at h
          cases h
          rw [e0]
          exact ⟨rfl, rfl, rfl⟩
      · cases h
        rw [e0]
        exact ⟨rfl, rfl, rfl⟩
  · cases h
    exact ⟨rfl, rfl, rfl⟩

theorem luaH_set_with_shape {N : Type} (ops : LuaConf N)
    (nk : Table N → TValue N → Except Err (Table N × Cell))
    (hs : ∀ t k t1 c, nk t k = .ok (t1, c) →
      t1.lsizenode = t.lsizenode ∧ t1.isdummy = t.isdummy ∧ t1.sizearray = t.sizearray)
    (t : Table N) (k : TValue N) (t1 : Table N) (c : Cell)
    (h : luaH_set_with ops nk t k = .ok (t1, c)) :
    t1.lsizenode = t.lsizenode ∧ t1.isdummy = t.isdummy ∧ t1.sizearray = t.sizearray := by
  unfold luaH_set_with at h
  cases hg : luaH_get ops t k with
  | error e => rw [hg] at h; cases h
  | ok p =>
    rw [hg] at h
    simp only [] at h
    by_cases hp : p ≠ .nilobject
    · rw [if_pos hp] at h
      cases h
      exact ⟨rfl, rfl, rfl⟩
    · rw [if_neg hp] at h
      exact hs t k t1 c h

theorem luaH_setint_with_shape {N : Type} (ops : LuaConf N)
    (nk : Table N → TValue N → Except Err (Table N × Cell))
    (hs : ∀ t k t1 c, nk t k = .ok (t1, c) →
      t1.lsizenode = t.lsizenode ∧ t1.isdummy = t.isdummy ∧ t1.sizearray = t.sizearray)
    (t : Table N) (key : Int) (v : TValue N) (t1 : Table N)
    (h : luaH_setint_with ops nk t key v = .ok t1) :
    t1.lsizenode = t.lsizenode ∧ t1.isdummy = t.isdummy ∧ t1.sizearray = t.sizearray := by
  unfold luaH_setint_with at h
  cases hg : luaH_getint ops t key with
  | error e => rw [hg] at h; cases h
  | ok p =>
    rw [hg] at h
    simp only [] at h
    by_cases hp : p ≠ .nilobject
    · rw [if_pos hp] at h
      cases h
      exact write_shape t p v
    · rw [if_neg hp] at h
      cases hn : nk t (.number (ops.cast_num key)) with
      | error e => rw [hn] at h; cases h
      | ok r =>
        obtain ⟨t2, c⟩ := r
        rw [hn] at h
        cases h
        obtain ⟨a1, a2, a3⟩ := hs t _ t2 c hn
        obtain ⟨b1, b2, b3⟩ := write_shape t2 c v
        exact ⟨by rw [b1, a1], by rw [b2, a2], by rw [b3, a3]⟩

theorem resize_evict_shape {N : Type} [DecidableEq N] (ops : LuaConf N)
    (nk : Table N → TValue N → Except Err (Table N × Cell))
    (hs : ∀ t k t1 c, nk t k = .ok (t1, c) →
      t1.lsizenode = t.lsizenode ∧ t1.isdummy = t.isdummy ∧ t1.sizearray = t.sizearray)
    (t : Table N) (i : Nat) (t1 : Table N) (h : resize_evict ops nk t i = .ok t1) :
    t1.lsizenode = t.lsizenode ∧ t1.isdummy = t.isdummy ∧ t1.sizearray = t.sizearray := by
  unfold resize_evict at h
  cases hg : t.array.get? i with
  | none => rw [hg] at h; cases h
  | some v =>
    rw [hg] at h
    simp only [] at h
    by_cases hv : (!ttisnil v) = true
    · rw [if_pos hv] at h
      cases hn : luaH_setint_with ops nk t (i + 1) v with
      | error e => rw [hn] at h; cases h
      | ok t2 =>
        rw [hn] at h
        simp only [] at h
        split_ifs at h
        cases h
        exact luaH_setint_with_shape ops nk hs t _ v _ hn
    · rw [if_neg hv] at h
      cases h
      exact ⟨rfl, rfl, rfl⟩

theorem resize_reinsert_shape {N : Type} (ops : LuaConf N)
    (nk : Table N → TValue N → Except Err (Table N × Cell))
    (hs : ∀ t k t1 c, nk t k = .ok (t1, c) →
      t1.lsizenode = t.lsizenode ∧ t1.isdummy = t.isdummy ∧ t1.sizearray = t.sizearray)
    (nold : List (Node N)) (t : Table N) (i : Nat) (t1 : Table N)
    (h : resize_reinsert ops nk nold t i = .ok t1) :
    t1.lsizenode = t.lsizenode ∧ t1.isdummy = t.isdummy ∧ t1.sizearray = t.sizearray := by
  unfold resize_reinsert at h
  by_cases hv : (!ttisnil (nold.getD i dummynode_).i_val) = true
  · rw [if_pos hv] at h
    cases hn : luaH_set_with ops nk t (nold.getD i dummynode_).i_key with
    | error e => rw [hn] at h; cases h
    | ok r =>
      obtain ⟨t2, c⟩ := r
      rw [hn] at h
      cases h
      obtain ⟨a1, a2, a3⟩ := luaH_set_with_shape ops nk hs t _ t2 c hn
      obtain ⟨b1, b2, b3⟩ := write_shape t2 c (nold.getD i dummynode_).i_val
      exact ⟨by rw [b1, a1], by rw [b2, a2], by rw [b3, a3]⟩
  · rw [if_neg hv] at h
    cases h
    exact ⟨rfl, rfl, rfl⟩

theorem foldlM_shape {N α : Type} (f : Table N → α → Except Err (Table N))
    (hs : ∀ t a t1, f t a = .ok t1 →
      t1.lsizenode = t.lsizenode ∧ t1.isdummy = t.isdummy ∧ t1.sizearray = t.sizearray) :
    ∀ (l : List α) (t t1 : Table N), l.foldlM f t = .ok t1 →
      t1.lsizenode = t.lsizenode ∧ t1.isdummy = t.isdummy ∧ t1.sizearray = t.sizearray := by
  intro l
  induction l with
  | nil =>
    intro t t1 h
    cases h
    exact ⟨rfl, rfl, rfl⟩
  | cons x l ih =>
    intro t t1 h
    rw [foldlM_cons_except] at h
    cases hf : f t x with
    | error e => rw [hf] at h; cases h
    | ok t2 =>
      rw [hf] at h
      obtain ⟨a1, a2, a3⟩ := hs t x t2 hf
      obtain ⟨b1, b2, b3⟩ := ih t2 t1 h
      exact ⟨by rw [b1, a1], by rw [b2, a2], by rw [b3, a3]⟩

theorem setnodevector_size {N : Type} (t0 : Table N) (nh : Nat) (hnh : nh < 4294967296)
    (t2 : Table N) (h : setnodevector t0 nh = .ok t2) :
    nh ≤ (if t2.isdummy then 0 else twoto t2.lsizenode) ∧ t2.sizearray = t0.sizearray := by
  unfold setnodevector at h
  by_cases h0 : nh = 0
  · rw [if_pos h0] at h
    cases h
    exact ⟨by simp [h0], rfl⟩
  · rw [if_neg h0] at h
    simp only [] at h
    split_ifs at h
    cases h
    have hc := (luaO_ceillog2_spec nh (by omega) hnh).1
    exact ⟨by simpa [twoto] using hc, rfl⟩

/-- The sizes after a `luaH_resize` whose re-insertions keep the sizes: the array part has
`na` slots and the hash part is the one that `setnodevector` made for `nh` nodes. -/
theorem luaH_resize_with_shape {N : Type} [DecidableEq N] (ops : LuaConf N)
    (nk : Table N → TValue N → Except Err (Table N × Cell))
    (hs : ∀ t k t1 c, nk t k = .ok (t1, c) →
      t1.lsizenode = t.lsizenode ∧ t1.isdummy = t.isdummy ∧ t1.sizearray = t.sizearray)
    (t : Table N) (na nh : Nat) (hnh : nh < 4294967296) (t1 : Table N)
    (h : luaH_resize_with ops nk t na nh = .ok t1) :
    t1.sizearray = na ∧ nh ≤ (if t1.isdummy then 0 else sizenode t1) := by
  unfold luaH_resize_with at h
  simp only [] at h
  cases hsv : setnodevector (if na > t.sizearray then setarrayvector t na else t) nh with
  | error e => rw [hsv] at h; cases h
  | ok t2 =>
    rw [hsv] at h
    simp only [] at h
    have h2 : nh ≤ (if t2.isdummy then 0 else twoto t2.lsizenode) ∧
        t2.sizearray = (if na > t.sizearray then na else t.sizearray) := by
      obtain ⟨g1, g2⟩ := setnodevector_size _ nh hnh t2 hsv
      refine ⟨g1, ?_⟩
      rw [g2]
      by_cases hg : na > t.sizearray
      · simp only [hg, if_true, setarrayvector]
      · simp only [hg, if_false]
    have hfin : ∀ t3 : Table N, t3.lsizenode = t2.lsizenode → t3.isdummy = t2.isdummy →
        t3.sizearray = na →
        (List.range (twoto t.lsizenode)).reverse.foldlM (resize_reinsert ops nk t.node) t3
          = .ok t1 →
        t1.sizearray = na ∧ nh ≤ (if t1.isdummy then 0 else sizenode t1) := by
      intro t3 e1 e2 e3 hf
      obtain ⟨a1, a2, a3⟩ := foldlM_shape _ (resize_reinsert_shape ops nk hs t.node) _ _ _ hf
      refine ⟨by rw [a3, e3], ?_⟩
      unfold sizenode
      rw [a2, a1, e2, e1]
      exact h2.1
    by_cases hlt : na < t.sizearray
    · rw [if_pos hlt] at h
      cases hf : (List.range' na (t.sizearray - na)).foldlM (resize_evict ops nk)
          { t2 with sizearray := na } with
      | error e => rw [hf] at h; cases h
      | ok t3 =>
        rw [hf] at h
        simp only [] at h
        obtain ⟨a1, a2, a3⟩ := foldlM_shape _ (resize_evict_shape ops nk hs) _ _ _ hf
        exact hfin { t3 with array := t3.array.take na } a1 a2 a3 h
    · rw [if_neg hlt] at h
      simp only [] at h
      refine hfin t2 rfl rfl ?_ h
      rw [h2.2]
      split <;> omega

theorem numentries_le {N : Type} {ops : LuaConf N} (t : Table N) (hI : Inv ops t) :
    numentries t ≤ 2147483648 := by
  have hsz : t.sizearray ≤ 2 ^ 30 := hI.asize_le
  norm_num at hsz
  have hsn := sizenode_le t hI
  have h1 := arraycount_le t 0 t.sizearray
  have h2 := nodecount_le_length t (fun _ => true) (List.range (sizenode t))
  rw [List.length_range] at h2
  unfold numentries
  omega

/-- The result of `rehash` does not depend on the nesting depth that the model allows to
the re-insertions. -/
theorem rehash_depth {N : Type} [DecidableEq N] {ops : LuaConf N} (hL : ops.Lawful)
    (d : Nat) (t : Table N) (hI : Inv ops t) (hlen : t.array.length = t.sizearray)
    (ek : TValue N) :
    rehash_with ops (luaH_newkey ops d) t ek = rehash_with ops (luaH_newkey ops 0) t ek := by
  apply rehash_with_mono ops (luaH_newkey ops 0) (luaH_newkey ops d)
  · intro t0 k h
    have := luaH_newkey_depth ops 0 t0 k h d
    rw [Nat.zero_add] at this
    exact this
  · rcases rehash_total hL 0 t hI hlen ek with ⟨t1, h1, _⟩ | ⟨h1, _⟩
    · rw [h1]; intro e; cases e
    · rw [h1]; intro e; cases e

/-- The table that `rehash(L,t,ek)` returns: it reads the same values, its array size is 0
or a power of two of which more than half is counted in `na`, the count of the integer keys
of the new array range that read a non-nil value, `ek` included, and its hash part has a
node for each of the other entries. -/
theorem rehash_result {N : Type} [DecidableEq N] {ops : LuaConf N} (hL : ops.Lawful)
    (d : Nat) (t : Table N) (hI : Inv ops t) (hlen : t.array.length = t.sizearray)
    (ek : TValue N) (t1 : Table N)
    (h : rehash_with ops (luaH_newkey ops d) t ek = .ok t1) :
    Inv ops t1 ∧ (∀ k, getval ops t1 k = getval ops t k) ∧ t1.sizearray ≤ 1073741824 ∧
    ∃ na, na ≤ intcount ops t t1.sizearray +
        (if intkey_le ops ek t1.sizearray = true then 1 else 0) ∧
      (t1.sizearray = 0 ∨ t1.sizearray < 2 * na) ∧
      numentries t + 1 - na ≤ (if t1.isdummy then 0 else sizenode t1) := by
  obtain ⟨hI1, hget, _⟩ :=
    (rehash_with_spec hL (luaH_newkey ops d) (luaH_newkey_spec hL d) t hI ek).1 t1 h
  rw [rehash_depth hL d t hI hlen ek] at h
  obtain ⟨na, n, hr, hn, hna, hhalf⟩ := rehash_sizes ops (luaH_newkey ops 0) t hI ek
  rw [hr] at h
  have hent := numentries_le t hI
  obtain ⟨s1, s2⟩ := luaH_resize_with_shape ops (luaH_newkey ops 0) (newkey0_shape ops) t n
    (numentries t + 1 - na) (by omega) t1 h
  rw [s1]
  refine ⟨hI1, hget, hn, na, ?_, hhalf, s2⟩
  have := keycount_le_intcount hL t hI n hn
  omega

theorem reachable_extab12 : Reachable intConf extab12 :=
  Reachable.setint 1 extab1 extab12 2 (exnum 6) reachable_extab1 (by decide) (by decide)

theorem reachable_exdel : Reachable intConf exdel :=
  Reachable.set 0 (extab12.write (.arr 0) .nil) (extab12.write (.arr 0) .nil) (exnum 2) .nil
    (.arr 1)
    (Reachable.set 0 extab12 extab12 (exnum 1) .nil (.arr 0) reachable_extab12
      (by decide) (by decide))
    (by decide) (by decide)

theorem half_lt_iff (j x : Nat) : 2 ^ j / 2 < x ↔ 2 ^ j < 2 * x := by
  cases j with
  | zero => simp; omega
  | succ j =>
    rw [pow_succ]
    omega

theorem keysupto_succ (K : List Nat) (j : Nat) :
    keysupto K (2 ^ (j + 1)) = keysupto K (2 ^ j) + keyslice K (j + 1) := by
  unfold keysupto keyslice
  induction K with
  | nil => rfl
  | cons k K ih =>
    rw [List.countP_cons, List.countP_cons, List.countP_cons, ih]
    have hp : 2 ^ (j + 1) = 2 * 2 ^ j := by rw [pow_succ]; omega
    by_cases h1 : k ≤ 2 ^ j
    · have h2 : k ≤ 2 ^ (j + 1) := by omega
      have h3 : ¬ 2 ^ (j + 1) < 2 * k := by omega
      simp [h1, h2, h3]
      omega
    · by_cases h2 : k ≤ 2 ^ (j + 1)
      · have h3 : 2 ^ (j + 1) < 2 * k := by omega
        simp [h1, h2, h3]
        omega
      · simp [h1, h2]

theorem keysupto_one (K : List Nat) (hr : ∀ k ∈ K, 1 ≤ k) :
    keysupto K (2 ^ 0) = keyslice K 0 := by
  unfold keysupto keyslice
  apply List.countP_congr
  intro k hk
  have := hr k hk
  simp
  omega

theorem range_map_sum (f : Nat → Nat) (n : Nat) :
    ((List.range (n + 1)).map f).sum = ((List.range n).map f).sum + f n := by
  rw [List.range_succ, List.map_append, List.sum_append]
  simp

/-- The first `j + 1` counters of the histogram count the keys up to `2^j`. -/
theorem keyslice_sum (K : List Nat) (hr : ∀ k ∈ K, 1 ≤ k) (j : Nat) :
    ((List.range (j + 1)).map (keyslice K)).sum = keysupto K (2 ^ j) := by
  induction j with
  | zero =>
    rw [keysupto_one K hr]
    have hr1 : List.range (0 + 1) = [0] := rfl
    rw [hr1]
    simp
  | succ j ih =>
    rw [range_map_sum, ih, keysupto_succ]

theorem keysupto_all (K : List Nat) (m : Nat) (h : ∀ k ∈ K, k ≤ m) :
    keysupto K m = K.length := by
  unfold keysupto
  rw [List.countP_eq_length]
  intro k hk
  simpa using h k hk

theorem keysupto_mono (K : List Nat) (a b : Nat) (h : a ≤ b) :
    keysupto K a ≤ keysupto K b := by
  unfold keysupto
  apply List.countP_mono_left
  intro k _ hk
  simp only [decide_eq_true_eq] at hk ⊢
  omega

theorem keysupto_le_length (K : List Nat) (m : Nat) : keysupto K m ≤ K.length :=
  List.countP_le_length _

/-- Distinct keys from 1 on: at most `m` of them are at most `m`. -/
theorem keysupto_le (K : List Nat) (hnd : K.Nodup) (hr : ∀ k ∈ K, 1 ≤ k) (m : Nat) :
    keysupto K m ≤ m := by
  unfold keysupto
  rw [List.countP_eq_length_filter, ← List.toFinset_card_of_nodup (hnd.filter _)]
  have hsub : (K.filter (fun k => decide (k ≤ m))).toFinset ⊆ Finset.Icc 1 m := by
    intro k hk
    rw [List.mem_toFinset, List.mem_filter] at hk
    rw [Finset.mem_Icc]
    exact ⟨hr k hk.1, by simpa using hk.2⟩
  have := Finset.card_le_card hsub
  rw [Nat.card_Icc] at this
  omega

theorem histogram_take (K : List Nat) (hr : ∀ k ∈ K, 1 ≤ k ∧ k ≤ 2 ^ 30) (j : Nat) :
    ((histogram K).take (j + 1)).sum = keysupto K (2 ^ j) := by
  unfold histogram
  have h31 : MAXBITS + 1 = 31 := rfl
  rw [h31]
  by_cases hj : j ≤ 30
  · rw [← List.map_take, List.take_range, show min (j + 1) 31 = j + 1 by omega]
    exact keyslice_sum K (fun k hk => (hr k hk).1) j
  · rw [List.take_of_length_le (by simp; omega)]
    have h30 := keyslice_sum K (fun k hk => (hr k hk).1) 30
    rw [h30, keysupto_all K (2 ^ 30) (fun k hk => (hr k hk).2)]
    rw [keysupto_all K (2 ^ j)]
    intro k hk
    have h1 := (hr k hk).2
    have h2 : 2 ^ 30 ≤ 2 ^ j := Nat.pow_le_pow_right (by norm_num) (by omega)
    omega

theorem histogram_sum (K : List Nat) (hr : ∀ k ∈ K, 1 ≤ k ∧ k ≤ 2 ^ 30) :
    (histogram K).sum = K.length := by
  have h := histogram_take K hr 30
  rw [List.take_of_length_le (by simp [histogram, MAXBITS])] at h
  rw [h, keysupto_all K (2 ^ 30) (fun k hk => (hr k hk).2)]

theorem histogram_getD (K : List Nat) (j : Nat) (hj : j ≤ 30) :
    (histogram K).getD j 0 = keyslice K j := by
  unfold histogram
  have h31 : MAXBITS + 1 = 31 := rfl
  rw [h31, List.getD_eq_getElem?_getD, List.getElem?_map,
    List.getElem?_range (by omega)]
  rfl

/-- A slice without keys is not chosen: no more than half of `1..2^j` is present. -/
theorem keysupto_empty_slice (K : List Nat) (hnd : K.Nodup)
    (hr : ∀ k ∈ K, 1 ≤ k ∧ k ≤ 2 ^ 30) (j : Nat) (h0 : keyslice K j = 0) :
    ¬ 2 ^ j < 2 * keysupto K (2 ^ j) := by
  cases j with
  | zero =>
    rw [keysupto_one K (fun k hk => (hr k hk).1), h0]
    simp
  | succ j =>
    rw [keysupto_succ, h0, pow_succ]
    have := keysupto_le K hnd (fun k hk => (hr k hk).1) (2 ^ j)
    omega

/-- The tags of the table model are those of `lobject.h`: `iscollectable` is bit 6 of the
raw tag. -/
theorem iscollectable_eq_bit {N : Type} (v : TValue N) :
    iscollectable v = true ↔ rttype v &&& BIT_ISCOLLECTABLE ≠ 0 := by
  have key : ∀ (b : Bool) (t : Nat), (b = true ↔ t &&& BIT_ISCOLLECTABLE ≠ 0) →
      ∀ w : TValue N, iscollectable w = b → rttype w = t →
      (iscollectable w = true ↔ rttype w &&& BIT_ISCOLLECTABLE ≠ 0) := by
    intro b t h w e1 e2
    rw [e1, e2]
    exact h
  cases v with
  | gc tt o =>
    cases tt
    · exact key true (4 ||| 64) (by decide) _ rfl rfl
    · exact key true (20 ||| 64) (by decide) _ rfl rfl
    · exact key true (5 ||| 64) (by decide) _ rfl rfl
    · exact key true (6 ||| 64) (by decide) _ rfl rfl
    · exact key true (38 ||| 64) (by decide) _ rfl rfl
    · exact key true (7 ||| 64) (by decide) _ rfl rfl
    · exact key true (8 ||| 64) (by decide) _ rfl rfl
  | nil => exact key false 0 (by decide) _ rfl rfl
  | boolean b => exact key false 1 (by decide) _ rfl rfl
  | lightuserdata p => exact key false 2 (by decide) _ rfl rfl
  | number n => exact key false 3 (by decide) _ rfl rfl
  | lcf f => exact key false 22 (by decide) _ rfl rfl
  | deadkey o => exact key false 11 (by decide) _ rfl rfl

set_option maxRecDepth 100000 in
/-- The two functions on each of the 256 bytes. -/
theorem fb_table : ∀ b ∈ List.range 256,
    (b ≤ 231 → luaO_fb2int b = .ok (if b / 8 % 32 = 0 then ((b % 8 : Nat) : Int)
        else (((8 + b % 8) * 2 ^ (b / 8 % 32 - 1) : Nat) : Int)) ∧
      (0 : Int) ≤ (if b / 8 % 32 = 0 then ((b % 8 : Nat) : Int)
        else (((8 + b % 8) * 2 ^ (b / 8 % 32 - 1) : Nat) : Int)) ∧
      (if b / 8 % 32 = 0 then ((b % 8 : Nat) : Int)
        else (((8 + b % 8) * 2 ^ (b / 8 % 32 - 1) : Nat) : Int)) ≤ INT_MAX ∧
      luaO_int2fb (cast_unsigned (if b / 8 % 32 = 0 then ((b % 8 : Nat) : Int)
        else (((8 + b % 8) * 2 ^ (b / 8 % 32 - 1) : Nat) : Int))) = .ok (b : Int)) ∧
    (232 ≤ b → luaO_fb2int b = .error .undefined) := by
  decide

theorem strlen_cstr (s : List Nat) (h : ∀ c ∈ s, c ≠ 0) : strlen (cstr s) = some s.length := by
  have hn : (0 : Nat) ∉ s := fun hm => h 0 hm rfl
  have hi : (cstr s).indexOf 0 = s.length := by
    unfold cstr
    rw [List.indexOf_append_of_not_mem hn]
    simp
  unfold strlen
  rw [hi]
  simp [cstr]

theorem sub_sizet_eq (w a b : Nat) (hb : b ≤ a) (ha : a < 2 ^ w) :
    sub_sizet w a b = a - b := by
  unfold sub_sizet
  have h1 : b % 2 ^ w = b := Nat.mod_eq_of_lt (by omega)
  rw [h1, show a + 2 ^ w - b = (a - b) + 2 ^ w by omega, Nat.add_mod_right]
  exact Nat.mod_eq_of_lt (by omega)

theorem memcpy_src_eq (b : List Nat) (off n : Nat) (h : off + n ≤ b.length) :
    memcpy_src b (off : Int) n = .ok ((b.drop off).take n) := by
  unfold memcpy_src
  rw [if_pos ⟨by omega, by omega⟩]
  rfl

theorem take_indexOf (s : List Nat) (c : Nat) :
    s.take (s.indexOf c) = s.takeWhile (fun x => x != c) := by
  induction s with
  | nil => rfl
  | cons a s ih =>
    by_cases h : a = c
    · subst h
      simp [List.indexOf_cons_self]
    · rw [List.indexOf_cons_ne _ h, List.take_succ_cons, ih, List.takeWhile_cons_of_pos]
      simpa using h

theorem strchr_cstr (s : List Nat) (c : Nat) :
    (c ∉ s → strchr (cstr s) s.length c = none) ∧
    (c ∈ s → strchr (cstr s) s.length c = some (s.indexOf c) ∧ s.indexOf c < s.length) := by
  have ht : (cstr s).take s.length = s := by
    unfold cstr
    rw [List.take_left']
    rfl
  unfold strchr
  rw [ht]
  constructor
  · intro h
    rw [List.indexOf_eq_length.2 h]
    simp
  · intro h
    have := List.indexOf_lt_length.2 h
    rw [if_pos this]
    exact ⟨rfl, this⟩

/-! ## Scanning a numeral -/

theorem stop_char (c : Nat) (h : lisspace c = true ∨ c = 0) :
    lisxdigit c = false ∧ lisdigit c = false ∧ c ≠ 46 ∧ c ≠ 112 ∧ c ≠ 80 ∧ c ≠ 48 ∧
      c ≠ 43 ∧ c ≠ 45 := by
  simp only [lisspace, lisxdigit, lisdigit, Bool.or_eq_true, Bool.and_eq_true, beq_iff_eq,
    decide_eq_true_eq, Bool.or_eq_false_iff, Bool.and_eq_false_iff, decide_eq_false_iff_not,
    beq_eq_false_iff_ne, ne_eq]
    at h ⊢
  omega

theorem xdigit_char (c : Nat) (h : lisxdigit c = true) :
    lisspace c = false ∧ c ≠ 0 ∧ c ≠ 46 ∧ c ≠ 112 ∧ c ≠ 80 ∧ c ≠ 43 ∧ c ≠ 45 ∧ c ≠ 120 ∧
      c ≠ 88 ∧ c ≠ 110 ∧ c ≠ 78 := by
  simp only [lisspace, lisxdigit, lisdigit, Bool.or_eq_true, Bool.and_eq_true, beq_iff_eq,
    decide_eq_true_eq, Bool.or_eq_false_iff, Bool.and_eq_false_iff, decide_eq_false_iff_not,
    beq_eq_false_iff_ne, ne_eq]
    at h ⊢
  omega

theorem digit_char (c : Nat) (h : lisdigit c = true) :
    lisxdigit c = true ∧ lisspace c = false ∧ c ≠ 0 := by
  simp only [lisspace, lisxdigit, lisdigit, Bool.or_eq_true, Bool.and_eq_true, beq_iff_eq,
    decide_eq_true_eq, Bool.or_eq_false_iff, Bool.and_eq_false_iff, decide_eq_false_iff_not,
    beq_eq_false_iff_ne, ne_eq]
    at h ⊢
  omega

theorem skipspace_app (a : List Nat) (c : Nat) (r : List Nat)
    (ha : ∀ x ∈ a, lisspace x = true) (hc : lisspace c = false) :
    skipspace (a ++ c :: r) = .ok (c :: r) := by
  induction a with
  | nil => simp [skipspace, hc]
  | cons x a ih =>
    have hx := ha x (List.mem_cons_self _ _)
    simp only [List.cons_append, skipspace, hx, if_true]
    exact ih (fun y hy => ha y (List.mem_cons_of_mem _ hy))

theorem readexp_app (a : List Nat) (c : Nat) (r : List Nat)
    (ha : ∀ x ∈ a, lisdigit x = true) (hc : lisdigit c = false) :
    readexp (a ++ c :: r) = .ok (c :: r) := by
  induction a with
  | nil => simp [readexp, hc]
  | cons x a ih =>
    have hx := ha x (List.mem_cons_self _ _)
    simp only [List.cons_append, readexp, hx, if_true]
    exact ih (fun y hy => ha y (List.mem_cons_of_mem _ hy))

theorem cast_int_succ (count : Int) (n : Nat) :
    cast_int (cast_int (count + 1) + n) = cast_int (count + (n + 1 : Nat)) := by
  unfold cast_int
  push_cast
  omega

theorem readhexa_app (a : List Nat) (c : Nat) (r : List Nat)
    (ha : ∀ x ∈ a, lisxdigit x = true) (hc : lisxdigit c = false) :
    ∀ count : Int, cast_int count = count →
      readhexa (a ++ c :: r) count = .ok (c :: r, cast_int (count + a.length)) := by
  induction a with
  | nil =>
    intro count hcount
    simp [readhexa, hc, hcount]
  | cons x a ih =>
    intro count hcount
    have hx := ha x (List.mem_cons_self _ _)
    simp only [List.cons_append, readhexa, hx, if_true]
    have := ih (fun y hy => ha y (List.mem_cons_of_mem _ hy)) _ (cast_int_idem (count + 1))
    rw [cast_int_succ] at this
    rw [List.length_cons]
    exact this

theorem exists_split (P : Nat → Bool) (hP : P 0 = false) :
    ∀ s : List Nat, 0 ∈ s →
      ∃ a c r, s = a ++ c :: r ∧ (∀ x ∈ a, P x = true) ∧ P c = false ∧ 0 ∈ c :: r := by
  intro s
  induction s with
  | nil => intro h; cases h
  | cons x t ih =>
    intro h
    by_cases hx : P x = true
    · have hx0 : x ≠ 0 := by
        intro e
        rw [e, hP] at hx
        cases hx
      have ht : 0 ∈ t := by
        rcases List.mem_cons.1 h with e | e
        · exact absurd e.symm hx0
        · exact e
      obtain ⟨a, c, r, e1, e2, e3, e4⟩ := ih ht
      refine ⟨x :: a, c, r, by rw [e1]; rfl, ?_, e3, e4⟩
      intro y hy
      rcases List.mem_cons.1 hy with e | e
      · rw [e]; exact hx
      · exact e2 y e
    · refine ⟨[], x, t, rfl, ?_, by simpa using hx, h⟩
      intro y hy
      cases hy

theorem space_char (c : Nat) (h : lisspace c = true) : c ≠ 0 ∧ c ≠ 110 ∧ c ≠ 78 := by
  simp only [lisspace, Bool.or_eq_true, Bool.and_eq_true, beq_iff_eq, decide_eq_true_eq] at h
  omega

theorem isneg_sign (sg : List Nat) (hs : issign sg) (c : Nat) (r : List Nat)
    (h1 : c ≠ 43) (h2 : c ≠ 45) : ∃ n, isneg (sg ++ c :: r) = .ok (n, c :: r) := by
  rcases hs with e | e | e <;> rw [e]
  · exact ⟨0, by simp [isneg, h1, h2]⟩
  · exact ⟨0, by simp [isneg]⟩
  · exact ⟨1, by simp [isneg]⟩

/-- The exponent stage on the rest `T3` of the block after the numeral: blanks or the
NUL. -/
theorem strx2number_exp_none (c3 : Nat) (r3 : List Nat) (h3 : lisspace c3 = true ∨ c3 = 0) :
    strx2number_exp (c3 :: r3) = .ok (c3 :: r3) := by
  obtain ⟨_, _, _, h112, h80, _⟩ := stop_char c3 h3
  simp [strx2number_exp, h112, h80]

theorem strx2number_exp_some (p : Nat) (sg ds : List Nat) (c3 : Nat) (r3 : List Nat)
    (hp : p = 112 ∨ p = 80) (hs : issign sg) (hds : ds ≠ [])
    (hd : ∀ c ∈ ds, lisdigit c = true) (h3 : lisspace c3 = true ∨ c3 = 0) :
    strx2number_exp (p :: (sg ++ ds) ++ c3 :: r3) = .ok (c3 :: r3) := by
  obtain ⟨_, hdig, _⟩ := stop_char c3 h3
  obtain ⟨d, ds1, rfl⟩ := List.exists_cons_of_ne_nil hds
  have hdd := hd d (List.mem_cons_self _ _)
  have hd43 : d ≠ 43 ∧ d ≠ 45 := by
    simp only [lisdigit, Bool.and_eq_true, decide_eq_true_eq] at hdd
    omega
  obtain ⟨n, hn⟩ := isneg_sign sg hs d (ds1 ++ c3 :: r3) hd43.1 hd43.2
  have hre := readexp_app (d :: ds1) c3 r3 hd hdig
  simp only [List.cons_append, List.append_assoc] at hre hn ⊢
  simp only [strx2number_exp, hp, if_true, hn, hdd, Bool.not_true, Bool.false_eq_true,
    if_false, hre]

theorem cast_int_len_zero (n : Nat) (h : n < 4294967296) : cast_int (0 + (n : Int)) = 0 ↔ n = 0 := by
  unfold cast_int
  omega

/-- The scan of `lua_strx2number` over a numeral of the hexadecimal form, followed by the
rest `c3 :: r3` of the block (a blank or the NUL): `*endptr` is that rest. -/
theorem lua_strx2number_form (ws1 sign : List Nat) (x : Nat) (h1 fr ex : List Nat)
    (c3 : Nat) (r3 : List Nat)
    (hws : ∀ c ∈ ws1, lisspace c = true) (hsg : issign sign) (hx : x = 120 ∨ x = 88)
    (hh1 : ∀ c ∈ h1, lisxdigit c = true)
    (hfr : fr = [] ∨ ∃ h2, fr = 46 :: h2 ∧ ∀ c ∈ h2, lisxdigit c = true)
    (hex : ex = [] ∨ ∃ p sg ds, ex = p :: (sg ++ ds) ∧ (p = 112 ∨ p = 80) ∧ issign sg ∧
      ds ≠ [] ∧ ∀ c ∈ ds, lisdigit c = true)
    (h3 : lisspace c3 = true ∨ c3 = 0)
    (hdig : h1 ≠ [] ∨ ∃ h2, fr = 46 :: h2 ∧ h2 ≠ [])
    (hl1 : h1.length < 4294967296) (hl2 : fr.length < 4294967296) :
    lua_strx2number (ws1 ++ (sign ++ 48 :: x :: (h1 ++ (fr ++ (ex ++ c3 :: r3))))) =
      .ok (c3 :: r3) := by
  obtain ⟨s3x, s3d, s346, s3112, s380, _, _, _⟩ := stop_char c3 h3
  -- the exponent stage
  obtain ⟨c2, r2, e2, x2, d2, hexp⟩ : ∃ c2 r2, ex ++ c3 :: r3 = c2 :: r2 ∧
      lisxdigit c2 = false ∧ c2 ≠ 46 ∧ strx2number_exp (c2 :: r2) = .ok (c3 :: r3) := by
    rcases hex with e | ⟨p, sg, ds, e, hp, hs, hds, hd⟩
    · rw [e]
      exact ⟨c3, r3, rfl, s3x, s346, strx2number_exp_none c3 r3 h3⟩
    · rw [e]
      refine ⟨p, (sg ++ ds) ++ c3 :: r3, rfl, ?_, ?_, ?_⟩
      · rcases hp with e1 | e1 <;> rw [e1] <;> decide
      · rcases hp with e1 | e1 <;> omega
      · exact strx2number_exp_some p sg ds c3 r3 hp hs hds hd h3
  rw [e2]
  -- the fraction stage
  obtain ⟨c1, r1, e1, x1, hfrac⟩ : ∃ c1 r1, fr ++ c2 :: r2 = c1 :: r1 ∧
      lisxdigit c1 = false ∧
      ∃ e : Int, (match (c1 :: r1 : List Nat) with
        | [] => (.error .undefined : Except Err (List Nat × Int))
        | d :: s5 => if d = 46 then readhexa s5 0 else .ok (c1 :: r1, 0)) = .ok (c2 :: r2, e) ∧
        (e = 0 ↔ fr.length ≤ 1) := by
    rcases hfr with e | ⟨h2, e, hh2⟩
    · rw [e]
      refine ⟨c2, r2, rfl, x2, 0, ?_, by simp⟩
      simp [d2]
    · rw [e]
      refine ⟨46, h2 ++ c2 :: r2, rfl, by decide, cast_int (0 + (h2.length : Int)), ?_, ?_⟩
      · simp only [if_true]
        exact readhexa_app h2 c2 r2 hh2 x2 0 rfl
      · rw [e, List.length_cons] at hl2
        rw [cast_int_len_zero _ (by omega), List.length_cons]
        omega
  rw [e1]
  obtain ⟨e, hfrac1, hfrac2⟩ := hfrac
  -- the prefix
  have h48 : lisspace 48 = false := by decide
  have hhead : ∃ c0 r0, sign ++ 48 :: x :: (h1 ++ c1 :: r1) = c0 :: r0 ∧ lisspace c0 = false := by
    rcases hsg with e | e | e <;> rw [e]
    · exact ⟨48, _, rfl, h48⟩
    · exact ⟨43, _, rfl, by decide⟩
    · exact ⟨45, _, rfl, by decide⟩
  obtain ⟨c0, r0, e0, hc0⟩ := hhead
  obtain ⟨n, hn⟩ := isneg_sign sign hsg 48 (x :: (h1 ++ c1 :: r1)) (by decide) (by decide)
  have hskip := skipspace_app ws1 c0 r0 hws hc0
  rw [← e0] at hskip
  have hrh := readhexa_app h1 c1 r1 hh1 x1 0 rfl
  have hnz : ¬ (cast_int (0 + (h1.length : Int)) = 0 ∧ e = 0) := by
    rw [cast_int_len_zero _ hl1, hfrac2]
    intro ⟨a1, a2⟩
    rcases hdig with hd | ⟨h2, hd1, hd2⟩
    · exact hd (List.length_eq_zero.1 a1)
    · rw [hd1, List.length_cons] at a2
      have : h2.length = 0 := by omega
      exact hd2 (List.length_eq_zero.1 this)
  unfold lua_strx2number
  rw [hskip]
  simp only []
  rw [hn]
  simp only []
  have hcond : ¬ ¬ (True ∧ (x = 120 ∨ x = 88)) := by
    intro h
    exact h ⟨trivial, hx⟩
  rw [if_neg hcond, hrh]
  simp only [] at hfrac1 ⊢
  rw [hfrac1]
  simp only []
  rw [if_neg hnz]
  exact hexp

theorem sign_char (sg : List Nat) (hs : issign sg) (c : Nat) (hc : c ∈ sg) :
    c ≠ 0 ∧ c ≠ 110 ∧ c ≠ 78 := by
  rcases hs with e | e | e <;> rw [e] at hc <;> simp at hc <;> omega

/-- The characters of a numeral of the hexadecimal form: no NUL, no `n` and no `N`. -/
theorem hexform_chars (ws1 sign : List Nat) (x : Nat) (h1 fr ex ws2 : List Nat)
    (hws : ∀ c ∈ ws1, lisspace c = true) (hsg : issign sign) (hx : x = 120 ∨ x = 88)
    (hh1 : ∀ c ∈ h1, lisxdigit c = true)
    (hfr : fr = [] ∨ ∃ h2, fr = 46 :: h2 ∧ ∀ c ∈ h2, lisxdigit c = true)
    (hex : ex = [] ∨ ∃ p sg ds, ex = p :: (sg ++ ds) ∧ (p = 112 ∨ p = 80) ∧ issign sg ∧
      ds ≠ [] ∧ ∀ c ∈ ds, lisdigit c = true)
    (hws2 : ∀ c ∈ ws2, lisspace c = true) :
    ∀ c ∈ ws1 ++ sign ++ 48 :: x :: h1 ++ fr ++ ex ++ ws2, c ≠ 0 ∧ c ≠ 110 ∧ c ≠ 78 := by
  intro c hc
  simp only [List.mem_append, List.mem_cons] at hc
  rcases hc with ((((hc | hc) | hc | hc | hc) | hc) | hc) | hc
  · exact space_char c (hws c hc)
  · exact sign_char sign hsg c hc
  · omega
  · rcases hx with e | e <;> omega
  · obtain ⟨_, a, _, _, _, _, _, _, _, b, d⟩ := xdigit_char c (hh1 c hc)
    exact ⟨a, b, d⟩
  · rcases hfr with e | ⟨h2, e, hh2⟩
    · rw [e] at hc; cases hc
    · rw [e] at hc
      rcases List.mem_cons.1 hc with e1 | e1
      · omega
      · obtain ⟨_, a, _, _, _, _, _, _, _, b, d⟩ := xdigit_char c (hh2 c e1)
        exact ⟨a, b, d⟩
  · rcases hex with e | ⟨p, sg, ds, e, hp, hs, _, hd⟩
    · rw [e] at hc; cases hc
    · rw [e] at hc
      simp only [List.mem_cons, List.mem_append] at hc
      rcases hc with e1 | e1 | e1
      · rcases hp with e2 | e2 <;> omega
      · exact sign_char sg hs c e1
      · obtain ⟨a, _, b⟩ := digit_char c (hd c e1)
        obtain ⟨_, _, _, _, _, _, _, _, _, b1, d1⟩ := xdigit_char c a
        exact ⟨b, b1, d1⟩
  · exact space_char c (hws2 c hc)

/-- A string of the hexadecimal form of fewer than `2^32` characters is accepted. -/
theorem hexform_accepted (f : List Nat → Except Err (List Nat)) (s : List Nat)
    (hf : hexform s) (hlen : s.length < 4294967296) :
    luaO_str2d f (cstr s) s.length = .ok 1 := by
  obtain ⟨ws1, sign, x, h1, fr, ex, ws2, hs, hws, hsg, hx, hh1, hfr, hex, hws2, hdig⟩ := hf
  have hch := hexform_chars ws1 sign x h1 fr ex ws2 hws hsg hx hh1 hfr hex hws2
  rw [← hs] at hch
  have hl := strlen_cstr s (fun c hc => (hch c hc).1)
  have htake : (cstr s).take s.length = s := by
    unfold cstr
    rw [List.take_left']
    rfl
  have hxin : 120 ∈ s ∨ 88 ∈ s := by
    rcases hx with e | e
    · left; rw [hs, ← e]; simp
    · right; rw [hs, ← e]; simp
  have hnn : ¬ (110 ∈ s ∨ 78 ∈ s) := by
    intro h
    rcases h with h | h
    · exact (hch 110 h).2.1 rfl
    · exact (hch 78 h).2.2 rfl
  obtain ⟨c3, r3, e3, h3, hskip3⟩ : ∃ c3 r3, ws2 ++ [0] = c3 :: r3 ∧
      (lisspace c3 = true ∨ c3 = 0) ∧ skipspace (c3 :: r3) = .ok [0] := by
    have hsk := skipspace_app ws2 0 [] hws2 (by decide)
    cases ws2 with
    | nil => exact ⟨0, [], rfl, Or.inr rfl, hsk⟩
    | cons c r =>
      exact ⟨c, r ++ [0], List.cons_append _ _ _, Or.inl (hws2 c (List.mem_cons_self _ _)),
        by rw [← List.cons_append]; exact hsk⟩
  have hblock : cstr s = ws1 ++ (sign ++ 48 :: x :: (h1 ++ (fr ++ (ex ++ c3 :: r3)))) := by
    unfold cstr
    rw [hs, ← e3]
    simp only [List.append_assoc, List.cons_append]
  have hl1 : h1.length < 4294967296 := by
    have : h1.length ≤ s.length := by rw [hs]; simp; omega
    omega
  have hl2 : fr.length < 4294967296 := by
    have : fr.length ≤ s.length := by rw [hs]; simp; omega
    omega
  have hscan := lua_strx2number_form ws1 sign x h1 fr ex c3 r3 hws hsg hx hh1 hfr hex h3
    hdig hl1 hl2
  rw [← hblock] at hscan
  have hlen3 : (c3 :: r3).length ≠ (cstr s).length := by
    rw [← e3]
    have : ws2.length + 2 ≤ s.length := by rw [hs]; simp; omega
    simp only [cstr, List.length_append, List.length_singleton]
    omega
  unfold luaO_str2d
  rw [hl]
  simp only []
  rw [htake, if_neg hnn, if_pos hxin, hscan]
  simp only []
  rw [if_neg hlen3, hskip3]
  simp [cstr]

theorem skipspace_spec (s : List Nat) (h0 : 0 ∈ s) :
    ∃ a c r, s = a ++ c :: r ∧ (∀ x ∈ a, lisspace x = true) ∧ lisspace c = false ∧
      skipspace s = .ok (c :: r) ∧ 0 ∈ c :: r := by
  obtain ⟨a, c, r, e1, e2, e3, e4⟩ := exists_split lisspace (by decide) s h0
  exact ⟨a, c, r, e1, e2, e3, by rw [e1]; exact skipspace_app a c r e2 e3, e4⟩

theorem readhexa_spec (s : List Nat) (h0 : 0 ∈ s) :
    ∃ a c r, s = a ++ c :: r ∧ (∀ x ∈ a, lisxdigit x = true) ∧ lisxdigit c = false ∧
      readhexa s 0 = .ok (c :: r, cast_int (0 + (a.length : Int))) ∧ 0 ∈ c :: r := by
  obtain ⟨a, c, r, e1, e2, e3, e4⟩ := exists_split lisxdigit (by decide) s h0
  exact ⟨a, c, r, e1, e2, e3, by rw [e1]; exact readhexa_app a c r e2 e3 0 rfl, e4⟩

theorem readexp_spec (s : List Nat) (h0 : 0 ∈ s) :
    ∃ a c r, s = a ++ c :: r ∧ (∀ x ∈ a, lisdigit x = true) ∧ lisdigit c = false ∧
      readexp s = .ok (c :: r) ∧ 0 ∈ c :: r := by
  obtain ⟨a, c, r, e1, e2, e3, e4⟩ := exists_split lisdigit (by decide) s h0
  exact ⟨a, c, r, e1, e2, e3, by rw [e1]; exact readexp_app a c r e2 e3, e4⟩

theorem isneg_spec (s : List Nat) (h0 : 0 ∈ s) :
    ∃ sg n r, s = sg ++ r ∧ issign sg ∧ isneg s = .ok (n, r) ∧ 0 ∈ r := by
  cases s with
  | nil => cases h0
  | cons c t =>
    have ht : c ≠ 0 → 0 ∈ t := by
      intro hc
      rcases List.mem_cons.1 h0 with e | e
      · exact absurd e.symm hc
      · exact e
    by_cases h45 : c = 45
    · exact ⟨[45], 1, t, by rw [h45]; rfl, Or.inr (Or.inr rfl), by simp [isneg, h45],
        ht (by omega)⟩
    · by_cases h43 : c = 43
      · exact ⟨[43], 0, t, by rw [h43]; rfl, Or.inr (Or.inl rfl), by simp [isneg, h43],
          ht (by omega)⟩
      · exact ⟨[], 0, c :: t, rfl, Or.inl rfl, by simp [isneg, h45, h43], h0⟩

/-- The exponent stage never fails on a block that holds a NUL: it stays where it is, or
it steps over an exponent. -/
theorem strx2number_exp_spec (s : List Nat) (h0 : 0 ∈ s) :
    ∃ ex endptr, strx2number_exp s = .ok endptr ∧ s = ex ++ endptr ∧ 0 ∈ endptr ∧
      (ex = [] ∨ ∃ p sg ds, ex = p :: (sg ++ ds) ∧ (p = 112 ∨ p = 80) ∧ issign sg ∧
        ds ≠ [] ∧ ∀ c ∈ ds, lisdigit c = true) := by
  cases s with
  | nil => cases h0
  | cons c r =>
    by_cases hp : c = 112 ∨ c = 80
    · have hr : 0 ∈ r := by
        rcases List.mem_cons.1 h0 with e | e
        · rcases hp with e1 | e1 <;> omega
        · exact e
      obtain ⟨sg, n, s1, e1, hsg, hn, h1⟩ := isneg_spec r hr
      cases s1 with
      | nil => cases h1
      | cons d t =>
        by_cases hd : lisdigit d = true
        · obtain ⟨a, c1, r1, f1, f2, f3, f4, f5⟩ := readexp_spec (d :: t) h1
          refine ⟨c :: (sg ++ a), c1 :: r1, ?_, ?_, f5, Or.inr ⟨c, sg, a, rfl, hp, hsg, ?_, f2⟩⟩
          · simp only [strx2number_exp, hp, if_true, hn, hd, Bool.not_true,
              Bool.false_eq_true, if_false]
            exact f4
          · rw [e1, f1]
            simp
          · intro ea
            rw [ea] at f1
            simp only [List.nil_append, List.cons.injEq] at f1
            rw [← f1.1, hd] at f3
            cases f3
        · refine ⟨[], c :: r, ?_, rfl, h0, Or.inl rfl⟩
          simp only [strx2number_exp, hp, if_true, hn]
          simp [hd]
    · exact ⟨[], c :: r, by simp only [strx2number_exp, hp, if_false], rfl, h0, Or.inl rfl⟩

/-- The scan `lua_strx2number` never fails on a block that holds a NUL: it rejects the
string (`*endptr` is the start) or it steps over a numeral of the hexadecimal form. -/
theorem lua_strx2number_spec (b : List Nat) (h0 : 0 ∈ b) :
    ∃ endptr, lua_strx2number b = .ok endptr ∧
      (endptr = b ∨
        ∃ (ws1 sign : List Nat) (x : Nat) (h1 fr ex : List Nat),
          b = ws1 ++ sign ++ 48 :: x :: h1 ++ fr ++ ex ++ endptr ∧ 0 ∈ endptr ∧
          (∀ c ∈ ws1, lisspace c = true) ∧ issign sign ∧ (x = 120 ∨ x = 88) ∧
          (∀ c ∈ h1, lisxdigit c = true) ∧
          (fr = [] ∨ ∃ h2, fr = 46 :: h2 ∧ ∀ c ∈ h2, lisxdigit c = true) ∧
          (ex = [] ∨ ∃ p sg ds, ex = p :: (sg ++ ds) ∧ (p = 112 ∨ p = 80) ∧ issign sg ∧
            ds ≠ [] ∧ ∀ c ∈ ds, lisdigit c = true) ∧
          (h1 ≠ [] ∨ ∃ h2, fr = 46 :: h2 ∧ h2 ≠ [])) := by
  obtain ⟨ws1, c0, r0, e0, hws, _, hskip, h00⟩ := skipspace_spec b h0
  obtain ⟨sign, n, s2, e2, hsg, hn, h02⟩ := isneg_spec (c0 :: r0) h00
  unfold lua_strx2number
  rw [hskip]
  simp only []
  rw [hn]
  simp only []
  match s2, e2, hn, h02 with
  | [], _, _, h02 => cases h02
  | [c], _, _, h02 =>
    have hc : c = 0 := by
      rcases List.mem_cons.1 h02 with e | e
      · exact e.symm
      · cases e
    simp only []
    rw [if_neg (by omega)]
    exact ⟨b, rfl, Or.inl rfl⟩
  | c :: x :: s3, e2, hn, h02 =>
    simp only []
    by_cases hcond : c = 48 ∧ (x = 120 ∨ x = 88)
    · rw [if_neg (fun h => h hcond)]
      have h03 : 0 ∈ s3 := by
        simp only [List.mem_cons] at h02
        rcases h02 with e | e | e
        · omega
        · rcases hcond.2 with e1 | e1 <;> omega
        · exact e
      obtain ⟨h1, c4, r4, e4, hh1, hx4, hrh, h04⟩ := readhexa_spec s3 h03
      rw [hrh]
      simp only []
      obtain ⟨fr, s6, e, hfrac, e6, h06, hfr, hez⟩ : ∃ fr s6 e,
          (if c4 = 46 then readhexa r4 0 else .ok (c4 :: r4, 0)) = .ok (s6, e) ∧
          c4 :: r4 = fr ++ s6 ∧ 0 ∈ s6 ∧
          (fr = [] ∨ ∃ h2, fr = 46 :: h2 ∧ ∀ c ∈ h2, lisxdigit c = true) ∧
          (e ≠ 0 → ∃ h2, fr = 46 :: h2 ∧ h2 ≠ []) := by
        by_cases h46 : c4 = 46
        · have h0r : 0 ∈ r4 := by
            rcases List.mem_cons.1 h04 with e | e
            · omega
            · exact e
          obtain ⟨h2, c5, r5, e5, hh2, _, hrh2, h05⟩ := readhexa_spec r4 h0r
          refine ⟨46 :: h2, c5 :: r5, _, by rw [if_pos h46]; exact hrh2, by rw [h46, e5]; rfl,
            h05, Or.inr ⟨h2, rfl, hh2⟩, ?_⟩
          intro hne
          refine ⟨h2, rfl, ?_⟩
          intro eh
          rw [eh] at hne
          exact hne (by decide)
        · exact ⟨[], c4 :: r4, 0, by rw [if_neg h46], rfl, h04, Or.inl rfl,
            fun h => absurd rfl h⟩
      rw [hfrac]
      simp only []
      by_cases hz : cast_int (0 + (h1.length : Int)) = 0 ∧ e = 0
      · rw [if_pos hz]
        exact ⟨b, rfl, Or.inl rfl⟩
      · rw [if_neg hz]
        obtain ⟨ex, endptr, hexp, e7, h07, hex⟩ := strx2number_exp_spec s6 h06
        refine ⟨endptr, hexp, Or.inr ⟨ws1, sign, x, h1, fr, ex, ?_, h07, hws, hsg, hcond.2,
          hh1, hfr, hex, ?_⟩⟩
        · rw [e0, e2, e4, e6, e7, hcond.1]
          simp only [List.append_assoc, List.cons_append]
        · by_cases hh : h1 = []
          · right
            apply hez
            intro he
            apply hz
            rw [hh, he]
            exact ⟨by decide, rfl⟩
          · exact Or.inl hh
    · rw [if_pos hcond]
      exact ⟨b, rfl, Or.inl rfl⟩

theorem cstr_take (s : List Nat) : (cstr s).take s.length = s := by
  unfold cstr
  rw [List.take_left']
  rfl

/-- A string with an `n` or an `N` is rejected, whatever else it holds. -/
theorem luaO_str2d_rejects_n (f : List Nat → Except Err (List Nat)) (s : List Nat)
    (len : Nat) (hnul : ∀ c ∈ s, c ≠ 0) (hn : 110 ∈ s ∨ 78 ∈ s) :
    luaO_str2d f (cstr s) len = .ok 0 := by
  unfold luaO_str2d
  rw [strlen_cstr s hnul]
  simp only []
  rw [cstr_take, if_pos hn]

/-- On a string with an `x` or an `X` and no `n` or `N`, `luaO_str2d` returns 0 or 1, and
1 only for a string of the hexadecimal form. -/
theorem luaO_str2d_hex_sound (f : List Nat → Except Err (List Nat)) (s : List Nat)
    (hnul : ∀ c ∈ s, c ≠ 0) (hx : 120 ∈ s ∨ 88 ∈ s) (hn : ¬ (110 ∈ s ∨ 78 ∈ s)) :
    ∃ r, luaO_str2d f (cstr s) s.length = .ok r ∧ (r = 0 ∨ r = 1) ∧ (r = 1 → hexform s) := by
  have h0 : 0 ∈ cstr s := by simp [cstr]
  have hlen : (cstr s).length = s.length + 1 := by simp [cstr]
  obtain ⟨endptr, hscan, hcase⟩ := lua_strx2number_spec (cstr s) h0
  unfold luaO_str2d
  rw [strlen_cstr s hnul]
  simp only []
  rw [cstr_take, if_neg hn, if_pos hx, hscan]
  simp only []
  rcases hcase with e | ⟨ws1, sign, x, h1, fr, ex, eb, h0e, hws, hsg, hx1, hh1, hfr, hex, hdig⟩
  · rw [e, if_pos rfl]
    exact ⟨0, rfl, Or.inl rfl, fun h => absurd h (by decide)⟩
  · have hlt : endptr.length ≠ (cstr s).length := by
      have := congrArg List.length eb
      simp only [List.length_append, List.length_cons] at this
      omega
    rw [if_neg hlt]
    obtain ⟨ws2, c, r, e1, hws2, _, hskip, _⟩ := skipspace_spec endptr h0e
    rw [hskip]
    simp only []
    by_cases hfin : (cstr s).length - (c :: r).length = s.length
    · rw [if_pos hfin]
      refine ⟨1, rfl, Or.inr rfl, fun _ => ?_⟩
      have hr : r = [] := by
        rw [hlen, List.length_cons] at hfin
        have hpos : 0 < s.length := by
          rcases hx with h | h <;> exact List.length_pos_of_mem h
        have : r.length = 0 := by omega
        exact List.length_eq_zero.1 this
      have hblock : s ++ [0] = (ws1 ++ sign ++ 48 :: x :: h1 ++ fr ++ ex ++ ws2) ++ [c] := by
        have : cstr s = s ++ [0] := rfl
        rw [← this, eb, e1, hr]
        simp only [List.append_assoc, List.cons_append]
      have hs := List.append_inj_left' hblock rfl
      exact ⟨ws1, sign, x, h1, fr, ex, ws2, hs, hws, hsg, hx1, hh1, hfr, hex, hws2, hdig⟩
    · rw [if_neg hfin]
      exact ⟨0, rfl, Or.inl rfl, fun h => absurd h (by decide)⟩

/-- The acceptance of hexadecimal numerals of fewer than `2^32` characters: on a string
with an `x` or an `X` and no `n` or `N`, `luaO_str2d` returns 1 exactly for the strings of
the hexadecimal form, and 0 for the others. -/
theorem luaO_str2d_hex (f : List Nat → Except Err (List Nat)) (s : List Nat)
    (hnul : ∀ c ∈ s, c ≠ 0) (hx : 120 ∈ s ∨ 88 ∈ s) (hn : ¬ (110 ∈ s ∨ 78 ∈ s))
    (hlen : s.length < 4294967296) :
    ∃ r, luaO_str2d f (cstr s) s.length = .ok r ∧ (r = 0 ∨ r = 1) ∧ (r = 1 ↔ hexform s) := by
  obtain ⟨r, h1, h2, h3⟩ := luaO_str2d_hex_sound f s hnul hx hn
  refine ⟨r, h1, h2, h3, fun hf => ?_⟩
  have := hexform_accepted f s hf hlen
  rw [h1] at this
  exact Except.ok.inj this

theorem cast_int_wrap : cast_int (0 + ((4294967296 : Nat) : Int)) = 0 := by
  unfold cast_int
  norm_num

/-- The scan of `0x` and digits whose count wraps to 0 in the `int` counter:
`lua_strx2number` leaves `*endptr` at the start. -/
theorem lua_strx2number_wrapped (h1 : List Nat) (hh1 : ∀ c ∈ h1, lisxdigit c = true)
    (hz : cast_int (0 + (h1.length : Int)) = 0) :
    lua_strx2number (48 :: 120 :: (h1 ++ [0])) = .ok (48 :: 120 :: (h1 ++ [0])) := by
  have hrh := readhexa_app h1 0 [] hh1 (by decide) 0 rfl
  rw [hz] at hrh
  generalize h1 ++ [0] = b at hrh ⊢
  unfold lua_strx2number
  have hsk : skipspace (48 :: 120 :: b) = .ok (48 :: 120 :: b) := by
    simp [skipspace, lisspace]
  rw [hsk]
  simp only [isneg]
  norm_num
  rw [hrh]
  simp

/-- A string of the hexadecimal form that `luaO_str2d` rejects when the digits are so many
that their `int` counter wraps to 0. -/
theorem luaO_str2d_wrapped (f : List Nat → Except Err (List Nat)) (h1 : List Nat)
    (hh1 : ∀ c ∈ h1, lisxdigit c = true) (hne : h1 ≠ [])
    (hz : cast_int (0 + (h1.length : Int)) = 0) :
    hexform (48 :: 120 :: h1) ∧
    luaO_str2d f (cstr (48 :: 120 :: h1)) (48 :: 120 :: h1).length = .ok 0 := by
  have hform : hexform (48 :: 120 :: h1) :=
    ⟨[], [], 120, h1, [], [], [], by simp, fun c hc => absurd hc (List.not_mem_nil c),
      Or.inl rfl, Or.inl rfl, hh1, Or.inl rfl, Or.inl rfl,
      fun c hc => absurd hc (List.not_mem_nil c), Or.inl hne⟩
  refine ⟨hform, ?_⟩
  have hnul : ∀ c ∈ 48 :: 120 :: h1, c ≠ 0 := by
    intro c hc
    simp only [List.mem_cons] at hc
    rcases hc with e | e | e
    · omega
    · omega
    · exact (xdigit_char c (hh1 c e)).2.1
  have hn : ¬ (110 ∈ 48 :: 120 :: h1 ∨ 78 ∈ 48 :: 120 :: h1) := by
    intro h
    simp only [List.mem_cons] at h
    rcases h with (e | e | e) | (e | e | e)
    · omega
    · omega
    · exact (xdigit_char _ (hh1 _ e)).2.2.2.2.2.2.2.2.2.1 rfl
    · omega
    · omega
    · exact (xdigit_char _ (hh1 _ e)).2.2.2.2.2.2.2.2.2.2 rfl
  have hscan := lua_strx2number_wrapped h1 hh1 hz
  have hb : cstr (48 :: 120 :: h1) = 48 :: 120 :: (h1 ++ [0]) := rfl
  unfold luaO_str2d
  rw [strlen_cstr _ hnul]
  simp only []
  rw [cstr_take, if_neg hn, if_pos (Or.inl (List.mem_cons_of_mem _ (List.mem_cons_self _ _))),
    hb, hscan]
  simp

/-- Strings that `luaO_str2d` rejects and accepts: `0x`, `0x.` and `0x1p` are rejected,
`0x1`, `0x.8` and ` -0XA.8p+1 ` are accepted. -/
theorem luaO_str2d_examples (f : List Nat → Except Err (List Nat)) :
    luaO_str2d f (cstr [48, 120]) 2 = .ok 0 ∧
    luaO_str2d f (cstr [48, 120, 46]) 3 = .ok 0 ∧
    luaO_str2d f (cstr [48, 120, 49, 112]) 4 = .ok 0 ∧
    luaO_str2d f (cstr [48, 120, 49]) 3 = .ok 1 ∧
    luaO_str2d f (cstr [48, 120, 46, 56]) 4 = .ok 1 ∧
    luaO_str2d f (cstr [32, 45, 48, 88, 65, 46, 56, 112, 43, 49, 32]) 11 = .ok 1 :=
  ⟨rfl, rfl, rfl, rfl, rfl, rfl⟩

/-! ## The cursor, the dummy node and the hash functions -/

theorem getfreepos_lastfree_le {N : Type} (t : Table N) :
    (getfreepos t).1.lastfree ≤ t.lastfree ∧
    (getfreepos t).1 = { t with lastfree := (getfreepos t).1.lastfree } := by
  have hspec := getfreepos_loop_spec t t.lastfree
  have e : (getfreepos t).1.lastfree = (getfreepos_loop t t.lastfree).1 := rfl
  refine ⟨?_, rfl⟩
  rw [e]
  cases hfp : (getfreepos_loop t t.lastfree).2 with
  | none => rw [(hspec.2 hfp).1]; exact Nat.zero_le _
  | some n =>
    obtain ⟨hn, h0, _, _⟩ := hspec.1 n hfp
    rw [h0]
    exact Nat.le_of_lt hn

theorem newkey0_lastfree {N : Type} [DecidableEq N] (ops : LuaConf N) (t : Table N)
    (k : TValue N) (t1 : Table N) (c : Cell) (h : luaH_newkey ops 0 t k = .ok (t1, c)) :
    t1.lastfree ≤ t.lastfree := by
  have hle := (getfreepos_lastfree_le t).1
  rw [luaH_newkey_eq] at h
  split_ifs at h
  · rcases hg : getfreepos t with ⟨t0, _ | n⟩
    · rw [hg] at h
      cases h
    · rw [hg] at h
      rw [hg] at hle
      simp only [] at h
      split_ifs at h
      · cases hf : findprev t0 (mainposition ops t k) (sizenode t0)
            (mainposition ops t0 (gnode t0 (mainposition ops t k)).i_key) with
        | error e => rw [hf] at h; cases h
        | ok prev =>
          rw [hf] at h
          cases h
          exact hle
      · cases h
        exact hle
  · cases h
    exact Nat.le_refl _

theorem dummy_node_eq {N : Type} {ops : LuaConf N} (t : Table N) (hI : Inv ops t)
    (hd : t.isdummy = true) :
    t.node = [dummynode_] ∧ t.lsizenode = 0 ∧ t.lastfree = 0 ∧ sizenode t = 1 := by
  obtain ⟨h0, hk, hlf⟩ := hI.dummy hd
  have hs : sizenode t = 1 := by unfold sizenode twoto; rw [h0]; rfl
  have hlen := hI.size_eq
  rw [hs] at hlen
  obtain ⟨hv, hn, _⟩ := hI.free 0 (by rw [hs]; exact Nat.one_pos) hk
  refine ⟨?_, h0, hlf, hs⟩
  match hnode : t.node, hlen with
  | [x], _ =>
    have hx : gnode t 0 = x := by unfold gnode; rw [hnode]; rfl
    rw [hx] at hk hv hn
    cases x
    simp only [dummynode_] at hk hv hn ⊢
    rw [hk, hv, hn]

theorem dummy_getfreepos {N : Type} (t : Table N) (h : t.lastfree = 0) :
    getfreepos t = (t, none) := by
  unfold getfreepos
  rw [h]
  simp only [getfreepos_loop]
  cases t
  simp only [] at h
  rw [h]

theorem dummy_newkey_eq {N : Type} [DecidableEq N] (ops : LuaConf N) (d : Nat) (t : Table N)
    (hd : t.isdummy = true) (h0 : t.lsizenode = 0) (hlf : t.lastfree = 0) (k : TValue N)
    (hk : validkey ops k = true) :
    luaH_newkey ops d t k = newkey_rehash ops d t k := by
  rw [luaH_newkey_unfold ops d t k hk, mainposition_one ops t h0 k, hd,
    dummy_getfreepos t hlf]
  simp

theorem hashnum_int_range {N : Type} (ops : LuaConf N) (n : N) :
    0 ≤ hashnum_int ops n ∧ hashnum_int ops n ≤ INT_MAX ∧
    (cast_int (ops.luai_hashnum n) = -2147483648 → hashnum_int ops n = 0) ∧
    (0 ≤ cast_int (ops.luai_hashnum n) → hashnum_int ops n = cast_int (ops.luai_hashnum n)) ∧
    (cast_int (ops.luai_hashnum n) < 0 → cast_int (ops.luai_hashnum n) ≠ -2147483648 →
      hashnum_int ops n = - cast_int (ops.luai_hashnum n)) := by
  have hr := cast_int_range (ops.luai_hashnum n)
  unfold hashnum_int INT_MAX
  simp only []
  generalize cast_int (ops.luai_hashnum n) = i at hr ⊢
  unfold cast_unsigned
  split_ifs <;> omega

theorem hashmod_divisor (k : Nat) (hk : k ≤ 30) :
    ((2 ^ k - 1) ||| 1) % 2 = 1 ∧ 0 < (2 ^ k - 1) ||| 1 ∧ (2 ^ k - 1) ||| 1 ≤ 2 ^ k ∧
    (0 < k → (2 ^ k - 1) ||| 1 = 2 ^ k - 1) := by
  interval_cases k <;> decide

theorem built_reachable {N : Type} [DecidableEq N] {ops : LuaConf N} (t : Table N)
    (h : Built ops t) : Reachable ops t := by
  induction h with
  | new => exact Reachable.new
  | set d t t1 k v c _ hd hs ih => exact Reachable.set d t t1 k v c ih hd hs
  | setint d t t1 key v _ hkey hs ih => exact Reachable.setint d t t1 key v ih hkey hs
  | newkey d t t1 k v c _ hd hg hs ih =>
    refine Reachable.set d t t1 k v c ih hd ?_
    unfold luaH_set luaH_set_with
    rw [hg]
    simpa using hs
  | resize d t t1 na nh _ hna hs ih => exact Reachable.resize d t t1 na nh ih hna hs
  | resizearray d t t1 na _ hna hs ih => exact Reachable.resize d t t1 na _ ih hna hs

theorem reachable_built {N : Type} [DecidableEq N] {ops : LuaConf N} (t : Table N)
    (h : Reachable ops t) : Built ops t := by
  induction h with
  | new => exact Built.new
  | set d t t1 k v c _ hd hs ih => exact Built.set d t t1 k v c ih hd hs
  | setint d t t1 key v _ hkey hs ih => exact Built.setint d t t1 key v ih hkey hs
  | resize d t t1 na nh _ hna hs ih => exact Built.resize d t t1 na nh ih hna hs

theorem built_extab127 : Built intConf (extab127.write (.val 0) (exnum 8)) :=
  Built.newkey 1 extab12 extab127 (exnum 7) (exnum 8) (.val 0)
    (reachable_built extab12 reachable_extab12) (by decide) (by decide) (by decide)

/-! ## End of stream -/

/-- The end of a stream as `luaZ_read` and `zgetc` leave it. Let `z` be a stream with
`z->n = 0` whose reader answers end-of-input. Then `luaZ_read(z,b,n)` with
`n > 0` returns `n`, copies nothing and leaves `z->n = 0`, the pointer and the reader as
they are, so that a later `luaZ_read` does the same when the reader answers end-of-input
again. An evaluation of `zgetc`
returns `EOZ` and leaves the pointer as it is, but its decrement has wrapped `z->n` to
`2^w - 1`: the next `zgetc` does not call the reader and reads the byte at the old pointer,
and the next `luaZ_read` of one byte copies that byte and returns 0 (both are undefined
when the pointer is null or at the end of its buffer). -/
theorem luaZ_read_eoz_sticky {R : Type} (w : Nat) (z : Zio R) (hw : 0 < w) (hn : z.n = 0)
    (hr : (z.reader z.data).1.buff = none ∨ (z.reader z.data).1.size = 0) :
    (∀ n, 0 < n →
      luaZ_read w z n = .ok (n, [], { z with data := (z.reader z.data).2 })) ∧
    zgetc w z = .ok (EOZ, { z with n := 2 ^ w - 1, data := (z.reader z.data).2 }) ∧
    zgetc w { z with n := 2 ^ w - 1, data := (z.reader z.data).2 } =
      (match deref z.p with
       | none => .error .undefined
       | some c => .ok (cast_uchar c,
          { z with n := 2 ^ w - 2, p := ptr_add z.p 1, data := (z.reader z.data).2 })) ∧
    luaZ_read w { z with n := 2 ^ w - 1, data := (z.reader z.data).2 } 1 =
      (match memread z.p 1 with
       | none => .error .undefined
       | some bytes => .ok (0, bytes,
          { z with n := 2 ^ w - 2, p := ptr_add z.p 1, data := (z.reader z.data).2 })) := by
  have hp : 2 ≤ 2 ^ w := by
    calc 2 = 2 ^ 1 := by norm_num
      _ ≤ 2 ^ w := Nat.pow_le_pow_right (by norm_num) hw
  have hfill : ∀ z1 : Zio R, z1.reader = z.reader → z1.data = z.data →
      luaZ_fill z1 = .ok (EOZ, { z1 with data := (z1.reader z1.data).2 }) := by
    intro z1 h1 h2
    unfold luaZ_fill
    simp only []
    rw [if_pos (by rw [h1, h2]; exact hr)]
  have hdec : (0 + (2 ^ w - 1)) % 2 ^ w = 2 ^ w - 1 := by
    rw [Nat.zero_add]
    exact Nat.mod_eq_of_lt (by omega)
  have hdec2 : (2 ^ w - 1 + (2 ^ w - 1)) % 2 ^ w = 2 ^ w - 2 := by
    have e : 2 ^ w - 1 + (2 ^ w - 1) = (2 ^ w - 2) + 2 ^ w := by omega
    rw [e, Nat.add_mod_right]
    exact Nat.mod_eq_of_lt (by omega)
  refine ⟨?_, ?_, ?_, ?_⟩
  · intro n hn0
    obtain ⟨m, rfl⟩ : ∃ m, n = m + 1 := ⟨n - 1, by omega⟩
    unfold luaZ_read
    rw [luaZ_read_loop, if_neg (by omega)]
    unfold luaZ_read_refill
    rw [if_pos hn, hfill z rfl rfl]
    simp
  · unfold zgetc
    simp only []
    rw [if_neg (by omega), hn, hdec, hfill { z with n := 2 ^ w - 1 } rfl rfl]
  · have key : ∀ n1, n1 = 2 ^ w - 2 →
        ((match deref z.p with
          | none => .error .undefined
          | some c => .ok (cast_uchar c,
              { z with n := n1, p := ptr_add z.p 1, data := (z.reader z.data).2 })) :
            Except Err (Int × Zio R)) =
        (match deref z.p with
          | none => .error .undefined
          | some c => .ok (cast_uchar c,
              { z with n := 2 ^ w - 2, p := ptr_add z.p 1, data := (z.reader z.data).2 })) := by
      intro n1 h
      rw [h]
    unfold zgetc
    simp only []
    rw [if_pos (by omega)]
    exact key _ hdec2
  · unfold luaZ_read
    rw [luaZ_read_loop, if_neg (by omega)]
    unfold luaZ_read_refill
    simp only []
    rw [if_neg (by omega)]
    simp only []
    rw [if_pos (by omega)]
    cases hm : memread z.p 1 with
    | none => rfl
    | some bytes =>
      simp only [luaZ_read_loop, Nat.sub_self, if_true, List.nil_append]
      have e : 2 ^ w - 1 - 1 = 2 ^ w - 2 := by omega
      rw [e]

/-- The stream of `luaZ_init` over a reader that has nothing to give, with a 64-bit
`size_t`: `luaZ_read` of three bytes returns 3 and leaves the stream as it is, and `zgetc`
returns `EOZ` and leaves `z->n = 2^64 - 1`. -/
theorem luaZ_read_eoz_sticky_example :
    luaZ_read 64 (luaZ_init answers_reader []) 3 =
      .ok (3, [], { n := 0, p := none, reader := answers_reader, data := [] }) ∧
    zgetc 64 (luaZ_init answers_reader []) =
      .ok (EOZ, { n := 2 ^ 64 - 1, p := none, reader := answers_reader, data := [] }) :=
  ⟨(luaZ_read_eoz_sticky 64 (luaZ_init answers_reader []) (by decide) rfl (Or.inl rfl)).1 3
      (by decide),
    (luaZ_read_eoz_sticky 64 (luaZ_init answers_reader []) (by decide) rfl (Or.inl rfl)).2.1⟩

theorem ceillog2_least (x : Nat) (h1 : 1 ≤ x) (h2 : x < 4294967296) :
    x ≤ 2 ^ luaO_ceillog2 x ∧ (∀ m, x ≤ 2 ^ m → luaO_ceillog2 x ≤ m) ∧
    (x = 1 → luaO_ceillog2 x = 0) ∧
    (x ≠ 1 → 1 ≤ luaO_ceillog2 x ∧ 2 ^ (luaO_ceillog2 x - 1) < x) ∧
    luaO_ceillog2 x ≤ 32 := by
  obtain ⟨ha, hb, hc⟩ := luaO_ceillog2_spec x h1 h2
  have hmin : ∀ m, x ≤ 2 ^ m → luaO_ceillog2 x ≤ m := by
    intro m hm
    rcases hb with h | h
    · omega
    · by_contra hcon
      have : 2 ^ m ≤ 2 ^ (luaO_ceillog2 x - 1) := Nat.pow_le_pow_right (by norm_num) (by omega)
      omega
  refine ⟨ha, hmin, hc, ?_, hmin 32 (by norm_num; omega)⟩
  intro hne
  rcases hb with h | h
  · rw [h] at ha
    simp at ha
    omega
  · refine ⟨?_, h⟩
    by_contra hcon
    have h0 : luaO_ceillog2 x = 0 := by omega
    rw [h0] at ha
    simp at ha
    omega

theorem ceillog2_table (x : Nat) (h1 : 1 ≤ x) (h2 : x ≤ 256) :
    luaO_ceillog2 x = log_2.getD (x - 1) 0 := by
  unfold luaO_ceillog2
  have hx : (x % 4294967296 + 4294967295) % 4294967296 = x - 1 := by omega
  rw [hx]
  have hy : ¬ x - 1 ≥ 256 := by omega
  generalize x - 1 = y at hy ⊢
  rw [ceillog2_loop, if_neg hy, Nat.zero_add]

theorem int2fb_step (x : Nat) (h : x < 4294967295) :
    ((x + 1) % 4294967296) >>> 1 = (x + 1) / 2 := by
  rw [Nat.mod_eq_of_lt (by omega), Nat.shiftRight_eq_div_pow]

theorem int2fb_loop_spec : ∀ (f x : Nat) (e : Int), x ≤ 16 * 2 ^ f → x < 4294967295 →
    ∃ m j, int2fb_loop (f + 2) x e = .ok (m, e + (j : Nat)) ∧ m < 16 ∧
      (x < 16 → j = 0 ∧ m = x) ∧
      (16 ≤ x → 1 ≤ j ∧ 8 ≤ m ∧ 15 * 2 ^ (j - 1) < x ∧ x ≤ m * 2 ^ j) := by
  intro f
  induction f with
  | zero =>
    intro x e hx h32
    by_cases h16 : x ≥ 0x10
    · have hx16 : x = 16 := by
        have : (0x10 : Nat) = 16 := rfl
        omega
      subst hx16
      exact ⟨8, 1, by simp [int2fb_loop], by omega, fun h => by omega,
        fun _ => ⟨by omega, by omega, by norm_num, by norm_num⟩⟩
    · refine ⟨x, 0, ?_, ?_, fun _ => ⟨rfl, rfl⟩, fun h => ?_⟩
      · rw [int2fb_loop, if_neg h16]
        simp
      · have : (0x10 : Nat) = 16 := rfl
        omega
      · have : (0x10 : Nat) = 16 := rfl
        omega
  | succ f ih =>
    intro x e hx h32
    by_cases h16 : x ≥ 0x10
    · have h16a : 16 ≤ x := h16
      rw [int2fb_loop, if_pos h16, int2fb_step x h32]
      have hx1 : (x + 1) / 2 ≤ 16 * 2 ^ f := by
        rw [pow_succ] at hx
        omega
      obtain ⟨m, j, hr, hm, hlow, hhigh⟩ := ih ((x + 1) / 2) (e + 1) hx1 (by omega)
      refine ⟨m, j + 1, ?_, hm, fun h => by omega, fun _ => ?_⟩
      · rw [hr]
        congr 2
        push_cast
        ring
      · by_cases hs : (x + 1) / 2 < 16
        · obtain ⟨hj, hmx⟩ := hlow hs
          subst hj
          refine ⟨by omega, by omega, ?_, ?_⟩
          · simp only [Nat.add_sub_cancel, pow_zero]
            omega
          · simp only [zero_add, pow_one]
            omega
        · obtain ⟨hj, hm8, hlo, hhi⟩ := hhigh (by omega)
          refine ⟨by omega, hm8, ?_, ?_⟩
          · have e1 : j + 1 - 1 = (j - 1) + 1 := by omega
            rw [e1, pow_succ]
            omega
          · rw [pow_succ]
            have : (x + 1) / 2 * 2 ≤ m * 2 ^ j * 2 := Nat.mul_le_mul_right 2 hhi
            have e2 : m * (2 ^ j * 2) = m * 2 ^ j * 2 := by ring
            rw [e2]
            omega
    · have h16a : x < 16 := by
        have : (0x10 : Nat) = 16 := rfl
        omega
      refine ⟨x, 0, ?_, h16a, fun _ => ⟨rfl, rfl⟩, fun h => by omega⟩
      rw [int2fb_loop, if_neg h16]
      simp

theorem int2fb_loop_exp : ∀ (fuel x : Nat) (e : Int) (m : Nat) (e1 : Int),
    x < 4294967295 → int2fb_loop fuel x e = .ok (m, e1) →
    e ≤ e1 ∧ (16 ≤ x → e + 1 ≤ e1) := by
  intro fuel
  induction fuel with
  | zero => intro x e m e1 _ h; simp [int2fb_loop] at h
  | succ fuel ih =>
    intro x e m e1 h32 h
    rw [int2fb_loop] at h
    by_cases h16 : x ≥ 0x10
    · rw [if_pos h16, int2fb_step x h32] at h
      have := (ih ((x + 1) / 2) (e + 1) m e1 (by omega) h).1
      exact ⟨by omega, fun _ => this⟩
    · rw [if_neg h16] at h
      have h16a : x < 16 := by
        have : (0x10 : Nat) = 16 := rfl
        omega
      cases h
      exact ⟨le_refl _, fun h => by omega⟩

theorem int2fb_loop_mono : ∀ (fuel x y : Nat) (e : Int) (m1 m2 : Nat) (e1 e2 : Int),
    x ≤ y → y < 4294967295 → int2fb_loop fuel x e = .ok (m1, e1) →
    int2fb_loop fuel y e = .ok (m2, e2) → e1 < e2 ∨ (e1 = e2 ∧ m1 ≤ m2) := by
  intro fuel
  induction fuel with
  | zero => intro x y e m1 m2 e1 e2 _ _ h; simp [int2fb_loop] at h
  | succ fuel ih =>
    intro x y e m1 m2 e1 e2 hxy h32 hx hy
    have h10 : (0x10 : Nat) = 16 := rfl
    by_cases hy16 : y ≥ 0x10
    · by_cases hx16 : x ≥ 0x10
      · rw [int2fb_loop, if_pos hx16, int2fb_step x (by omega)] at hx
        rw [int2fb_loop, if_pos hy16, int2fb_step y h32] at hy
        exact ih _ _ _ _ _ _ _ (by omega) (by omega) hx hy
      · have hy1 := (int2fb_loop_exp (fuel + 1) y e m2 e2 h32 hy).2 (by omega)
        rw [int2fb_loop, if_neg hx16] at hx
        cases hx
        left
        omega
    · have hx16 : ¬ x ≥ 0x10 := by omega
      rw [int2fb_loop, if_neg hx16] at hx
      rw [int2fb_loop, if_neg hy16] at hy
      cases hx
      cases hy
      exact Or.inr ⟨rfl, hxy⟩

theorem int2fb_encode : ∀ j ∈ List.range 32, ∀ m ∈ List.range 8,
    cast_int ((cast_unsigned ((((0 : Int) + (j : Nat)) + 1) * 8) |||
      cast_unsigned (cast_int ((m + 8 : Nat) : Int) - 8) : Nat)) =
      (((j + 1) * 8 + m : Nat) : Int) := by
  decide

theorem pow_lt_of_lt_32 (j x : Nat) (h : 15 * 2 ^ j < x) (hx : x < 4294967296) : j < 29 := by
  by_contra hc
  have : 2 ^ 29 ≤ 2 ^ j := Nat.pow_le_pow_right (by norm_num) (by omega)
  norm_num at this
  omega

theorem luaO_int2fb_eq (x : Nat) (h8 : 8 ≤ x) (h32 : x < 4294967295) :
    ∃ m j, int2fb_loop 33 x 0 = .ok (m, ((j : Nat) : Int)) ∧ 8 ≤ m ∧ m < 16 ∧ j < 32 ∧
      luaO_int2fb x = .ok (((j + 1) * 8 + (m - 8) : Nat) : Int) ∧
      (x < 16 → j = 0 ∧ m = x) ∧
      (16 ≤ x → 1 ≤ j ∧ 15 * 2 ^ (j - 1) < x ∧ x ≤ m * 2 ^ j) := by
  have hx : x ≤ 16 * 2 ^ 31 := by norm_num; omega
  obtain ⟨m, j, hr, hm, hlow, hhigh⟩ := int2fb_loop_spec 31 x 0 hx h32
  have hr1 : int2fb_loop 33 x 0 = .ok (m, ((j : Nat) : Int)) := by
    rw [hr, zero_add]
  have hm8 : 8 ≤ m := by
    by_cases h : x < 16
    · rw [(hlow h).2]; exact h8
    · exact (hhigh (by omega)).2.1
  have hj : j < 32 := by
    by_cases h : x < 16
    · rw [(hlow h).1]; norm_num
    · have := pow_lt_of_lt_32 (j - 1) x (hhigh (by omega)).2.2.1 (by omega)
      omega
  refine ⟨m, j, hr1, hm8, hm, hj, ?_, hlow, fun h => ⟨(hhigh h).1, (hhigh h).2.2⟩⟩
  unfold luaO_int2fb
  rw [if_neg (by omega), hr]
  simp only []
  have henc := int2fb_encode j (List.mem_range.2 hj) (m - 8) (List.mem_range.2 (by omega))
  have e1 : m - 8 + 8 = m := by omega
  rw [e1] at henc
  rw [henc]

theorem luaO_int2fb_small (x : Nat) (h : x < 8) : luaO_int2fb x = .ok (x : Int) := by
  unfold luaO_int2fb
  rw [if_pos h, cast_int_of_range _ (by omega)]

theorem luaO_int2fb_mono (x y : Nat) (hxy : x ≤ y) (hy : y < 4294967295) :
    ∃ bx b : Nat, luaO_int2fb x = .ok (bx : Int) ∧ luaO_int2fb y = .ok (b : Int) ∧ bx ≤ b := by
  by_cases hy8 : y < 8
  · exact ⟨x, y, luaO_int2fb_small x (by omega), luaO_int2fb_small y hy8, hxy⟩
  · obtain ⟨m2, j2, hl2, hm2, hm2b, _, he2, _, _⟩ := luaO_int2fb_eq y (by omega) hy
    by_cases hx8 : x < 8
    · exact ⟨x, _, luaO_int2fb_small x hx8, he2, by omega⟩
    · obtain ⟨m1, j1, hl1, hm1, hm1b, _, he1, _, _⟩ := luaO_int2fb_eq x (by omega) (by omega)
      refine ⟨_, _, he1, he2, ?_⟩
      rcases int2fb_loop_mono 33 x y 0 m1 m2 _ _ hxy hy hl1 hl2 with h | ⟨h, h1⟩
      · have : j1 < j2 := by omega
        omega
      · have : j1 = j2 := by omega
        omega

theorem luaO_fb2int_encoded (j m : Nat) (hj : j ≤ 27) (hm8 : 8 ≤ m) (hm : m < 16) :
    luaO_fb2int (((j + 1) * 8 + (m - 8) : Nat) : Int) = .ok ((m * 2 ^ j : Nat) : Int) ∧
    luaO_int2fb (m * 2 ^ j) = .ok (((j + 1) * 8 + (m - 8) : Nat) : Int) ∧
    (j + 1) * 8 + (m - 8) ≤ 231 := by
  have hb : (j + 1) * 8 + (m - 8) ≤ 231 := by omega
  obtain ⟨h1, h2, h3, h4⟩ :=
    (fb_table ((j + 1) * 8 + (m - 8)) (List.mem_range.2 (by omega))).1 hb
  have e1 : ((j + 1) * 8 + (m - 8)) / 8 % 32 = j + 1 := by omega
  have e2 : ((j + 1) * 8 + (m - 8)) % 8 = m - 8 := by omega
  rw [e1, e2, if_neg (by omega)] at h1 h4
  have e3 : 8 + (m - 8) = m := by omega
  simp only [Nat.add_sub_cancel, e3] at h1 h4
  refine ⟨h1, ?_, hb⟩
  have e4 : ∀ v : Nat, v ≤ 2013265920 → cast_unsigned ((v : Nat) : Int) = v := by
    intro v hv
    unfold cast_unsigned
    rw [Int.emod_eq_of_lt (by omega) (by omega)]
    exact Int.toNat_natCast v
  have hp : 2 ^ j ≤ 2 ^ 27 := Nat.pow_le_pow_right (by norm_num) hj
  have hv : m * 2 ^ j ≤ 15 * 2 ^ 27 := Nat.mul_le_mul (by omega) hp
  norm_num at hv
  rw [e4 _ hv] at h4
  exact h4

theorem cast_unsigned_nat (v : Nat) (hv : v < 4294967296) : cast_unsigned ((v : Nat) : Int) = v := by
  unfold cast_unsigned
  rw [Int.emod_eq_of_lt (by omega) (by omega)]
  exact Int.toNat_natCast v

theorem luaO_fb2int_byte (b : Nat) (hb : b ≤ 255) (v : Int) (h : luaO_fb2int b = .ok v) :
    b ≤ 231 ∧ ∃ n : Nat, v = (n : Int) ∧ n ≤ 2147483647 ∧ luaO_int2fb n = .ok (b : Int) := by
  have ht := fb_table b (List.mem_range.2 (by omega))
  by_cases h1 : b ≤ 231
  · obtain ⟨a1, a2, a3, a4⟩ := ht.1 h1
    generalize (if b / 8 % 32 = 0 then ((b % 8 : Nat) : Int)
        else (((8 + b % 8) * 2 ^ (b / 8 % 32 - 1) : Nat) : Int)) = V at a1 a2 a3 a4
    rw [a1] at h
    cases h
    unfold INT_MAX at a3
    refine ⟨h1, v.toNat, by omega, by omega, ?_⟩
    have e : cast_unsigned v = v.toNat := by
      unfold cast_unsigned
      rw [Int.emod_eq_of_lt a2 (by omega)]
    rw [← e]
    exact a4
  · rw [ht.2 (by omega)] at h
    cases h

theorem luaO_int2fb_value (x : Nat) (hx : x ≤ 2013265920) :
    ∃ b v : Nat, b ≤ 231 ∧ luaO_int2fb x = .ok (b : Int) ∧ luaO_fb2int b = .ok (v : Int) ∧
      x ≤ v ∧ v ≤ 2013265920 ∧ (x < 16 → v = x) ∧ luaO_int2fb v = .ok (b : Int) := by
  by_cases h8 : x < 8
  · have ht := (fb_table x (List.mem_range.2 (by omega))).1 (by omega)
    have e1 : x / 8 % 32 = 0 := by omega
    have e2 : x % 8 = x := by omega
    rw [if_pos e1, e2] at ht
    exact ⟨x, x, by omega, luaO_int2fb_small x h8, ht.1, le_refl _, hx, fun _ => rfl,
      luaO_int2fb_small x h8⟩
  · obtain ⟨m, j, _, hm8, hm, _, he, hlow, hhigh⟩ := luaO_int2fb_eq x (by omega) (by omega)
    have hj : j ≤ 27 := by
      by_cases h : x < 16
      · rw [(hlow h).1]; norm_num
      · obtain ⟨h1, h2, _⟩ := hhigh (by omega)
        by_contra hc
        have : 2 ^ 27 ≤ 2 ^ (j - 1) := Nat.pow_le_pow_right (by norm_num) (by omega)
        norm_num at this
        omega
    obtain ⟨hd, hrt, hb⟩ := luaO_fb2int_encoded j m hj hm8 hm
    have hp : 2 ^ j ≤ 2 ^ 27 := Nat.pow_le_pow_right (by norm_num) hj
    have hv : m * 2 ^ j ≤ 15 * 2 ^ 27 := Nat.mul_le_mul (by omega) hp
    norm_num at hv
    refine ⟨_, m * 2 ^ j, hb, he, hd, ?_, hv, ?_, hrt⟩
    · by_cases h : x < 16
      · obtain ⟨h1, h2⟩ := hlow h
        rw [h1, h2]
        simp
      · exact (hhigh (by omega)).2.2
    · intro h
      obtain ⟨h1, h2⟩ := hlow h
      rw [h1, h2]
      simp

theorem luaO_int2fb_least (x : Nat) (b v : Nat)
    (hb : luaO_int2fb x = .ok (b : Int)) (hv : luaO_fb2int b = .ok (v : Int))
    (hrt : luaO_int2fb v = .ok (b : Int)) (hv1 : v ≤ 2013265920)
    (b1 : Nat) (hb1 : b1 ≤ 255) (v1 : Int) (h1 : luaO_fb2int b1 = .ok v1)
    (hle : (x : Int) ≤ v1) (hle2 : v1 ≤ v) : v1 = v := by
  obtain ⟨_, n, hn, _, hrt1⟩ := luaO_fb2int_byte b1 hb1 v1 h1
  subst hn
  have hxn : x ≤ n := by omega
  have hnv : n ≤ v := by omega
  obtain ⟨p, q, hp, hq, hpq⟩ := luaO_int2fb_mono x n hxn (by omega)
  obtain ⟨p1, q1, hp1, hq1, hpq1⟩ := luaO_int2fb_mono n v hnv (by omega)
  rw [hb] at hp
  rw [hrt1] at hq hp1
  rw [hrt] at hq1
  have e1 : b = p := by
    have := Except.ok.inj hp
    omega
  have e2 : b1 = q := by
    have := Except.ok.inj hq
    omega
  have e3 : b1 = p1 := by
    have := Except.ok.inj hp1
    omega
  have e4 : b = q1 := by
    have := Except.ok.inj hq1
    omega
  have e5 : b1 = b := by omega
  rw [e5, hv] at h1
  exact (Except.ok.inj h1).symm

theorem chunkid_out_named (w c0 : Nat) (name : List Nat) (bufflen : Nat)
    (hc : c0 = 61 ∨ c0 = 64) (hnul : ∀ c ∈ name, c ≠ 0) (hb : 4 ≤ bufflen)
    (hw : bufflen < 2 ^ w) :
    ((c0 :: name).length ≤ bufflen →
      luaO_chunkid w (cstr (c0 :: name)) bufflen = .ok (cstr name)) ∧
    (bufflen < (c0 :: name).length → c0 = 61 →
      luaO_chunkid w (cstr (c0 :: name)) bufflen = .ok (cstr (name.take (bufflen - 1)))) ∧
    (bufflen < (c0 :: name).length → c0 = 64 →
      luaO_chunkid w (cstr (c0 :: name)) bufflen =
        .ok (cstr (RETS ++ name.drop (name.length - (bufflen - 4))))) := by
  have hnul1 : ∀ c ∈ c0 :: name, c ≠ 0 := by
    intro c hm
    rcases List.mem_cons.1 hm with h | h
    · rcases hc with h1 | h1 <;> omega
    · exact hnul c h
  have hl := strlen_cstr (c0 :: name) hnul1
  have h0 : (cstr (c0 :: name)).getD 0 0 = c0 := rfl
  have hlen : (cstr (c0 :: name)).length = name.length + 2 := by simp [cstr]
  have hdrop : ∀ k, (cstr (c0 :: name)).drop (k + 1) = (name ++ [0]).drop k := fun _ => rfl
  have hLL : LL RETS = 3 := rfl
  simp only [List.length_cons] at hl ⊢
  refine ⟨?_, ?_, ?_⟩
  · intro hle
    have hcopy : memcpy_src (cstr (c0 :: name)) ((1 : Nat) : Int) (name.length + 1) =
        .ok (cstr name) := by
      rw [memcpy_src_eq _ 1 _ (by rw [hlen]; omega), hdrop 0, List.drop_zero,
        List.take_of_length_le (by simp)]
      rfl
    unfold luaO_chunkid
    rw [hl, h0]
    simp only []
    rcases hc with h | h
    · rw [if_pos h, if_pos hle]
      exact hcopy
    · rw [if_neg (by omega), if_pos h, if_pos hle]
      exact hcopy
  · intro hlt h
    unfold luaO_chunkid
    rw [hl, h0]
    simp only []
    rw [if_pos h, if_neg (by omega), sub_sizet_eq w bufflen 1 (by omega) hw]
    have hcopy : memcpy_src (cstr (c0 :: name)) ((1 : Nat) : Int) (bufflen - 1) =
        .ok (name.take (bufflen - 1)) := by
      rw [memcpy_src_eq _ 1 _ (by rw [hlen]; omega), hdrop 0, List.drop_zero,
        List.take_append_of_le_length (by omega)]
    have hcopy1 : memcpy_src (cstr (c0 :: name)) 1 (bufflen - 1) =
        .ok (name.take (bufflen - 1)) := hcopy
    rw [hcopy1]
    rfl
  · intro hlt h
    unfold luaO_chunkid
    rw [hl, h0]
    simp only []
    rw [if_neg (by omega), if_pos h, if_neg (by omega), hLL,
      sub_sizet_eq w bufflen 3 (by omega) hw]
    have hoff : (1 : Int) + ((name.length + 1 : Nat) : Int) - ((bufflen - 3 : Nat) : Int) =
        ((name.length - (bufflen - 4) + 1 : Nat) : Int) := by omega
    rw [hoff, memcpy_src_eq _ _ _ (by rw [hlen]; omega), hdrop,
      List.drop_append_of_le_length (by omega), List.take_of_length_le (by simp; omega)]
    simp [cstr]

theorem chunkid_out_text (w : Nat) (src : List Nat) (bufflen : Nat)
    (hnul : ∀ c ∈ src, c ≠ 0) (h61 : src.head? ≠ some 61) (h64 : src.head? ≠ some 64)
    (hb : 15 ≤ bufflen) (hw : bufflen < 2 ^ w) :
    (10 ∉ src ∧ src.length < bufflen - 15 →
      luaO_chunkid w (cstr src) bufflen = .ok (cstr (PRE ++ src ++ POS))) ∧
    (¬ (10 ∉ src ∧ src.length < bufflen - 15) →
      luaO_chunkid w (cstr src) bufflen =
        .ok (cstr (PRE ++ (src.takeWhile (fun c => c != 10)).take (bufflen - 15) ++
          RETS ++ POS))) := by
  have hl := strlen_cstr src hnul
  have h0 : (cstr src).getD 0 0 ≠ 61 ∧ (cstr src).getD 0 0 ≠ 64 := by
    cases src with
    | nil => exact ⟨by decide, by decide⟩
    | cons a s =>
      simp only [List.head?_cons, ne_eq, Option.some.injEq] at h61 h64
      exact ⟨h61, h64⟩
  have hLL : LL (PRE ++ RETS ++ POS) + 1 = 15 := rfl
  have hsub := sub_sizet_eq w bufflen 15 hb hw
  have hlen : (cstr src).length = src.length + 1 := by simp [cstr]
  have hcopy : ∀ n, n ≤ src.length → memcpy_src (cstr src) 0 n = .ok (src.take n) := by
    intro n hn
    have := memcpy_src_eq (cstr src) 0 n (by rw [hlen]; omega)
    rw [List.drop_zero] at this
    rw [show ((0 : Nat) : Int) = 0 from rfl] at this
    rw [this]
    unfold cstr
    rw [List.take_append_of_le_length hn]
  obtain ⟨hnone, hsome⟩ := strchr_cstr src 10
  unfold luaO_chunkid
  rw [hl]
  simp only []
  rw [if_neg h0.1, if_neg h0.2, hLL, hsub]
  constructor
  · intro h
    rw [hnone h.1, if_pos ⟨h.2, rfl⟩, hcopy _ (le_refl _), List.take_length]
    simp [cstr]
  · intro h
    by_cases hmem : 10 ∈ src
    · obtain ⟨e1, e2⟩ := hsome hmem
      rw [e1, if_neg (by simp)]
      simp only []
      have hp : (src.takeWhile (fun c => c != 10)).take (bufflen - 15) =
          src.take (if src.indexOf 10 > bufflen - 15 then bufflen - 15
            else src.indexOf 10) := by
        rw [← take_indexOf, List.take_take]
        congr 1
        split <;> omega
      rw [hcopy _ (by split <;> omega), hp]
      simp [cstr]
    · rw [hnone hmem]
      have hlt : ¬ src.length < bufflen - 15 := fun h1 => h ⟨hmem, h1⟩
      rw [if_neg (fun h1 => hlt h1.1)]
      simp only []
      have hp : (src.takeWhile (fun c => c != 10)).take (bufflen - 15) =
          src.take (if src.length > bufflen - 15 then bufflen - 15 else src.length) := by
        rw [← take_indexOf, List.indexOf_eq_length.2 hmem, List.take_take]
        congr 1
        split <;> omega
      rw [hcopy _ (by split <;> omega), hp]
      simp [cstr]

theorem chunk_parts_nonzero : (∀ c ∈ PRE, c ≠ 0) ∧ (∀ c ∈ RETS, c ≠ 0) ∧ (∀ c ∈ POS, c ≠ 0) := by
  decide

theorem luaO_chunkid_bounded (w : Nat) (src : List Nat) (bufflen : Nat)
    (hnul : ∀ c ∈ src, c ≠ 0) (hb : 15 ≤ bufflen) (hw : bufflen < 2 ^ w) :
    ∃ out, luaO_chunkid w (cstr src) bufflen = .ok (cstr out) ∧ (∀ c ∈ out, c ≠ 0) ∧
      (cstr out).length ≤ bufflen := by
  obtain ⟨hP, hR, hQ⟩ := chunk_parts_nonzero
  have hPl : PRE.length = 9 := rfl
  have hRl : RETS.length = 3 := rfl
  have hQl : POS.length = 2 := rfl
  have hstring : src.head? ≠ some 61 → src.head? ≠ some 64 →
      ∃ out, luaO_chunkid w (cstr src) bufflen = .ok (cstr out) ∧ (∀ c ∈ out, c ≠ 0) ∧
        (cstr out).length ≤ bufflen := by
    intro h61 h64
    obtain ⟨h1, h2⟩ := chunkid_out_text w src bufflen hnul h61 h64 hb hw
    by_cases hc : 10 ∉ src ∧ src.length < bufflen - 15
    · refine ⟨_, h1 hc, ?_, ?_⟩
      · intro c hm
        simp only [List.mem_append] at hm
        rcases hm with (hm | hm) | hm
        · exact hP c hm
        · exact hnul c hm
        · exact hQ c hm
      · simp only [cstr, List.length_append, List.length_singleton, hPl, hQl]
        omega
    · refine ⟨_, h2 hc, ?_, ?_⟩
      · intro c hm
        simp only [List.mem_append] at hm
        rcases hm with ((hm | hm) | hm) | hm
        · exact hP c hm
        · exact hnul c ((List.takeWhile_prefix (fun c => c != 10)).subset (List.mem_of_mem_take hm))
        · exact hR c hm
        · exact hQ c hm
      · have ht : ((src.takeWhile (fun c => c != 10)).take (bufflen - 15)).length ≤
            bufflen - 15 := by
          rw [List.length_take]
          exact Nat.min_le_left _ _
        simp only [cstr, List.length_append, List.length_singleton, hPl, hQl, hRl]
        omega
  cases src with
  | nil => exact hstring (by simp) (by simp)
  | cons c0 name =>
    by_cases hc : c0 = 61 ∨ c0 = 64
    · have hnul1 : ∀ c ∈ name, c ≠ 0 := fun c hm => hnul c (List.mem_cons_of_mem _ hm)
      obtain ⟨h1, h2, h3⟩ := chunkid_out_named w c0 name bufflen hc hnul1 (by omega) hw
      by_cases hle : (c0 :: name).length ≤ bufflen
      · refine ⟨_, h1 hle, hnul1, ?_⟩
        simp only [cstr, List.length_append, List.length_singleton]
        simp only [List.length_cons] at hle
        omega
      · have hlt : bufflen < (c0 :: name).length := by omega
        rcases hc with hc | hc
        · refine ⟨_, h2 hlt hc, fun c hm => hnul1 c (List.mem_of_mem_take hm), ?_⟩
          simp only [cstr, List.length_append, List.length_singleton, List.length_take]
          omega
        · refine ⟨_, h3 hlt hc, ?_, ?_⟩
          · intro c hm
            simp only [List.mem_append] at hm
            rcases hm with hm | hm
            · exact hR c hm
            · exact hnul1 c (List.mem_of_mem_drop hm)
          · simp only [cstr, List.length_append, List.length_singleton, List.length_drop, hRl]
            simp only [List.length_cons] at hlt
            omega
    · have h61 : (c0 :: name).head? ≠ some 61 := by
        simp only [List.head?_cons, ne_eq, Option.some.injEq]
        exact fun h => hc (Or.inl h)
      have h64 : (c0 :: name).head? ≠ some 64 := by
        simp only [List.head?_cons, ne_eq, Option.some.injEq]
        exact fun h => hc (Or.inr h)
      exact hstring h61 h64

theorem histogram_prefix_le (nums : List Nat) (hlen : nums.length = 31)
    (h0 : nums.getD 0 0 ≤ 1) (hi : ∀ i, 1 ≤ i → i ≤ 30 → nums.getD i 0 ≤ 2 ^ (i - 1)) :
    ∀ i, i ≤ 30 → (nums.take (i + 1)).sum ≤ 2 ^ i := by
  have hstep : ∀ i, i < 31 → (nums.take (i + 1)).sum = (nums.take i).sum + nums.getD i 0 := by
    intro i hil
    have hil1 : i < nums.length := by omega
    rw [List.take_succ, List.sum_append, List.getD_eq_getElem?_getD]
    rw [List.getElem?_eq_getElem hil1]
    simp
  intro i
  induction i with
  | zero =>
    intro _
    rw [hstep 0 (by omega)]
    simpa using h0
  | succ i ih =>
    intro h
    rw [hstep (i + 1) (by omega), pow_succ]
    have h1 := ih (by omega)
    have h2 := hi (i + 1) (by omega) h
    simp only [Nat.add_sub_cancel] at h2
    omega

theorem computesizes_int_eq (nums : List Nat) (hlen : nums.length = 31) :
    computesizes_int nums nums.sum = computesizes nums nums.sum := by
  have key : ∀ (fuel i twotoi a na n : Nat), twotoi = 2 ^ i → fuel + i = 32 → i ≤ 30 →
      a = (nums.take i).sum →
      computesizes_int_loop nums nums.sum (fuel + 1) i twotoi a na n =
        computesizes_loop nums nums.sum fuel i twotoi a na n := by
    intro fuel
    induction fuel with
    | zero => intro i twotoi a na n _ h; omega
    | succ fuel ih =>
      intro i twotoi a na n h2 hf hi ha
      rw [computesizes_loop, computesizes_int_loop]
      by_cases hc : twotoi / 2 < nums.sum
      · rw [if_pos hc, if_pos hc, if_neg (by unfold MAXBITS; omega)]
        have hget : nums.get? i = some (nums.getD i 0) := by
          rw [List.get?_eq_getElem?, List.getD_eq_getElem?_getD]
          have : i < nums.length := by omega
          rw [List.getElem?_eq_getElem this]
          rfl
        rw [hget]
        simp only []
        have ha1 : (if nums.getD i 0 > 0 then a + nums.getD i 0 else a) =
            (nums.take (i + 1)).sum := by
          have : (nums.take (i + 1)).sum = (nums.take i).sum + nums.getD i 0 := by
            have hil : i < nums.length := by omega
            rw [List.take_succ, List.sum_append, List.getD_eq_getElem?_getD]
            rw [List.getElem?_eq_getElem hil]
            simp
          rw [this, ha]
          split <;> omega
        rw [ha1]
        by_cases hbrk : (nums.take (i + 1)).sum = nums.sum
        · rw [if_pos hbrk, if_pos hbrk]
        · rw [if_neg hbrk, if_neg hbrk]
          have hi30 : i < 30 := by
            by_contra h30
            have : i = 30 := by omega
            subst this
            apply hbrk
            rw [List.take_of_length_le (by omega)]
          have hp : 2 ^ (i + 1) ≤ 2 ^ 30 := Nat.pow_le_pow_right (by norm_num) (by omega)
          have hno : ¬ ((twotoi * 2 : Nat) : Int) > INT_MAX := by
            rw [h2, ← pow_succ]
            unfold INT_MAX
            norm_num at hp
            omega
          have hno1 : ¬ ((twotoi : Int) * 2) > INT_MAX := by
            intro h
            apply hno
            push_cast
            exact h
          rw [if_neg hno1]
          exact ih (i + 1) (twotoi * 2) _ _ _ (by rw [h2, pow_succ]) (by omega) (by omega) rfl
      · rw [if_neg hc, if_neg hc]
  unfold computesizes computesizes_int
  rw [hlen]
  exact key 32 0 1 0 0 0 rfl rfl (by omega) (by simp)

/-! ## The table contract -/

/-- C1: get/set round trip. Let `t` be a table built by `luaH_new`, `luaH_set`,
`luaH_setint` and `luaH_resize`, `k` a key that is neither nil nor NaN and `v` any value.
The calls `luaH_set(L,t,k)` and `luaH_setint(L,t,key,v)` return with one level of `rehash`,
unless they raise "table overflow", which takes a table of `2^30` entries. Whenever
`luaH_set(L,t,k)` returns a slot and `v` is stored in it, `luaH_get(t,k)` returns that
slot, which holds `v`. Whenever `luaH_setint(L,t,key,v)` returns for an `int` key,
`luaH_getint` and `luaH_get` on the number key return one slot, which holds `v`. The
statement holds at every nesting depth of `luaH_newkey`, so in each insertion case: key
present, array part, free main position, collision and rehash. -/
theorem get_set_roundtrip {N : Type} [DecidableEq N] {ops : LuaConf N} (hL : ops.Lawful)
    (t : Table N) (hR : Reachable ops t) (v : TValue N) :
    (∀ (k : TValue N) (d : Nat), validkey ops k = true →
      (∃ t1 c, luaH_set ops (d + 1) t k = .ok (t1, c)) ∨
      (luaH_set ops (d + 1) t k = .error (.runerror .table_overflow) ∧
        1073741824 ≤ numentries t)) ∧
    (∀ (key : Int) (d : Nat), cast_int key = key →
      (∃ t2, luaH_setint ops (d + 1) t key v = .ok t2) ∨
      (luaH_setint ops (d + 1) t key v = .error (.runerror .table_overflow) ∧
        1073741824 ≤ numentries t)) ∧
    (∀ (k : TValue N) (d : Nat) (t1 : Table N) (c : Cell), validkey ops k = true →
      luaH_set ops d t k = .ok (t1, c) →
      luaH_get ops (t1.write c v) k = .ok c ∧ c ≠ .nilobject ∧ (t1.write c v).read c = v) ∧
    (∀ (key : Int) (d : Nat) (t2 : Table N), cast_int key = key →
      luaH_setint ops d t key v = .ok t2 →
      ∃ c2, luaH_getint ops t2 key = .ok c2 ∧
        luaH_get ops t2 (.number (ops.cast_num key)) = .ok c2 ∧ t2.read c2 = v) := by
  obtain ⟨hI, hlen⟩ := reachable_inv hL t hR
  refine ⟨fun k d hk => luaH_set_total hL d t hI hlen k hk,
    fun key d hkey => luaH_setint_total hL d t hI hlen key hkey v, ?_, ?_⟩
  · intro k d t1 c hk hset
    have h1 := luaH_set_with_spec hL (luaH_newkey ops d) (luaH_newkey_spec hL d) t hI k hk
    unfold luaH_set at hset
    rw [hset] at h1
    obtain ⟨hI1, hg, hc, _, _⟩ := h1
    obtain ⟨_, hw, hv, _⟩ := write_spec hL t1 hI1 k (validkey_ttisnil ops k hk) c hg hc v
    refine ⟨by rw [hw k]; exact hg, hc, ?_⟩
    have h2 := hv k
    rw [if_pos (rawequal_refl hL k hk), getval_of_get ops _ k c (by rw [hw k]; exact hg)] at h2
    exact h2
  · intro key d2 t2 hkey hsetint
    have h1 := luaH_setint_with_spec hL (luaH_newkey ops d2) (luaH_newkey_spec hL d2) t hI
      key hkey v
    unfold luaH_setint at hsetint
    rw [hsetint] at h1
    obtain ⟨hI2, hv, _⟩ := h1
    obtain ⟨c2, hc2⟩ := luaH_get_total hL t2 hI2 (.number (ops.cast_num key))
    refine ⟨c2, ?_, hc2, ?_⟩
    · rw [luaH_getint_eq_get hL t2 hI2.asize_le key hkey]; exact hc2
    · have h2 := hv (.number (ops.cast_num key))
      rw [if_pos (rawequal_refl hL _ (validkey_cast hL key)), getval_of_get ops _ _ c2 hc2] at h2
      exact h2

/-- The round trip of C1 on the empty table, where both insertions of the key 3 pass
through `rehash`: the value 7 is read back from node 0. -/
theorem get_set_roundtrip_witness :
    luaH_set intConf 1 luaH_new (exnum 3) = .ok exset3 ∧
    luaH_setint intConf 1 luaH_new 3 (exnum 7) = .ok extab3 ∧
    (luaH_get intConf (exset3.1.write exset3.2 (exnum 7)) (exnum 3) = .ok exset3.2 ∧
      exset3.2 ≠ .nilobject ∧
      (exset3.1.write exset3.2 (exnum 7)).read exset3.2 = exnum 7) ∧
    (∃ c2, luaH_getint intConf extab3 3 = .ok c2 ∧
      luaH_get intConf extab3 (.number (intConf.cast_num 3)) = .ok c2 ∧
      extab3.read c2 = exnum 7) :=
  ⟨by decide, by decide,
    (get_set_roundtrip intConf_lawful luaH_new Reachable.new (exnum 7)).2.2.1 (exnum 3) 1
      exset3.1 exset3.2 (by decide) (by decide),
    (get_set_roundtrip intConf_lawful luaH_new Reachable.new (exnum 7)).2.2.2 3 1 extab3
      (by decide) (by decide)⟩

/-- C2: insertion preserves every other entry. Let `t` be a table built by `luaH_new`,
`luaH_set`, `luaH_setint` and `luaH_resize`, `k` a valid key and `v` a value. The call
`luaH_set(L,t,k)` returns with one level of `rehash`, unless it raises "table overflow",
which takes a table of `2^30` entries. Whenever it returns the slot `c` of the table `t1`
(after a Brent move, or a rehash with array growth, eviction from a shrunk array part and
re-insertion of the old nodes, as the case may be) and `v` is stored in `c`, a lookup of a
key `k1` that is not raw-equal to `k` returns, as before the insertion, a slot, and the
value in it is the value read before. No key is stored twice: no two nodes hold raw-equal
keys, and no node holds an integer key of the array part. -/
theorem set_preserves_other_keys {N : Type} [DecidableEq N] {ops : LuaConf N}
    (hL : ops.Lawful) (t : Table N) (hR : Reachable ops t) (k v : TValue N)
    (hk : validkey ops k = true) :
    (∀ d, (∃ t1 c, luaH_set ops (d + 1) t k = .ok (t1, c)) ∨
      (luaH_set ops (d + 1) t k = .error (.runerror .table_overflow) ∧
        1073741824 ≤ numentries t)) ∧
    ∀ (d : Nat) (t1 : Table N) (c : Cell), luaH_set ops d t k = .ok (t1, c) →
      (∀ k1, luaV_rawequalobj ops k k1 = false →
        ∃ c0 c1, luaH_get ops t k1 = .ok c0 ∧ luaH_get ops (t1.write c v) k1 = .ok c1 ∧
          (t1.write c v).read c1 = t.read c0) ∧
      (∀ i j, i < sizenode (t1.write c v) → j < sizenode (t1.write c v) →
        (gnode (t1.write c v) i).i_key ≠ .nil →
        luaV_rawequalobj ops (gnode (t1.write c v) i).i_key (gnode (t1.write c v) j).i_key
          = true → i = j) ∧
      (∀ i, i < sizenode (t1.write c v) → (gnode (t1.write c v) i).i_key ≠ .nil →
        ¬ (0 < arrayindex ops (gnode (t1.write c v) i).i_key ∧
          arrayindex ops (gnode (t1.write c v) i).i_key ≤
            ((t1.write c v).sizearray : Int))) := by
  obtain ⟨hI, hlen⟩ := reachable_inv hL t hR
  refine ⟨fun d => luaH_set_total hL d t hI hlen k hk, ?_⟩
  intro d t1 c hset
  have h1 := set_write_spec hL (luaH_newkey ops d) (luaH_newkey_spec hL d) t hI k hk v
  unfold luaH_set at hset
  rw [hset] at h1
  obtain ⟨hI2, hv, _⟩ := h1
  refine ⟨?_, hI2.nodup, hI2.array_disjoint⟩
  intro k1 hne
  obtain ⟨c0, hc0⟩ := luaH_get_total hL t hI k1
  obtain ⟨c1, hc1⟩ := luaH_get_total hL (t1.write c v) hI2 k1
  refine ⟨c0, c1, hc0, hc1, ?_⟩
  have h2 := hv k1
  rw [hne, getval_of_get ops _ k1 c1 hc1, getval_of_get ops _ k1 c0 hc0] at h2
  simpa using h2

/-- The frame property of C2 on `{[3] = 7}`: inserting the key 1 rehashes the table into an
array slot and a node, and the key 3 still reads 7. -/
theorem set_preserves_other_keys_witness :
    luaH_set intConf 1 extab3 (exnum 1) = .ok exset13 ∧
    luaV_rawequalobj intConf (exnum 1) (exnum 3) = false ∧
    luaH_get intConf extab3 (exnum 3) = .ok (.val 0) ∧
    luaH_get intConf (exset13.1.write exset13.2 (exnum 5)) (exnum 3) = .ok (.val 0) ∧
    (∃ c0 c1, luaH_get intConf extab3 (exnum 3) = .ok c0 ∧
      luaH_get intConf (exset13.1.write exset13.2 (exnum 5)) (exnum 3) = .ok c1 ∧
      (exset13.1.write exset13.2 (exnum 5)).read c1 = extab3.read c0) :=
  ⟨by decide, by decide, by decide, by decide,
    ((set_preserves_other_keys intConf_lawful extab3 reachable_extab3
      (exnum 1) (exnum 5) (by decide)).2 1 exset13.1 exset13.2 (by decide)).1 (exnum 3)
      (by decide)⟩

/-- C7: idempotent delete. For a table built by `luaH_new`, `luaH_set`, `luaH_setint` and
`luaH_resize` and a valid key `k`, present or not, `set(t,k,nil)` returns with one level of
`rehash`, unless it raises "table overflow", which takes a table of `2^30` entries.
Whenever it returns the table `t1`, a second `set(t1,k,nil)` returns `t1` again, the same
array part, node vector, chain links, `lastfree` and sizes, whatever the depth allowed to
the second call. -/
theorem set_nil_idempotent {N : Type} [DecidableEq N] {ops : LuaConf N} (hL : ops.Lawful)
    (t : Table N) (hR : Reachable ops t) (k : TValue N) (hk : validkey ops k = true) :
    (∀ d, (∃ t1, set ops (d + 1) t k .nil = .ok t1) ∨
      (set ops (d + 1) t k .nil = .error (.runerror .table_overflow) ∧
        1073741824 ≤ numentries t)) ∧
    ∀ (d : Nat) (t1 : Table N), set ops d t k .nil = .ok t1 →
      ∀ d2, set ops d2 t1 k .nil = .ok t1 := by
  obtain ⟨hI, hlen⟩ := reachable_inv hL t hR
  refine ⟨fun d => set_total hL d t hI hlen k .nil hk, ?_⟩
  intro d t1 hset d2
  have h1 := luaH_set_with_spec hL (luaH_newkey ops d) (luaH_newkey_spec hL d) t hI k hk
  unfold set luaH_set at hset
  cases hs : luaH_set_with ops (luaH_newkey ops d) t k with
  | error e => rw [hs] at hset; cases hset
  | ok r =>
    obtain ⟨t0, c⟩ := r
    rw [hs] at hset h1
    simp only [Except.ok.injEq] at hset
    obtain ⟨hI1, hg, hc, _, _⟩ := h1
    obtain ⟨_, hw, _⟩ := write_spec hL t0 hI1 k (validkey_ttisnil ops k hk) c hg hc .nil
    have hg1 : luaH_get ops t1 k = .ok c := by rw [← hset, hw k]; exact hg
    unfold set luaH_set luaH_set_with
    rw [hg1]
    simp only [ne_eq, hc, not_false_eq_true, if_true]
    rw [← hset, write_write]

/-- The double delete of C7 on `{[3] = 7}`: the first `set(t,3,nil)` leaves the key 3 in
its node with a nil value, the second returns that table again. -/
theorem set_nil_idempotent_witness :
    set intConf 1 extab3 (exnum 3) .nil = .ok exset3.1 ∧
    set intConf 0 exset3.1 (exnum 3) .nil = .ok exset3.1 :=
  ⟨by decide,
    (set_nil_idempotent intConf_lawful extab3 reachable_extab3 (exnum 3) (by decide)).2
      1 exset3.1 (by decide) 0⟩

/-- C5: the key errors of `luaH_newkey`. A nil key gives "table index is nil" and a NaN
number key gives "table index is NaN", for every table whatever its state and at every
depth: the two tests are made ahead of any read or write of the table, whose array part,
nodes, `lastfree` and sizes are the ones of the call when the error is raised. On a table
built by `luaH_new`, `luaH_set`, `luaH_setint` and `luaH_resize` and for a key that is no
dead-key mark, each error is raised only for its kind of key, so a key that is neither nil
nor NaN raises neither. -/
theorem luaH_newkey_key_errors {N : Type} [DecidableEq N] {ops : LuaConf N}
    (hL : ops.Lawful) (t : Table N) (hR : Reachable ops t) (k : TValue N)
    (hdead : ttisdeadkey k = false) (d : Nat) :
    (∀ (d1 : Nat) (t1 : Table N), ttisnil k = true →
      luaH_newkey ops d1 t1 k = .error (.runerror .index_is_nil)) ∧
    (∀ (d1 : Nat) (t1 : Table N), isnankey ops k = true →
      luaH_newkey ops d1 t1 k = .error (.runerror .index_is_NaN)) ∧
    (luaH_newkey ops d t k = .error (.runerror .index_is_nil) ↔ ttisnil k = true) ∧
    (luaH_newkey ops d t k = .error (.runerror .index_is_NaN) ↔ isnankey ops k = true) := by
  have hI := (reachable_inv hL t hR).1
  refine ⟨fun d1 t1 h => luaH_newkey_nil ops d1 t1 k h,
    fun d1 t1 h => luaH_newkey_nan ops d1 t1 k h, ?_, ?_⟩
  · constructor
    · intro h
      by_contra hn
      by_cases hnan : isnankey ops k = true
      · rw [luaH_newkey_nan ops d t k hnan] at h
        cases h
      · have hv : validkey ops k = true :=
          (validkey_iff ops k).2 ⟨by simpa using hn, by simpa using hnan, hdead⟩
        exact (luaH_newkey_no_keyerror hL d t hI k hv).1 h
    · exact fun h => luaH_newkey_nil ops d t k h
  · constructor
    · intro h
      by_contra hnan
      by_cases hn : ttisnil k = true
      · rw [luaH_newkey_nil ops d t k hn] at h
        cases h
      · have hv : validkey ops k = true :=
          (validkey_iff ops k).2 ⟨by simpa using hn, by simpa using hnan, hdead⟩
        exact (luaH_newkey_no_keyerror hL d t hI k hv).2 h
    · exact fun h => luaH_newkey_nan ops d t k h

/-- The key errors of C5 on `{[3] = 7}`: the NaN key is refused with "table index is NaN",
and not with "table index is nil". -/
theorem luaH_newkey_key_errors_witness :
    ttisdeadkey (TValue.number (none : Option Int)) = false ∧
    isnankey intConf (.number none) = true ∧
    luaH_newkey intConf 1 extab3 (.number none) = .error (.runerror .index_is_NaN) ∧
    ((∀ (d1 : Nat) (t1 : Table (Option Int)), ttisnil (TValue.number (none : Option Int)) = true →
      luaH_newkey intConf d1 t1 (.number none) = .error (.runerror .index_is_nil)) ∧
    (∀ (d1 : Nat) (t1 : Table (Option Int)), isnankey intConf (.number none) = true →
      luaH_newkey intConf d1 t1 (.number none) = .error (.runerror .index_is_NaN)) ∧
    (luaH_newkey intConf 1 extab3 (.number none) = .error (.runerror .index_is_nil) ↔
      ttisnil (TValue.number (none : Option Int)) = true) ∧
    (luaH_newkey intConf 1 extab3 (.number none) = .error (.runerror .index_is_NaN) ↔
      isnankey intConf (.number none) = true)) :=
  ⟨by decide, by decide, by decide,
    luaH_newkey_key_errors intConf_lawful extab3
      reachable_extab3
      (.number none) (by decide) 1⟩

/-- C6, with the array part set apart: lookup never fails. For a table built by `luaH_new`,
`luaH_set`, `luaH_setint` and `luaH_resize` and every key, nil included, `luaH_get`
returns a slot: no chain walk goes on for ever and nothing is raised, since every chain
reaches a node whose `next` is null. The slot is `luaO_nilobject` when the key is nil, and
when the key is no integer of the array range `1..sizearray` and no node on the chain of
its main position holds a raw-equal key. -/
theorem luaH_get_never_fails {N : Type} [DecidableEq N] {ops : LuaConf N} (hL : ops.Lawful)
    (t : Table N) (hR : Reachable ops t) (k : TValue N) :
    (∃ c, luaH_get ops t k = .ok c) ∧
    (∀ n, n < sizenode t → ∃ i, i < sizenode t ∧ Reach t n i ∧ (gnode t i).next = none) ∧
    (ttisnil k = true → luaH_get ops t k = .ok .nilobject) ∧
    (¬ (0 < arrayindex ops k ∧ arrayindex ops k ≤ (t.sizearray : Int)) →
      (∀ i, Reach t (mainposition ops t k) i →
        luaV_rawequalobj ops (gnode t i).i_key k = false) →
      luaH_get ops t k = .ok .nilobject) := by
  have hI := (reachable_inv hL t hR).1
  refine ⟨luaH_get_total hL t hI k, fun n hn => chain_ends t hI.chain n hn, ?_,
    fun harr hch => luaH_get_chain_none hL t hI k harr hch⟩
  intro hn
  rw [luaH_get_eq hL t hI.asize_le, if_pos hn]

/-- The lookups of C6 on `{[3] = 7}`: the key 4 is outside the array part and the chain of
its main position, the node of the key 3, holds no key equal to it; the lookup returns
`luaO_nilobject`. -/
theorem luaH_get_never_fails_witness :
    ¬ (0 < arrayindex intConf (exnum 4) ∧
      arrayindex intConf (exnum 4) ≤ (extab3.sizearray : Int)) ∧
    (∀ i, Reach extab3 (mainposition intConf extab3 (exnum 4)) i →
      luaV_rawequalobj intConf (gnode extab3 i).i_key (exnum 4) = false) ∧
    luaH_get intConf extab3 (exnum 4) = .ok .nilobject :=
  have hch : ∀ i, Reach extab3 (mainposition intConf extab3 (exnum 4)) i →
      luaV_rawequalobj intConf (gnode extab3 i).i_key (exnum 4) = false := by
    intro i hi
    have h0 : i = 0 := reach_of_next_none extab3 0 i (by decide) hi
    subst h0
    decide
  ⟨by decide, hch,
    (luaH_get_never_fails intConf_lawful extab3
      reachable_extab3
      (exnum 4)).2.2.2 (by decide) hch⟩

/-- C6 as worded fails for an integer key of the array range. In the table `{[1] = 5}`,
built by `luaH_setint` from `luaH_new`, no node on the chain of the main position of the
key 1 holds a key raw-equal to it, the only node being the dummy node; `luaH_get` returns
the array slot 0, which holds 5, and not `luaO_nilobject`. -/
theorem luaH_get_array_key_not_nilobject :
    Reachable intConf extab1 ∧
    ttisnil (exnum 1) = false ∧
    (∀ i, Reach extab1 (mainposition intConf extab1 (exnum 1)) i →
      luaV_rawequalobj intConf (gnode extab1 i).i_key (exnum 1) = false) ∧
    luaH_get intConf extab1 (exnum 1) = .ok (.arr 0) ∧
    luaH_get intConf extab1 (exnum 1) ≠ .ok .nilobject ∧
    extab1.read (.arr 0) = exnum 5 := by
  refine ⟨reachable_extab1, by decide, ?_, by decide, by decide, by decide⟩
  intro i hi
  have h0 : i = 0 := reach_of_next_none extab1 0 i (by decide) hi
  subst h0
  decide

/-- C10: the array fast path of `luaH_getint`. For every 32-bit `int` key, `INT_MIN`, zero
and the negative ones included, and every table whose `sizearray` is at most `2^30`, the
test `cast(unsigned, key-1) < cast(unsigned, sizearray)`, subtraction and casts taken
modulo `2^32`, holds iff `1 <= key <= sizearray`. When it holds `luaH_getint` returns the
slot `array[key-1]`, which is inside the array part; when it fails `luaH_getint` is the
walk of the chain at the main position of the number key. In a table built by `luaH_new`,
`luaH_set`, `luaH_setint` and `luaH_resize` that walk searches the hash part: if some node
holds a number key equal to `cast_num(key)`, `luaH_getint` returns the value slot of such a
node, which is on the chain of the main position of the key, and if no node holds such a
key it returns `luaO_nilobject`. -/
theorem luaH_getint_fast_path {N : Type} [DecidableEq N] (ops : LuaConf N) (t : Table N)
    (key : Int) (hkey : -2147483648 ≤ key ∧ key ≤ 2147483647)
    (hsize : t.sizearray ≤ 2 ^ 30) :
    (cast_unsigned (key - 1) < cast_unsigned t.sizearray ↔
      1 ≤ key ∧ key ≤ (t.sizearray : Int)) ∧
    (1 ≤ key ∧ key ≤ (t.sizearray : Int) →
      luaH_getint ops t key = .ok (.arr (key - 1).toNat) ∧ (key - 1).toNat < t.sizearray ∧
      ((key - 1).toNat : Int) = key - 1) ∧
    (¬ (1 ≤ key ∧ key ≤ (t.sizearray : Int)) →
      luaH_getint ops t key =
        getint_loop ops t (ops.cast_num key) (sizenode t) (hashnum ops t (ops.cast_num key))) ∧
    (ops.Lawful → Reachable ops t → ¬ (1 ≤ key ∧ key ≤ (t.sizearray : Int)) →
      (∃ i m, i < sizenode t ∧ (gnode t i).i_key = .number m ∧
        ops.luai_numeq m (ops.cast_num key) = true ∧
        Reach t (hashnum ops t (ops.cast_num key)) i ∧
        luaH_getint ops t key = .ok (.val i)) ∨
      ((∀ i m, i < sizenode t → (gnode t i).i_key = .number m →
          ops.luai_numeq m (ops.cast_num key) = false) ∧
        luaH_getint ops t key = .ok .nilobject)) := by
  have h := getint_test_iff key t.sizearray hkey hsize
  refine ⟨h, ?_, ?_, ?_⟩
  · intro hr
    refine ⟨?_, by omega, by omega⟩
    unfold luaH_getint
    rw [if_pos (h.2 hr)]
  · intro hr
    unfold luaH_getint
    rw [if_neg (fun hc => hr (h.1 hc))]
  · intro hL hR hr
    obtain ⟨hI, _⟩ := reachable_inv hL t hR
    have hk : cast_int key = key := cast_int_of_range key hkey
    have harr : ¬ (0 < arrayindex ops (.number (ops.cast_num key)) ∧
        arrayindex ops (.number (ops.cast_num key)) ≤ (t.sizearray : Int)) := by
      rw [arrayindex_cast hL key hk]
      intro hc
      exact hr ⟨by omega, hc.2⟩
    rw [luaH_getint_eq_get hL t hI.asize_le key hk]
    rcases luaH_get_hash hL t hI (.number (ops.cast_num key)) rfl harr with
      ⟨i, hi, he, hg⟩ | ⟨hall, hg⟩
    · left
      rw [rawequal_number_left] at he
      cases hkey_i : (gnode t i).i_key with
      | number m =>
        rw [hkey_i] at he
        simp only [] at he
        have hne : (gnode t i).i_key ≠ .nil := by rw [hkey_i]; intro hc; cases hc
        have hreach := hI.reach i hi hne
        have hmp : mainposition ops t (gnode t i).i_key =
            mainposition ops t (.number (ops.cast_num key)) := by
          apply mainposition_congr hL
          rw [hkey_i, rawequal_number_left]
          exact he
        rw [hmp] at hreach
        exact ⟨i, m, hi, hkey_i, he, hreach, hg⟩
      | _ => rw [hkey_i] at he; simp at he
    · right
      refine ⟨?_, hg⟩
      intro i m hi hkey_i
      have := hall i hi
      rw [rawequal_number_left, hkey_i] at this
      exact this

/-- The fast path of C10 at `INT_MIN` on `{[1] = 5}`: `key-1` wraps to `INT_MAX`, the test
fails and the hash part is searched, where the key is not found. In the table `ex36` of
four nodes, without array part, the search for the key 6 starts at node 0, its main
position, which holds the key 3, and follows the chain to node 3, which holds the key 6;
the key 5 is in no node and the search returns `luaO_nilobject`. -/
theorem luaH_getint_fast_path_witness :
    ((-2147483648 : Int) ≤ -2147483648 ∧ (-2147483648 : Int) ≤ 2147483647) ∧
    extab1.sizearray ≤ 2 ^ 30 ∧
    cast_unsigned (-2147483648 - 1) = 2147483647 ∧
    ¬ (cast_unsigned (-2147483648 - 1) < cast_unsigned extab1.sizearray) ∧
    luaH_getint intConf extab1 (-2147483648) =
      getint_loop intConf extab1 (intConf.cast_num (-2147483648)) (sizenode extab1)
        (hashnum intConf extab1 (intConf.cast_num (-2147483648))) ∧
    luaH_getint intConf extab1 (-2147483648) = .ok .nilobject ∧
    hashnum intConf ex36 (intConf.cast_num 6) = 0 ∧ (gnode ex36 0).i_key = exnum 3 ∧
    (gnode ex36 0).next = some 3 ∧ (gnode ex36 3).i_key = exnum 6 ∧
    luaH_getint intConf ex36 6 = .ok (.val 3) ∧
    luaH_getint intConf ex36 5 = .ok .nilobject ∧
    ((∃ i m, i < sizenode ex36 ∧ (gnode ex36 i).i_key = .number m ∧
        intConf.luai_numeq m (intConf.cast_num 6) = true ∧
        Reach ex36 (hashnum intConf ex36 (intConf.cast_num 6)) i ∧
        luaH_getint intConf ex36 6 = .ok (.val i)) ∨
      ((∀ i m, i < sizenode ex36 → (gnode ex36 i).i_key = .number m →
          intConf.luai_numeq m (intConf.cast_num 6) = false) ∧
        luaH_getint intConf ex36 6 = .ok .nilobject)) :=
  ⟨by decide, by decide, by decide, by decide,
    (luaH_getint_fast_path intConf extab1 (-2147483648) (by decide) (by decide)).2.2.1
      (by decide),
    by decide, by decide, by decide, by decide, by decide, by decide, by decide,
    (luaH_getint_fast_path intConf ex36 6 (by decide) (by decide)).2.2.2 intConf_lawful
      reachable_ex36 (by decide)⟩

/-- C3: iteration completeness. For a table built by `luaH_new`, `luaH_set`, `luaH_setint`
and `luaH_resize`, the calls of `luaH_next` that start at the nil key and feed each
returned key back end with the result 0 after at most `sizearray + sizenode` pairs. Every
pair yielded has a non-nil value, which is the value that `luaH_get` reads under its key, so
a key whose value is nil is never yielded; every key under which `luaH_get` reads a non-nil
value is yielded, by a raw-equal key and with that value; and no two pairs yielded have
raw-equal keys. -/
theorem traversal_complete {N : Type} [DecidableEq N] {ops : LuaConf N} (hL : ops.Lawful)
    (t : Table N) (hR : Reachable ops t) :
    ∃ l, traversal ops t (t.sizearray + sizenode t + 1) .nil = .ok l ∧
      (∀ k v, (k, v) ∈ l →
        ttisnil v = false ∧ ∃ c, luaH_get ops t k = .ok c ∧ t.read c = v) ∧
      (∀ k c, luaH_get ops t k = .ok c → ttisnil (t.read c) = false →
        ∃ k1, luaV_rawequalobj ops k1 k = true ∧ (k1, t.read c) ∈ l) ∧
      l.Pairwise (fun a b => luaV_rawequalobj ops a.1 b.1 = false) := by
  have hI := (reachable_inv hL t hR).1
  refine ⟨_, traversal_nil hL t hI, ?_, ?_, entries_pairwise hL t hI⟩
  · intro k v hm
    rcases List.mem_append.1 hm with h | h
    · obtain ⟨i, hi, hv, he⟩ := (mem_array_entries ops t _).1 h
      simp only [Prod.mk.injEq] at he
      obtain ⟨rfl, rfl⟩ := he
      exact ⟨hv, .arr i, (array_key_get hL t hI i hi).2.2, rfl⟩
    · obtain ⟨j, hj, hv, he⟩ := (mem_node_entries t _).1 h
      simp only [Prod.mk.injEq] at he
      obtain ⟨rfl, rfl⟩ := he
      exact ⟨hv, .val j, (node_key_get hL t hI j hj hv).2.2, rfl⟩
  · intro k c hg hv
    rcases luaH_get_cases hL t hI k c hg with rfl | ⟨i, rfl, hi, ha⟩ | ⟨j, rfl, hj, _, hr⟩
    · exact absurd hv (by simp [Table.read, ttisnil, rttype])
    · obtain ⟨_, hc1, _⟩ := array_key_get hL t hI i hi
      refine ⟨.number (ops.cast_num ((i : Int) + 1)),
        (rawequal_cast_iff hL _ hc1 k (by omega)).2 ha, ?_⟩
      exact List.mem_append_left _ ((mem_array_entries ops t _).2 ⟨i, hi, hv, rfl⟩)
    · exact ⟨(gnode t j).i_key, hr,
        List.mem_append_right _ ((mem_node_entries t _).2 ⟨j, hj, hv, rfl⟩)⟩

/-- The traversal of C3 on `{[1] = 5, [3] = nil}`, the table `{[1] = 5, [3] = 7}` after
the key 3 was deleted: only the pair of the key 1 is yielded. -/
theorem traversal_complete_witness :
    traversal intConf extab13d 3 .nil = .ok [(exnum 1, exnum 5)] ∧
    ∃ l, traversal intConf extab13d (extab13d.sizearray + sizenode extab13d + 1) .nil = .ok l ∧
      (∀ k v, (k, v) ∈ l →
        ttisnil v = false ∧ ∃ c, luaH_get intConf extab13d k = .ok c ∧ extab13d.read c = v) ∧
      (∀ k c, luaH_get intConf extab13d k = .ok c → ttisnil (extab13d.read c) = false →
        ∃ k1, luaV_rawequalobj intConf k1 k = true ∧ (k1, extab13d.read c) ∈ l) ∧
      l.Pairwise (fun a b => luaV_rawequalobj intConf a.1 b.1 = false) :=
  ⟨by decide, traversal_complete intConf_lawful extab13d reachable_extab13d⟩

/-- C8: iteration order. For a table built by `luaH_new`, `luaH_set`, `luaH_setint` and
`luaH_resize`, the pairs that `luaH_next` yields from the nil key on are first the array
slots with a non-nil value, by increasing index `i` and under the number key `i+1`, then
the nodes with a non-nil value, by increasing node index. The traversal index that
`findindex` computes for a yielded key is the position it was yielded from: `i` for the
array slot `i` and `sizearray + j` for the node `j`. -/
theorem traversal_order {N : Type} [DecidableEq N] {ops : LuaConf N} (hL : ops.Lawful)
    (t : Table N) (hR : Reachable ops t) :
    traversal ops t (t.sizearray + sizenode t + 1) .nil =
      .ok (array_entries ops t ++ node_entries t) ∧
    (∀ i, i < t.sizearray → ttisnil (t.array.getD i .nil) = false →
      findindex ops t (.number (ops.cast_num ((i : Int) + 1))) = .ok (i : Int)) ∧
    (∀ j, j < sizenode t → ttisnil (gnode t j).i_val = false →
      findindex ops t (gnode t j).i_key = .ok ((j : Int) + t.sizearray)) := by
  have hI := (reachable_inv hL t hR).1
  refine ⟨traversal_nil hL t hI, ?_, ?_⟩
  · intro i hi _
    rw [findindex_of_get hL t hI _ _ (array_key_get hL t hI i hi).2.2 (by simp)]
    rfl
  · intro j hj hv
    rw [findindex_of_get hL t hI _ _ (node_key_get hL t hI j hj hv).2.2 (by simp)]
    rfl

/-- The order of C8 on `{[1] = 5, [3] = 7}`, one array slot and one node: the array pair
comes first, and the key 3 of node 0 has the traversal index 1. -/
theorem traversal_order_witness :
    array_entries intConf extab13 ++ node_entries extab13 =
      [(exnum 1, exnum 5), (exnum 3, exnum 7)] ∧
    findindex intConf extab13 (exnum 3) = .ok 1 ∧
    (traversal intConf extab13 (extab13.sizearray + sizenode extab13 + 1) .nil =
      .ok (array_entries intConf extab13 ++ node_entries extab13) ∧
    (∀ i, i < extab13.sizearray → ttisnil (extab13.array.getD i .nil) = false →
      findindex intConf extab13 (.number (intConf.cast_num ((i : Int) + 1))) = .ok (i : Int)) ∧
    (∀ j, j < sizenode extab13 → ttisnil (gnode extab13 j).i_val = false →
      findindex intConf extab13 (gnode extab13 j).i_key =
        .ok ((j : Int) + extab13.sizearray))) :=
  ⟨by decide, by decide, traversal_order intConf_lawful extab13 reachable_extab13⟩

/-- C9: assigning to an existing key during a traversal. Let `t` be a table built by
`luaH_new`, `luaH_set`, `luaH_setint` and `luaH_resize` and `k` a key whose slot `c`, the
one `luaH_get` returns, holds a non-nil value. Storing any value `v`, nil included, under
`k` writes `v` into `c` (at every depth, no key is inserted), and in the table so obtained
`luaH_next` returns for `k` what it returns in `t`: a result, so not the error "invalid key
to 'next'", and the same successor pair or the same end of the traversal. -/
theorem next_after_assignment {N : Type} [DecidableEq N] {ops : LuaConf N} (hL : ops.Lawful)
    (t : Table N) (hR : Reachable ops t) (k : TValue N) (c : Cell)
    (hg : luaH_get ops t k = .ok c) (hv : ttisnil (t.read c) = false) (v : TValue N) :
    (∀ d, set ops d t k v = .ok (t.write c v)) ∧
    luaH_next ops (t.write c v) k = luaH_next ops t k ∧
    (∃ r, luaH_next ops (t.write c v) k = .ok r) ∧
    luaH_next ops (t.write c v) k ≠ .error (.runerror .invalid_key_to_next) := by
  have hI := (reachable_inv hL t hR).1
  have hc : c ≠ .nilobject := by
    intro e
    rw [e] at hv
    simp [Table.read, ttisnil, rttype] at hv
  obtain ⟨h1, r, h2⟩ := luaH_next_write hL t hI k c hg hc v
  refine ⟨?_, h1, ⟨r, by rw [h1]; exact h2⟩, by rw [h1, h2]; exact fun h => (nomatch h)⟩
  intro d
  unfold set luaH_set luaH_set_with
  rw [hg]
  simp only [ne_eq, hc, not_false_eq_true, if_true]

/-- The assignment of C9 on `{[1] = 5, [3] = 7}`: after `t[1] = nil` the successor of the
key 1 is still the pair of the key 3. -/
theorem next_after_assignment_witness :
    luaH_get intConf extab13 (exnum 1) = .ok (.arr 0) ∧
    ttisnil (extab13.read (.arr 0)) = false ∧
    luaH_next intConf extab13 (exnum 1) = .ok (some (exnum 3, exnum 7)) ∧
    ((∀ d, set intConf d extab13 (exnum 1) .nil = .ok (extab13.write (.arr 0) .nil)) ∧
    luaH_next intConf (extab13.write (.arr 0) .nil) (exnum 1) =
      luaH_next intConf extab13 (exnum 1) ∧
    (∃ r, luaH_next intConf (extab13.write (.arr 0) .nil) (exnum 1) = .ok r) ∧
    luaH_next intConf (extab13.write (.arr 0) .nil) (exnum 1) ≠
      .error (.runerror .invalid_key_to_next)) :=
  ⟨by decide, by decide, by decide,
    next_after_assignment intConf_lawful extab13 reachable_extab13 (exnum 1) (.arr 0)
      (by decide) (by decide) .nil⟩

/-- C4: length boundary. For a table built by `luaH_new`, `luaH_set`, `luaH_setint` and
`luaH_resize`, every lookup `luaH_getint(t,j)` returns a slot, and `luaH_getn(t)` returns
an `i` that is a boundary for the values read through `luaH_getint`: `i = 0` and `t[1]` is
nil, or `t[i]` is not nil and `t[i+1]` is nil. The result is reached in each branch of
`luaH_getn`: the binary search in the array part, the empty hash part, and
`unbound_search`, whose doubling loop ends within its 33 rounds, in the binary search or,
once `j` passes `MAX_INT`, in the linear search, which stops since the table has at most
`2^31` slots. -/
theorem luaH_getn_boundary {N : Type} [DecidableEq N] {ops : LuaConf N} (hL : ops.Lawful)
    (t : Table N) (hR : Reachable ops t) :
    (∀ j : Int, ∃ c, luaH_getint ops t (cast_int j) = .ok c) ∧
    (∃ r, unbound_linear ops t 4294967296 1 = .ok r ∧ isboundary ops t r = true) ∧
    ∃ i, luaH_getn ops t = .ok i ∧ isboundary ops t i = true := by
  have hI := (reachable_inv hL t hR).1
  exact ⟨fun j => luaH_getint_total hL t hI j, unbound_linear_ok hL t hI,
    luaH_getn_spec hL t hI⟩

/-- The boundaries of C4 in the three branches of `luaH_getn`: `{[1] = nil, [3] = 7}` has
a nil last array slot and the binary search returns 0; `{[1] = 5}` has an empty hash part
and the array size 1 is returned; `{[1] = 5, [3] = 7}` goes to `unbound_search`, which
returns 1. -/
theorem luaH_getn_boundary_witness :
    (luaH_getn intConf extab13n = .ok 0 ∧ luaH_getn intConf extab1 = .ok 1 ∧
      luaH_getn intConf extab13 = .ok 1 ∧ isboundary intConf extab13 1 = true) ∧
    (∃ i, luaH_getn intConf extab13n = .ok i ∧ isboundary intConf extab13n i = true) ∧
    (∃ i, luaH_getn intConf extab1 = .ok i ∧ isboundary intConf extab1 i = true) ∧
    (∃ i, luaH_getn intConf extab13 = .ok i ∧ isboundary intConf extab13 i = true) :=
  ⟨by decide,
    (luaH_getn_boundary intConf_lawful extab13n reachable_extab13n).2.2,
    (luaH_getn_boundary intConf_lawful extab1 reachable_extab1).2.2,
    (luaH_getn_boundary intConf_lawful extab13 reachable_extab13).2.2⟩

/-! ## Scenarios of the table -/

/-- C11: for every `n` with `1 <= n <= 2^30` (`MAXASIZE`), the assignments
`t[1] = v1, ..., t[n] = vn` of non-nil values through `luaH_setint`, in ascending order,
on a table created by `luaH_new` return, each with at most one `rehash`, and yield the
table whose array part holds `v1..vn` in an array of `2^j` slots, `2^j` the least power of
two that is at least `n`, and whose hash part is the dummy node; `luaH_getn` returns `n`
on it and the traversal with `luaH_next` yields `(1, v1), ..., (n, vn)` in this order. -/
theorem sequence_fill {N : Type} [DecidableEq N] {ops : LuaConf N} (hL : ops.Lawful)
    (d : Nat) (vs : List (TValue N)) (hv : ∀ v ∈ vs, ttisnil v = false)
    (h1 : 1 ≤ vs.length) (hmax : vs.length ≤ 1073741824) :
    ∃ t, seqfill ops (d + 1) vs = .ok t ∧
      (∃ j, t.sizearray = 2 ^ j ∧ vs.length ≤ 2 ^ j ∧ ∀ i, vs.length ≤ 2 ^ i → j ≤ i) ∧
      t = seqtab vs t.sizearray ∧
      t.isdummy = true ∧ t.node = [dummynode_] ∧ t.lsizenode = 0 ∧
      luaH_getn ops t = .ok (vs.length : Int) ∧
      traversal ops t (t.sizearray + sizenode t + 1) .nil = .ok (seqpairs ops vs) := by
  obtain ⟨size, hfill, hsize, hreach⟩ := seqfill_from_spec hL d vs [] 0 (by simp) hv
    (Or.inl ⟨rfl, rfl⟩) (by simp; omega) (by rw [← luaH_new_eq_seqtab]; exact Reachable.new)
  simp only [List.nil_append, List.length_nil, Nat.cast_zero, zero_add] at hfill hsize hreach
  obtain ⟨j, hj, hsj, -, hle, hleast⟩ : ∃ j, j ≤ 30 ∧ size = 2 ^ j ∧ 1 ≤ vs.length ∧
      vs.length ≤ 2 ^ j ∧ (j = 0 ∨ 2 ^ (j - 1) < vs.length) := by
    rcases hsize with ⟨h0, -⟩ | h
    · omega
    · exact h
  have hs30 : size ≤ 1073741824 := by
    rw [hsj]
    have := Nat.pow_le_pow_right (by norm_num : 0 < 2) hj
    norm_num at this
    exact this
  have hI := (reachable_inv hL _ hreach).1
  refine ⟨seqtab vs size, ?_, ⟨j, hsj, hle, ?_⟩, rfl, rfl, rfl, rfl,
    seqtab_getn ops vs hv size (by rw [hsj]; exact hle) hs30, ?_⟩
  · unfold seqfill
    rw [luaH_new_eq_seqtab]
    exact hfill
  · intro i hi
    rcases hleast with h0 | hlt
    · omega
    · by_contra hc
      have : 2 ^ i ≤ 2 ^ (j - 1) := Nat.pow_le_pow_right (by norm_num) (by omega)
      omega
  · rw [traversal_nil hL _ hI, seqtab_entries ops vs hv size (by rw [hsj]; exact hle)]

/-- Three values: the array part has 4 slots, the length is 3 and the traversal yields
the three pairs in order. -/
theorem sequence_fill_witness :
    ∃ t, seqfill intConf 1 [exnum 5, exnum 6, exnum 7] = .ok t ∧
      t = seqtab [exnum 5, exnum 6, exnum 7] t.sizearray ∧ t.isdummy = true ∧
      luaH_getn intConf t = .ok 3 ∧
      traversal intConf t (t.sizearray + sizenode t + 1) .nil =
        .ok [(exnum 1, exnum 5), (exnum 2, exnum 6), (exnum 3, exnum 7)] := by
  obtain ⟨t, h1, -, h3, h4, -, -, h7, h8⟩ :=
    sequence_fill intConf_lawful 0 [exnum 5, exnum 6, exnum 7] (by decide) (by decide)
      (by decide)
  exact ⟨t, h1, h3, h4, h7, h8⟩

/-- C11 as stated fails above `MAXASIZE`: a sequence of `2^30 + 1` values leaves the
array part at `2^30` slots, fewer than the values, and the last key in a hash part of one
node, which is not the dummy node. -/
theorem sequence_fill_beyond_maxasize :
    ∃ t, seqfill intConf 1 (List.replicate 1073741825 (exnum 7)) = .ok t ∧
      t.sizearray = 1073741824 ∧ t.isdummy = false ∧
      t.node = [{ i_val := exnum 7, i_key := exnum 1073741825, next := none }] := by
  have hrep : List.replicate 1073741825 (exnum 7) =
      List.replicate 1073741824 (exnum 7) ++ [exnum 7] :=
    List.replicate_succ' 1073741824 (exnum 7)
  have h := seqfill_overflow intConf_lawful 0 (List.replicate 1073741824 (exnum 7))
    (fun v hm => by rw [List.eq_of_mem_replicate hm]; rfl) (exnum 7)
    (List.length_replicate 1073741824 (exnum 7))
  rw [← hrep] at h
  exact ⟨_, h, rfl, rfl, rfl⟩

/-- C12: for every `int` key `k >= 2` and every value `v`, the assignment `t[k] = v` on
a table created by `luaH_new`, through `luaH_setint` or through `luaH_set`, returns after
one `rehash` and leaves the array part at size 0 and a hash part of exactly one node,
which holds `k` and `v`; `luaH_get(t, k)` and `luaH_getint(t, k)` return the value slot of
this node, where `v` is read, and `luaH_getn(t)` returns 0. -/
theorem sparse_integer_key {N : Type} [DecidableEq N] {ops : LuaConf N} (hL : ops.Lawful)
    (d : Nat) (k : Int) (h2 : 2 ≤ k) (hk : k ≤ 2147483647) (v : TValue N) :
    ∃ t, luaH_setint ops (d + 1) luaH_new k v = .ok t ∧
      set ops (d + 1) luaH_new (.number (ops.cast_num k)) v = .ok t ∧
      t.sizearray = 0 ∧ t.array = [] ∧ t.isdummy = false ∧ sizenode t = 1 ∧
      t.node = [{ i_val := v, i_key := .number (ops.cast_num k), next := none }] ∧
      luaH_get ops t (.number (ops.cast_num k)) = .ok (.val 0) ∧
      luaH_getint ops t k = .ok (.val 0) ∧ t.read (.val 0) = v ∧
      luaH_getn ops t = .ok 0 := by
  have hki : cast_int k = k := cast_int_of_range _ (by omega)
  have hnk := newkey_new_sparse hL d k h2 hk
  have hgi : luaH_getint ops (luaH_new : Table N) k = .ok .nilobject := by
    rw [luaH_new_eq_seqtab, seqtab_getint hL [] 0 (by omega) k hki]
    have hout : ¬ (0 < k ∧ k ≤ ((0 : Nat) : Int)) := by omega
    rw [if_neg hout]
  have hself := sparsetab_getint_self hL k h2 hk v
  refine ⟨sparsetab (.number (ops.cast_num k)) v, ?_, ?_, rfl, rfl, rfl, rfl, rfl, ?_,
    hself, rfl, sparsetab_getn hL k h2 hk v⟩
  · unfold luaH_setint luaH_setint_with
    rw [hgi]
    simp only [ne_eq, not_true_eq_false, if_false, hnk]
    rfl
  · unfold set luaH_set luaH_set_with
    rw [← luaH_getint_eq_get hL _ (by simp [luaH_new, MAXASIZE]) k hki, hgi]
    simp only [ne_eq, not_true_eq_false, if_false, hnk]
    rfl
  · rw [← luaH_getint_eq_get hL _ (by simp [sparsetab, MAXASIZE]) k hki]
    exact hself

/-- Scenario S2: the key 1000000 with a string value in an empty table. -/
theorem sparse_integer_key_witness :
    ∃ t, luaH_setint intConf 1 luaH_new 1000000 (.gc .shrstr 120) = .ok t ∧
      t.sizearray = 0 ∧ sizenode t = 1 ∧
      luaH_get intConf t (exnum 1000000) = .ok (.val 0) ∧
      t.read (.val 0) = .gc .shrstr 120 ∧ luaH_getn intConf t = .ok 0 := by
  obtain ⟨t, h1, -, h3, -, -, h5, -, h7, -, h9, h10⟩ :=
    sparse_integer_key intConf_lawful 0 1000000 (by decide) (by decide) (.gc .shrstr 120)
  exact ⟨t, h1, h3, h5, h7, h9, h10⟩

/-! ## Buffered streams -/

/-- C13: for a well-formed stream over a reader that gives a list of answers, with `R`
bytes of remaining input (the bytes left in the buffer, then the chunks up to the first
end-of-input answer), `luaZ_read(z, b, n)` returns `n - min(n, R)`, copies exactly the
first `min(n, R)` remaining bytes into `b`, in order, and leaves the stream just after
them: with `n <= R` the remaining input is the old one without its first `n` bytes, and
with `R < n` the buffer is empty and the reader is past its end-of-input answer.  The
result is 0 iff `n` bytes were delivered. -/
theorem luaZ_read_prefix (w : Nat) (z : Zio (List Answer)) (n : Nat)
    (hok : zio_ok w z = true) (hr : z.reader = answers_reader) :
    ∃ z1, luaZ_read w z n =
        .ok (n - min n (remaining z).length, (remaining z).take (min n (remaining z).length), z1) ∧
      (n ≤ (remaining z).length → zio_ok w z1 = true ∧ remaining z1 = (remaining z).drop n) ∧
      ((remaining z).length < n → z1.n = 0 ∧ z1.data = answers_rest z.data) ∧
      (n - min n (remaining z).length = 0 ↔
        ((remaining z).take (min n (remaining z).length)).length = n) := by
  obtain ⟨z1, h1, -, h3, h4⟩ := luaZ_read_loop_spec w n z [] n (le_refl _) hok hr
  refine ⟨z1, ?_, h3, h4, ?_⟩
  · unfold luaZ_read
    rw [h1, List.nil_append]
    have e1 : n - min n (remaining z).length = n - (remaining z).length := by omega
    have e2 : (remaining z).take (min n (remaining z).length) = (remaining z).take n := by
      rcases Nat.le_total n (remaining z).length with h | h
      · rw [Nat.min_eq_left h]
      · rw [Nat.min_eq_right h, List.take_of_length_le h, List.take_of_length_le (le_refl _)]
    rw [e1, e2]
  · rw [List.length_take]
    omega

/-- Scenario S7: the reader gives "abc", "de" and the end of input; reading 4 bytes
returns 0, copies "abcd" and leaves "e" as the remaining input. -/
theorem luaZ_read_prefix_witness :
    ∃ z1, luaZ_read 64 exzio 4 = .ok (0, [97, 98, 99, 100], z1) ∧ remaining z1 = [101] := by
  obtain ⟨z1, h1, h2, -, -⟩ := luaZ_read_prefix 64 exzio 4 (by decide) rfl
  have hrem : remaining exzio = [97, 98, 99, 100, 101] := by decide
  rw [hrem] at h1 h2
  exact ⟨z1, h1, (h2 (by decide)).2⟩

/-- C14: for a stream initialised by `luaZ_init` over a reader that gives the chunks
`c1..cm`, none of them empty, and then `(NULL, 0)`, the first `|c1| + ... + |cm|`
evaluations of `zgetc` return the bytes of the chunks in order, each converted to
`unsigned char`, a value in `0..255`, and the next evaluation returns `EOZ = -1`, which
is none of these values. -/
theorem zgetc_stream (w : Nat) (cs : List (List Int)) (hne : ∀ c ∈ cs, c ≠ [])
    (hsz : ∀ c ∈ cs, c.length < 2 ^ w) :
    (∃ z1, zgetc_seq w (cs.flatten.length + 1) (luaZ_init answers_reader (cs.map chunk)) =
      .ok (cs.flatten.map cast_uchar ++ [EOZ], z1)) ∧
    (∀ x ∈ cs.flatten.map cast_uchar, 0 ≤ x ∧ x ≤ 255 ∧ x ≠ EOZ) ∧ EOZ = -1 := by
  refine ⟨?_, ?_, rfl⟩
  · have hok : zio_ok w (luaZ_init answers_reader (cs.map chunk)) = true := by
      rw [zio_ok_iff]
      refine ⟨Nat.two_pow_pos w, Or.inl rfl, ?_⟩
      intro a ha
      obtain ⟨c, hc, rfl⟩ := List.mem_map.1 ha
      rw [answer_ok_iff]
      refine ⟨hsz c hc, ?_⟩
      intro b hb
      simp only [chunk, Option.some.injEq] at hb
      subst hb
      exact le_refl _
    have hrem : remaining (luaZ_init answers_reader (cs.map chunk)) = cs.flatten := by
      unfold remaining
      rw [buffered_zero _ rfl, List.nil_append]
      exact answers_input_chunks cs hne
    exact zgetc_seq_spec w cs.flatten _ hok rfl hrem
  · intro x hx
    obtain ⟨c, -, rfl⟩ := List.mem_map.1 hx
    exact cast_uchar_range c

/-- The chunks "abc" and "de": five bytes, then `EOZ`. -/
theorem zgetc_stream_witness :
    ∃ z1, zgetc_seq 64 6 (luaZ_init answers_reader [chunk [97, 98, 99], chunk [100, 101]]) =
      .ok ([97, 98, 99, 100, 101, -1], z1) :=
  (zgetc_stream 64 [[97, 98, 99], [100, 101]] (by decide) (by decide)).1

/-! ## The memory manager -/

/-- C15: when `luaM_realloc_` returns normally, `GCdebt` afterwards is, in `l_mem`
arithmetic, the debt read at the update plus `nsize` minus `realosize`, where `realosize`
is `osize` for a block that is not `NULL` and 0 for `NULL`, and the debt read at the
update is the one that the emergency collection left if the first allocator call failed,
else the one before the call.  The sum is exact whenever it fits in `l_mem`. -/
theorem luaM_realloc_debt {H : Type} (env : MemEnv H) (L : MemState H) (block : Block)
    (osize nsize : Nat) (b : Block) (hw : 0 < env.w)
    (h : (luaM_realloc_ env L block osize nsize).1 = .ok b) :
    let realosize : Int := if block.isSome then (osize : Int) else 0
    let r1 := env.frealloc L.g.heap block osize nsize
    let before : Int :=
      if r1.1 = none ∧ nsize > 0 then (env.luaC_fullgc { L.g with heap := r1.2 }).GCdebt
      else L.g.GCdebt
    let after := (luaM_realloc_ env L block osize nsize).2.g.GCdebt
    after = cast_lmem env.w (before + nsize - realosize) ∧
    (-(2 : Int) ^ (env.w - 1) ≤ before + nsize - realosize →
      before + nsize - realosize < (2 : Int) ^ (env.w - 1) →
      after = before + nsize - realosize) := by
  intro realosize r1 before after
  have hmain : after = cast_lmem env.w (before + nsize - realosize) := by
    obtain ⟨c1, c2, c3, c4⟩ := luaM_realloc_cases env L block osize nsize
    by_cases hf : (call_frealloc env L block osize nsize).1 = none ∧ nsize > 0
    · by_cases hg : (call_frealloc env L block osize nsize).2.g.gcrunning = 0
      · rw [c2 hf.1 hf.2 hg] at h; cases h
      · by_cases h2 : (call_frealloc env (call_fullgc env (call_frealloc env L block osize
            nsize).2) block osize nsize).1 = none
        · rw [c3 hf.1 hf.2 hg h2] at h; cases h
        · have e := c4 hf.1 hf.2 hg h2
          have hb : before = (env.luaC_fullgc { L.g with heap := r1.2 }).GCdebt := by
            have hf' : r1.1 = none ∧ nsize > 0 := hf
            simp only [before, hf', and_self, if_true]
          simp only [after, e, hb]
          cases block <;> simp [realosize, call_frealloc, call_fullgc, r1]
    · have e := c1 hf
      have hb : before = L.g.GCdebt := by
        have hf' : ¬ (r1.1 = none ∧ nsize > 0) := hf
        simp only [before, hf', if_false]
      simp only [after, e, hb]
      cases block <;> simp [realosize, call_frealloc]
  exact ⟨hmain, fun h1 h2 => by rw [hmain]; exact cast_lmem_of_range _ _ hw h1 h2⟩

/-- A reallocation of a block of 8 bytes to 24 bytes raises the debt by 16. -/
theorem luaM_realloc_debt_witness :
    (luaM_realloc_ exenv exmem (some 3) 8 24).2.g.GCdebt = 0 + 24 - 8 := by
  have h := (luaM_realloc_debt exenv exmem (some 3) 8 24 (some 0) (by decide) (by decide)).2
  exact h (by decide) (by decide)

/-- C15 as stated fails: an allocation with a `NULL` block passes a tag as `osize`
(`luaM_newobject`), and the debt grows by `nsize`, not by `nsize - osize`; and when the
emergency collection runs, the debt is counted from what the collection left. -/
theorem luaM_realloc_debt_ignores_osize_of_null :
    ((luaM_realloc_ exenv exmem none 7 16).1 = .ok (some 0) ∧
      (luaM_realloc_ exenv exmem none 7 16).2.g.GCdebt = 16 ∧
      exmem.g.GCdebt + (16 - 7) ≠ 16) ∧
    ((luaM_realloc_ exenv_gc exmem (some 5) 8 24).1 = .ok (some 1) ∧
      (luaM_realloc_ exenv_gc exmem (some 5) 8 24).2.g.GCdebt = -84 ∧
      exmem.g.GCdebt + (24 - 8) ≠ -84) := by
  decide

/-- C16: when the first allocator call of `luaM_realloc_` returns `NULL` for a request
of `nsize > 0` bytes, then, if the collector is running (`g->gcrunning` is not 0), the
manager runs `luaC_fullgc(L, 1)` and calls the allocator exactly once more with the same
arguments, throws `LUA_ERRMEM` iff that call returns `NULL` too and returns its block
otherwise; if the collector is not running, it throws `LUA_ERRMEM` at once, with no
collection and no second call. -/
theorem luaM_realloc_failure {H : Type} (env : MemEnv H) (L : MemState H) (block : Block)
    (osize nsize : Nat) (hn : nsize > 0)
    (h1 : (env.frealloc L.g.heap block osize nsize).1 = none) :
    let r1 := env.frealloc L.g.heap block osize nsize
    let r2 := env.frealloc (env.luaC_fullgc { L.g with heap := r1.2 }).heap block osize nsize
    let res := luaM_realloc_ env L block osize nsize
    (L.g.gcrunning ≠ 0 →
      res.2.trace = L.trace ++ [MemEvent.frealloc block osize nsize none, MemEvent.fullgc,
        MemEvent.frealloc block osize nsize r2.1] ∧
      (res.1 = .error .errmem ↔ r2.1 = none) ∧
      (r2.1 ≠ none → res.1 = .ok r2.1)) ∧
    (L.g.gcrunning = 0 →
      res.2.trace = L.trace ++ [MemEvent.frealloc block osize nsize none] ∧
      res.1 = .error .errmem) := by
  intro r1 r2 res
  obtain ⟨-, c2, c3, c4⟩ := luaM_realloc_cases env L block osize nsize
  have h1' : (call_frealloc env L block osize nsize).1 = none := h1
  refine ⟨fun hg => ?_, fun hg => ?_⟩
  · have hg' : (call_frealloc env L block osize nsize).2.g.gcrunning ≠ 0 := hg
    by_cases h2 : (call_frealloc env (call_fullgc env (call_frealloc env L block osize
        nsize).2) block osize nsize).1 = none
    · have e := c3 h1' hn hg' h2
      have h2' : r2.1 = none := h2
      refine ⟨?_, ?_, fun hne => absurd h2' hne⟩
      · simp only [res, e, h2']
        simp [call_frealloc, call_fullgc, h1]
        exact h2
      · simp only [res, e, h2']
    · have e := c4 h1' hn hg' h2
      have h2' : r2.1 ≠ none := h2
      refine ⟨?_, ?_, fun _ => ?_⟩
      · simp only [res, e]
        simp [call_frealloc, call_fullgc, h1]
      · simp only [res, e]
        constructor
        · intro hh; cases hh
        · intro hh; exact absurd hh h2'
      · simp only [res, e]; rfl
  · have hg' : (call_frealloc env L block osize nsize).2.g.gcrunning = 0 := hg
    have e := c2 h1' hn hg'
    simp only [res, e, and_true]
    simp [call_frealloc, h1]

/-- With the collector running and an allocator that fails until a collection has run,
the second call succeeds and its block is returned. -/
theorem luaM_realloc_failure_witness :
    (luaM_realloc_ exenv_gc exmem none 0 16).2.trace =
      [MemEvent.frealloc none 0 16 none, MemEvent.fullgc, MemEvent.frealloc none 0 16 (some 1)] ∧
    (luaM_realloc_ exenv_gc exmem none 0 16).1 = .ok (some 1) := by
  have h := (luaM_realloc_failure exenv_gc exmem none 0 16 (by decide) (by decide)).1 (by decide)
  exact ⟨h.1, h.2.2 (by decide)⟩

/-- C16 as stated fails: with the collector stopped (`g->gcrunning` is 0) a failed
first call is followed by no collection and no second call. -/
theorem luaM_realloc_no_retry_when_gc_stopped :
    (exenv_gc.frealloc exmem_stopped.g.heap none 0 16).1 = none ∧
    (luaM_realloc_ exenv_gc exmem_stopped none 0 16).2.trace =
      [MemEvent.frealloc none 0 16 none] ∧
    (luaM_realloc_ exenv_gc exmem_stopped none 0 16).1 = .error .errmem := by
  decide

/-- C17: whenever `luaM_growaux_` returns normally, the new `*size` is strictly greater
than the old one; it is at most `limit` when `limit` is at least 4; it is `2 * size` when
`2 <= size < limit / 2` (C division), and it is `limit` when `limit / 2 <= size`. -/
theorem luaM_growaux_capped {H : Type} (env : MemEnv H) (L : MemState H) (block : Block)
    (size : Int) (size_elems : Nat) (limit : Int) (what : String) (b : Block)
    (h : (luaM_growaux_ env L block size size_elems limit what).1 = .ok b) :
    let newsize := (luaM_growaux_ env L block size size_elems limit what).2.1
    size < newsize ∧
    (4 ≤ limit → newsize ≤ limit) ∧
    (2 ≤ size → size < Int.tdiv limit 2 → newsize = 2 * size) ∧
    (Int.tdiv limit 2 ≤ size → newsize = limit) := by
  intro newsize
  rcases luaM_growaux_cases env L block size size_elems limit what with
    ⟨-, -, e⟩ | ⟨hno, ⟨b1, L1, -, e⟩ | ⟨e1, L1, -, e⟩⟩
  · rw [e] at h; cases h
  · have hn : newsize = if size ≥ Int.tdiv limit 2 then limit
        else if size * 2 < MINSIZEARRAY then MINSIZEARRAY else size * 2 := by
      simp only [newsize, e]
    unfold MINSIZEARRAY at hn
    have hdiv : limit < 0 ∨ 2 * Int.tdiv limit 2 ≤ limit := by
      by_cases hl : 0 ≤ limit
      · exact Or.inr (tdiv_two_nonneg limit hl).1
      · exact Or.inl (by omega)
    by_cases h1 : size ≥ Int.tdiv limit 2
    · have h2 : ¬ size ≥ limit := fun hh => hno ⟨h1, hh⟩
      rw [if_pos h1] at hn
      rw [hn]
      exact ⟨by omega, fun _ => le_refl _, fun _ h3 => by omega, fun _ => rfl⟩
    · rw [if_neg h1] at hn
      have hneg : limit < 0 → Int.tdiv limit 2 ≤ 0 := fun hl => (tdiv_two_neg limit hl).1
      by_cases h3 : size * 2 < 4
      · rw [if_pos h3] at hn
        rw [hn]
        exact ⟨by omega, fun h4 => h4, fun h5 _ => by omega, fun h6 => by omega⟩
      · rw [if_neg h3] at hn
        rw [hn]
        refine ⟨by omega, fun h4 => ?_, fun _ _ => by omega, fun h6 => by omega⟩
        rcases hdiv with hd | hd
        · omega
        · omega
  · rw [e] at h; cases h

/-- A vector of 10 elements grows to 20 under a limit of 100. -/
theorem luaM_growaux_capped_witness :
    (10 : Int) < 20 ∧ (20 : Int) ≤ 100 ∧
    (luaM_growaux_ exenv exmem (some 7) 10 8 100 "upvalues").2.1 = 2 * 10 := by
  have h := luaM_growaux_capped exenv exmem (some 7) 10 8 100 "upvalues" (some 0) (by decide)
  exact ⟨by decide, by decide, h.2.2.1 (by decide) (by decide)⟩

/-- C17 as stated fails: an empty vector under a limit of 3 grows to 4 elements, above
the limit; a vector of 1 element grows to 4, not to 2; and a vector of 5 elements under a
limit of 11 grows to 11, not to 10. -/
theorem luaM_growaux_not_capped_below_four :
    ((luaM_growaux_ exenv exmem none 0 8 3 "upvalues").1 = .ok (some 0) ∧
      (luaM_growaux_ exenv exmem none 0 8 3 "upvalues").2.1 = 4 ∧ ¬ ((4 : Int) ≤ 3)) ∧
    ((luaM_growaux_ exenv exmem (some 7) 1 8 100 "upvalues").1 = .ok (some 0) ∧
      (luaM_growaux_ exenv exmem (some 7) 1 8 100 "upvalues").2.1 = 4 ∧
      (2 : Int) * 1 < 100 ∧ (4 : Int) ≠ 2 * 1) ∧
    ((luaM_growaux_ exenv exmem (some 7) 5 8 11 "upvalues").1 = .ok (some 0) ∧
      (luaM_growaux_ exenv exmem (some 7) 5 8 11 "upvalues").2.1 = 11 ∧
      (2 : Int) * 5 < 11 ∧ (11 : Int) ≠ 2 * 5) := by
  decide

/-- C18: for every size that is not negative, `luaM_growaux_` raises the runtime error
"too many what (limit is limit)" if and only if `*size >= limit`, and then it has called
neither the allocator nor the collector; and whenever `luaM_growaux_` ends by an error,
whichever it is, `*size` still holds its old value. -/
theorem luaM_growaux_too_many {H : Type} (env : MemEnv H) (L : MemState H) (block : Block)
    (size : Int) (size_elems : Nat) (limit : Int) (what : String) (hs : 0 ≤ size) :
    let res := luaM_growaux_ env L block size size_elems limit what
    (limit ≤ size → res = (.error (.runerror (.too_many what limit)), size, L)) ∧
    (∀ what1 limit1, res.1 = .error (.runerror (.too_many what1 limit1)) → limit ≤ size) ∧
    (∀ e, res.1 = .error e → res.2.1 = size) := by
  intro res
  have hre : ∀ (n : Int) (what1 : String) (limit1 : Int),
      (luaM_reallocv_int env L block size n size_elems).1 ≠
        .error (.runerror (.too_many what1 limit1)) := by
    intro n what1 limit1
    unfold luaM_reallocv_int
    split
    · simp
    · split
      · simp [luaM_toobig]
      · intro hh
        have := luaM_realloc_error _ _ _ _ _ _ hh
        cases this
  rcases luaM_growaux_cases env L block size size_elems limit what with
    ⟨h1, h2, e⟩ | ⟨hno, ⟨b1, L1, hr, e⟩ | ⟨e1, L1, hr, e⟩⟩
  · refine ⟨fun _ => e, fun _ _ _ => h2, fun e0 _ => ?_⟩
    simp only [res, e]
  · have hlt : ¬ limit ≤ size := by
      intro hl
      apply hno
      refine ⟨?_, hl⟩
      by_cases hl0 : 0 ≤ limit
      · have := (tdiv_two_nonneg limit hl0).1; omega
      · have := (tdiv_two_neg limit (by omega)).1; omega
    refine ⟨fun hl => absurd hl hlt, fun what1 limit1 hh => ?_, fun e0 hh => ?_⟩
    · simp only [res, e] at hh; cases hh
    · simp only [res, e] at hh; cases hh
  · have hlt : ¬ limit ≤ size := by
      intro hl
      apply hno
      refine ⟨?_, hl⟩
      by_cases hl0 : 0 ≤ limit
      · have := (tdiv_two_nonneg limit hl0).1; omega
      · have := (tdiv_two_neg limit (by omega)).1; omega
    refine ⟨fun hl => absurd hl hlt, fun what1 limit1 hh => ?_, fun e0 _ => ?_⟩
    · exfalso
      simp only [res, e] at hh
      have := hre (if size ≥ Int.tdiv limit 2 then limit
        else if size * 2 < MINSIZEARRAY then MINSIZEARRAY else size * 2) what1 limit1
      rw [hr] at this
      exact this hh
    · simp only [res, e]

/-- A vector of 255 elements with the limit 255: the error is raised, `*size` stays 255
and the state is untouched. -/
theorem luaM_growaux_too_many_witness :
    luaM_growaux_ exenv exmem (some 7) 255 8 255 "upvalues" =
      (.error (.runerror (.too_many "upvalues" 255)), 255, exmem) :=
  (luaM_growaux_too_many exenv exmem (some 7) 255 8 255 "upvalues" (by decide)).1 (by decide)

/-- C19: whenever `luaM_growaux_` returns normally, the new `*size` is 4 if the vector
was empty and `limit` is at least 2, and it is at least 4 if `limit` is at least 4. -/
theorem luaM_growaux_minimum {H : Type} (env : MemEnv H) (L : MemState H) (block : Block)
    (size : Int) (size_elems : Nat) (limit : Int) (what : String) (b : Block)
    (h : (luaM_growaux_ env L block size size_elems limit what).1 = .ok b) :
    let newsize := (luaM_growaux_ env L block size size_elems limit what).2.1
    (size = 0 → 2 ≤ limit → newsize = MINSIZEARRAY) ∧
    (4 ≤ limit → 4 ≤ newsize) := by
  intro newsize
  rcases luaM_growaux_cases env L block size size_elems limit what with
    ⟨-, -, e⟩ | ⟨hno, ⟨b1, L1, -, e⟩ | ⟨e1, L1, -, e⟩⟩
  · rw [e] at h; cases h
  · have hn : newsize = if size ≥ Int.tdiv limit 2 then limit
        else if size * 2 < MINSIZEARRAY then MINSIZEARRAY else size * 2 := by
      simp only [newsize, e]
    unfold MINSIZEARRAY at hn
    unfold MINSIZEARRAY
    by_cases h1 : size ≥ Int.tdiv limit 2
    · rw [if_pos h1] at hn
      rw [hn]
      refine ⟨fun h0 h2 => ?_, fun h4 => h4⟩
      have := (tdiv_two_nonneg limit (by omega)).2
      omega
    · rw [if_neg h1] at hn
      by_cases h3 : size * 2 < 4
      · rw [if_pos h3] at hn
        rw [hn]
        exact ⟨fun _ _ => rfl, fun _ => le_refl _⟩
      · rw [if_neg h3] at hn
        rw [hn]
        exact ⟨fun h0 _ => by omega, fun _ => by omega⟩
  · rw [e] at h; cases h

/-- An empty vector under the limit 255 gets 4 elements. -/
theorem luaM_growaux_minimum_witness :
    (luaM_growaux_ exenv exmem none 0 8 255 "upvalues").2.1 = 4 :=
  (luaM_growaux_minimum exenv exmem none 0 8 255 "upvalues" (some 0) (by decide)).1
    (by decide) (by decide)

/-- C19 as stated fails: an empty vector under the limit 1 grows to 1 element, and a
vector of 1 element under the limit 2 grows to 2 elements. -/
theorem luaM_growaux_below_minimum :
    ((luaM_growaux_ exenv exmem none 0 8 1 "upvalues").1 = .ok (some 0) ∧
      (luaM_growaux_ exenv exmem none 0 8 1 "upvalues").2.1 = 1) ∧
    ((luaM_growaux_ exenv exmem (some 7) 1 8 2 "upvalues").1 = .ok (some 0) ∧
      (luaM_growaux_ exenv exmem (some 7) 1 8 2 "upvalues").2.1 = 2) := by
  decide

/-- C20: on the element count `2 ^ 64 - 1` with 2-byte elements (64-bit `size_t`) the
check of `luaM_reallocv` passes, because `n + 1` wraps to 0: `luaM_toobig` is not raised
and `luaM_realloc_` is called, with the wrapped byte count `2 ^ 64 - 2`, although the
product exceeds `MAX_SIZET`. -/
theorem luaM_reallocv_wraps :
    MAX_SIZET 64 < (2 ^ 64 - 1) * 2 ∧
    luaM_reallocv exenv exmem none 0 (2 ^ 64 - 1) 2 =
      luaM_realloc_ exenv exmem none 0 (2 ^ 64 - 2) ∧
    (luaM_reallocv exenv exmem none 0 (2 ^ 64 - 1) 2).1 = .ok (some 0) ∧
    (luaM_reallocv exenv exmem none 0 (2 ^ 64 - 1) 2).2.trace =
      [MemEvent.frealloc none 0 (2 ^ 64 - 2) (some 0)] ∧
    (2 ^ 64 - 2 : Nat) ≠ (2 ^ 64 - 1) * 2 := by
  decide

/-! ## Values, numerals and chunk names (`lobject.h`, `lobject.c`) -/

/-- C21: the collectable bit. For every value `v` that one of the setters `setnilvalue`,
`setbvalue`, `setnvalue`, `setpvalue`, `setfvalue`, `setsvalue`, `sethvalue`, `setuvalue`,
`setthvalue`, `setclLvalue`, `setclCvalue` and `setgcovalue` produces, `iscollectable(v)`
is true exactly when the basic type `ttypenv(v)` is string, table, userdata, thread or
function AND `v` is not a light C function (tag `LUA_TLCF`), OR the basic type is
`LUA_TPROTO` or `LUA_TUPVAL`; and a value with one of these two basic types is the result
of `setgcovalue` on a prototype or an upvalue. -/
theorem iscollectable_iff {N : Type} (v : RawTValue N) (hv : Produced v) :
    (Raw.iscollectable v ≠ 0 ↔
      ((Raw.ttypenv v ∈ collectabletypes ∧ Raw.rttype v ≠ LUA_TLCF) ∨
        Raw.ttypenv v = LUA_TPROTO ∨ Raw.ttypenv v = LUA_TUPVAL)) ∧
    (Raw.ttypenv v = LUA_TPROTO ∨ Raw.ttypenv v = LUA_TUPVAL →
      ∃ (obj : RawTValue N) (x : GCObject), v = setgcovalue obj x ∧
        (x.tt = LUA_TPROTO ∨ x.tt = LUA_TUPVAL)) := by
  have hs : ∀ tt, isstringtag tt = true → tt = 4 ∨ tt = 20 := by
    intro tt h
    simpa [isstringtag, LUA_TSHRSTR, LUA_TLNGSTR, LUA_TSTRING] using h
  have hg : ∀ tt, isobjecttag tt = true →
      tt = 4 ∨ tt = 20 ∨ tt = 5 ∨ tt = 6 ∨ tt = 38 ∨ tt = 7 ∨ tt = 8 ∨ tt = 9 ∨ tt = 10 := by
    intro tt h
    simp only [isobjecttag, isvaluetag, isstringtag, Bool.or_eq_true, beq_iff_eq] at h
    rcases h with ((((((((h | h) | h) | h) | h) | h) | h) | h) | h) <;> rw [h] <;> decide
  have key : ∀ (v : RawTValue N) (t : Nat), Raw.rttype v = t →
      ((t &&& BIT_ISCOLLECTABLE ≠ 0 ↔
        ((novariant t ∈ collectabletypes ∧ t ≠ LUA_TLCF) ∨
          novariant t = LUA_TPROTO ∨ novariant t = LUA_TUPVAL)) ∧
        ¬ (novariant t = LUA_TPROTO ∨ novariant t = LUA_TUPVAL)) →
      (Raw.iscollectable v ≠ 0 ↔
        ((Raw.ttypenv v ∈ collectabletypes ∧ Raw.rttype v ≠ LUA_TLCF) ∨
          Raw.ttypenv v = LUA_TPROTO ∨ Raw.ttypenv v = LUA_TUPVAL)) ∧
      (Raw.ttypenv v = LUA_TPROTO ∨ Raw.ttypenv v = LUA_TUPVAL →
        ∃ (obj : RawTValue N) (x : GCObject), v = setgcovalue obj x ∧
          (x.tt = LUA_TPROTO ∨ x.tt = LUA_TUPVAL)) := by
    intro v t e h
    unfold Raw.iscollectable Raw.ttypenv
    rw [e]
    exact ⟨h.1, fun hc => absurd hc h.2⟩
  cases hv with
  | nilvalue obj => exact key _ LUA_TNIL rfl (by decide)
  | bvalue obj x => exact key _ LUA_TBOOLEAN rfl (by decide)
  | nvalue obj x => exact key _ LUA_TNUMBER rfl (by decide)
  | pvalue obj x => exact key _ LUA_TLIGHTUSERDATA rfl (by decide)
  | fvalue obj x => exact key _ LUA_TLCF rfl (by decide)
  | hvalue obj x => exact key _ (ctb LUA_TTABLE) rfl (by decide)
  | uvalue obj x => exact key _ (ctb LUA_TUSERDATA) rfl (by decide)
  | thvalue obj x => exact key _ (ctb LUA_TTHREAD) rfl (by decide)
  | clLvalue obj x => exact key _ (ctb LUA_TLCL) rfl (by decide)
  | clCvalue obj x => exact key _ (ctb LUA_TCCL) rfl (by decide)
  | svalue obj x h =>
    refine key _ (ctb x.tt) rfl ?_
    rcases hs x.tt h with h1 | h1 <;> rw [h1] <;> decide
  | gcovalue obj x h =>
    have hbit : ∀ t : Nat, (t = 4 ∨ t = 20 ∨ t = 5 ∨ t = 6 ∨ t = 38 ∨ t = 7 ∨ t = 8 ∨
          t = 9 ∨ t = 10) →
        (ctb t &&& BIT_ISCOLLECTABLE ≠ 0 ↔
          ((novariant (ctb t) ∈ collectabletypes ∧ ctb t ≠ LUA_TLCF) ∨
            novariant (ctb t) = LUA_TPROTO ∨ novariant (ctb t) = LUA_TUPVAL)) ∧
        (novariant (ctb t) = LUA_TPROTO ∨ novariant (ctb t) = LUA_TUPVAL →
          t = LUA_TPROTO ∨ t = LUA_TUPVAL) := by
      intro t ht
      rcases ht with h1 | h1 | h1 | h1 | h1 | h1 | h1 | h1 | h1 <;> rw [h1] <;> decide
    obtain ⟨h1, h2⟩ := hbit x.tt (hg x.tt h)
    refine ⟨h1, fun hc => ⟨obj, x, rfl, h2 hc⟩⟩

/-- The statement of C21 on a C closure stored by `setclCvalue`: its tag is 102, its
basic type is function and it is collectable. -/
theorem iscollectable_iff_witness :
    Raw.rttype (setclCvalue (⟨.b 0, 0⟩ : RawTValue Int) ⟨16, LUA_TCCL⟩) = 102 ∧
    Raw.ttypenv (setclCvalue (⟨.b 0, 0⟩ : RawTValue Int) ⟨16, LUA_TCCL⟩) = LUA_TFUNCTION ∧
    Raw.iscollectable (setclCvalue (⟨.b 0, 0⟩ : RawTValue Int) ⟨16, LUA_TCCL⟩) = 64 ∧
    (Raw.iscollectable (setclCvalue (⟨.b 0, 0⟩ : RawTValue Int) ⟨16, LUA_TCCL⟩) ≠ 0 ↔
      ((Raw.ttypenv (setclCvalue (⟨.b 0, 0⟩ : RawTValue Int) ⟨16, LUA_TCCL⟩) ∈
            collectabletypes ∧
          Raw.rttype (setclCvalue (⟨.b 0, 0⟩ : RawTValue Int) ⟨16, LUA_TCCL⟩) ≠ LUA_TLCF) ∨
        Raw.ttypenv (setclCvalue (⟨.b 0, 0⟩ : RawTValue Int) ⟨16, LUA_TCCL⟩) = LUA_TPROTO ∨
        Raw.ttypenv (setclCvalue (⟨.b 0, 0⟩ : RawTValue Int) ⟨16, LUA_TCCL⟩) = LUA_TUPVAL)) :=
  ⟨by decide, by decide, by decide,
    (iscollectable_iff _ (Produced.clCvalue ⟨.b 0, 0⟩ ⟨16, LUA_TCCL⟩)).1⟩

/-- The two ways in which the collectable bit and the five basic types part. A light C
function is a function that is not collectable: `setfvalue` stores the tag
`LUA_TLCF = LUA_TFUNCTION | (1 << 4)` without the collectable bit, and `ttypenv` of it is
`LUA_TFUNCTION`. A prototype stored by `setgcovalue` is collectable, with the tag
`ctb(LUA_TPROTO) = 73`, and its basic type `LUA_TPROTO = 9` is none of the five. -/
theorem collectable_bit_exceptions :
    (Produced (setfvalue (⟨.b 0, 0⟩ : RawTValue Int) 16) ∧
      Raw.ttypenv (setfvalue (⟨.b 0, 0⟩ : RawTValue Int) 16) = LUA_TFUNCTION ∧
      Raw.ttypenv (setfvalue (⟨.b 0, 0⟩ : RawTValue Int) 16) ∈ collectabletypes ∧
      Raw.iscollectable (setfvalue (⟨.b 0, 0⟩ : RawTValue Int) 16) = 0) ∧
    (Produced (setgcovalue (⟨.b 0, 0⟩ : RawTValue Int) ⟨16, LUA_TPROTO⟩) ∧
      Raw.rttype (setgcovalue (⟨.b 0, 0⟩ : RawTValue Int) ⟨16, LUA_TPROTO⟩) = 73 ∧
      Raw.iscollectable (setgcovalue (⟨.b 0, 0⟩ : RawTValue Int) ⟨16, LUA_TPROTO⟩) ≠ 0 ∧
      Raw.ttypenv (setgcovalue (⟨.b 0, 0⟩ : RawTValue Int) ⟨16, LUA_TPROTO⟩) = 9 ∧
      Raw.ttypenv (setgcovalue (⟨.b 0, 0⟩ : RawTValue Int) ⟨16, LUA_TPROTO⟩) ∉
        collectabletypes) :=
  ⟨⟨Produced.fvalue _ _, by decide, by decide, by decide⟩,
    ⟨Produced.gcovalue _ _ (by decide), by decide, by decide, by decide, by decide⟩⟩

/-- C22: round trip of the floating-point byte. For a byte `b = (eeeeexxx)` from 0 to 231,
`luaO_fb2int(b)` returns `xxx` when `eeeee` is 0 and `(8 + xxx) * 2^(eeeee - 1)` otherwise, a
value that fits an `int`, and `luaO_int2fb` of that value returns `b`. From 232 on the
shift of `luaO_fb2int` leaves the range of `int`. -/
theorem fb_roundtrip (b : Nat) (hb : b ≤ 255) :
    (b ≤ 231 →
      ∃ v : Int, luaO_fb2int b = .ok v ∧
        v = (if b / 8 % 32 = 0 then ((b % 8 : Nat) : Int)
          else (((8 + b % 8) * 2 ^ (b / 8 % 32 - 1) : Nat) : Int)) ∧
        0 ≤ v ∧ v ≤ INT_MAX ∧ luaO_int2fb (cast_unsigned v) = .ok (b : Int)) ∧
    (232 ≤ b → luaO_fb2int b = .error .undefined) := by
  have h := fb_table b (List.mem_range.2 (by omega))
  refine ⟨fun h1 => ?_, h.2⟩
  obtain ⟨a1, a2, a3, a4⟩ := h.1 h1
  exact ⟨_, a1, rfl, a2, a3, a4⟩

/-- The round trip of C22 on the byte 231, the last one in range: it decodes to
`15 * 2^27`. -/
theorem fb_roundtrip_witness :
    luaO_fb2int 231 = .ok 2013265920 ∧ luaO_int2fb 2013265920 = .ok 231 ∧
    ∃ v : Int, luaO_fb2int (231 : Nat) = .ok v ∧
      v = (if 231 / 8 % 32 = 0 then ((231 % 8 : Nat) : Int)
        else (((8 + 231 % 8) * 2 ^ (231 / 8 % 32 - 1) : Nat) : Int)) ∧
      0 ≤ v ∧ v ≤ INT_MAX ∧ luaO_int2fb (cast_unsigned v) = .ok ((231 : Nat) : Int) :=
  ⟨by decide, by decide, (fb_roundtrip 231 (by decide)).1 (by decide)⟩

/-- C23: acceptance of hexadecimal numerals. The string `0x` followed by `2^32` digits `0`
has the form `ws* [+-]? 0[xX] H* ('.' H*)? ([pP] [+-]? D+)? ws*` with a hexadecimal digit
in its mantissa, holds an `x` and neither `n`, `N` nor NUL, and `luaO_str2d` returns 0 for
it: `readhexa` counts the digits in an `int`, which is 0 again after `2^32` of them, so
the test `i == 0 && e == 0` for "no digit" succeeds. For the strings of fewer than `2^32`
characters the acceptance is as claimed (`luaO_str2d_hex`), and a string with an `n` or an
`N` is always rejected (`luaO_str2d_rejects_n`). -/
theorem luaO_str2d_rejects_long_numeral :
    hexform (48 :: 120 :: List.replicate 4294967296 48) ∧
    (∀ c ∈ 48 :: 120 :: List.replicate 4294967296 48, c ≠ 0 ∧ c ≠ 110 ∧ c ≠ 78) ∧
    120 ∈ 48 :: 120 :: List.replicate 4294967296 48 ∧
    (48 :: 120 :: List.replicate 4294967296 48).length = 4294967298 ∧
    ∀ f : List Nat → Except Err (List Nat),
      luaO_str2d f (cstr (48 :: 120 :: List.replicate 4294967296 48))
        (48 :: 120 :: List.replicate 4294967296 48).length = .ok 0 := by
  have hh1 : ∀ c ∈ List.replicate 4294967296 48, lisxdigit c = true := by
    intro c hc
    rw [List.eq_of_mem_replicate hc]
    decide
  have hne : List.replicate 4294967296 48 ≠ [] := by
    intro e
    have := congrArg List.length e
    rw [List.length_replicate] at this
    cases this
  have hz : cast_int (0 + ((List.replicate 4294967296 48).length : Int)) = 0 := by
    rw [List.length_replicate]
    exact cast_int_wrap
  refine ⟨(luaO_str2d_wrapped (fun s => .ok s) _ hh1 hne hz).1, ?_,
    List.mem_cons_of_mem _ (List.mem_cons_self _ _), ?_,
    fun f => (luaO_str2d_wrapped f _ hh1 hne hz).2⟩
  · intro c hc
    rcases List.mem_cons.1 hc with e | hc1
    · omega
    · rcases List.mem_cons.1 hc1 with e | hc2
      · omega
      · rw [List.eq_of_mem_replicate hc2]
        omega
  · rw [List.length_cons, List.length_cons, List.length_replicate]

/-- C24: chunk id of the sources that start with `=` or `@`. Let the source be the
character `c0`, `=` (61) or `@` (64), followed by the characters `name`, none of them NUL,
so that its length is `l = 1 + |name|`, and let `bufflen >= 4`. If `l <= bufflen`,
`luaO_chunkid` writes `name` (and its NUL). Otherwise, for `=` it writes the first
`bufflen - 1` characters of `name`, and for `@` it writes three dots followed by the last
`bufflen - 4` characters of `name`, each time with a NUL at the end. -/
theorem chunkid_literal_file (w c0 : Nat) (name : List Nat) (bufflen : Nat)
    (hc : c0 = 61 ∨ c0 = 64) (hnul : ∀ c ∈ name, c ≠ 0) (hb : 4 ≤ bufflen)
    (hw : bufflen < 2 ^ w) :
    ((c0 :: name).length ≤ bufflen →
      luaO_chunkid w (cstr (c0 :: name)) bufflen = .ok (cstr name)) ∧
    (bufflen < (c0 :: name).length → c0 = 61 →
      luaO_chunkid w (cstr (c0 :: name)) bufflen = .ok (cstr (name.take (bufflen - 1)))) ∧
    (bufflen < (c0 :: name).length → c0 = 64 →
      luaO_chunkid w (cstr (c0 :: name)) bufflen =
        .ok (cstr (RETS ++ name.drop (name.length - (bufflen - 4))))) := by
  have hnul1 : ∀ c ∈ c0 :: name, c ≠ 0 := by
    intro c hm
    rcases List.mem_cons.1 hm with h | h
    · rcases hc with h1 | h1 <;> omega
    · exact hnul c h
  have hl := strlen_cstr (c0 :: name) hnul1
  have h0 : (cstr (c0 :: name)).getD 0 0 = c0 := rfl
  have hlen : (cstr (c0 :: name)).length = name.length + 2 := by simp [cstr]
  have hdrop : ∀ k, (cstr (c0 :: name)).drop (k + 1) = (name ++ [0]).drop k := fun _ => rfl
  have hLL : LL RETS = 3 := rfl
  simp only [List.length_cons] at hl ⊢
  refine ⟨?_, ?_, ?_⟩
  · intro hle
    have hcopy : memcpy_src (cstr (c0 :: name)) ((1 : Nat) : Int) (name.length + 1) =
        .ok (cstr name) := by
      rw [memcpy_src_eq _ 1 _ (by rw [hlen]; omega), hdrop 0, List.drop_zero,
        List.take_of_length_le (by simp)]
      rfl
    unfold luaO_chunkid
    rw [hl, h0]
    simp only []
    rcases hc with h | h
    · rw [if_pos h, if_pos hle]
      exact hcopy
    · rw [if_neg (by omega), if_pos h, if_pos hle]
      exact hcopy
  · intro hlt h
    unfold luaO_chunkid
    rw [hl, h0]
    simp only []
    rw [if_pos h, if_neg (by omega), sub_sizet_eq w bufflen 1 (by omega) hw]
    have hcopy : memcpy_src (cstr (c0 :: name)) ((1 : Nat) : Int) (bufflen - 1) =
        .ok (name.take (bufflen - 1)) := by
      rw [memcpy_src_eq _ 1 _ (by rw [hlen]; omega), hdrop 0, List.drop_zero,
        List.take_append_of_le_length (by omega)]
    have hcopy1 : memcpy_src (cstr (c0 :: name)) 1 (bufflen - 1) =
        .ok (name.take (bufflen - 1)) := hcopy
    rw [hcopy1]
    rfl
  · intro hlt h
    unfold luaO_chunkid
    rw [hl, h0]
    simp only []
    rw [if_neg (by omega), if_pos h, if_neg (by omega), hLL,
      sub_sizet_eq w bufflen 3 (by omega) hw]
    have hoff : (1 : Int) + ((name.length + 1 : Nat) : Int) - ((bufflen - 3 : Nat) : Int) =
        ((name.length - (bufflen - 4) + 1 : Nat) : Int) := by omega
    rw [hoff, memcpy_src_eq _ _ _ (by rw [hlen]; omega), hdrop,
      List.drop_append_of_le_length (by omega), List.take_of_length_le (by simp; omega)]
    simp [cstr]

/-- The three cases of C24 with a buffer of 8 bytes: the source `=stdin` fits, the source
`=a1b2c3d4e5` keeps the 7 characters `a1b2c3d`, and the source `@dir/name.lua` keeps three
dots and the 4 characters `.lua`. -/
theorem chunkid_literal_file_witness :
    luaO_chunkid 64 (cstr [61, 115, 116, 100, 105, 110]) 8 =
      .ok (cstr [115, 116, 100, 105, 110]) ∧
    luaO_chunkid 64 (cstr [61, 97, 49, 98, 50, 99, 51, 100, 52, 101, 53]) 8 =
      .ok (cstr [97, 49, 98, 50, 99, 51, 100]) ∧
    luaO_chunkid 64 (cstr [64, 100, 105, 114, 47, 110, 97, 109, 101, 46, 108, 117, 97]) 8 =
      .ok (cstr [46, 46, 46, 46, 108, 117, 97]) :=
  ⟨(chunkid_literal_file 64 61 [115, 116, 100, 105, 110] 8 (by decide) (by decide)
      (by decide) (by decide)).1 (by decide),
    (chunkid_literal_file 64 61 [97, 49, 98, 50, 99, 51, 100, 52, 101, 53] 8 (by decide)
      (by decide) (by decide) (by decide)).2.1 (by decide) rfl,
    (chunkid_literal_file 64 64 [100, 105, 114, 47, 110, 97, 109, 101, 46, 108, 117, 97] 8
      (by decide) (by decide) (by decide) (by decide)).2.2 (by decide) rfl⟩

/-- C25: chunk id of a string source. Let the source `src` (no NUL among its characters)
start with neither `=` (61) nor `@` (64), let `bufflen >= 15` and `m = bufflen - 15`. If
`src` has no newline (10) and is shorter than `m`, `luaO_chunkid` writes `PRE`, the
source and `POS`; otherwise it writes `PRE`, the first line of the source (the text before
the first newline, all of it if there is none) cut to `m` characters, three dots and
`POS`; each time with a NUL at the end. -/
theorem chunkid_string (w : Nat) (src : List Nat) (bufflen : Nat)
    (hnul : ∀ c ∈ src, c ≠ 0) (h61 : src.head? ≠ some 61) (h64 : src.head? ≠ some 64)
    (hb : 15 ≤ bufflen) (hw : bufflen < 2 ^ w) :
    (10 ∉ src ∧ src.length < bufflen - 15 →
      luaO_chunkid w (cstr src) bufflen = .ok (cstr (PRE ++ src ++ POS))) ∧
    (¬ (10 ∉ src ∧ src.length < bufflen - 15) →
      luaO_chunkid w (cstr src) bufflen =
        .ok (cstr (PRE ++ (src.takeWhile (fun c => c != 10)).take (bufflen - 15) ++
          RETS ++ POS))) := by
  have hl := strlen_cstr src hnul
  have h0 : (cstr src).getD 0 0 ≠ 61 ∧ (cstr src).getD 0 0 ≠ 64 := by
    cases src with
    | nil => exact ⟨by decide, by decide⟩
    | cons a s =>
      simp only [List.head?_cons, ne_eq, Option.some.injEq] at h61 h64
      exact ⟨h61, h64⟩
  have hLL : LL (PRE ++ RETS ++ POS) + 1 = 15 := rfl
  have hsub := sub_sizet_eq w bufflen 15 hb hw
  have hlen : (cstr src).length = src.length + 1 := by simp [cstr]
  have hcopy : ∀ n, n ≤ src.length → memcpy_src (cstr src) 0 n = .ok (src.take n) := by
    intro n hn
    have := memcpy_src_eq (cstr src) 0 n (by rw [hlen]; omega)
    rw [List.drop_zero] at this
    rw [show ((0 : Nat) : Int) = 0 from rfl] at this
    rw [this]
    unfold cstr
    rw [List.take_append_of_le_length hn]
  obtain ⟨hnone, hsome⟩ := strchr_cstr src 10
  unfold luaO_chunkid
  rw [hl]
  simp only []
  rw [if_neg h0.1, if_neg h0.2, hLL, hsub]
  constructor
  · intro h
    rw [hnone h.1, if_pos ⟨h.2, rfl⟩, hcopy _ (le_refl _), List.take_length]
    simp [cstr]
  · intro h
    by_cases hmem : 10 ∈ src
    · obtain ⟨e1, e2⟩ := hsome hmem
      rw [e1, if_neg (by simp)]
      simp only []
      have hp : (src.takeWhile (fun c => c != 10)).take (bufflen - 15) =
          src.take (if src.indexOf 10 > bufflen - 15 then bufflen - 15
            else src.indexOf 10) := by
        rw [← take_indexOf, List.take_take]
        congr 1
        split <;> omega
      rw [hcopy _ (by split <;> omega), hp]
      simp [cstr]
    · rw [hnone hmem]
      have hlt : ¬ src.length < bufflen - 15 := fun h1 => h ⟨hmem, h1⟩
      rw [if_neg (fun h1 => hlt h1.1)]
      simp only []
      have hp : (src.takeWhile (fun c => c != 10)).take (bufflen - 15) =
          src.take (if src.length > bufflen - 15 then bufflen - 15 else src.length) := by
        rw [← take_indexOf, List.indexOf_eq_length.2 hmem, List.take_take]
        congr 1
        split <;> omega
      rw [hcopy _ (by split <;> omega), hp]
      simp [cstr]

/-- The two cases of C25 with a buffer of 20 bytes, so `m = 5`: the source `x=1` is kept,
the source `return 1` is cut to its first 5 characters. -/
theorem chunkid_string_witness :
    luaO_chunkid 64 (cstr [120, 61, 49]) 20 = .ok (cstr (PRE ++ [120, 61, 49] ++ POS)) ∧
    luaO_chunkid 64 (cstr [114, 101, 116, 117, 114, 110, 32, 49]) 20 =
      .ok (cstr (PRE ++ [114, 101, 116, 117, 114] ++ RETS ++ POS)) :=
  ⟨(chunkid_string 64 [120, 61, 49] 20 (by decide) (by decide) (by decide) (by decide)
      (by decide)).1 (by decide),
    (chunkid_string 64 [114, 101, 116, 117, 114, 110, 32, 49] 20 (by decide) (by decide)
      (by decide) (by decide) (by decide)).2 (by decide)⟩

/-! ## Invariants of insertion and rehash -/

/-- C26: the collision rule is an invariant. In every table built by `luaH_new`,
`luaH_set`, `luaH_setint` and `luaH_resize`, each node with a non-nil key is reached by
`next` links from the main position of its key, and when it is not that main position the
key stored there has it as its own main position. A call of `luaH_newkey` on such a table,
for a valid key that the table does not hold, returns a table with the same property, at
every nesting depth. In particular, when the main position `mp` of the key holds a value
and `getfreepos` returns the free node `n`: if the occupant of `mp` owns it, the call
returns the table in which `n` is chained after `mp` and holds the key; otherwise it
returns the table in which the occupant was moved to `n` and the key was put in `mp`; both
tables have the property. -/
theorem brent_invariant {N : Type} [DecidableEq N] {ops : LuaConf N} (hL : ops.Lawful)
    (t : Table N) (hR : Reachable ops t) :
    BrentOk ops t ∧
    (∀ (d : Nat) (k : TValue N) (t1 : Table N) (c : Cell), validkey ops k = true →
      luaH_get ops t k = .ok .nilobject → luaH_newkey ops d t k = .ok (t1, c) →
      BrentOk ops t1) ∧
    (∀ (d : Nat) (k : TValue N) (t0 : Table N) (n : Nat), validkey ops k = true →
      luaH_get ops t k = .ok .nilobject →
      (gnode t (mainposition ops t k)).i_val ≠ .nil → getfreepos t = (t0, some n) →
      (mainposition ops t (gnode t (mainposition ops t k)).i_key = mainposition ops t k →
        luaH_newkey ops d t k = .ok (newkey_chain t0 (mainposition ops t k) n k, .val n) ∧
        BrentOk ops (newkey_chain t0 (mainposition ops t k) n k)) ∧
      (mainposition ops t (gnode t (mainposition ops t k)).i_key ≠ mainposition ops t k →
        ∃ prev, luaH_newkey ops d t k =
            .ok (newkey_move t0 (mainposition ops t k) n prev k,
              .val (mainposition ops t k)) ∧
          BrentOk ops (newkey_move t0 (mainposition ops t k) n prev k))) := by
  obtain ⟨hI, _⟩ := reachable_inv hL t hR
  have h2 : ∀ (d : Nat) (k : TValue N) (t1 : Table N) (c : Cell), validkey ops k = true →
      luaH_get ops t k = .ok .nilobject → luaH_newkey ops d t k = .ok (t1, c) →
      BrentOk ops t1 := by
    intro d k t1 c hk hget hnk
    have h := luaH_newkey_spec hL d t k hI hk hget
    rw [hnk] at h
    exact inv_brentok t1 h.1
  refine ⟨inv_brentok t hI, h2, ?_⟩
  intro d k t0 n hk hget hval hfp
  have hmplt := mainposition_lt ops t k hI.lsize_le
  have hmpk := key_ne_nil_of_val hI _ hmplt hval
  have hc : (!ttisnil (gnode t (mainposition ops t k)).i_val ||
      (t.isdummy && mainposition ops t k == 0)) = true := by
    cases hv : (gnode t (mainposition ops t k)).i_val <;> simp [ttisnil]
    exact absurd hv hval
  have ht0 : t0 = { t with lastfree := (getfreepos_loop t t.lastfree).1 } := by
    unfold getfreepos at hfp
    exact (Prod.mk.inj hfp).1.symm
  have hM : ∀ x, mainposition ops t0 x = mainposition ops t x := by
    intro x; rw [ht0]; rfl
  have hG : ∀ x, gnode t0 x = gnode t x := by
    intro x; rw [ht0]; rfl
  have hZ : sizenode t0 = sizenode t := by rw [ht0]; rfl
  have hunf := luaH_newkey_unfold ops d t k hk
  rw [if_pos hc, hfp] at hunf
  simp only [] at hunf
  rw [hM, hG, hZ] at hunf
  constructor
  · intro hown
    have hnk : luaH_newkey ops d t k =
        .ok (newkey_chain t0 (mainposition ops t k) n k, .val n) := by
      rw [hunf, if_neg (by simpa using hown)]
    exact ⟨hnk, h2 d k _ _ hk hget hnk⟩
  · intro hother
    obtain ⟨prev, hp1, _, _⟩ := findprev_spec t hI.chain (mainposition ops t k)
      (mainposition ops t (gnode t (mainposition ops t k)).i_key)
      (mainposition_lt ops t _ hI.lsize_le) hother (hI.reach _ hmplt hmpk)
    have hp1b : findprev t0 (mainposition ops t k) (sizenode t)
        (mainposition ops t (gnode t (mainposition ops t k)).i_key) = .ok prev := by
      rw [← hp1, ht0]
      rw [findprev_eq_walk, findprev_eq_walk,
        walk_congr t { t with lastfree := (getfreepos_loop t t.lastfree).1 } _ (fun _ => rfl)]
    have hnk : luaH_newkey ops d t k =
        .ok (newkey_move t0 (mainposition ops t k) n prev k,
          .val (mainposition ops t k)) := by
      rw [hunf, if_pos hother, hp1b]
    exact ⟨prev, hnk, h2 d k _ _ hk hget hnk⟩

/-- The two collision branches of C26 on example tables with four nodes. In `ex3` the key
6 collides with the key 3, which owns node 0: the free node 3 is chained after node 0. In
`ex369` the key 2 finds its main position, node 2, held by the key 9, whose main position
is node 0: the key 9 moves to the free node 1. Both results keep the collision rule. -/
theorem brent_invariant_witness :
    BrentOk intConf ex369 ∧
    (luaH_newkey intConf 0 ex3 (exnum 6) =
        .ok (newkey_chain { ex3 with lastfree := 3 } 0 3 (exnum 6), .val 3) ∧
      BrentOk intConf (newkey_chain { ex3 with lastfree := 3 } 0 3 (exnum 6))) ∧
    (∃ prev, luaH_newkey intConf 0 ex369 (exnum 2) =
        .ok (newkey_move { ex369 with lastfree := 1 } 2 1 prev (exnum 2), .val 2) ∧
      BrentOk intConf (newkey_move { ex369 with lastfree := 1 } 2 1 prev (exnum 2))) :=
  ⟨(brent_invariant intConf_lawful ex369 reachable_ex369).1,
    ((brent_invariant intConf_lawful ex3 reachable_ex3).2.2 0 (exnum 6)
      { ex3 with lastfree := 3 } 3 (by decide) (by decide) (by decide) (by decide)).1
      (by decide),
    ((brent_invariant intConf_lawful ex369 reachable_ex369).2.2 0 (exnum 2)
      { ex369 with lastfree := 1 } 1 (by decide) (by decide) (by decide) (by decide)).2
      (by decide)⟩

/-- C27: at most one rehash per insertion. Let `t` be a table built by `luaH_new`,
`luaH_set`, `luaH_setint` and `luaH_resize` and `k` a valid key. The call `rehash(L,t,k)`
returns even when its re-insertions (the `luaH_set` and `luaH_setint` calls of
`luaH_resize`) are allowed no rehash of their own, unless `setnodevector` raises "table
overflow", which takes a table of `2^30` entries: the new sizes hold every entry. In the
table `t1` it returns, the key `k` belongs to the array part or a free node is left, so the
retried `luaH_set(L,t1,k)` also returns without a rehash, with the array slot of `k` in the
first case. Hence `luaH_newkey(L,t,k)` returns (or raises "table overflow") with one level
of rehash, and allowing a deeper nesting does not change its result: the recursion through
`rehash` and `luaH_set` ends. -/
theorem rehash_at_most_once {N : Type} [DecidableEq N] {ops : LuaConf N} (hL : ops.Lawful)
    (t : Table N) (hR : Reachable ops t) (k : TValue N) (hk : validkey ops k = true) :
    ((∃ t1, rehash ops 0 t k = .ok t1 ∧
        (intkey_le ops k t1.sizearray = false → 0 < room t1) ∧
        (intkey_le ops k t1.sizearray = true →
          luaH_set ops 0 t1 k = .ok (t1, .arr (arrayindex ops k - 1).toNat)) ∧
        ∃ t2 c, luaH_set ops 0 t1 k = .ok (t2, c)) ∨
      (rehash ops 0 t k = .error (.runerror .table_overflow) ∧
        1073741824 ≤ numentries t)) ∧
    (∀ d, (∃ t1 c, luaH_newkey ops (d + 1) t k = .ok (t1, c)) ∨
      (luaH_newkey ops (d + 1) t k = .error (.runerror .table_overflow) ∧
        1073741824 ≤ numentries t)) ∧
    (∀ d, luaH_newkey ops (d + 1) t k = luaH_newkey ops 1 t k) := by
  obtain ⟨hI, hlen⟩ := reachable_inv hL t hR
  refine ⟨?_, fun d => luaH_newkey_total hL d t hI hlen k hk, ?_⟩
  swap
  · intro d
    have h1 : luaH_newkey ops 1 t k ≠ .error .depth := by
      rcases luaH_newkey_total hL 0 t hI hlen k hk with ⟨t1, c, h⟩ | ⟨h, _⟩
      · rw [h]; intro e; cases e
      · rw [h]; intro e; cases e
    rw [Nat.add_comm d 1]
    exact luaH_newkey_depth ops 1 t k h1 d
  rcases rehash_total hL 0 t hI hlen k with ⟨t1, r1, r2, _, r4⟩ | r
  · left
    obtain ⟨t2, c, s1, _⟩ := set_step_total hL 0 t1 r2 k hk .nil r4
    refine ⟨t1, r1, r4, ?_, t2, c, s1⟩
    intro hint
    have harr : 0 < arrayindex ops k ∧ arrayindex ops k ≤ (t1.sizearray : Int) := by
      by_contra hc
      rw [(intkey_le_false_iff ops k t1.sizearray).2 hc] at hint
      cases hint
    unfold luaH_set luaH_set_with
    rw [luaH_get_array hL t1 r2.asize_le k harr]
    simp
  · exact Or.inr r

/-- The statement of C27 on the table `{[3] = 7}` with the key 1: the only node is taken,
so the insertion rehashes; the new table has one array slot, which is the slot of the
key. -/
theorem rehash_at_most_once_witness :
    luaH_newkey intConf 1 extab3 (exnum 1) = .ok exset13 ∧
    ((∃ t1, rehash intConf 0 extab3 (exnum 1) = .ok t1 ∧
        (intkey_le intConf (exnum 1) t1.sizearray = false → 0 < room t1) ∧
        (intkey_le intConf (exnum 1) t1.sizearray = true →
          luaH_set intConf 0 t1 (exnum 1) =
            .ok (t1, .arr (arrayindex intConf (exnum 1) - 1).toNat)) ∧
        ∃ t2 c, luaH_set intConf 0 t1 (exnum 1) = .ok (t2, c)) ∨
      (rehash intConf 0 extab3 (exnum 1) = .error (.runerror .table_overflow) ∧
        1073741824 ≤ numentries extab3)) ∧
    (∀ d, (∃ t1 c, luaH_newkey intConf (d + 1) extab3 (exnum 1) = .ok (t1, c)) ∨
      (luaH_newkey intConf (d + 1) extab3 (exnum 1) = .error (.runerror .table_overflow) ∧
        1073741824 ≤ numentries extab3)) ∧
    (∀ d, luaH_newkey intConf (d + 1) extab3 (exnum 1) =
      luaH_newkey intConf 1 extab3 (exnum 1)) :=
  ⟨by decide,
    rehash_at_most_once intConf_lawful extab3 reachable_extab3 (exnum 1) (by decide)⟩

/-- C28: density of the array part. Let `t` be a table built by `luaH_new`, `luaH_set`,
`luaH_setint` and `luaH_resize`, and `ek` a key that `t` does not hold. In the table
`t1` that `rehash(L,t,ek)` returns, whatever nesting depth the model allows, the number of
non-nil slots of the array part, plus one for `ek` when `ek` is an integer key of the new
array range, is at least half of `sizearray` (more than half when there is an array part);
the slot of such an `ek` is still nil in `t1`, and becomes the counted slot when the value
of `ek` is stored. -/
theorem rehash_array_density {N : Type} [DecidableEq N] {ops : LuaConf N} (hL : ops.Lawful)
    (t : Table N) (hR : Reachable ops t) (ek : TValue N)
    (habs : luaH_get ops t ek = .ok .nilobject) (d : Nat) (t1 : Table N)
    (h : rehash ops d t ek = .ok t1) :
    t1.sizearray ≤ 2 * (arraycount t1 0 t1.sizearray +
      (if intkey_le ops ek t1.sizearray = true then 1 else 0)) ∧
    (0 < t1.sizearray → t1.sizearray < 2 * (arraycount t1 0 t1.sizearray +
      (if intkey_le ops ek t1.sizearray = true then 1 else 0))) ∧
    (intkey_le ops ek t1.sizearray = true →
      t1.array.getD (arrayindex ops ek - 1).toNat .nil = .nil) := by
  obtain ⟨hI, hlen⟩ := reachable_inv hL t hR
  obtain ⟨hI1, hget, hn, na, hna, hhalf, _⟩ := rehash_result hL d t hI hlen ek t1 h
  have hcount : intcount ops t t1.sizearray = arraycount t1 0 t1.sizearray := by
    rw [arraycount_eq_intcount hL t1 hI1 t1.sizearray (le_refl _)]
    unfold intcount
    simp only [hget]
  rw [hcount] at hna
  refine ⟨by omega, fun hpos => by omega, ?_⟩
  intro hint
  have harr : 0 < arrayindex ops ek ∧ arrayindex ops ek ≤ (t1.sizearray : Int) := by
    by_contra hc
    rw [(intkey_le_false_iff ops ek t1.sizearray).2 hc] at hint
    cases hint
  rw [← getval_array hL t1 hI1.asize_le ek harr, hget ek]
  unfold getval
  rw [habs]
  rfl

/-- The statement of C28 on the table `{[1] = 5}` with the key 2: `rehash` makes an array
part of two slots, one of them non-nil and the other one the slot of the key. -/
theorem rehash_array_density_witness :
    rehash intConf 0 extab1 (exnum 2) = .ok extab1r ∧
    extab1r.sizearray ≤ 2 * (arraycount extab1r 0 extab1r.sizearray +
      (if intkey_le intConf (exnum 2) extab1r.sizearray = true then 1 else 0)) ∧
    (0 < extab1r.sizearray → extab1r.sizearray < 2 * (arraycount extab1r 0 extab1r.sizearray +
      (if intkey_le intConf (exnum 2) extab1r.sizearray = true then 1 else 0))) ∧
    (intkey_le intConf (exnum 2) extab1r.sizearray = true →
      extab1r.array.getD (arrayindex intConf (exnum 2) - 1).toNat .nil = .nil) :=
  ⟨by decide,
    rehash_array_density intConf_lawful extab1 reachable_extab1 (exnum 2) (by decide) 0
      extab1r (by decide)⟩

/-- C29: the new array size. Let `K` be a list of distinct integer keys of `1..2^30`,
`nums` its histogram (`nums[i]` counts the keys `k` with `2^(i-1) < k <= 2^i`) and
`*narray` the number of keys. Then `computesizes(nums, narray)` returns: the new `*narray`
is the largest power of two `2^i` such that MORE than half of the integers of `1..2^i`
belong to `K`, and 0 if there is no such power; the value returned is the number of keys
of `K` that are at most that size. -/
theorem computesizes_largest (K : List Nat) (hnd : K.Nodup)
    (hr : ∀ k ∈ K, 1 ≤ k ∧ k ≤ 2 ^ 30) :
    ∃ na n, computesizes (histogram K) K.length = .ok (na, n) ∧ na = keysupto K n ∧
      ((n = 0 ∧ ∀ i, ¬ 2 ^ i < 2 * keysupto K (2 ^ i)) ∨
        (∃ i, n = 2 ^ i ∧ 2 ^ i < 2 * keysupto K (2 ^ i) ∧
          ∀ j, i < j → ¬ 2 ^ j < 2 * keysupto K (2 ^ j))) := by
  have hr1 : ∀ k ∈ K, 1 ≤ k := fun k hk => (hr k hk).1
  have hlen : (histogram K).length = 31 := by simp [histogram, MAXBITS]
  obtain ⟨na, n, i, hcs, hi31, hbest, hexit⟩ := computesizes_char (histogram K) hlen
  rw [histogram_sum K hr] at hcs hexit
  simp only [histogram_take K hr, half_lt_iff] at hbest
  have hlow : ∀ j, j < i → (0 < (histogram K).getD j 0 → ¬ 2 ^ j < 2 * keysupto K (2 ^ j)) →
      ¬ 2 ^ j < 2 * keysupto K (2 ^ j) := by
    intro j hj hpos
    by_cases h0 : 0 < (histogram K).getD j 0
    · exact hpos h0
    · rw [histogram_getD K j (by omega)] at h0
      exact keysupto_empty_slice K hnd hr j (by omega)
  have hhigh : ∀ j, i ≤ j → ¬ 2 ^ j < 2 * keysupto K (2 ^ j) := by
    intro j hj
    have hle := keysupto_le_length K (2 ^ j)
    have hpow : 2 ^ i ≤ 2 ^ j := Nat.pow_le_pow_right (by norm_num) hj
    rcases hexit with h | h
    · omega
    · cases i with
      | zero =>
        simp only [List.take_zero, List.sum_nil] at h
        omega
      | succ i =>
        rw [histogram_take K hr i] at h
        have := keysupto_le K hnd hr1 (2 ^ i)
        rw [pow_succ] at hpow
        omega
  refine ⟨na, n, hcs, ?_, ?_⟩
  · rcases hbest with ⟨h1, h2, _⟩ | ⟨j, _, h1, h2, _⟩
    · rw [h1, h2]
      have := keysupto_le K hnd hr1 0
      omega
    · rw [h1, h2]
  · rcases hbest with ⟨h1, _, h3⟩ | ⟨j, hj, h1, h2, h3, h4⟩
    · left
      refine ⟨h1, fun m => ?_⟩
      by_cases hm : m < i
      · exact hlow m hm (h3 m hm)
      · exact hhigh m (by omega)
    · right
      refine ⟨j, h1, by rw [← h2]; exact h3, fun m hjm => ?_⟩
      by_cases hm : m < i
      · exact hlow m hm (h4 m hjm hm)
      · exact hhigh m (by omega)

/-- The statement of C29 on the keys 1, 2, 3 and 5: the array gets 4 slots for the 3 keys
up to 4; 4 of the 8 integers up to 8 are keys, which is not more than half. -/
theorem computesizes_largest_witness :
    computesizes (histogram [1, 2, 3, 5]) 4 = .ok (3, 4) ∧
    ∃ na n, computesizes (histogram [1, 2, 3, 5]) [1, 2, 3, 5].length = .ok (na, n) ∧
      na = keysupto [1, 2, 3, 5] n ∧
      ((n = 0 ∧ ∀ i, ¬ 2 ^ i < 2 * keysupto [1, 2, 3, 5] (2 ^ i)) ∨
        (∃ i, n = 2 ^ i ∧ 2 ^ i < 2 * keysupto [1, 2, 3, 5] (2 ^ i) ∧
          ∀ j, i < j → ¬ 2 ^ j < 2 * keysupto [1, 2, 3, 5] (2 ^ j))) :=
  ⟨by decide, computesizes_largest [1, 2, 3, 5] (by decide) (by decide)⟩

/-- The bound of `computesizes` is strict. For the single key 2 half of the integers of
`1..2` are keys, yet `computesizes` returns the size 0, not 2: its test is
`a > twotoi/2`. The same happens for the keys 1, 2, 3 and 5 at the size 8. -/
theorem computesizes_not_at_least_half :
    computesizes (histogram [2]) [2].length = .ok (0, 0) ∧
    2 ^ 1 ≤ 2 * keysupto [2] (2 ^ 1) ∧
    computesizes (histogram [1, 2, 3, 5]) [1, 2, 3, 5].length = .ok (3, 4) ∧
    2 ^ 3 ≤ 2 * keysupto [1, 2, 3, 5] (2 ^ 3) := by
  decide

/-- C30: capacity after `rehash`. Let `t` be a table built by `luaH_new`, `luaH_set`,
`luaH_setint` and `luaH_resize`, and `ek` a key that `t` does not hold. The table
that `rehash(L,t,ek)` returns has a total capacity (`sizearray` plus the number of nodes, 0
for the dummy node) of at least the number of non-nil entries of `t` plus one, for `ek`.
So the capacity grows when every array slot and every node of `t` holds a non-nil value.
Slots that hold nil (deleted entries) are not counted by `numusearray` and `numusehash`,
so a table with such slots may lose capacity. -/
theorem rehash_capacity {N : Type} [DecidableEq N] {ops : LuaConf N} (hL : ops.Lawful)
    (t : Table N) (hR : Reachable ops t) (ek : TValue N)
    (habs : luaH_get ops t ek = .ok .nilobject) (d : Nat) (t1 : Table N)
    (h : rehash ops d t ek = .ok t1) :
    numentries t + 1 ≤ capacity t1 ∧
    (numentries t = capacity t → capacity t < capacity t1) := by
  obtain ⟨hI, hlen⟩ := reachable_inv hL t hR
  obtain ⟨hI1, hget, hn, na, hna, _, hnodes⟩ := rehash_result hL d t hI hlen ek t1 h
  have hnil : getval ops t ek = .nil := by
    unfold getval
    rw [habs]
    rfl
  have hle : na ≤ t1.sizearray := by
    by_cases hint : intkey_le ops ek t1.sizearray = true
    · rw [if_pos hint] at hna
      have := intcount_lt_of_nil hL t hI t1.sizearray hn ek hint hnil
      omega
    · rw [if_neg hint] at hna
      have := intcount_le ops t t1.sizearray
      omega
  have hcap : numentries t + 1 ≤ capacity t1 := by
    unfold capacity
    omega
  exact ⟨hcap, fun e => by omega⟩

/-- The statement of C30 on the table `{[1] = 5}` with the key 2: one entry, and a
capacity of two slots after `rehash`. -/
theorem rehash_capacity_witness :
    rehash intConf 0 extab1 (exnum 2) = .ok extab1r ∧ capacity extab1 = 1 ∧
    capacity extab1r = 2 ∧ numentries extab1 + 1 ≤ capacity extab1r ∧
    (numentries extab1 = capacity extab1 → capacity extab1 < capacity extab1r) :=
  ⟨by decide, by decide, by decide,
    rehash_capacity intConf_lawful extab1 reachable_extab1 (exnum 2) (by decide) 0
      extab1r (by decide)⟩

/-- The capacity is not monotonic on a table with deleted entries. The table `exdel` is
built by `t[1] = 5; t[2] = 6; t[1] = nil; t[2] = nil`: two array slots, both nil. The
insertion of the key 7 goes through `rehash`, which counts one key, frees the array part
and allocates one node: the capacity falls from 2 to 1. -/
theorem rehash_capacity_shrinks :
    Reachable intConf exdel ∧ validkey intConf (exnum 7) = true ∧
    luaH_get intConf exdel (exnum 7) = .ok .nilobject ∧
    rehash intConf 0 exdel (exnum 7) = .ok exdelr ∧
    luaH_newkey intConf 1 exdel (exnum 7) =
      .ok ({ exdelr with node := [{ i_val := .nil, i_key := exnum 7, next := none }] },
        .val 0) ∧
    capacity exdel = 2 ∧ capacity exdelr = 1 :=
  ⟨reachable_exdel, by decide, by decide, by decide, by decide, by decide, by decide⟩

/-! ## The free-node cursor and the dummy node -/

/-- C31: the cursor `lastfree`. For every table built by `luaH_new`, `luaH_set`,
`luaH_setint` and `luaH_resize`: `getfreepos` changes nothing but `lastfree` and does not
increase it, and an insertion by `luaH_newkey` that does not rehash does not increase it
either; a node that `getfreepos` returns has a nil key and an index below the previous
`lastfree`, and is the new `lastfree`. When the hash part is not the dummy node, every node
at an index from `lastfree` on has a non-nil key, so that `getfreepos` returns NULL only
when no node has a nil key; when the hash part is the dummy node, `getfreepos` returns
NULL. -/
theorem lastfree_cursor {N : Type} [DecidableEq N] {ops : LuaConf N} (hL : ops.Lawful)
    (t : Table N) (hR : Reachable ops t) :
    ((getfreepos t).1.lastfree ≤ t.lastfree ∧
      (getfreepos t).1 = { t with lastfree := (getfreepos t).1.lastfree }) ∧
    (∀ (k : TValue N) (t1 : Table N) (c : Cell), luaH_newkey ops 0 t k = .ok (t1, c) →
      t1.lastfree ≤ t.lastfree) ∧
    (∀ n, (getfreepos t).2 = some n →
      (gnode t n).i_key = .nil ∧ n < t.lastfree ∧ (getfreepos t).1.lastfree = n) ∧
    (t.isdummy = false → ∀ i, t.lastfree ≤ i → i < sizenode t → (gnode t i).i_key ≠ .nil) ∧
    (t.isdummy = false → (getfreepos t).2 = none →
      ∀ i, i < sizenode t → (gnode t i).i_key ≠ .nil) ∧
    (t.isdummy = true → (getfreepos t).2 = none) := by
  obtain ⟨hI, _⟩ := reachable_inv hL t hR
  have hspec := getfreepos_loop_spec t t.lastfree
  refine ⟨getfreepos_lastfree_le t, fun k t1 c h => newkey0_lastfree ops t k t1 c h, ?_,
    hI.lastfree_used, ?_, ?_⟩
  · intro n hn
    obtain ⟨h1, h2, h3, _⟩ := hspec.1 n hn
    exact ⟨h3, h1, h2⟩
  · intro hd hn i hi
    by_cases hlt : i < t.lastfree
    · exact (hspec.2 hn).2 i hlt
    · exact hI.lastfree_used hd i (Nat.le_of_not_lt hlt) hi
  · intro hd
    have h0 := (hI.dummy hd).2.2
    unfold getfreepos
    rw [h0]
    rfl

/-- The cursor of C31 on the example table `ex36`, whose nodes 0 and 3 hold keys and whose
cursor is 3: `getfreepos` returns node 2, which has a nil key, and node 3, at the cursor,
has a non-nil key. -/
theorem lastfree_cursor_witness :
    Reachable intConf ex36 ∧ (getfreepos ex36).2 = some 2 ∧
    ((gnode ex36 2).i_key = .nil ∧ 2 < ex36.lastfree ∧ (getfreepos ex36).1.lastfree = 2) ∧
    (gnode ex36 3).i_key ≠ .nil :=
  ⟨reachable_ex36, by decide,
    (lastfree_cursor intConf_lawful ex36 reachable_ex36).2.2.1 2 (by decide),
    (lastfree_cursor intConf_lawful ex36 reachable_ex36).2.2.2.1 (by decide) 3 (by decide)
      (by decide)⟩

/-- The table that `luaH_new` returns has the dummy node as its hash part: the cursor is 0,
the node at index 0 is the dummy node, whose key is nil, and `getfreepos` returns NULL. -/
theorem lastfree_cursor_dummy :
    Reachable intConf luaH_new ∧ (luaH_new : Table (Option Int)).lastfree ≤ 0 ∧
    0 < sizenode (luaH_new : Table (Option Int)) ∧
    (gnode (luaH_new : Table (Option Int)) 0).i_key = .nil ∧
    (getfreepos (luaH_new : Table (Option Int))).2 = none :=
  ⟨Reachable.new, by decide, by decide, by decide, by decide⟩

/-- C32: the dummy node is never written. Let `t` be a table built by `luaH_new`,
`luaH_set`, `luaH_setint` and `luaH_resize` whose hash part is the dummy node. Then the
node vector is the dummy node alone, with nil key, nil value and null `next`, and the
cursor `lastfree` is on it. For every valid key the main position is the dummy node,
`getfreepos` returns NULL and leaves the table as it is, and `luaH_newkey` is the rehash
followed by the retried `luaH_set`, with nothing stored before. When `luaH_newkey` returns
for a key that the table does not hold, the slot of the key is in the array part or in a
node of a table whose hash part is no longer the dummy node, and a result whose hash part
is still the dummy node has the dummy node unchanged. -/
theorem dummy_never_written {N : Type} [DecidableEq N] {ops : LuaConf N} (hL : ops.Lawful)
    (t : Table N) (hR : Reachable ops t) (hd : t.isdummy = true) :
    (t.node = [dummynode_] ∧ gnode t 0 = dummynode_ ∧ sizenode t = 1 ∧ t.lastfree = 0) ∧
    (∀ k : TValue N, mainposition ops t k = 0) ∧
    getfreepos t = (t, none) ∧
    (∀ (d : Nat) (k : TValue N), validkey ops k = true →
      luaH_newkey ops d t k = newkey_rehash ops d t k) ∧
    (∀ (d : Nat) (k : TValue N) (t1 : Table N) (c : Cell), validkey ops k = true →
      luaH_get ops t k = .ok .nilobject → luaH_newkey ops d t k = .ok (t1, c) →
      ((∃ i, c = .arr i ∧ i < t1.sizearray) ∨
        (∃ j, c = .val j ∧ j < sizenode t1 ∧ t1.isdummy = false)) ∧
      (t1.isdummy = true → t1.node = [dummynode_])) := by
  obtain ⟨hI, _⟩ := reachable_inv hL t hR
  obtain ⟨hnode, h0, hlf, hs⟩ := dummy_node_eq t hI hd
  refine ⟨⟨hnode, ?_, hs, hlf⟩, mainposition_one ops t h0, dummy_getfreepos t hlf,
    fun d k hk => dummy_newkey_eq ops d t hd h0 hlf k hk, ?_⟩
  · unfold gnode; rw [hnode]; rfl
  · intro d k t1 c hk hget hnk
    have h := luaH_newkey_spec hL d t k hI hk hget
    rw [hnk] at h
    obtain ⟨hI1, hg1, hc1, _, _⟩ := h
    refine ⟨?_, fun hd1 => (dummy_node_eq t1 hI1 hd1).1⟩
    rcases luaH_get_cases hL t1 hI1 k c hg1 with h1 | ⟨i, h1, h2, _⟩ | ⟨j, h1, h2, h3, h4⟩
    · exact absurd h1 hc1
    · exact Or.inl ⟨i, h1, h2⟩
    · refine Or.inr ⟨j, h1, h2, ?_⟩
      cases hd1 : t1.isdummy with
      | false => rfl
      | true =>
        exfalso
        obtain ⟨_, _, _, hs1⟩ := dummy_node_eq t1 hI1 hd1
        have hj : j = 0 := by omega
        rw [hj, (hI1.dummy hd1).2.1, rawequal_nil_left] at h4
        rw [h4] at h3
        simp [ttisnil] at h3

/-- The dummy node of C32 on the table of `luaH_new`: the insertion of the key 7 rehashes
to one fresh node and stores the key there; the hash part of the result `exkey7` is not the
dummy node, and the table before it still has the dummy node alone. -/
theorem dummy_never_written_witness :
    Reachable intConf (luaH_new : Table (Option Int)) ∧
    (luaH_new : Table (Option Int)).node = [dummynode_] ∧
    luaH_newkey intConf 1 luaH_new (exnum 7) = newkey_rehash intConf 1 luaH_new (exnum 7) ∧
    luaH_newkey intConf 1 luaH_new (exnum 7) = .ok (exkey7, .val 0) ∧
    (((∃ i, Cell.val 0 = .arr i ∧ i < exkey7.sizearray) ∨
        (∃ j, Cell.val 0 = .val j ∧ j < sizenode exkey7 ∧ exkey7.isdummy = false)) ∧
      (exkey7.isdummy = true → exkey7.node = [dummynode_])) :=
  ⟨Reachable.new,
    (dummy_never_written intConf_lawful luaH_new Reachable.new rfl).1.1,
    (dummy_never_written intConf_lawful luaH_new Reachable.new rfl).2.2.2.1 1 (exnum 7)
      (by decide),
    by decide,
    (dummy_never_written intConf_lawful luaH_new Reachable.new rfl).2.2.2.2 1 (exnum 7)
      exkey7 (.val 0) (by decide) (by decide) (by decide)⟩

/-- C33: the main position is in range. For a table of `2^k` nodes with `k <= MAXBITS`:
the divisor `(2^k - 1) | 1` of `hashmod` is odd and positive (it is 1 for `k = 0`);
`hashnum` hashes a value between 0 and `INT_MAX`, which is 0 when `luai_hashnum` gave
`INT_MIN`, the hash itself when it is not negative and its negation otherwise;
`hashpow2(n)` is `n mod 2^k` and `hashmod(n)` is below `2^k`; so `mainposition` returns an
index below the node count for every key, and that is the length of the node vector in
every table built by `luaH_new`, `luaH_set`, `luaH_setint` and `luaH_resize`. -/
theorem mainposition_in_range {N : Type} [DecidableEq N] (ops : LuaConf N) (t : Table N)
    (hk : t.lsizenode ≤ MAXBITS) :
    (((sizenode t - 1) ||| 1) % 2 = 1 ∧ 0 < (sizenode t - 1) ||| 1 ∧
      (t.lsizenode = 0 → (sizenode t - 1) ||| 1 = 1)) ∧
    (∀ n : N, 0 ≤ hashnum_int ops n ∧ hashnum_int ops n ≤ INT_MAX ∧
      (cast_int (ops.luai_hashnum n) = -2147483648 → hashnum_int ops n = 0) ∧
      (0 ≤ cast_int (ops.luai_hashnum n) →
        hashnum_int ops n = cast_int (ops.luai_hashnum n)) ∧
      (cast_int (ops.luai_hashnum n) < 0 → cast_int (ops.luai_hashnum n) ≠ -2147483648 →
        hashnum_int ops n = - cast_int (ops.luai_hashnum n))) ∧
    (∀ n : Nat, hashpow2 t n = n % 2 ^ t.lsizenode ∧ hashpow2 t n < sizenode t) ∧
    (∀ n : Nat, hashmod t n < sizenode t) ∧
    (∀ key : TValue N, mainposition ops t key < sizenode t) ∧
    (ops.Lawful → Reachable ops t → ∀ key : TValue N, mainposition ops t key < t.node.length) := by
  have hd := hashmod_divisor t.lsizenode hk
  refine ⟨⟨hd.1, hd.2.1, ?_⟩, hashnum_int_range ops, ?_, fun n => hashmod_lt t n hk,
    fun key => mainposition_lt ops t key hk, ?_⟩
  · intro h0
    unfold sizenode twoto
    rw [h0]
    rfl
  · intro n
    refine ⟨?_, hashpow2_lt t n⟩
    unfold hashpow2 lmod sizenode twoto
    exact Nat.and_pow_two_sub_one_eq_mod _ _
  · intro hL hR key
    rw [(reachable_inv hL t hR).1.size_eq]
    exact mainposition_lt ops t key hk

/-- The main positions of C33 in the example table `ex369` of four nodes: the divisor of
`hashmod` is 3, the keys 9 and 2 have the main positions 0 and 2, and node 3 is the
largest index that `hashpow2` returns. -/
theorem mainposition_in_range_witness :
    ex369.lsizenode ≤ MAXBITS ∧ (sizenode ex369 - 1) ||| 1 = 3 ∧
    mainposition intConf ex369 (exnum 9) = 0 ∧ mainposition intConf ex369 (exnum 2) = 2 ∧
    hashpow2 ex369 7 = 3 ∧
    mainposition intConf ex369 (exnum 2) < sizenode ex369 ∧
    hashpow2 ex369 7 < sizenode ex369 :=
  ⟨by decide, by decide, by decide, by decide, by decide,
    (mainposition_in_range intConf ex369 (by decide)).2.2.2.2.1 (exnum 2),
    ((mainposition_in_range intConf ex369 (by decide)).2.2.1 7).2⟩

/-! ## Integer keys -/

/-- C34: the integer lookup agrees with the general one. For every table built by
`luaH_new`, `luaH_set`, `luaH_setint` and `luaH_resize` and every `int` key,
`luaH_getint(t,key)` returns a slot, the one that `luaH_get` returns for the number
`cast_num(key)`; and `luaH_setint(L,t,key,x)` gives the table of the assignment
`*luaH_set(L,t,v) = x` for that number `v`, or fails like `luaH_set`, at every nesting
depth of rehash. -/
theorem getint_agrees_with_get {N : Type} [DecidableEq N] {ops : LuaConf N}
    (hL : ops.Lawful) (t : Table N) (hR : Reachable ops t) (key : Int)
    (hk : cast_int key = key) :
    (∃ c, luaH_getint ops t key = .ok c ∧
      luaH_get ops t (.number (ops.cast_num key)) = .ok c) ∧
    (∀ (d : Nat) (x : TValue N),
      luaH_setint ops d t key x = set ops d t (.number (ops.cast_num key)) x) := by
  obtain ⟨hI, _⟩ := reachable_inv hL t hR
  have e := luaH_getint_eq_get hL t hI.asize_le key hk
  constructor
  · obtain ⟨c, hc⟩ := luaH_get_total hL t hI (.number (ops.cast_num key))
    exact ⟨c, by rw [e, hc], hc⟩
  · intro d x
    unfold luaH_setint luaH_setint_with set luaH_set luaH_set_with
    rw [e]
    cases hg : luaH_get ops t (.number (ops.cast_num key)) with
    | error e1 => rfl
    | ok p =>
      simp only []
      by_cases hp : p ≠ .nilobject
      · rw [if_pos hp, if_pos hp]
      · rw [if_neg hp, if_neg hp]

/-- The two lookups of C34 in the example table `ex36`: the key 6 is found in node 3 by
both, and storing 1 under the key 9 gives the same table through `luaH_setint` and through
`luaH_set`. -/
theorem getint_agrees_with_get_witness :
    Reachable intConf ex36 ∧
    (∃ c, luaH_getint intConf ex36 6 = .ok c ∧
      luaH_get intConf ex36 (.number (intConf.cast_num 6)) = .ok c) ∧
    luaH_getint intConf ex36 6 = .ok (.val 3) ∧
    luaH_setint intConf 0 ex36 9 (exnum 1) =
      set intConf 0 ex36 (.number (intConf.cast_num 9)) (exnum 1) :=
  ⟨reachable_ex36,
    (getint_agrees_with_get intConf_lawful ex36 reachable_ex36 6 (by decide)).1,
    by decide,
    (getint_agrees_with_get intConf_lawful ex36 reachable_ex36 9 (by decide)).2 0 (exnum 1)⟩

/-- C35: keys of the array range never live in the hash part. In every table built from
`luaH_new` through `luaH_set`, `luaH_setint`, `luaH_newkey`, `luaH_resize` and
`luaH_resizearray`: no node with a non-nil value, and no node with a non-nil key at all,
holds a key that is the number of an `int` between 1 and `sizearray`; and two nodes with
non-nil values, or one with a non-nil key and any other, that hold raw-equal keys are the
same node. -/
theorem array_keys_not_in_hash {N : Type} [DecidableEq N] {ops : LuaConf N}
    (hL : ops.Lawful) (t : Table N) (hB : Built ops t) :
    (∀ i, i < sizenode t → (gnode t i).i_val ≠ .nil →
      ¬ (1 ≤ arrayindex ops (gnode t i).i_key ∧
        arrayindex ops (gnode t i).i_key ≤ (t.sizearray : Int))) ∧
    (∀ i j, i < sizenode t → j < sizenode t → (gnode t i).i_val ≠ .nil →
      (gnode t j).i_val ≠ .nil →
      luaV_rawequalobj ops (gnode t i).i_key (gnode t j).i_key = true → i = j) ∧
    (∀ i, i < sizenode t → (gnode t i).i_key ≠ .nil →
      ¬ (1 ≤ arrayindex ops (gnode t i).i_key ∧
        arrayindex ops (gnode t i).i_key ≤ (t.sizearray : Int))) ∧
    (∀ i j, i < sizenode t → j < sizenode t → (gnode t i).i_key ≠ .nil →
      luaV_rawequalobj ops (gnode t i).i_key (gnode t j).i_key = true → i = j) := by
  obtain ⟨hI, _⟩ := reachable_inv hL t (built_reachable t hB)
  have hk : ∀ i, i < sizenode t → (gnode t i).i_key ≠ .nil →
      ¬ (1 ≤ arrayindex ops (gnode t i).i_key ∧
        arrayindex ops (gnode t i).i_key ≤ (t.sizearray : Int)) := by
    intro i hi hkey h
    exact hI.array_disjoint i hi hkey ⟨by omega, h.2⟩
  exact ⟨fun i hi hv => hk i hi (key_ne_nil_of_val hI i hi hv),
    fun i j hi hj hv _ he => hI.nodup i j hi hj (key_ne_nil_of_val hI i hi hv) he,
    hk, hI.nodup⟩

/-- The property of C35 on the table `extab12` after `t[7] = 8`, stored through the slot
that `luaH_newkey` returns: the array part has the slots 1 and 2, and the only node holds
the key 7 with the value 8. -/
theorem array_keys_not_in_hash_witness :
    Built intConf (extab127.write (.val 0) (exnum 8)) ∧
    (gnode (extab127.write (.val 0) (exnum 8)) 0).i_val = exnum 8 ∧
    (extab127.write (.val 0) (exnum 8)).sizearray = 2 ∧
    arrayindex intConf (gnode (extab127.write (.val 0) (exnum 8)) 0).i_key = 7 ∧
    ¬ (1 ≤ arrayindex intConf (gnode (extab127.write (.val 0) (exnum 8)) 0).i_key ∧
      arrayindex intConf (gnode (extab127.write (.val 0) (exnum 8)) 0).i_key ≤
        ((extab127.write (.val 0) (exnum 8)).sizearray : Int)) :=
  ⟨built_extab127, by decide, by decide, by decide,
    (array_keys_not_in_hash intConf_lawful (extab127.write (.val 0) (exnum 8))
      built_extab127).1 0 (by decide) (by decide)⟩

/-! ## End of stream -/

/-- C36: the end of a stream is not sticky for `zgetc`. With a 64-bit `size_t`, on the
stream of `luaZ_init` over a reader that only answers end-of-input, the first evaluation
of `zgetc` returns `EOZ` and the second one dereferences the null pointer `z->p`. On the
stream `exzio_a`, whose reader hands out one byte and then answers end-of-input, the
evaluations return the byte 97, then `EOZ`, which leaves `z->n = 2^64 - 1` and not 0, and
then the byte 0 that follows the chunk in its buffer; and `luaZ_read` of one byte after
that `EOZ` returns 0 with that byte, not 1. -/
theorem eoz_not_sticky :
    Except.map Prod.fst (zgetc_seq 64 1 (luaZ_init answers_reader [])) = .ok [EOZ] ∧
    Except.map (fun (r : List Int × Zio (List Answer)) => r.2.n)
      (zgetc_seq 64 1 (luaZ_init answers_reader [])) = .ok (2 ^ 64 - 1) ∧
    Except.map Prod.fst (zgetc_seq 64 2 (luaZ_init answers_reader [])) = .error .undefined ∧
    Except.map Prod.fst (zgetc_seq 64 3 exzio_a) = .ok [97, EOZ, 0] ∧
    Except.map (fun (r : List Int × Zio (List Answer)) => r.2.n) (zgetc_seq 64 2 exzio_a) =
      .ok (2 ^ 64 - 1) ∧
    Except.map (fun (r : Nat × List Int × Zio (List Answer)) => (r.1, r.2.1))
      (Except.bind (zgetc_seq 64 2 exzio_a)
        (fun (r : List Int × Zio (List Answer)) => luaZ_read 64 r.2 1)) = .ok (0, [0]) :=
  ⟨rfl, rfl, rfl, rfl, rfl, rfl⟩

/-! ## Logarithms, floating bytes and chunk names -/

/-- C37: `luaO_ceillog2` is the ceiling of the logarithm. For `1 <= x <= 2^32 - 1` the
result `l` is the least `l` with `x <= 2^l`: it is 0 for `x = 1` and otherwise
`2^(l-1) < x <= 2^l`; up to 256 it is the entry `log_2[x-1]` of the table, and each entry
`log_2[y]` is the least `r` with `y < 2^r`. So `setnodevector` for `x` nodes returns unless
`l` exceeds `MAXBITS`, with a vector of `2^l` nodes, the least power of two that holds `x`;
and `countint` counts an `int` key `x <= MAXASIZE` in the counter `nums[l]`, the one of the
keys between `2^(l-1)` (not included) and `2^l`. -/
theorem ceillog2_ceiling {N : Type} (ops : LuaConf N) (x : Nat) (h1 : 1 ≤ x)
    (h2 : x ≤ 4294967295) :
    (x ≤ 2 ^ luaO_ceillog2 x ∧ (∀ m, x ≤ 2 ^ m → luaO_ceillog2 x ≤ m) ∧
      (x = 1 → luaO_ceillog2 x = 0) ∧
      (x ≠ 1 → 1 ≤ luaO_ceillog2 x ∧ 2 ^ (luaO_ceillog2 x - 1) < x)) ∧
    ((x ≤ 256 → luaO_ceillog2 x = log_2.getD (x - 1) 0) ∧
      ∀ y, y < 256 → y < 2 ^ (log_2.getD y 0) ∧ (y = 0 ∨ 2 ^ (log_2.getD y 0 - 1) ≤ y)) ∧
    (∀ t : Table N,
      (luaO_ceillog2 x ≤ MAXBITS → ∃ t2, setnodevector t x = .ok t2) ∧
      (MAXBITS < luaO_ceillog2 x →
        setnodevector t x = .error (.runerror .table_overflow)) ∧
      ∀ t2, setnodevector t x = .ok t2 →
        sizenode t2 = 2 ^ luaO_ceillog2 x ∧ t2.node.length = 2 ^ luaO_ceillog2 x ∧
        x ≤ sizenode t2 ∧ ∀ m, x ≤ 2 ^ m → sizenode t2 ≤ 2 ^ m) ∧
    (ops.Lawful → x ≤ MAXASIZE → ∀ nums : List Nat,
      countint ops (.number (ops.cast_num (x : Int))) nums =
        (1, nums.set (luaO_ceillog2 x) (nums.getD (luaO_ceillog2 x) 0 + 1))) := by
  obtain ⟨ha, hmin, hone, hne, _⟩ := ceillog2_least x h1 (by omega)
  refine ⟨⟨ha, hmin, hone, hne⟩,
    ⟨fun h => ceillog2_table x h1 h, fun y hy => ⟨(log_2_spec y hy).1, (log_2_spec y hy).2.1⟩⟩,
    ?_, ?_⟩
  · intro t
    have hx0 : ¬ x = 0 := by omega
    have hsv : setnodevector t x =
        if luaO_ceillog2 x > MAXBITS then .error (.runerror .table_overflow)
        else .ok { t with node := List.replicate (twoto (luaO_ceillog2 x)) dummynode_, isdummy := false, lsizenode := luaO_ceillog2 x, lastfree := twoto (luaO_ceillog2 x) } := by
      unfold setnodevector
      rw [if_neg hx0]
    rw [hsv]
    generalize luaO_ceillog2 x = l at ha hmin ⊢
    refine ⟨?_, ?_, ?_⟩
    · intro hl
      rw [if_neg (by omega)]
      exact ⟨_, rfl⟩
    · intro hl
      rw [if_pos hl]
    · intro t2 h
      split_ifs at h
      cases h
      refine ⟨rfl, ?_, ha, ?_⟩
      · simp [twoto]
      · intro m hm
        exact Nat.pow_le_pow_right (by norm_num) (hmin m hm)
  · intro hL hx nums
    have hx1 : x ≤ 1073741824 := hx
    exact countint_cast hL x h1 hx1 nums

/-- The logarithm of C37 at 5, through the table, and at 257, through one round of the
loop: the results are 3 and 9, `2^8 < 257 <= 2^9`, and `setnodevector` for 5 nodes makes a
vector of 8 nodes. -/
theorem ceillog2_ceiling_witness :
    luaO_ceillog2 5 = 3 ∧ luaO_ceillog2 257 = 9 ∧
    (257 ≤ 2 ^ luaO_ceillog2 257 ∧ (∀ m, 257 ≤ 2 ^ m → luaO_ceillog2 257 ≤ m) ∧
      (257 = 1 → luaO_ceillog2 257 = 0) ∧
      (257 ≠ 1 → 1 ≤ luaO_ceillog2 257 ∧ 2 ^ (luaO_ceillog2 257 - 1) < 257)) ∧
    (∃ t2, setnodevector exfree4 5 = .ok t2) ∧
    (∀ t2, setnodevector exfree4 5 = .ok t2 →
      sizenode t2 = 2 ^ luaO_ceillog2 5 ∧ t2.node.length = 2 ^ luaO_ceillog2 5 ∧
      5 ≤ sizenode t2 ∧ ∀ m, 5 ≤ 2 ^ m → sizenode t2 ≤ 2 ^ m) :=
  ⟨by decide, by decide,
    (ceillog2_ceiling intConf 257 (by decide) (by decide)).1,
    ((ceillog2_ceiling intConf 5 (by decide) (by decide)).2.2.1 exfree4).1 (by decide),
    ((ceillog2_ceiling intConf 5 (by decide) (by decide)).2.2.1 exfree4).2.2⟩

/-- C38: `luaO_int2fb` rounds up to the nearest representable value. For every
`x <= 15 * 2^27` the function returns a byte `b <= 231`, and `luaO_fb2int(b)` returns a
value `v >= x`; no value that `luaO_fb2int` returns for a byte (0 to 255) lies between `x`
and `v` except `v` itself; `v = x` exactly when `x` is the value of a byte, in particular
for every `x < 16`; and `luaO_int2fb` is monotonic: it returns a byte not below `b` for
every `y` from `x` up to `15 * 2^27`. -/
theorem int2fb_rounds_up (x : Nat) (hx : x ≤ 15 * 2 ^ 27) :
    ∃ b v : Nat, luaO_int2fb x = .ok (b : Int) ∧ b ≤ 231 ∧ luaO_fb2int b = .ok (v : Int) ∧
      x ≤ v ∧
      (∀ (b1 : Nat) (v1 : Int), b1 ≤ 255 → luaO_fb2int b1 = .ok v1 →
        ¬ ((x : Int) ≤ v1 ∧ v1 < v)) ∧
      (v = x ↔ ∃ b1 : Nat, b1 ≤ 255 ∧ luaO_fb2int b1 = .ok (x : Int)) ∧
      (x < 16 → v = x) ∧
      (∀ y : Nat, x ≤ y → y ≤ 15 * 2 ^ 27 →
        ∃ b2 : Nat, luaO_int2fb y = .ok (b2 : Int) ∧ b ≤ b2) := by
  have hx1 : x ≤ 2013265920 := by norm_num at hx; exact hx
  obtain ⟨b, v, hb231, hb, hv, hxv, hv1, h16, hrt⟩ := luaO_int2fb_value x hx1
  refine ⟨b, v, hb, hb231, hv, hxv, ?_, ?_, h16, ?_⟩
  · intro b1 v1 hb1 h1 hcon
    have := luaO_int2fb_least x b v hb hv hrt hv1 b1 hb1 v1 h1 hcon.1 (le_of_lt hcon.2)
    omega
  · constructor
    · intro e
      rw [e] at hv
      exact ⟨b, by omega, hv⟩
    · rintro ⟨b1, hb1, h1⟩
      have := luaO_int2fb_least x b v hb hv hrt hv1 b1 hb1 x h1 (le_refl _)
        (by exact_mod_cast hxv)
      exact_mod_cast this.symm
  · intro y hxy hy
    have hy1 : y ≤ 2013265920 := by norm_num at hy; exact hy
    obtain ⟨p, q, hp, hq, hpq⟩ := luaO_int2fb_mono x y hxy (by omega)
    rw [hb] at hp
    have e : b = p := by
      have := Except.ok.inj hp
      omega
    exact ⟨q, hq, by omega⟩

/-- The rounding of C38 at `x = 250`: the byte is 48, which `luaO_fb2int` decodes to 256,
the least value of a byte from 250 on (the byte 47 decodes to 240); and 240, the value of a
byte, is kept. -/
theorem int2fb_rounds_up_witness :
    luaO_int2fb 250 = .ok 48 ∧ luaO_fb2int 48 = .ok 256 ∧ luaO_fb2int 47 = .ok 240 ∧
    luaO_int2fb 240 = .ok 47 ∧
    ∃ b v : Nat, luaO_int2fb 250 = .ok (b : Int) ∧ b ≤ 231 ∧ luaO_fb2int b = .ok (v : Int) ∧
      250 ≤ v ∧
      (∀ (b1 : Nat) (v1 : Int), b1 ≤ 255 → luaO_fb2int b1 = .ok v1 →
        ¬ (((250 : Nat) : Int) ≤ v1 ∧ v1 < v)) ∧
      (v = 250 ↔ ∃ b1 : Nat, b1 ≤ 255 ∧ luaO_fb2int b1 = .ok ((250 : Nat) : Int)) ∧
      (250 < 16 → v = 250) ∧
      (∀ y : Nat, 250 ≤ y → y ≤ 15 * 2 ^ 27 →
        ∃ b2 : Nat, luaO_int2fb y = .ok (b2 : Int) ∧ b ≤ b2) :=
  ⟨by decide, by decide, by decide, by decide, int2fb_rounds_up 250 (by decide)⟩

/-- C39: `luaO_chunkid` stays inside its buffer. For every source string (characters
without NUL, then the NUL) and every `bufflen >= 15` that is a `size_t`, in each of the
three formats the function returns and the bytes written to `out` are a string `s`, free
of NUL, followed by one NUL, `|s| + 1 <= bufflen` bytes in all; and the three subtractions
`bufflen - 1`, `bufflen - LL(RETS)` and `bufflen - (LL(PRE RETS POS) + 1)` give the exact
differences, without wrapping around. -/
theorem chunkid_in_buffer (w : Nat) (src : List Nat) (bufflen : Nat)
    (hnul : ∀ c ∈ src, c ≠ 0) (hb : 15 ≤ bufflen) (hw : bufflen < 2 ^ w) :
    (∃ out, luaO_chunkid w (cstr src) bufflen = .ok (cstr out) ∧ (∀ c ∈ out, c ≠ 0) ∧
      strlen (cstr out) = some out.length ∧ (cstr out).length = out.length + 1 ∧
      (cstr out).length ≤ bufflen) ∧
    ((sub_sizet w bufflen 1 : Nat) : Int) = (bufflen : Int) - 1 ∧
    ((sub_sizet w bufflen (LL RETS) : Nat) : Int) = (bufflen : Int) - 3 ∧
    ((sub_sizet w bufflen (LL (PRE ++ RETS ++ POS) + 1) : Nat) : Int) = (bufflen : Int) - 15 := by
  obtain ⟨out, h1, h2, h3⟩ := luaO_chunkid_bounded w src bufflen hnul hb hw
  have e1 := sub_sizet_eq w bufflen 1 (by omega) hw
  have e3 := sub_sizet_eq w bufflen 3 (by omega) hw
  have e15 := sub_sizet_eq w bufflen 15 hb hw
  have hLL : LL RETS = 3 := rfl
  have hLL2 : LL (PRE ++ RETS ++ POS) + 1 = 15 := rfl
  refine ⟨⟨out, h1, h2, strlen_cstr out h2, by simp [cstr], h3⟩, ?_, ?_, ?_⟩
  · rw [e1]; omega
  · rw [hLL, e3]; omega
  · rw [hLL2, e15]; omega

/-- The bound of C39 with a buffer of 15 bytes, the least one: the source `@dir/name.lua123`
of 16 characters is cut to three dots and its last 11 characters, 15 bytes with the NUL,
and for the source `return 1` only the frame `[string "..."]` is written, 15 bytes with the
NUL. -/
theorem chunkid_in_buffer_witness :
    luaO_chunkid 64
        (cstr [64, 100, 105, 114, 47, 110, 97, 109, 101, 46, 108, 117, 97, 49, 50, 51]) 15 =
      .ok (cstr (RETS ++ [110, 97, 109, 101, 46, 108, 117, 97, 49, 50, 51])) ∧
    luaO_chunkid 64 (cstr [114, 101, 116, 117, 114, 110, 32, 49]) 15 =
      .ok (cstr (PRE ++ RETS ++ POS)) ∧
    (∃ out, luaO_chunkid 64 (cstr [114, 101, 116, 117, 114, 110, 32, 49]) 15 =
        .ok (cstr out) ∧ (∀ c ∈ out, c ≠ 0) ∧
      strlen (cstr out) = some out.length ∧ (cstr out).length = out.length + 1 ∧
      (cstr out).length ≤ 15) :=
  ⟨by decide, by decide,
    (chunkid_in_buffer 64 [114, 101, 116, 117, 114, 110, 32, 49] 15 (by decide) (by decide)
      (by decide)).1⟩

/-- C40: the assertion of `computesizes` holds. Let `nums` be the `MAXBITS + 1` counters of
a set of distinct integer keys, so that `nums[0] <= 1` and `nums[i] <= 2^(i-1)` for
`i >= 1`, and let `*narray` be their sum on entry. Then `computesizes` returns, also when
an index `i` above `MAXBITS` and a product `twotoi * 2` above `INT_MAX` count as undefined,
and the values `na` and `n = *narray` on exit satisfy `n/2 <= na` and `na <= n`; `n` is at
most `MAXASIZE`. -/
theorem computesizes_assert (nums : List Nat) (hlen : nums.length = MAXBITS + 1)
    (h0 : nums.getD 0 0 ≤ 1)
    (hi : ∀ i, i ≤ MAXBITS → 1 ≤ i → nums.getD i 0 ≤ 2 ^ (i - 1)) :
    ∃ na n, computesizes_int nums nums.sum = .ok (na, n) ∧
      computesizes nums nums.sum = .ok (na, n) ∧ n / 2 ≤ na ∧ na ≤ n ∧ n ≤ MAXASIZE := by
  have hlen1 : nums.length = 31 := hlen
  have hpre := histogram_prefix_le nums hlen1 h0 (fun i h1 h2 => hi i h2 h1)
  obtain ⟨na, n, i, hc, hi31, hsel, _⟩ := computesizes_char nums hlen1
  refine ⟨na, n, ?_, hc, ?_⟩
  · rw [computesizes_int_eq nums hlen1, hc]
  · rcases hsel with ⟨hn, hna, _⟩ | ⟨j, hj, hn, hna, hhalf, _⟩
    · rw [hn, hna]
      exact ⟨Nat.le_refl _, Nat.le_refl _, Nat.zero_le _⟩
    · have hb := hpre j (by omega)
      rw [← hna] at hb
      rw [hn]
      refine ⟨Nat.le_of_lt hhalf, hb, ?_⟩
      exact Nat.pow_le_pow_right (by norm_num) (by unfold MAXBITS; omega)

/-- The assertion of C40 for the counters of the keys 1, 2, 3 and 5: `computesizes` returns
`na = 3` and `n = 4`, and `4/2 <= 3 <= 4`. -/
theorem computesizes_assert_witness :
    computesizes_int ([1, 1, 1, 1] ++ List.replicate 27 0)
      ([1, 1, 1, 1] ++ List.replicate 27 0).sum = .ok (3, 4) ∧
    ∃ na n, computesizes_int ([1, 1, 1, 1] ++ List.replicate 27 0)
        ([1, 1, 1, 1] ++ List.replicate 27 0).sum = .ok (na, n) ∧
      computesizes ([1, 1, 1, 1] ++ List.replicate 27 0)
        ([1, 1, 1, 1] ++ List.replicate 27 0).sum = .ok (na, n) ∧
      n / 2 ≤ na ∧ na ≤ n ∧ n ≤ MAXASIZE :=
  ⟨by decide,
    computesizes_assert ([1, 1, 1, 1] ++ List.replicate 27 0) (by decide) (by decide)
      (by decide)⟩

end XLua
